import Mathlib

/-!
# FAT16 engine of `lab4/simple_fat16.c`: shallow embedding and verified properties

Conventions of the embedding.

* A disk is a total map from sector numbers to sector buffers; a buffer is a
  map from byte offsets to bytes (natural numbers).  Multi-byte loads reduce
  every byte modulo 256, multi-byte stores split the value into bytes.
* The block device (`sector_read` / `sector_write`) never fails.
* A C string is the list of its bytes before the terminating NUL; reading at
  or past the end of the list yields the NUL byte 0.
* `while` loops whose trip count depends on disk contents take a `fuel`
  argument and report `Fault.fuel` when it runs out; a failed `assert`
  is reported as `Fault.assertion`.
* A destination buffer in the caller's memory is a map from byte offsets to bytes together
  with its capacity `cap`, the number of bytes of the caller's array (for `fat16_read` the
  FUSE read buffer, which holds the requested `size` bytes); a `memcpy` that would store a
  byte at an offset `cap` or higher is reported as `Fault.overrun`.
* Locals that the C code reads without initialising them are arguments of the
  embedded function (record `Uninit`): theorems quantify over them.
* Plain `char` is signed (x86-64 Linux, the platform of this FUSE program).
-/

namespace Fat16

/-! ## Constants of `fat16.h` and `errno.h` -/

/-- Modelled from the spec: `fat16.h` is not among the sources; `FREE` is 0. -/
def CLUSTER_FREE : Nat := 0
/-- Modelled from the spec: `fat16.h` is not among the sources; cluster numbering starts at 2. -/
def CLUSTER_MIN : Nat := 2
/-- Modelled from the spec: `fat16.h` is not among the sources; upper end of the in-use range
(FAT16 on-disk format value). -/
def CLUSTER_MAX : Nat := 0xFFEF
/-- Modelled from the spec: `fat16.h` is not among the sources; terminator threshold
(FAT16 on-disk format value). -/
def CLUSTER_END_BOUND : Nat := 0xFFF8
/-- Modelled from the spec: `fat16.h` is not among the sources; the terminator written by the code
(the comment of `alloc_clusters` gives 0xFFFF). -/
def CLUSTER_END : Nat := 0xFFFF

/-- Modelled from the spec: `fat16.h` is not among the sources; attribute flags of the
FAT16 directory entry. -/
def ATTR_READONLY : Nat := 0x01
/-- Modelled from the spec: `fat16.h` is not among the sources; directory flag. -/
def ATTR_DIRECTORY : Nat := 0x10
/-- Modelled from the spec: `fat16.h` is not among the sources; long-name marker. -/
def ATTR_LFN : Nat := 0x0F
/-- Modelled from the spec: `fat16.h` is not among the sources; attribute of a regular file. -/
def ATTR_REGULAR : Nat := 0x20

/-- Modelled from the spec: `fat16.h` is not among the sources; never-used marker. -/
def NAME_FREE : Nat := 0x00
/-- Modelled from the spec: `fat16.h` is not among the sources; tombstone marker
(0xe5, see the comment in `to_shortname`). -/
def NAME_DELETED : Nat := 0xE5

/-- Modelled from the spec: `fat16.h` is not among the sources; 8.3 name length. -/
def FAT_NAME_LEN : Nat := 11
/-- Modelled from the spec: `fat16.h` is not among the sources; base part of the 8.3 name. -/
def FAT_NAME_BASE_LEN : Nat := 8
/-- Modelled from the spec: `fat16.h` is not among the sources; extension part of the 8.3 name. -/
def FAT_NAME_EXT_LEN : Nat := 3
/-- Modelled from the spec: `fat16.h` is not among the sources; size of a directory entry. -/
def DIR_ENTRY_SIZE : Nat := 32
/-- Modelled from the spec: `fat16.h` is not among the sources; capacity used for long names. -/
def MAX_NAME_LEN : Nat := 512

/-- Modelled from the spec: `fat16.h` is not among the sources; search result "Found". -/
def FIND_EXIST : Int := 0
/-- Modelled from the spec: `fat16.h` is not among the sources; search result "Empty". -/
def FIND_EMPTY : Int := 1
/-- Modelled from the spec: `fat16.h` is not among the sources; search result "Full". -/
def FIND_FULL : Int := 2

def ENOENT : Int := 2
def EBUSY : Int := 16
def EEXIST : Int := 17
def ENOTDIR : Int := 20
def EISDIR : Int := 21
def EINVAL : Int := 22
def ENOSPC : Int := 28
def ENOTEMPTY : Int := 39

/-! ## Basic types -/

/-- Abnormal termination of an embedded function. -/
inductive Fault where
  | assertion
  | fuel
  | overrun
  deriving DecidableEq, Repr

/-- One buffer of bytes, addressed by byte offset. -/
abbrev Sector := Nat → Nat

/-- The block device: sector number to sector contents. -/
abbrev Disk := Nat → Sector

/-- The global `FAT16 meta` (the ignorable uid/gid/time fields are left out). -/
structure FAT16 where
  sector_size : Nat
  sec_per_clus : Nat
  reserved : Nat
  fats : Nat
  dir_entries : Nat
  sectors : Nat
  sec_per_fat : Nat
  fat_sec : Nat
  root_sec : Nat
  root_sectors : Nat
  data_sec : Nat
  clusters : Nat
  cluster_size : Nat
  deriving DecidableEq, Repr

/-- A 32-byte directory entry, as raw bytes (offsets 0..31). -/
abbrev DIR_ENTRY := Nat → Nat

/-- The struct `DirEntrySlot`. -/
structure DirEntrySlot where
  dir : DIR_ENTRY
  sector : Nat
  offset : Nat

/-- Indeterminate initial contents of the locals that the C code may read before
writing them. -/
structure Uninit where
  /-- `char fatname[11]` of `check_name` -/
  fatname : Nat → Nat
  /-- `DirEntrySlot slot` of the file operations -/
  slot : DirEntrySlot
  /-- `char shortname[11]` of `fat16_mknod`, `char shorname[11]` of `fat16_mkdir` -/
  shortname : Nat → Nat
  /-- `char name[11]` of `fat16_mkdir` -/
  name : Nat → Nat
  /-- `DirEntrySlot slot_of_subdir` of `fat16_mkdir` -/
  slot_of_subdir : DirEntrySlot
  /-- `cluster_t first_clus` of `fat16_mkdir`, `first_cluster_index` of
  `file_reserve_clusters` -/
  first_clus : Nat

/-- Block I/O collaborator `sector_read`: the contents of one sector. -/
def sector_read (d : Disk) (sec : Nat) : Sector := d sec

/-- Block I/O collaborator `sector_write`: replaces one sector. -/
def sector_write (d : Disk) (sec : Nat) (buffer : Sector) : Disk :=
  fun s => if s = sec then buffer else d s

/-- `memcpy(dst + doff, src + soff, len)` on byte buffers. -/
def memcpy (dst : Nat → Nat) (doff : Nat) (src : Nat → Nat) (soff : Nat) (len : Nat) : Nat → Nat :=
  fun i => if doff ≤ i ∧ i < doff + len then src (soff + (i - doff)) else dst i

/-- Little-endian 16-bit load at `off`. -/
def load16 (b : Nat → Nat) (off : Nat) : Nat := b off % 256 + 256 * (b (off + 1) % 256)

/-- Little-endian 32-bit load at `off`. -/
def load32 (b : Nat → Nat) (off : Nat) : Nat :=
  b off % 256 + 256 * (b (off + 1) % 256) + 65536 * (b (off + 2) % 256)
    + 16777216 * (b (off + 3) % 256)

/-- Little-endian 16-bit store at `off` (the value is truncated to 16 bits). -/
def store16 (b : Nat → Nat) (off : Nat) (v : Nat) : Nat → Nat :=
  fun i => if i = off then v % 256 else if i = off + 1 then v / 256 % 256 else b i

/-- Little-endian 32-bit store at `off` (the value is truncated to 32 bits). -/
def store32 (b : Nat → Nat) (off : Nat) (v : Nat) : Nat → Nat :=
  fun i => if i = off then v % 256 else if i = off + 1 then v / 256 % 256
    else if i = off + 2 then v / 65536 % 256 else if i = off + 3 then v / 16777216 % 256 else b i

/-! ## Directory entry fields (layout of `DIR_ENTRY`, spec section 6) -/

def DIR_Name (e : DIR_ENTRY) (i : Nat) : Nat := e i
def DIR_Attr (e : DIR_ENTRY) : Nat := e 11
def DIR_FstClusLO (e : DIR_ENTRY) : Nat := load16 e 26
def DIR_FileSize (e : DIR_ENTRY) : Nat := load32 e 28

def set_DIR_Name0 (e : DIR_ENTRY) (v : Nat) : DIR_ENTRY := fun i => if i = 0 then v else e i
def set_DIR_FstClusLO (e : DIR_ENTRY) (v : Nat) : DIR_ENTRY := store16 e 26 v
def set_DIR_FileSize (e : DIR_ENTRY) (v : Nat) : DIR_ENTRY := store32 e 28 v

/-- The entry stored at byte offset `off` of a sector buffer (`*(DIR_ENTRY*)(buffer + off)`). -/
def entry_at (buffer : Sector) (off : Nat) : DIR_ENTRY :=
  fun i => if i < DIR_ENTRY_SIZE then buffer (off + i) else 0

/-! ## Address translator -/

def is_cluster_inuse (clus : Nat) : Bool := decide (CLUSTER_MIN ≤ clus) && decide (clus ≤ CLUSTER_MAX)

def cluster_first_sector (m : FAT16) (clus : Nat) : Except Fault Nat :=
  if is_cluster_inuse clus then .ok ((clus - 2) * m.sec_per_clus + m.data_sec)
  else .error Fault.assertion

def sector_cluster (m : FAT16) (sec : Nat) : Except Fault Nat :=
  if sec < m.data_sec then .ok 0
  else
    let clus := (2 + (sec - m.data_sec) / m.sec_per_clus) % 65536
    if is_cluster_inuse clus then .ok clus else .error Fault.assertion

def is_cluster_end (clus : Nat) : Bool := decide (clus ≥ CLUSTER_END_BOUND)

def is_readonly (attr : Nat) : Bool := attr &&& ATTR_READONLY != 0
def is_directory (attr : Nat) : Bool := attr &&& ATTR_DIRECTORY != 0
def is_lfn (attr : Nat) : Bool := attr == ATTR_LFN
def is_free (dir : DIR_ENTRY) : Bool := DIR_Name dir 0 == NAME_FREE
def is_deleted (dir : DIR_ENTRY) : Bool := DIR_Name dir 0 == NAME_DELETED
def is_valid (dir : DIR_ENTRY) : Bool :=
  !is_lfn (DIR_Attr dir) && DIR_Name dir 0 != NAME_DELETED && DIR_Name dir 0 != NAME_FREE

/-- `strncmp(a, b, n) == 0`: the first `n` bytes agree, up to a common NUL. -/
def strncmp_eq (a b : Nat → Nat) : Nat → Nat → Bool
  | 0, _ => true
  | n + 1, i =>
    if a i != b i then false
    else if a i == 0 then true
    else strncmp_eq a b n (i + 1)

/-- The byte of a C string at index `i` (NUL at and after the end). -/
def cstr (s : List Nat) (i : Nat) : Nat := s.getD i 0

def DOT_NAME : List Nat := [46, 32, 32, 32, 32, 32, 32, 32, 32, 32, 32]
def DOTDOT_NAME : List Nat := [46, 46, 32, 32, 32, 32, 32, 32, 32, 32, 32]

def is_dot (dir : DIR_ENTRY) : Bool :=
  if is_lfn (DIR_Attr dir) then false
  else strncmp_eq (DIR_Name dir) (cstr DOT_NAME) FAT_NAME_LEN 0
    || strncmp_eq (DIR_Name dir) (cstr DOTDOT_NAME) FAT_NAME_LEN 0

/-- `path += strspn(path, "/")`. -/
def skip_slashes (path : List Nat) : List Nat := path.dropWhile (· == 47)

/-- `strcspn(s, "/")`. -/
def strcspn_slash (s : List Nat) : Nat := (s.takeWhile (· != 47)).length

def path_is_root (path : List Nat) : Bool := (skip_slashes path).isEmpty

/-! ## Short-name codec -/

/-- Membership in `INVALID_CHARS = "*?<>|\"+=,; :\\"` (`strchr(...) != NULL` for a non-NUL byte). -/
def is_invalid_char (c : Nat) : Bool :=
  c == 42 || c == 63 || c == 60 || c == 62 || c == 124 || c == 34 || c == 43 || c == 61
    || c == 44 || c == 59 || c == 32 || c == 58 || c == 92

/-- `toupper` of the C locale on a byte. -/
def toupper (c : Nat) : Nat := if 97 ≤ c ∧ c ≤ 122 then c - 32 else c

/-- `tolower` of the C locale on a byte. -/
def tolower (c : Nat) : Nat := if 65 ≤ c ∧ c ≤ 90 then c + 32 else c

/-- The value of a byte held in a (signed) `char` after integer promotion. -/
def char_to_int (b : Nat) : Int := if b % 256 < 128 then (b % 256 : Nat) else (b % 256 : Nat) - 256

/-- First loop of `to_shortname`; `k` counts the iterations left (`len - i`).
Result: `none` for the `-EINVAL` return, else the final `(len, base_len, has_ext)`. -/
def to_shortname_scan (name : List Nat) :
    Nat → Nat → Nat → Nat → Bool → Option (Nat × Nat × Bool)
  | 0, _, len, base_len, has_ext => some (len, base_len, has_ext)
  | k + 1, i, len, base_len, has_ext =>
    if cstr name i = 0 then some (i, min base_len i, has_ext)
    else if is_invalid_char (cstr name i) then none
    else if cstr name i = 46 ∧ i ≠ 0 then to_shortname_scan name k (i + 1) len i true
    else to_shortname_scan name k (i + 1) len base_len has_ext

/-- The loop `for (i = 0; i < n; i++) res[dst + i] = toupper(src[soff + i])`. -/
def upper_copy (src : List Nat) (soff : Nat) (res : Nat → Nat) (dst : Nat) (n : Nat) : Nat → Nat :=
  fun j => if dst ≤ j ∧ j < dst + n then toupper (cstr src (soff + (j - dst))) else res j

/-- The function `to_shortname(name, len, res)`: return value and final contents of `res`. -/
def to_shortname (name : List Nat) (len : Nat) (res : Nat → Nat) : Int × (Nat → Nat) :=
  match to_shortname_scan name len 0 len len false with
  | none => (-EINVAL, res)
  | some (len1, base_len, has_ext) =>
    let r0 : Nat → Nat := fun j => if j < FAT_NAME_LEN then 32 else res j
    let r1 := upper_copy name 0 r0 0 (min base_len FAT_NAME_BASE_LEN)
    let r2 : Nat → Nat := fun j => if j = 0 then (if char_to_int (r1 0) = 0xe5 then 0x05 else r1 0) else r1 j
    let r3 := if has_ext then
        upper_copy name (base_len + 1) r2 FAT_NAME_BASE_LEN (min (len1 - base_len - 1) FAT_NAME_EXT_LEN)
      else r2
    (0, r3)

/-- First loop of `to_longname`: copies the base until a blank; returns the final `i`. -/
def to_longname_base (fat_name : Nat → Nat) (len : Nat) : Nat → Nat → (Nat → Nat) → Nat × (Nat → Nat)
  | 0, i, res => (i, res)
  | k + 1, i, res =>
    if i < len ∧ i < FAT_NAME_BASE_LEN then
      if fat_name i = 32 then (i, res)
      else to_longname_base fat_name len k (i + 1) (fun x => if x = i then tolower (fat_name i) else res x)
    else (i, res)

/-- Second loop of `to_longname`: copies the extension until a blank. -/
def to_longname_ext (fat_name : Nat → Nat) (len : Nat) : Nat → Nat → Nat → (Nat → Nat) → Nat × (Nat → Nat)
  | 0, i, _, res => (i, res)
  | k + 1, i, j, res =>
    if i < len ∧ j < FAT_NAME_LEN then
      if fat_name j = 32 then (i, res)
      else to_longname_ext fat_name len k (i + 1) (j + 1) (fun x => if x = i then tolower (fat_name j) else res x)
    else (i, res)

/-- The function `to_longname(fat_name, res, len)` for a capacity `len ≥ 1`
(`len--` on `len = 0` wraps in C and is not modelled). -/
def to_longname (fat_name : Nat → Nat) (res : Nat → Nat) (len : Nat) : Nat × (Nat → Nat) :=
  let len := len - 1
  let (i, r1) := to_longname_base fat_name len FAT_NAME_BASE_LEN 0 res
  let (i2, r2) :=
    if fat_name FAT_NAME_BASE_LEN ≠ 32 then
      to_longname_ext fat_name len FAT_NAME_EXT_LEN (i + 1) FAT_NAME_BASE_LEN
        (fun x => if x = i then 46 else r1 x)
    else (i, r1)
  (i2, fun x => if x = i2 then 0 else r2 x)

def check_name (u : Uninit) (name : List Nat) (len : Nat) (dir : DIR_ENTRY) : Bool :=
  let fatname := (to_shortname name len u.fatname).2
  strncmp_eq fatname (DIR_Name dir) FAT_NAME_LEN 0

/-! ## FAT table manager: entry access -/

def read_fat_entry (m : FAT16) (d : Disk) (clus : Nat) : Nat :=
  let sec_num := m.fat_sec + clus / (m.sector_size / 2)
  let offset_in_sector := (clus * 2) % m.sector_size
  let sector_buffer := sector_read d sec_num
  load16 sector_buffer offset_in_sector

/-- The loop over the FAT copies in `write_fat_entry`; `i` is the copy index and `k` the
number of copies left. -/
def write_fat_copies (m : FAT16) (clus_sec sec_off data : Nat) : Nat → Nat → Disk → Disk
  | 0, _, d => d
  | k + 1, i, d =>
    let fat_start_sec := m.fat_sec + i * m.sec_per_fat
    let sector_buffer := sector_read d (fat_start_sec + clus_sec)
    let sector_buffer := store16 sector_buffer sec_off data
    write_fat_copies m clus_sec sec_off data k (i + 1)
      (sector_write d (fat_start_sec + clus_sec) sector_buffer)

/-- The function `write_fat_entry(clus, data)`; it always returns 0. -/
def write_fat_entry (m : FAT16) (d : Disk) (clus data : Nat) : Disk :=
  let clus_off := clus * 2
  let clus_sec := clus_off / m.sector_size
  let sec_off := clus_off % m.sector_size
  write_fat_copies m clus_sec sec_off data m.fats 0 d

/-! ## Directory resolver -/

/-- The offsets visited by `for (off = 0; off < meta.sector_size; off += DIR_ENTRY_SIZE)`. -/
def dir_offsets (m : FAT16) : List Nat :=
  (List.range ((m.sector_size + (DIR_ENTRY_SIZE - 1)) / DIR_ENTRY_SIZE)).map (· * DIR_ENTRY_SIZE)

/-- Inner loop of `find_entry_in_sectors` over the entries of one sector buffer.
`none`: the loop ran to its end without returning. -/
def find_entry_in_buffer (u : Uninit) (name : List Nat) (len : Nat) (buffer : Sector) (sec : Nat) :
    List Nat → Option (Int × DirEntrySlot)
  | [] => none
  | off :: offs =>
    let dir := entry_at buffer off
    if is_lfn (DIR_Attr dir) then find_entry_in_buffer u name len buffer sec offs
    else if !is_deleted dir && check_name u name len dir then
      some (FIND_EXIST, { dir := dir, sector := sec, offset := off })
    else if is_free dir then
      some (FIND_EMPTY, { dir := dir, sector := sec, offset := off })
    else find_entry_in_buffer u name len buffer sec offs

/-- Outer loop of `find_entry_in_sectors`; `i` is the sector index, `k` the sectors left. -/
def find_entry_in_sectors_loop (m : FAT16) (d : Disk) (u : Uninit) (name : List Nat) (len : Nat)
    (from_sector : Nat) : Nat → Nat → Option (Int × DirEntrySlot)
  | 0, _ => none
  | k + 1, i =>
    let buffer := sector_read d (from_sector + i)
    match find_entry_in_buffer u name len buffer (from_sector + i) (dir_offsets m) with
    | some r => some r
    | none => find_entry_in_sectors_loop m d u name len from_sector k (i + 1)

/-- The function `find_entry_in_sectors`: return value and final contents of `*slot`. -/
def find_entry_in_sectors (m : FAT16) (d : Disk) (u : Uninit) (name : List Nat) (len : Nat)
    (from_sector sectors_count : Nat) (slot : DirEntrySlot) : Int × DirEntrySlot :=
  match find_entry_in_sectors_loop m d u name len from_sector sectors_count 0 with
  | some r => r
  | none => (FIND_FULL, slot)

/-- The inner loop `while (is_cluster_inuse(clus))` of `find_entry_internal`.
Result: `(returned, state, slot, clus)`; `returned` is set when the loop body executes
`return state`. -/
def find_entry_chain (m : FAT16) (d : Disk) (u : Uninit) (name : List Nat) (len : Nat) :
    Nat → Nat → Int → DirEntrySlot → Except Fault (Bool × Int × DirEntrySlot × Nat)
  | 0, _, _, _ => .error Fault.fuel
  | fuel + 1, clus, state, slot =>
    if is_cluster_inuse clus then do
      let clus_sec ← cluster_first_sector m clus
      let (state, slot) := find_entry_in_sectors m d u name len clus_sec m.sec_per_clus slot
      if state < 0 then pure (true, state, slot, clus)
      else if state = FIND_EXIST ∨ state = FIND_EMPTY then pure (false, state, slot, clus)
      else find_entry_chain m d u name len fuel (read_fat_entry m d clus) state slot
    else pure (false, state, slot, clus)

/-- The outer loop of `find_entry_internal`.  Result: return value, `*slot`, `*remains`. -/
def find_entry_loop (m : FAT16) (d : Disk) (u : Uninit) :
    Nat → List Nat → Nat → Nat → Int → DirEntrySlot → Except Fault (Int × DirEntrySlot × List Nat)
  | 0, _, _, _, _, _ => .error Fault.fuel
  | fuel + 1, remains, level, clus, state, slot =>
    if remains ≠ [] ∧ state = FIND_EXIST then
      let len := strcspn_slash remains
      let next_level := skip_slashes (remains.drop len)
      let finish (state : Int) (slot : DirEntrySlot) (clus : Nat) :
          Except Fault (Int × DirEntrySlot × List Nat) :=
        let level1 := if state = FIND_EXIST then level + 1 else level
        let remains1 := if state = FIND_EXIST then next_level else remains
        let clus1 := if state = FIND_EXIST then DIR_FstClusLO slot.dir else clus
        if next_level ≠ [] ∧ state ≠ FIND_EXIST then pure (-ENOENT, slot, remains1)
        else if next_level ≠ [] ∧ !is_directory (DIR_Attr slot.dir) then pure (-ENOTDIR, slot, remains1)
        else find_entry_loop m d u fuel remains1 level1 clus1 state slot
      if level = 0 then
        let (state, slot) :=
          find_entry_in_sectors m d u remains len m.root_sec m.root_sectors slot
        if state ≠ FIND_EXIST then pure (state, slot, remains)
        else finish state slot clus
      else do
        let (returned, state, slot, clus) ← find_entry_chain m d u remains len fuel clus state slot
        if returned then pure (state, slot, remains)
        else finish state slot clus
    else pure (state, slot, remains)

/-- The function `find_entry_internal(path, slot, remains)`. -/
def find_entry_internal (fuel : Nat) (m : FAT16) (d : Disk) (u : Uninit) (path : List Nat)
    (slot : DirEntrySlot) : Except Fault (Int × DirEntrySlot × List Nat) :=
  find_entry_loop m d u fuel (skip_slashes path) 0 CLUSTER_END FIND_EXIST slot

/-- The function `find_entry(path, slot)`. -/
def find_entry (fuel : Nat) (m : FAT16) (d : Disk) (u : Uninit) (path : List Nat)
    (slot : DirEntrySlot) : Except Fault (Int × DirEntrySlot) := do
  let (ret, slot, _) ← find_entry_internal fuel m d u path slot
  if ret < 0 then pure (ret, slot)
  else if ret = FIND_EXIST then pure (0, slot)
  else pure (-ENOENT, slot)

/-- The function `find_empty_slot(path, slot, last_name)`. -/
def find_empty_slot (fuel : Nat) (m : FAT16) (d : Disk) (u : Uninit) (path : List Nat)
    (slot : DirEntrySlot) : Except Fault (Int × DirEntrySlot × List Nat) := do
  let (ret, slot, last_name) ← find_entry_internal fuel m d u path slot
  if ret < 0 then pure (ret, slot, last_name)
  else if ret = FIND_EXIST then pure (-EEXIST, slot, last_name)
  else if ret = FIND_FULL then pure (-ENOSPC, slot, last_name)
  else pure (0, slot, last_name)

/-! ## Directory entry mutator -/

/-- The broken-down time that `gmtime` yields for the clock reading, with the nanoseconds
of the reading (`clock_gettime(CLOCK_REALTIME, ..)` does not fail; years before 1980 are
not modelled). -/
structure Tm where
  tm_year : Nat
  tm_mon : Nat
  tm_mday : Nat
  tm_hour : Nat
  tm_min : Nat
  tm_sec : Nat
  tv_nsec : Nat

/-- The packed date computed by `time_unix_to_fat`. -/
def fat_date (t : Tm) : Nat :=
  (((t.tm_year - 80) <<< 9) ||| ((t.tm_mon + 1) <<< 5) ||| t.tm_mday) % 65536

/-- The packed time computed by `time_unix_to_fat`. -/
def fat_time (t : Tm) : Nat :=
  ((t.tm_hour <<< 11) ||| (t.tm_min <<< 5) ||| (t.tm_sec / 2)) % 65536

/-- The tenths byte computed by `time_unix_to_fat`. -/
def fat_acc_time (t : Tm) : Nat := ((t.tm_sec % 2) * 100 + t.tv_nsec / 10000000) % 256

/-- The function `dir_entry_write(slot)`; it always returns 0. -/
def dir_entry_write (d : Disk) (slot : DirEntrySlot) : Disk :=
  let sector_buffer := sector_read d slot.sector
  let sector_buffer := memcpy sector_buffer slot.offset slot.dir 0 DIR_ENTRY_SIZE
  sector_write d slot.sector sector_buffer

/-- The entry built by `dir_entry_create` before it is written. -/
def new_dir_entry (now : Tm) (shortname : Nat → Nat) (attr first_clus file_size : Nat) : DIR_ENTRY :=
  let dir : DIR_ENTRY := fun _ => 0
  let dir := memcpy dir 0 shortname 0 11
  let dir : DIR_ENTRY := fun i => if i = 11 then attr % 256 else dir i
  let dir := store16 dir 20 0
  let dir := store16 dir 26 first_clus
  let dir := store32 dir 28 file_size
  let dir := store16 dir 16 (fat_date now)
  let dir := store16 dir 14 (fat_time now)
  let dir : DIR_ENTRY := fun i => if i = 13 then fat_acc_time now else dir i
  let dir := store16 dir 24 (fat_date now)
  let dir := store16 dir 22 (fat_time now)
  let dir := store16 dir 18 (fat_date now)
  dir

/-- The function `dir_entry_create(slot, shortname, attr, first_clus, file_size)`;
it returns 0. -/
def dir_entry_create (now : Tm) (d : Disk) (slot : DirEntrySlot) (shortname : Nat → Nat)
    (attr first_clus file_size : Nat) : Disk :=
  dir_entry_write d { slot with dir := new_dir_entry now shortname attr first_clus file_size }

/-! ## FAT table manager: chains -/

/-- The function `free_clusters(clus)`; it returns 0. -/
def free_clusters (m : FAT16) : Nat → Disk → Nat → Except Fault Disk
  | 0, _, _ => .error Fault.fuel
  | fuel + 1, d, clus =>
    if is_cluster_inuse clus then
      let next := read_fat_entry m d clus
      free_clusters m fuel (write_fat_entry m d clus CLUSTER_FREE) next
    else .ok d

/-- The all-zero buffer `ZERO_SECTOR`. -/
def ZERO_SECTOR : Sector := fun _ => 0

/-- The loop of `cluster_clear`: writes `k` zero sectors starting at `sec`. -/
def zero_sectors (d : Disk) : Nat → Nat → Disk
  | 0, _ => d
  | k + 1, sec => zero_sectors (sector_write d sec ZERO_SECTOR) k (sec + 1)

def cluster_clear (m : FAT16) (d : Disk) (clus : Nat) : Except Fault Disk := do
  let first_sec ← cluster_first_sector m clus
  pure (zero_sectors d m.sec_per_clus first_sec)

/-- The scan loop of `alloc_clusters`: `k` candidates are left, `cur_clus` is the next one,
`clusters` holds the free clusters found so far. -/
def alloc_scan (m : FAT16) (d : Disk) (n : Nat) : Nat → Nat → List Nat → List Nat
  | 0, _, clusters => clusters
  | k + 1, cur_clus, clusters =>
    let clusters :=
      if read_fat_entry m d cur_clus = CLUSTER_FREE then clusters ++ [cur_clus] else clusters
    if clusters.length = n then clusters
    else alloc_scan m d n k (cur_clus + 1) clusters

/-- The loop `for i < n: cluster_clear(clusters[i])` of `alloc_clusters`. -/
def clear_all (m : FAT16) : Disk → List Nat → Except Fault Disk
  | d, [] => .ok d
  | d, c :: cs => do
    let d ← cluster_clear m d c
    clear_all m d cs

/-- The loop `for i < n: write_fat_entry(clusters[i], clusters[i + 1])` of `alloc_clusters`,
on the array `clusters` extended by `CLUSTER_END`. -/
def link_all (m : FAT16) : Disk → List Nat → Disk
  | d, [] => d
  | d, [c] => write_fat_entry m d c CLUSTER_END
  | d, c :: c1 :: cs => link_all m (write_fat_entry m d c c1) (c1 :: cs)

/-- The function `alloc_clusters(n, first_clus)`: return value, `*first_clus`, disk. -/
def alloc_clusters (m : FAT16) (d : Disk) (n : Nat) (first_clus : Nat) :
    Except Fault (Int × Nat × Disk) :=
  if n = 0 then pure (CLUSTER_END, first_clus, d)
  else
    let clusters := alloc_scan m d n (CLUSTER_MAX + 1 - CLUSTER_MIN) CLUSTER_MIN []
    if clusters.length ≠ n then pure (-ENOSPC, first_clus, d)
    else do
      let d ← clear_all m d clusters
      let d := link_all m d clusters
      pure (0, clusters.headD 0, d)

/-! ## File and directory operations -/

def fat16_mknod (fuel : Nat) (m : FAT16) (now : Tm) (d : Disk) (u : Uninit) (path : List Nat) :
    Except Fault (Int × Disk) := do
  let (ret, slot, filename) ← find_empty_slot fuel m d u path u.slot
  if ret < 0 then pure (ret, d)
  else
    let (ret, shortname) := to_shortname filename MAX_NAME_LEN u.shortname
    if ret < 0 then pure (ret, d)
    else pure (0, dir_entry_create now d slot shortname ATTR_REGULAR 0 0)

def fat16_unlink (fuel : Nat) (m : FAT16) (d : Disk) (u : Uninit) (path : List Nat) :
    Except Fault (Int × Disk) := do
  let (ret, slot) ← find_entry fuel m d u path u.slot
  if ret < 0 then pure (ret, d)
  else if is_directory (DIR_Attr slot.dir) then pure (-EISDIR, d)
  else do
    let d ← free_clusters m fuel d (DIR_FstClusLO slot.dir)
    let slot := { slot with dir := set_DIR_Name0 slot.dir NAME_DELETED }
    pure (0, dir_entry_write d slot)

/-- The path `pre_path` computed by `fat16_mkdir`: `path` cut at its last '/', or after it
when that is the first byte.  (Without any '/' the C code writes a NUL before the start of
the array; the path is then left whole.) -/
def mkdir_pre_path (path : List Nat) : List Nat :=
  match (List.range path.length).reverse.find? (fun i => cstr path i == 47) with
  | some 0 => path.take 1
  | some i => path.take i
  | none => path

def fat16_mkdir (fuel : Nat) (m : FAT16) (now : Tm) (d : Disk) (u : Uninit) (path : List Nat) :
    Except Fault (Int × Disk) := do
  let (_, slot, filename) ← find_empty_slot fuel m d u path u.slot
  let (_, shorname) := to_shortname filename MAX_NAME_LEN u.shortname
  let (_, first_clus, d) ← alloc_clusters m d 1 u.first_clus
  let d := dir_entry_create now d slot shorname ATTR_DIRECTORY first_clus (2 * DIR_ENTRY_SIZE)
  let (_, name) := to_shortname DOT_NAME 11 u.name
  let (_, slot_of_subdir) ← find_entry fuel m d u path u.slot_of_subdir
  let sec ← cluster_first_sector m first_clus
  let slot_of_subdir := { slot_of_subdir with sector := sec, offset := 0 }
  let d := dir_entry_create now d slot_of_subdir name ATTR_DIRECTORY
    (DIR_FstClusLO slot_of_subdir.dir) 0
  let (_, name) := to_shortname DOTDOT_NAME 11 name
  let pre_path := mkdir_pre_path path
  let (_, slot_of_subdir) ← find_entry fuel m d u pre_path slot_of_subdir
  let sec ← cluster_first_sector m first_clus
  let slot_of_subdir := { slot_of_subdir with sector := sec, offset := DIR_ENTRY_SIZE }
  let d := dir_entry_create now d slot_of_subdir name ATTR_DIRECTORY
    (DIR_FstClusLO slot_of_subdir.dir) 0
  pure (0, d)

/-- Innermost loop of `fat16_rmdir` over the entries of one sector: `true` when the
function returns `-ENOTEMPTY`. -/
def rmdir_scan_buffer (buffer : Sector) : List Nat → Bool
  | [] => false
  | off :: offs =>
    let cur_dir := entry_at buffer off
    if is_dot cur_dir then rmdir_scan_buffer buffer offs
    else if !is_free cur_dir && !is_deleted cur_dir then true
    else rmdir_scan_buffer buffer offs

/-- Loop of `fat16_rmdir` over the sectors of one cluster (`k` sectors left, index `i`). -/
def rmdir_scan_cluster (m : FAT16) (d : Disk) (first_sec : Nat) : Nat → Nat → Bool
  | 0, _ => false
  | k + 1, i =>
    if rmdir_scan_buffer (sector_read d (first_sec + i)) (dir_offsets m) then true
    else rmdir_scan_cluster m d first_sec k (i + 1)

/-- Loop of `fat16_rmdir` over the chain: `true` when the function returns `-ENOTEMPTY`. -/
def rmdir_scan_chain (m : FAT16) (d : Disk) : Nat → Nat → Except Fault Bool
  | 0, _ => .error Fault.fuel
  | fuel + 1, clus =>
    if is_cluster_inuse clus then do
      let first_sec ← cluster_first_sector m clus
      if rmdir_scan_cluster m d first_sec m.sec_per_clus 0 then pure true
      else rmdir_scan_chain m d fuel (read_fat_entry m d clus)
    else pure false

def fat16_rmdir (fuel : Nat) (m : FAT16) (d : Disk) (u : Uninit) (path : List Nat) :
    Except Fault (Int × Disk) :=
  if path_is_root path then pure (-EBUSY, d)
  else do
    let (ret, slot) ← find_entry fuel m d u path u.slot
    if ret < 0 then pure (ret, d)
    else if !is_directory (DIR_Attr slot.dir) then pure (-ENOTDIR, d)
    else do
      let nonempty ← rmdir_scan_chain m d fuel (DIR_FstClusLO slot.dir)
      if nonempty then pure (-ENOTEMPTY, d)
      else do
        let d ← free_clusters m fuel d (DIR_FstClusLO slot.dir)
        let slot := { slot with dir := set_DIR_Name0 slot.dir NAME_DELETED }
        pure (0, dir_entry_write d slot)

/-! ## File data I/O -/

/-- The cluster walk `while (1) { if (pointer <= target && pointer + cluster_size > target)
break; pointer += cluster_size; clus = read_fat_entry(clus); }` that opens `fat16_read`,
`fat16_write` and the shrinking branch of `fat16_truncate`.  Result: `(pointer, clus)`. -/
def cluster_walk (m : FAT16) (d : Disk) (target : Nat) : Nat → Nat → Nat → Except Fault (Nat × Nat)
  | 0, _, _ => .error Fault.fuel
  | fuel + 1, pointer, clus =>
    if pointer ≤ target ∧ pointer + m.cluster_size > target then .ok (pointer, clus)
    else cluster_walk m d target fuel (pointer + m.cluster_size) (read_fat_entry m d clus)

/-- The sector loop of `read_from_cluster_at_offset`; `data + base` is the destination, an
address inside a caller array of `cap` bytes.  A `memcpy` of `len > 0` bytes that ends past
the array is `Fault.overrun`. -/
def read_sectors (m : FAT16) (d : Disk) (size : Nat) (base cap : Nat) :
    Nat → Nat → Nat → Nat → (Nat → Nat) → Except Fault (Nat → Nat)
  | 0, _, _, _, _ => .error Fault.fuel
  | fuel + 1, sec, sec_off, pos, data =>
    if pos < size then
      let sector_buffer := sector_read d sec
      let len := min (m.sector_size - sec_off) (size - pos)
      if 0 < len ∧ cap < base + pos + len then .error Fault.overrun
      else
        let data := memcpy data (base + pos) sector_buffer sec_off len
        read_sectors m d size base cap fuel (sec + 1) 0 (pos + len) data
    else .ok data

/-- The function `read_from_cluster_at_offset(clus, offset, data + base, size)`, where `data`
is a caller array of `cap` bytes: return value and destination buffer. -/
def read_from_cluster_at_offset (fuel : Nat) (m : FAT16) (d : Disk) (clus offset : Nat)
    (data : Nat → Nat) (base cap : Nat) (size : Nat) : Except Fault (Nat × (Nat → Nat)) :=
  if offset + size ≤ m.cluster_size then do
    let first ← cluster_first_sector m clus
    let sec := first + offset / m.sector_size
    let sec_off := offset % m.sector_size
    let data ← read_sectors m d size base cap fuel sec sec_off 0 data
    pure (size, data)
  else .error Fault.assertion

/-- The loop `while (p < size)` of `fat16_read`; `bpos` is the advance of `buffer`, `cap` the
number of bytes of the caller's array. -/
def read_loop (m : FAT16) (d : Disk) (size end_pointer cap : Nat) :
    Nat → Nat → Nat → Nat → (Nat → Nat) → Nat → Except Fault (Nat × (Nat → Nat))
  | 0, _, _, _, _, _ => .error Fault.fuel
  | fuel + 1, p, read_pointer, clus, buffer, bpos =>
    if p < size then
      if read_pointer + m.cluster_size < end_pointer then do
        let cur_size := m.cluster_size
        let (r, buffer) ← read_from_cluster_at_offset fuel m d clus 0 buffer bpos cap cur_size
        read_loop m d size end_pointer cap fuel (p + r) (read_pointer + cur_size)
          (read_fat_entry m d clus) buffer (bpos + cur_size)
      else do
        let cur_size := size - p
        let (r, buffer) ← read_from_cluster_at_offset fuel m d clus 0 buffer bpos cap cur_size
        read_loop m d size end_pointer cap fuel (p + r) (read_pointer + cur_size) clus buffer
          (bpos + cur_size)
    else .ok (p, buffer)

/-- The function `fat16_read(path, buffer, size, offset)`, called with a `buffer` array of
`cap` bytes (FUSE passes a buffer of `size` bytes, so `cap = size` in the running program):
return value and buffer.  The code copies to `buffer[0 .. p)` for the value `p` it returns;
where `p` would exceed `cap` the copy that crosses the end of the array is
`Fault.overrun`. -/
def fat16_read (fuel : Nat) (m : FAT16) (d : Disk) (u : Uninit) (path : List Nat)
    (buffer : Nat → Nat) (cap size offset : Nat) : Except Fault (Int × (Nat → Nat)) :=
  if path_is_root path then pure (-EISDIR, buffer)
  else do
    let (ret, slot) ← find_entry fuel m d u path u.slot
    if ret < 0 then pure (ret, buffer)
    else if is_directory (DIR_Attr slot.dir) then pure (-EISDIR, buffer)
    else if offset > DIR_FileSize slot.dir then pure (-EINVAL, buffer)
    else do
      let size := min size (DIR_FileSize slot.dir - offset)
      let clus := DIR_FstClusLO slot.dir
      let end_pointer := offset + size
      let (read_pointer, clus) ← cluster_walk m d offset fuel 0 clus
      let valid_space_in_clus := m.cluster_size - (offset - read_pointer)
      let cur_size := min valid_space_in_clus size
      let (r, buffer) ←
        read_from_cluster_at_offset fuel m d clus (offset - read_pointer) buffer 0 cap cur_size
      let p := r
      let read_pointer := read_pointer + p
      let clus := read_fat_entry m d clus
      let (p, buffer) ← read_loop m d size end_pointer cap fuel p read_pointer clus buffer p
      pure ((p : Int), buffer)

/-- The sector loop of `write_to_cluster_at_offset`; `data + base` is the source.
Result: final `pos` and disk. -/
def write_sectors (m : FAT16) (size : Nat) (data : Nat → Nat) (base : Nat) :
    Nat → Disk → Nat → Nat → Nat → Except Fault (Nat × Disk)
  | 0, _, _, _, _ => .error Fault.fuel
  | fuel + 1, d, sec, sec_off, pos =>
    if pos < size then
      let sector_buffer := sector_read d sec
      let len := min (m.sector_size - sec_off) (size - pos)
      let sector_buffer := memcpy sector_buffer sec_off data (base + pos) len
      write_sectors m size data base fuel (sector_write d sec sector_buffer) (sec + 1) 0 (pos + len)
    else .ok (pos, d)

/-- The function `write_to_cluster_at_offset(clus, offset, data + base, size)`. -/
def write_to_cluster_at_offset (fuel : Nat) (m : FAT16) (d : Disk) (clus offset : Nat)
    (data : Nat → Nat) (base : Nat) (size : Nat) : Except Fault (Nat × Disk) :=
  if offset + size ≤ m.cluster_size then do
    let first ← cluster_first_sector m clus
    let sec := first + offset / m.sector_size
    let sec_off := offset % m.sector_size
    write_sectors m size data base fuel d sec sec_off 0
  else .error Fault.assertion

/-- The loop `while (true)` of `file_reserve_clusters` that finds the last cluster. -/
def find_last_cluster (m : FAT16) (d : Disk) : Nat → Nat → Except Fault Nat
  | 0, _ => .error Fault.fuel
  | fuel + 1, last_cluster_index =>
    let next := read_fat_entry m d last_cluster_index
    if is_cluster_end next then .ok last_cluster_index
    else find_last_cluster m d fuel next

/-- The function `file_reserve_clusters(dir, size)`: final `*dir` and disk; it returns 0. -/
def file_reserve_clusters (fuel : Nat) (m : FAT16) (d : Disk) (u : Uninit) (dir : DIR_ENTRY)
    (size : Nat) : Except Fault (DIR_ENTRY × Disk) :=
  if DIR_FileSize dir = 0 then do
    let new_cluster_num := (size / m.cluster_size + 1) % 65536
    let (_, first_cluster_index, d) ← alloc_clusters m d new_cluster_num u.first_clus
    pure (set_DIR_FstClusLO dir first_cluster_index, d)
  else
    let space_in_last_cluster :=
      if DIR_FileSize dir % m.cluster_size = 0 then 0
      else m.cluster_size - DIR_FileSize dir % m.cluster_size
    if space_in_last_cluster ≥ size then pure (dir, d)
    else do
      let new_cluster_num := ((size - space_in_last_cluster) / m.cluster_size + 1) % 65536
      let (_, first_cluster_index, d) ← alloc_clusters m d new_cluster_num u.first_clus
      let last_cluster_index ← find_last_cluster m d fuel (DIR_FstClusLO dir)
      pure (dir, write_fat_entry m d last_cluster_index first_cluster_index)

/-- The loop `while (p < size)` of `fat16_write`; `dpos` is the advance of `data`. -/
def write_loop (m : FAT16) (data : Nat → Nat) (size end_ : Nat) :
    Nat → Disk → Nat → Nat → Nat → Nat → Except Fault (Nat × Disk)
  | 0, _, _, _, _, _ => .error Fault.fuel
  | fuel + 1, d, p, pointer, clus, dpos =>
    if p < size then
      if pointer + m.cluster_size < end_ then do
        let cur_size := m.cluster_size
        let (r, d1) ← write_to_cluster_at_offset fuel m d clus 0 data dpos cur_size
        write_loop m data size end_ fuel d1 (p + r) (pointer + cur_size)
          (read_fat_entry m d1 clus) (dpos + cur_size)
      else do
        let cur_size := size - p
        let (r, d1) ← write_to_cluster_at_offset fuel m d clus 0 data dpos cur_size
        write_loop m data size end_ fuel d1 (p + r) (pointer + cur_size) clus (dpos + cur_size)
    else .ok (p, d)

/-- The function `fat16_write(path, data, size, offset)`: return value and disk. -/
def fat16_write (fuel : Nat) (m : FAT16) (d : Disk) (u : Uninit) (path : List Nat)
    (data : Nat → Nat) (size offset : Nat) : Except Fault (Int × Disk) := do
  let (_, slot) ← find_entry fuel m d u path u.slot
  let start := offset
  let end_ := offset + size
  let (dir, d) ←
    if end_ > DIR_FileSize slot.dir then
      file_reserve_clusters fuel m d u slot.dir (end_ - DIR_FileSize slot.dir)
    else pure (slot.dir, d)
  let (pointer, clus) ← cluster_walk m d start fuel 0 (DIR_FstClusLO dir)
  let cur_size := min size (m.cluster_size - (start - pointer))
  let (incr, d) ← write_to_cluster_at_offset fuel m d clus (start - pointer) data 0 cur_size
  let clus := read_fat_entry m d clus
  let pointer := pointer + m.cluster_size
  let (p, d) ← write_loop m data size end_ fuel d incr pointer clus incr
  let dir := if end_ > DIR_FileSize dir then set_DIR_FileSize dir (DIR_FileSize dir + p) else dir
  pure ((p : Int), dir_entry_write d { slot with dir := dir })

/-- The loop of `fat16_truncate` that finds the sector holding the new size. -/
def sector_walk (m : FAT16) (size : Nat) : Nat → Nat → Nat → Except Fault (Nat × Nat)
  | 0, _, _ => .error Fault.fuel
  | fuel + 1, pointer, sec =>
    if pointer ≤ size ∧ size < pointer + m.sector_size then .ok (pointer, sec)
    else sector_walk m size fuel (pointer + m.sector_size) (sec + 1)

/-- The function `fat16_truncate(path, size)`: return value and disk. -/
def fat16_truncate (fuel : Nat) (m : FAT16) (d : Disk) (u : Uninit) (path : List Nat)
    (size : Nat) : Except Fault (Int × Disk) := do
  let (_, slot) ← find_entry fuel m d u path u.slot
  let old_size := DIR_FileSize slot.dir
  if size = old_size then pure (0, d)
  else if size > old_size then do
    let (dir, d) ← file_reserve_clusters fuel m d u slot.dir (size - old_size)
    let dir := set_DIR_FileSize dir size
    pure (0, dir_entry_write d { slot with dir := dir })
  else do
    let (pointer, clus) ← cluster_walk m d size fuel 0 (DIR_FstClusLO slot.dir)
    let first_sec ← cluster_first_sector m clus
    let (_, sec) ← sector_walk m size fuel pointer first_sec
    let sector_buffer := sector_read d sec
    let sector_buffer := memcpy sector_buffer (size % m.sector_size) ZERO_SECTOR 0
      (m.sector_size - size % m.sector_size)
    let d := sector_write d sec sector_buffer
    let d := zero_sectors d (first_sec + m.sec_per_clus - (sec + 1)) (sec + 1)
    let next_clus := read_fat_entry m d clus
    let d ← free_clusters m fuel d next_clus
    let d := write_fat_entry m d clus CLUSTER_END
    let dir := set_DIR_FileSize slot.dir size
    pure (0, dir_entry_write d { slot with dir := dir })


/-! ## Directory listing -/

/-- The loop over the entries of one sector in `fat16_readdir`: the names given to `filler`,
in order, and the final contents of the array `name`.  `filler` receives the C string that
`name` holds right after `to_longname`. -/
def readdir_buffer (buffer : Sector) : List Nat → (Nat → Nat) → List (List Nat) × (Nat → Nat)
  | [], name => ([], name)
  | off :: offs, name =>
    let cur_dir := entry_at buffer off
    if !is_valid cur_dir then readdir_buffer buffer offs name
    else
      let (i, name) := to_longname (DIR_Name cur_dir) name MAX_NAME_LEN
      let listed := ((List.range i).map name).takeWhile (· != 0)
      let (rest, name) := readdir_buffer buffer offs name
      (listed :: rest, name)

/-- The loop `for (i = 0; i < nsec; i++)` of `fat16_readdir` (`k` sectors left, index `i`). -/
def readdir_sectors (m : FAT16) (d : Disk) (first_sec : Nat) :
    Nat → Nat → (Nat → Nat) → List (List Nat) × (Nat → Nat)
  | 0, _, name => ([], name)
  | k + 1, i, name =>
    let (l1, name) := readdir_buffer (sector_read d (first_sec + i)) (dir_offsets m) name
    let (l2, name) := readdir_sectors m d first_sec k (i + 1) name
    (l1 ++ l2, name)

/-- The loop `while (root || is_cluster_inuse(clus))` of `fat16_readdir` for a directory
that is not the root. -/
def readdir_chain (m : FAT16) (d : Disk) :
    Nat → Nat → (Nat → Nat) → Except Fault (List (List Nat))
  | 0, _, _ => .error Fault.fuel
  | fuel + 1, clus, name =>
    if is_cluster_inuse clus then do
      let first_sec ← cluster_first_sector m clus
      let (l1, name) := readdir_sectors m d first_sec m.sec_per_clus 0 name
      let l2 ← readdir_chain m d fuel (read_fat_entry m d clus) name
      pure (l1 ++ l2)
    else pure []

/-- The function `fat16_readdir(path, buf, filler, ..)`: return value and the names given to
`filler`, in order. -/
def fat16_readdir (fuel : Nat) (m : FAT16) (d : Disk) (u : Uninit) (path : List Nat) :
    Except Fault (Int × List (List Nat)) :=
  if path_is_root path then
    pure (0, (readdir_sectors m d m.root_sec m.root_sectors 0 u.name).1)
  else do
    let (ret, slot) ← find_entry fuel m d u path u.slot
    if ret < 0 then pure (ret, [])
    else if !is_directory (DIR_Attr slot.dir) then pure (-ENOTDIR, [])
    else do
      let names ← readdir_chain m d fuel (DIR_FstClusLO slot.dir) u.name
      pure (0, names)

/-! ## Specification-level notions -/

/-- The return value of an operation, when it terminates normally. -/
def retOf {α : Type} (r : Except Fault (Int × α)) : Option Int := r.toOption.map (·.1)

/-- The sector `(clus - 2) * sec_per_clus + data_sec` that `cluster_first_sector` returns
when its assertion holds. -/
def first_sector (m : FAT16) (clus : Nat) : Nat := (clus - 2) * m.sec_per_clus + m.data_sec

/-- The `k`-th cluster reached from `head` by following FAT links. -/
def chain_nth (m : FAT16) (d : Disk) (head : Nat) : Nat → Nat
  | 0 => head
  | k + 1 => read_fat_entry m d (chain_nth m d head k)

/-- The entry of cluster `c` lies inside one FAT copy. -/
def FatIn (m : FAT16) (c : Nat) : Prop := c / (m.sector_size / 2) < m.sec_per_fat

instance (m : FAT16) (c : Nat) : Decidable (FatIn m c) := by unfold FatIn; infer_instance

/-- Geometry facts that `fat16_init` establishes for a FAT16 boot sector: an even,
positive sector size, at least one sector per cluster and one FAT copy, and the region
order FAT copies, root directory, data. -/
structure Geom (m : FAT16) : Prop where
  ss_pos : 0 < m.sector_size
  ss_even : m.sector_size % 2 = 0
  ss_entries : m.sector_size % DIR_ENTRY_SIZE = 0
  spc_pos : 0 < m.sec_per_clus
  fats_pos : 0 < m.fats
  cs_eq : m.cluster_size = m.sec_per_clus * m.sector_size
  root_eq : m.root_sec = m.fat_sec + m.fats * m.sec_per_fat
  data_eq : m.data_sec = m.root_sec + m.root_sectors

/-- The disk after writing `n` bytes `data[base ..]` at linear position `sec_off` counted
from the start of sector `sec`. -/
def written (m : FAT16) (d : Disk) (sec sec_off : Nat) (data : Nat → Nat) (base n : Nat) : Disk :=
  fun s o =>
    if sec ≤ s ∧ o < m.sector_size ∧ sec_off ≤ (s - sec) * m.sector_size + o
        ∧ (s - sec) * m.sector_size + o < sec_off + n then
      data (base + ((s - sec) * m.sector_size + o - sec_off))
    else d s o

/-- The byte at linear position `L` counted from the start of sector `sec`. -/
def lin_byte (m : FAT16) (d : Disk) (sec L : Nat) : Nat :=
  d (sec + L / m.sector_size) (L % m.sector_size)

/-- The byte at offset `x` of cluster `c`. -/
def clus_byte (m : FAT16) (d : Disk) (c x : Nat) : Nat :=
  d (first_sector m c + x / m.sector_size) (x % m.sector_size)

/-- The disk after `write_to_cluster_at_offset(c, off, data + base, size)`. -/
def clus_written (m : FAT16) (d : Disk) (c off : Nat) (data : Nat → Nat) (base size : Nat) : Disk :=
  fun s o =>
    if first_sector m c ≤ s ∧ o < m.sector_size
        ∧ off ≤ (s - first_sector m c) * m.sector_size + o
        ∧ (s - first_sector m c) * m.sector_size + o < off + size then
      data (base + ((s - first_sector m c) * m.sector_size + o - off))
    else d s o

/-- The sector that holds byte `p` of the file whose chain starts at `head`. -/
def file_sector (m : FAT16) (d : Disk) (head p : Nat) : Nat :=
  first_sector m (chain_nth m d head (p / m.cluster_size)) + p % m.cluster_size / m.sector_size

/-- The offset inside its sector of byte `p` of a file. -/
def file_offset (m : FAT16) (p : Nat) : Nat := p % m.cluster_size % m.sector_size

/-- Byte `p` of the file whose chain starts at `head`. -/
def file_byte (m : FAT16) (d : Disk) (head p : Nat) : Nat :=
  d (file_sector m d head p) (file_offset m p)

/-- The first `n` clusters reached from `head` form a well-formed chain prefix: they are
in-use cluster numbers, pairwise distinct, and their FAT entries lie inside one FAT copy. -/
structure ChainOK (m : FAT16) (d : Disk) (head n : Nat) : Prop where
  inuse : ∀ k, k < n → is_cluster_inuse (chain_nth m d head k) = true
  distinct : ∀ i, i < n → ∀ j, j < n → chain_nth m d head i = chain_nth m d head j → i = j
  fat_in : ∀ k, k < n → FatIn m (chain_nth m d head k)

/-- Sector `s` belongs to one of the first `n` clusters of the chain from `head`. -/
def InChain (m : FAT16) (d : Disk) (head n s : Nat) : Prop :=
  ∃ k, k < n ∧ first_sector m (chain_nth m d head k) ≤ s
    ∧ s < first_sector m (chain_nth m d head k) + m.sec_per_clus

instance (m : FAT16) (d : Disk) (head n s : Nat) : Decidable (InChain m d head n s) := by
  unfold InChain; infer_instance

/-- Disk `d'` is disk `d` with the file positions `[lo, hi)` of the chain from `head` (as
linked on `d0`) overwritten by the bytes `data[q - offset]`, and nothing else changed. -/
def FileWritten (m : FAT16) (d0 : Disk) (head : Nat) (data : Nat → Nat) (offset : Nat)
    (d d' : Disk) (lo hi : Nat) : Prop :=
  (∀ q, lo ≤ q → q < hi → d' (file_sector m d0 head q) (file_offset m q) = data (q - offset))
  ∧ (∀ s o, (∀ q, lo ≤ q → q < hi → ¬ (s = file_sector m d0 head q ∧ o = file_offset m q)) →
      d' s o = d s o)

/-- The tail of one iteration of the loop of `find_entry_internal`, from the computation of
`next_level` on, followed by the remaining iterations. -/
def find_entry_finish (m : FAT16) (d : Disk) (u : Uninit) (fuel : Nat) (remains : List Nat)
    (level clus : Nat) (state : Int) (slot : DirEntrySlot) :
    Except Fault (Int × DirEntrySlot × List Nat) :=
  let next_level := skip_slashes (remains.drop (strcspn_slash remains))
  if state = FIND_EXIST then
    if next_level ≠ [] ∧ is_directory (DIR_Attr slot.dir) = false then
      .ok (-ENOTDIR, slot, next_level)
    else find_entry_loop m d u fuel next_level (level + 1) (DIR_FstClusLO slot.dir) state slot
  else if next_level ≠ [] then .ok (-ENOENT, slot, remains)
  else find_entry_loop m d u fuel remains level clus state slot

/-- Two sector buffers hold directory entries with the same names and attributes, and
with the same first cluster wherever the entry is a directory. -/
def BufSim (m : FAT16) (b b' : Sector) : Prop :=
  ∀ off, off ∈ dir_offsets m →
    (∀ i, i < 12 → b' (off + i) = b (off + i))
    ∧ (is_directory (b (off + 11)) = true →
        DIR_FstClusLO (entry_at b' off) = DIR_FstClusLO (entry_at b off))

/-- Two slots name the same location and agree on what path resolution reads from the
cached entry: the attribute and, for a directory, the first cluster. -/
def SlotSim (s s' : DirEntrySlot) : Prop :=
  s'.sector = s.sector ∧ s'.offset = s.offset ∧ DIR_Attr s'.dir = DIR_Attr s.dir
  ∧ (is_directory (DIR_Attr s.dir) = true → DIR_FstClusLO s'.dir = DIR_FstClusLO s.dir)

/-- The directory clusters scanned by the inner chain loop of `find_entry_internal`. -/
def find_entry_chain_visits (m : FAT16) (d : Disk) (u : Uninit) (name : List Nat) (len : Nat) :
    Nat → Nat → DirEntrySlot → List Nat
  | 0, _, _ => []
  | fuel + 1, clus, slot =>
    if is_cluster_inuse clus then
      let r := find_entry_in_sectors m d u name len (first_sector m clus) m.sec_per_clus slot
      if r.1 = FIND_FULL then
        clus :: find_entry_chain_visits m d u name len fuel (read_fat_entry m d clus) r.2
      else [clus]
    else []

/-- The directory clusters scanned by the loop of `find_entry_internal` from a given
loop state on. -/
def find_entry_visits (m : FAT16) (d : Disk) (u : Uninit) :
    Nat → List Nat → Nat → Nat → Int → DirEntrySlot → List Nat
  | 0, _, _, _, _, _ => []
  | fuel + 1, remains, level, clus, state, slot =>
    if remains ≠ [] ∧ state = FIND_EXIST then
      let next_level := skip_slashes (remains.drop (strcspn_slash remains))
      if level = 0 then
        let r := find_entry_in_sectors m d u remains (strcspn_slash remains) m.root_sec
          m.root_sectors slot
        if r.1 = FIND_EXIST then
          if next_level ≠ [] ∧ is_directory (DIR_Attr r.2.dir) = false then []
          else find_entry_visits m d u fuel next_level (level + 1) (DIR_FstClusLO r.2.dir) r.1 r.2
        else []
      else
        find_entry_chain_visits m d u remains (strcspn_slash remains) fuel clus slot ++
        match find_entry_chain m d u remains (strcspn_slash remains) fuel clus state slot with
        | .error _ => []
        | .ok (returned, st, s, c) =>
          if returned then []
          else if st = FIND_EXIST then
            if next_level ≠ [] ∧ is_directory (DIR_Attr s.dir) = false then []
            else find_entry_visits m d u fuel next_level (level + 1) (DIR_FstClusLO s.dir) st s
          else if next_level ≠ [] then []
          else find_entry_visits m d u fuel remains level c st s
    else []

/-- The directory clusters that `find_entry_internal(path)` scans on disk `d`. -/
def find_entry_clusters (fuel : Nat) (m : FAT16) (d : Disk) (u : Uninit) (path : List Nat)
    (slot : DirEntrySlot) : List Nat :=
  find_entry_visits m d u fuel (skip_slashes path) 0 CLUSTER_END FIND_EXIST slot

/-- Disk `d'` looks like disk `d` to a path resolution that scans the root region and the
directory clusters `V`: their sectors are related by `BufSim` and the FAT entries of
the clusters in `V` are equal. -/
def DirSim (m : FAT16) (d d' : Disk) (V : List Nat) : Prop :=
  (∀ i, i < m.root_sectors → BufSim m (d (m.root_sec + i)) (d' (m.root_sec + i)))
  ∧ ∀ c, c ∈ V →
      (∀ i, i < m.sec_per_clus → BufSim m (d (first_sector m c + i)) (d' (first_sector m c + i)))
      ∧ read_fat_entry m d' c = read_fat_entry m d c

/-- Two results of `find_entry_internal` agree up to `SlotSim`. -/
def ResSim (r r' : Except Fault (Int × DirEntrySlot × List Nat)) : Prop :=
  match r, r' with
  | .ok (ret, s, rem), .ok (ret', s', rem') => ret' = ret ∧ rem' = rem ∧ SlotSim s s'
  | .error e, .error e' => e' = e
  | _, _ => False

/-- Two results of the inner chain loop of `find_entry_internal` agree up to `SlotSim`. -/
def ChainResSim (r r' : Except Fault (Bool × Int × DirEntrySlot × Nat)) : Prop :=
  match r, r' with
  | .ok (b, st, s, c), .ok (b', st', s', c') => b' = b ∧ st' = st ∧ c' = c ∧ SlotSim s s'
  | .error e, .error e' => e' = e
  | _, _ => False

/-- The directory clusters scanned after the tail of one iteration (see
`find_entry_finish`). -/
def find_entry_finish_visits (m : FAT16) (d : Disk) (u : Uninit) (fuel : Nat) (remains : List Nat)
    (level clus : Nat) (state : Int) (slot : DirEntrySlot) : List Nat :=
  let next_level := skip_slashes (remains.drop (strcspn_slash remains))
  if state = FIND_EXIST then
    if next_level ≠ [] ∧ is_directory (DIR_Attr slot.dir) = false then []
    else find_entry_visits m d u fuel next_level (level + 1) (DIR_FstClusLO slot.dir) state slot
  else if next_level ≠ [] then []
  else find_entry_visits m d u fuel remains level clus state slot

/-- The slot is the location of a directory entry of the volume and caches its bytes:
its sector lies in the root region or in an in-use cluster of the list `V`, its offset is
one of the entry offsets of a sector, and `dir` is a copy of the 32 bytes stored there. -/
def SlotAt (m : FAT16) (d : Disk) (V : List Nat) (slot : DirEntrySlot) : Prop :=
  slot.dir = entry_at (d slot.sector) slot.offset
  ∧ slot.offset ∈ dir_offsets m
  ∧ ((m.root_sec ≤ slot.sector ∧ slot.sector < m.root_sec + m.root_sectors)
    ∨ ∃ c, c ∈ V ∧ is_cluster_inuse c = true ∧ first_sector m c ≤ slot.sector
        ∧ slot.sector < first_sector m c + m.sec_per_clus)

/-- The path resolves, on disk `d`, to the regular file with directory slot `slot`, whose
chain is well formed over `n` clusters that hold the whole file; the directory clusters
scanned by the resolution have their FAT entries inside the FAT and none of them is a
cluster of the file. -/
structure FileOK (fuel : Nat) (m : FAT16) (d : Disk) (u : Uninit) (path : List Nat)
    (slot : DirEntrySlot) (n : Nat) : Prop where
  not_root : path_is_root path = false
  found : find_entry fuel m d u path u.slot = .ok (0, slot)
  regular : is_directory (DIR_Attr slot.dir) = false
  chain : ChainOK m d (DIR_FstClusLO slot.dir) n
  capacity : DIR_FileSize slot.dir ≤ n * m.cluster_size
  dirs_fat : ∀ c, c ∈ find_entry_clusters fuel m d u path u.slot → FatIn m c
  dirs_apart : ∀ c, c ∈ find_entry_clusters fuel m d u path u.slot →
    ∀ k, k < n → c ≠ chain_nth m d (DIR_FstClusLO slot.dir) k

/-- The disk after the zero-filling steps of the shrinking branch of `fat16_truncate`:
in the cluster whose first sector is `F`, sector `F + q` is zero from offset `r` to the
end of the sector and the sectors after it are zero. -/
def trunc_zero (m : FAT16) (d : Disk) (F q r : Nat) : Disk :=
  fun s o =>
    if (s = F + q ∧ r ≤ o ∧ o < m.sector_size) ∨ (F + q < s ∧ s < F + m.sec_per_clus) then 0
    else d s o

/-- A scan for `name` does not return `FIND_EXIST` at entry `e`. -/
def NoStop (u : Uninit) (name : List Nat) (len : Nat) (e : DIR_ENTRY) : Prop :=
  is_lfn (DIR_Attr e) = true ∨ is_deleted e = true ∨ check_name u name len e = false

/-- Disk `d'` is disk `d` with the first name byte of the entry at offset `O` of sector `S`
replaced by `NAME_DELETED`, as far as the root region and the data region go. -/
def TombAt (m : FAT16) (d d' : Disk) (S O : Nat) : Prop :=
  (∀ s, m.root_sec ≤ s → s ≠ S → d' s = d s)
  ∧ ∀ o, d' S o = if o = O then NAME_DELETED else d S o

/-- Scan-level hypothesis on the part of a directory that follows the entry at offset `O` of
sector `S`: no later entry of the sector, of the root region or of the cluster that holds
`S` can be returned as found for `name`, and on the disk `d'` the chain that follows that
cluster ends in fewer than `K` clusters, none of which holds an entry that can be returned
as found. -/
def TailClear (m : FAT16) (d d' : Disk) (u : Uninit) (S O K : Nat) (name : List Nat)
    (len : Nat) : Prop :=
  (∀ off, off ∈ dir_offsets m → O < off → NoStop u name len (entry_at (d S) off))
  ∧ (∀ s, S < s → s < m.root_sec + m.root_sectors → ∀ off, off ∈ dir_offsets m →
      NoStop u name len (entry_at (d s) off))
  ∧ ∀ c0, is_cluster_inuse c0 = true → first_sector m c0 ≤ S →
      S < first_sector m c0 + m.sec_per_clus →
      (∀ s, S < s → s < first_sector m c0 + m.sec_per_clus → ∀ off, off ∈ dir_offsets m →
        NoStop u name len (entry_at (d s) off))
      ∧ ∃ j, j < K
        ∧ (∀ i, i < j → is_cluster_inuse (chain_nth m d' (read_fat_entry m d c0) i) = true
          ∧ ∀ t, t < m.sec_per_clus → ∀ off, off ∈ dir_offsets m →
            NoStop u name len
              (entry_at (d' (first_sector m (chain_nth m d' (read_fat_entry m d c0) i) + t)) off))
        ∧ is_cluster_inuse (chain_nth m d' (read_fat_entry m d c0) j) = false

/-- Entry `e` cannot be taken for entry `t` by a scan: it is a long-name entry, it is
tombstoned, or its 11-byte name differs from the name of `t` (compared as `strncmp` does). -/
def other_name (t e : DIR_ENTRY) : Prop :=
  is_lfn (DIR_Attr e) = true ∨ is_deleted e = true
    ∨ strncmp_eq (DIR_Name t) (DIR_Name e) FAT_NAME_LEN 0 = false

instance (t e : DIR_ENTRY) : Decidable (other_name t e) := by unfold other_name; infer_instance

/-- The part of the slot's directory that a scan reaches after the slot holds no second
entry with the name of the slot's entry, and it ends.  The part consists of the later
entries of the slot's sector and, for a slot of the root directory, of the later sectors of
the root region; for a slot in a cluster `c0`, of the later sectors of `c0` and of the
clusters that follow `c0` in the FAT: `K` counts the clusters from `c0` to the end of the
chain, their FAT entries lie inside the FAT and none of them is one of the `n` clusters of
the file. -/
structure DirTail (m : FAT16) (d : Disk) (slot : DirEntrySlot) (n K : Nat) : Prop where
  sector : ∀ off, off ∈ dir_offsets m → slot.offset < off →
    other_name slot.dir (entry_at (d slot.sector) off)
  root : ∀ s, slot.sector < s → s < m.root_sec + m.root_sectors →
    ∀ off, off ∈ dir_offsets m → other_name slot.dir (entry_at (d s) off)
  cluster : ∀ c0, is_cluster_inuse c0 = true → first_sector m c0 ≤ slot.sector →
    slot.sector < first_sector m c0 + m.sec_per_clus →
    (∀ s, slot.sector < s → s < first_sector m c0 + m.sec_per_clus →
      ∀ off, off ∈ dir_offsets m → other_name slot.dir (entry_at (d s) off))
    ∧ (∀ k, 1 ≤ k → k < K → is_cluster_inuse (chain_nth m d c0 k) = true
        ∧ ∀ t, t < m.sec_per_clus → ∀ off, off ∈ dir_offsets m →
          other_name slot.dir (entry_at (d (first_sector m (chain_nth m d c0 k) + t)) off))
    ∧ is_cluster_inuse (chain_nth m d c0 K) = false
    ∧ ∀ k, k < K → FatIn m (chain_nth m d c0 k)
        ∧ ∀ j, j < n → chain_nth m d c0 k ≠ chain_nth m d (DIR_FstClusLO slot.dir) j

/-- Sector `s` lies in one of the clusters of the list `L`. -/
def InClusters (m : FAT16) (L : List Nat) (s : Nat) : Prop :=
  ∃ c, c ∈ L ∧ first_sector m c ≤ s ∧ s < first_sector m c + m.sec_per_clus

/-- The file of `FileOK` on a volume on which it can be grown and shrunk: a non-empty file
has its chain terminated by an end-of-chain value after the `n` clusters, and no directory
cluster scanned by the resolution of the path is marked free in the FAT. -/
structure FileWF (fuel : Nat) (m : FAT16) (d : Disk) (u : Uninit) (path : List Nat)
    (slot : DirEntrySlot) (n : Nat) : Prop where
  ok : FileOK fuel m d u path slot n
  ended : DIR_FileSize slot.dir ≠ 0 →
    is_cluster_end (chain_nth m d (DIR_FstClusLO slot.dir) n) = true
  dirs_used : ∀ c, c ∈ find_entry_clusters fuel m d u path u.slot →
    read_fat_entry m d c ≠ CLUSTER_FREE

/-- The number of clusters that `file_reserve_clusters` allocates when a file of size `S0`
grows to size `b`. -/
def grow_clusters (m : FAT16) (S0 b : Nat) : Nat :=
  if S0 = 0 then b / m.cluster_size + 1
  else if (if S0 % m.cluster_size = 0 then 0 else m.cluster_size - S0 % m.cluster_size)
      ≥ b - S0 then 0
  else (b - S0 - (if S0 % m.cluster_size = 0 then 0 else m.cluster_size - S0 % m.cluster_size))
      / m.cluster_size + 1

/-- The scan of `alloc_clusters` for `g` clusters finds `g` free clusters, and their FAT
entries lie inside the FAT (nothing is asked when `g = 0`). -/
def EnoughFree (m : FAT16) (d : Disk) (g : Nat) : Prop :=
  g ≠ 0 → (alloc_scan m d g (CLUSTER_MAX + 1 - CLUSTER_MIN) CLUSTER_MIN []).length = g
    ∧ ∀ c, c ∈ alloc_scan m d g (CLUSTER_MAX + 1 - CLUSTER_MIN) CLUSTER_MIN [] → FatIn m c

/-- What growing the file of `slot` to size `b` establishes on the new disk `d'`: the file
is well formed over `n'` clusters and has size `b`; a non-empty file keeps its first
cluster and the bytes of its `n` old clusters; the bytes of the new clusters (all `n'`
clusters for an empty file) are zero; `n'` exceeds `n` by at most the number of allocated
clusters; and the FAT entries that were free stay free, except for a list of as many
clusters as were allocated. -/
structure Grown (fuel : Nat) (m : FAT16) (d : Disk) (u : Uninit) (path : List Nat)
    (slot : DirEntrySlot) (n b : Nat) (d' : Disk) (n' : Nat) : Prop where
  wf : FileWF fuel m d' u path
    (DirEntrySlot.mk (entry_at (d' slot.sector) slot.offset) slot.sector slot.offset) n'
  size : DIR_FileSize (entry_at (d' slot.sector) slot.offset) = b
  keep : DIR_FileSize slot.dir ≠ 0 →
    DIR_FstClusLO (entry_at (d' slot.sector) slot.offset) = DIR_FstClusLO slot.dir
    ∧ ∀ p, p < n * m.cluster_size →
        file_byte m d' (DIR_FstClusLO slot.dir) p = file_byte m d (DIR_FstClusLO slot.dir) p
  zero : ∀ p, DIR_FileSize slot.dir = 0 ∨ n * m.cluster_size ≤ p → p < n' * m.cluster_size →
    file_byte m d' (DIR_FstClusLO (entry_at (d' slot.sector) slot.offset)) p = 0
  count : n' ≤ n + grow_clusters m (DIR_FileSize slot.dir) b
  free : ∃ A : List Nat, A.length = grow_clusters m (DIR_FileSize slot.dir) b
    ∧ ∀ c, FatIn m c → read_fat_entry m d c = CLUSTER_FREE → c ∉ A →
        read_fat_entry m d' c = CLUSTER_FREE

/-- What shrinking the file of `slot` to size `s` establishes on the new disk `d'`: the
file is well formed over the clusters up to the one that holds position `s`, it has size
`s` and the same first cluster, its bytes below `s` are unchanged, its bytes from `s` to
the end of that cluster are zero, and the FAT entries that were free stay free. -/
structure Shrunk (fuel : Nat) (m : FAT16) (d : Disk) (u : Uninit) (path : List Nat)
    (slot : DirEntrySlot) (s : Nat) (d' : Disk) : Prop where
  wf : FileWF fuel m d' u path
    (DirEntrySlot.mk (entry_at (d' slot.sector) slot.offset) slot.sector slot.offset)
    (s / m.cluster_size + 1)
  size : DIR_FileSize (entry_at (d' slot.sector) slot.offset) = s
  head : DIR_FstClusLO (entry_at (d' slot.sector) slot.offset) = DIR_FstClusLO slot.dir
  keep : ∀ p, p < s →
    file_byte m d' (DIR_FstClusLO slot.dir) p = file_byte m d (DIR_FstClusLO slot.dir) p
  zero : ∀ p, s ≤ p → p < (s / m.cluster_size + 1) * m.cluster_size →
    file_byte m d' (DIR_FstClusLO slot.dir) p = 0
  free : ∀ c, FatIn m c → read_fat_entry m d c = CLUSTER_FREE →
    read_fat_entry m d' c = CLUSTER_FREE

/-- The volume has at least `N` free clusters: distinct in-use cluster numbers whose FAT
entries lie inside the FAT and are `CLUSTER_FREE`. -/
def HasFree (m : FAT16) (d : Disk) (N : Nat) : Prop :=
  ∃ F : List Nat, F.Nodup ∧ N ≤ F.length
    ∧ ∀ c, c ∈ F → is_cluster_inuse c = true ∧ FatIn m c
        ∧ read_fat_entry m d c = CLUSTER_FREE

/-- The cluster numbers from `CLUSTER_MIN` to `CLUSTER_MAX` whose FAT entry, as
`read_fat_entry` returns it, is `CLUSTER_FREE`, in increasing order. -/
def free_list (m : FAT16) (d : Disk) : List Nat :=
  (List.range' CLUSTER_MIN (CLUSTER_MAX + 1 - CLUSTER_MIN)).filter
    (fun c => decide (read_fat_entry m d c = CLUSTER_FREE))

/-- Byte `o` of sector `s` belongs to the entry of cluster `c` in one of the FAT copies. -/
def EntryByte (m : FAT16) (c s o : Nat) : Prop :=
  (∃ t, t < m.fats ∧ s = m.fat_sec + t * m.sec_per_fat + c / (m.sector_size / 2))
  ∧ (o = 2 * (c % (m.sector_size / 2)) ∨ o = 2 * (c % (m.sector_size / 2)) + 1)

/-- The two bytes of the entry of cluster `c` are zero in every FAT copy. -/
def FreeInCopies (m : FAT16) (d : Disk) (c : Nat) : Prop :=
  ∀ t, t < m.fats →
    d (m.fat_sec + t * m.sec_per_fat + c / (m.sector_size / 2)) (2 * (c % (m.sector_size / 2))) = 0
    ∧ d (m.fat_sec + t * m.sec_per_fat + c / (m.sector_size / 2))
        (2 * (c % (m.sector_size / 2)) + 1) = 0

instance (m : FAT16) (d : Disk) (c : Nat) : Decidable (FreeInCopies m d c) := by
  unfold FreeInCopies; infer_instance

/-- The directory slots of the sectors `from_sector + i, ..` (`k` sectors), as pairs of a
sector and an offset, in scan order: sector order, then offset order. -/
def scan_slots (m : FAT16) (from_sector : Nat) : Nat → Nat → List (Nat × Nat)
  | 0, _ => []
  | k + 1, i =>
    (dir_offsets m).map (fun off => (from_sector + i, off)) ++ scan_slots m from_sector k (i + 1)

/-- The 11 name bytes of the entry are the bytes of the encoded name `fat`. -/
def name_eq (fat : Nat → Nat) (dir : DIR_ENTRY) : Bool :=
  decide (∀ i, i < FAT_NAME_LEN → DIR_Name dir i = fat i)

/-- The entry is a name match for `name`: it is not tombstoned and its 11-byte name equals
`to_shortname(name)`. -/
def is_match (u : Uninit) (name : List Nat) (len : Nat) (dir : DIR_ENTRY) : Bool :=
  !is_deleted dir && name_eq (to_shortname name len u.fatname).2 dir

/-- The entry is not a long-name entry and is either never-used or a name match. -/
def is_stop (u : Uninit) (name : List Nat) (len : Nat) (dir : DIR_ENTRY) : Bool :=
  !is_lfn (DIR_Attr dir) && (is_free dir || is_match u name len dir)

/-- The first slot of the range, in scan order, that is not a long-name entry and is
never-used or a name match. -/
def first_stop (m : FAT16) (d : Disk) (u : Uninit) (name : List Nat) (len : Nat)
    (from_sector sectors_count : Nat) : Option (Nat × Nat) :=
  (scan_slots m from_sector sectors_count 0).find?
    (fun p => is_stop u name len (entry_at (d p.1) p.2))

/-- The first slot of the range, in scan order, that is not a long-name entry and is
never-used. -/
def first_free (m : FAT16) (d : Disk) (from_sector sectors_count : Nat) : Option (Nat × Nat) :=
  (scan_slots m from_sector sectors_count 0).find?
    (fun p => !is_lfn (DIR_Attr (entry_at (d p.1) p.2)) && is_free (entry_at (d p.1) p.2))

/-- What the scan returns when it stops at the slot `p`. -/
def stop_result (d : Disk) (u : Uninit) (name : List Nat) (len : Nat) (p : Nat × Nat) :
    Int × DirEntrySlot :=
  (if is_match u name len (entry_at (d p.1) p.2) then FIND_EXIST else FIND_EMPTY,
    { dir := entry_at (d p.1) p.2, sector := p.1, offset := p.2 })

/-- The locations (sector, offset) of the entries that the loop of `find_entry_internal`
finds for the components of the path that are followed by another component. -/
def find_entry_trail (m : FAT16) (d : Disk) (u : Uninit) :
    Nat → List Nat → Nat → Nat → Int → DirEntrySlot → List (Nat × Nat)
  | 0, _, _, _, _, _ => []
  | fuel + 1, remains, level, clus, state, slot =>
    if remains ≠ [] ∧ state = FIND_EXIST then
      let next_level := skip_slashes (remains.drop (strcspn_slash remains))
      if level = 0 then
        let r := find_entry_in_sectors m d u remains (strcspn_slash remains) m.root_sec
          m.root_sectors slot
        if r.1 = FIND_EXIST ∧ next_level ≠ [] then
          (r.2.sector, r.2.offset) ::
            find_entry_trail m d u fuel next_level (level + 1) (DIR_FstClusLO r.2.dir) FIND_EXIST r.2
        else []
      else
        match find_entry_chain m d u remains (strcspn_slash remains) fuel clus state slot with
        | .error _ => []
        | .ok (_, st, s, _) =>
          if st = FIND_EXIST ∧ next_level ≠ [] then
            (s.sector, s.offset) ::
              find_entry_trail m d u fuel next_level (level + 1) (DIR_FstClusLO s.dir) FIND_EXIST s
          else []
    else []

/-- The slot with its `dir` field read again from the disk. -/
def reread (d : Disk) (s : DirEntrySlot) : DirEntrySlot :=
  { dir := entry_at (d s.sector) s.offset, sector := s.sector, offset := s.offset }

/-- Disk `d'` is disk `d` with the entry at offset `O` of sector `S` replaced by an entry
that has the same 11 name bytes and, like the old one, is not a long-name entry. -/
structure Rewritten (m : FAT16) (d d' : Disk) (S O : Nat) : Prop where
  other : ∀ sec, sec ≠ S → d' sec = d sec
  apart : ∀ off, off ∈ dir_offsets m → off ≠ O → entry_at (d' S) off = entry_at (d S) off
  name : ∀ i, i < 11 → entry_at (d' S) O i = entry_at (d S) O i
  old_lfn : is_lfn (DIR_Attr (entry_at (d S) O)) = false
  new_lfn : is_lfn (DIR_Attr (entry_at (d' S) O)) = false

/-- The result is the failure of an `assert`. -/
def is_assertion {α : Type} (r : Except Fault α) : Bool :=
  match r with
  | .error Fault.assertion => true
  | _ => false

/-- The result is a copy past the end of the caller's array. -/
def is_overrun {α : Type} (r : Except Fault α) : Bool :=
  match r with
  | .error Fault.overrun => true
  | _ => false

/-- The bytes of the array `INVALID_CHARS` of `to_shortname`: `* ? < > | " + = , ; space : \`. -/
def INVALID_CHARS : List Nat := [42, 63, 60, 62, 124, 34, 43, 61, 44, 59, 32, 58, 92]

/-- The bytes that `to_shortname` stores when its first loop ends with `(len1, bl, he)`. -/
def shortname_out (name : List Nat) (res : Nat → Nat) (len1 bl : Nat) (he : Bool) : Nat → Nat :=
  fun j =>
    if j < min bl FAT_NAME_BASE_LEN then toupper (cstr name j)
    else if he = true ∧ FAT_NAME_BASE_LEN ≤ j
        ∧ j < FAT_NAME_BASE_LEN + min (len1 - bl - 1) FAT_NAME_EXT_LEN then
      toupper (cstr name (bl + 1 + (j - FAT_NAME_BASE_LEN)))
    else if j < FAT_NAME_LEN then 32 else res j

/-- The bytes of `name` that `to_shortname(name, len, ..)` encodes: those that precede the
first NUL among the first `len` bytes. -/
def name_bytes (name : List Nat) (len : Nat) : List Nat := (name.take len).takeWhile (· != 0)

/-- The greatest index below `n` that satisfies `p`. -/
def last_index (p : Nat → Bool) : Nat → Option Nat
  | 0 => none
  | n + 1 => if p n then some n else last_index p n

/-- Byte `i` of the 8 + 3 encoding of the name `nm` split at position `split` (the base is
the part before that position and the extension the part after it; without a position the
base is the whole name and the extension is empty): bytes 0..7 are the upper-cased first
`min(8, base length)` bytes of the base padded with spaces, bytes 8..10 the upper-cased
first `min(3, extension length)` bytes of the extension padded with spaces. -/
def shortname_of_split (nm : List Nat) (split : Option Nat) (i : Nat) : Nat :=
  let base := match split with
    | some p => nm.take p
    | none => nm
  let ext := match split with
    | some p => nm.drop (p + 1)
    | none => []
  if i < 8 then (if i < min 8 base.length then toupper (base.getD i 0) else 32)
  else if i - 8 < min 3 ext.length then toupper (ext.getD (i - 8) 0)
  else 32

/-- The reference encoding that splits the name at its last `'.'`. -/
def shortname_last_dot (nm : List Nat) (i : Nat) : Nat :=
  shortname_of_split nm (last_index (fun k => nm.getD k 0 == 46) nm.length) i

/-- The reference encoding that splits the name at its last `'.'` other than a first byte. -/
def shortname_inner_dot (nm : List Nat) (i : Nat) : Nat :=
  shortname_of_split nm (last_index (fun k => k != 0 && nm.getD k 0 == 46) nm.length) i

/-- A byte allowed in the base or the extension of a long name: an ASCII character other
than NUL, space, `'.'`, `'/'` and the bytes of `INVALID_CHARS`. -/
def NameChar (c : Nat) : Prop :=
  c < 128 ∧ c ≠ 0 ∧ c ≠ 32 ∧ c ≠ 46 ∧ c ≠ 47 ∧ c ∉ INVALID_CHARS

instance (c : Nat) : Decidable (NameChar c) := by unfold NameChar; infer_instance

/-- The name made of `base`, followed by `'.'` and `ext` when `ext` is not empty. -/
def dotted (base ext : List Nat) : List Nat := if ext = [] then base else base ++ 46 :: ext

/-- The `meta.fats` FAT copies are byte-identical: every byte of every sector of every copy
equals the same byte of the first copy. -/
def FatSync (m : FAT16) (d : Disk) : Prop :=
  ∀ t, t < m.fats → ∀ s, s < m.sec_per_fat → ∀ o, o < m.sector_size →
    d (m.fat_sec + t * m.sec_per_fat + s) o = d (m.fat_sec + s) o

instance (m : FAT16) (d : Disk) : Decidable (FatSync m d) := by unfold FatSync; infer_instance

/-- The number of entries of one FAT copy. -/
def fat_entries (m : FAT16) : Nat := m.sec_per_fat * (m.sector_size / 2)

/-- The number of entries of one FAT copy that do not read as `CLUSTER_FREE`. -/
def nonfree_count (m : FAT16) (d : Disk) : Nat :=
  (List.range (fat_entries m)).countP (fun c => read_fat_entry m d c != CLUSTER_FREE)

/-- The disk and the value of `clus` in `free_clusters(head)` after `k` executions of the
loop body, or at the exit of the loop when it is left earlier. -/
def free_iter (m : FAT16) : Nat → Disk → Nat → Disk × Nat
  | 0, d, clus => (d, clus)
  | k + 1, d, clus =>
    if is_cluster_inuse clus then
      free_iter m k (write_fat_entry m d clus CLUSTER_FREE) (read_fat_entry m d clus)
    else (d, clus)


/-- The values that `read_fat_entry` returns for the clusters `0 .. n - 1`. -/
def fat_view (m : FAT16) (d : Disk) (n : Nat) : List Nat :=
  (List.range n).map (read_fat_entry m d)


/-- The index at which a scan for a blank stops that starts at index `i` of `fat_name` and
looks at `k` bytes at most: with `k = 8` and `i = 0`, the number of bytes of the base
before its first blank. -/
def base_run (fat_name : Nat → Nat) : Nat → Nat → Nat
  | 0, i => i
  | k + 1, i => if fat_name i = 32 then i else base_run fat_name k (i + 1)

/-! ## Directory prefix invariant -/

/-- The 32 bytes stored at the slot `p = (sector, offset)`. -/
def slot_entry (d : Disk) (p : Nat × Nat) : DIR_ENTRY := entry_at (d p.1) p.2

/-- The slot is never-used for a scan: the entry is not a long-name entry and its first
name byte is `NAME_FREE`, the case in which `find_entry_in_sectors` returns `FIND_EMPTY`. -/
def never_used (e : DIR_ENTRY) : Bool := !is_lfn (DIR_Attr e) && is_free e

/-- In the list `L` of slots, taken in scan order, no in-use entry (one that `fat16_readdir`
lists: `is_valid`) follows a never-used slot. -/
def PrefixIn (d : Disk) (L : List (Nat × Nat)) : Prop :=
  L.Pairwise (fun a b => never_used (slot_entry d a) = true → is_valid (slot_entry d b) = false)

instance (d : Disk) (L : List (Nat × Nat)) : Decidable (PrefixIn d L) := by
  unfold PrefixIn; infer_instance

/-- The slots of the root region in scan order. -/
def root_slots (m : FAT16) : List (Nat × Nat) := scan_slots m m.root_sec m.root_sectors 0

/-- The slots of cluster `c` in scan order. -/
def clus_slots (m : FAT16) (c : Nat) : List (Nat × Nat) :=
  scan_slots m (first_sector m c) m.sec_per_clus 0

/-- The slots of the first `n` clusters of the chain from `h`, in scan order. -/
def chain_slots (m : FAT16) (d : Disk) (h : Nat) : Nat → List (Nat × Nat)
  | 0 => []
  | n + 1 => chain_slots m d h n ++ clus_slots m (chain_nth m d h n)

/-- The loops `while (is_cluster_inuse(clus))` reach the first `n` clusters of the chain
from `h`: all of them are in-use cluster numbers. -/
def Walk (m : FAT16) (d : Disk) (h n : Nat) : Prop :=
  ∀ j, j < n → is_cluster_inuse (chain_nth m d h j) = true

/-- An in-use directory entry: what `fat16_readdir` lists and shows as a directory. -/
def dir_valid (e : DIR_ENTRY) : Bool := is_valid e && is_directory (DIR_Attr e)

/-- An entry that `find_entry_internal` can descend into: not a long-name entry, not
tombstoned, with the directory attribute. -/
def dir_link (e : DIR_ENTRY) : Bool :=
  !is_lfn (DIR_Attr e) && !is_deleted e && is_directory (DIR_Attr e)

/-- The first clusters of the directories of the volume: `h` is the first-cluster field of
an entry accepted by `link` that is stored in the root region or in a cluster reached in the
chain of such a first cluster. -/
inductive Reach (m : FAT16) (d : Disk) (link : DIR_ENTRY → Bool) : Nat → Prop
  | root (p : Nat × Nat) : p ∈ root_slots m → link (slot_entry d p) = true →
      Reach m d link (DIR_FstClusLO (slot_entry d p))
  | sub (h n : Nat) (p : Nat × Nat) : Reach m d link h → Walk m d h n →
      p ∈ chain_slots m d h n → link (slot_entry d p) = true →
      Reach m d link (DIR_FstClusLO (slot_entry d p))

/-- Directory prefix invariant: in the root region and in every reached part of the chain of
every directory, in scan order, no in-use entry follows a never-used slot. -/
def DirInv (m : FAT16) (d : Disk) : Prop :=
  PrefixIn d (root_slots m)
  ∧ ∀ h n, Reach m d dir_valid h → Walk m d h n → PrefixIn d (chain_slots m d h n)

/-- Well-formed directory chains: the clusters of the chains that the resolver can descend
into have their FAT entries inside one FAT copy, are not marked free, and no cluster occurs
twice, neither in one chain nor in the chains of two different first clusters. -/
structure DirWF (m : FAT16) (d : Disk) : Prop where
  fat_in : ∀ h n j, Reach m d dir_link h → Walk m d h n → j < n → FatIn m (chain_nth m d h j)
  not_free : ∀ h n j, Reach m d dir_link h → Walk m d h n → j < n →
    read_fat_entry m d (chain_nth m d h j) ≠ CLUSTER_FREE
  inj : ∀ h1 h2 j1 j2, Reach m d dir_link h1 → Reach m d dir_link h2 →
    Walk m d h1 (j1 + 1) → Walk m d h2 (j2 + 1) →
    chain_nth m d h1 j1 = chain_nth m d h2 j2 → h1 = h2 ∧ j1 = j2

/-- The name that `fat16_readdir` passes to `filler` for the entry `e` when the array `name`
holds `buf`: the C string written by `to_longname`. -/
def listed_name (e : DIR_ENTRY) (buf : Nat → Nat) : List Nat :=
  ((List.range (to_longname (DIR_Name e) buf MAX_NAME_LEN).1).map
    (to_longname (DIR_Name e) buf MAX_NAME_LEN).2).takeWhile (· != 0)

/-- A scan of the slots `L` for `name` stops at the slot `sl` with state `st`: no slot of `L`
before it is never-used, `sl.dir` caches its bytes, which are not a long-name entry, and
either the state is `FIND_EXIST` and the entry is a match that is not tombstoned, or the
state is `FIND_EMPTY` and the first name byte is `NAME_FREE`. -/
def ScanStop (d : Disk) (u : Uninit) (name : List Nat) (len : Nat) (L : List (Nat × Nat))
    (st : Int) (sl : DirEntrySlot) : Prop :=
  ∃ as bs, L = as ++ (sl.sector, sl.offset) :: bs
    ∧ (∀ a, a ∈ as → never_used (slot_entry d a) = false)
    ∧ sl.dir = slot_entry d (sl.sector, sl.offset) ∧ is_lfn (DIR_Attr sl.dir) = false
    ∧ ((st = FIND_EXIST ∧ is_deleted sl.dir = false ∧ check_name u name len sl.dir = true)
      ∨ (st = FIND_EMPTY ∧ is_free sl.dir = true))

/-- The slot `q` is the first never-used slot of a directory: no slot before it, in the root
region or in the chain of a first cluster that the resolver can descend into, is
never-used. -/
def FirstFree (m : FAT16) (d : Disk) (q : Nat × Nat) : Prop :=
  (∃ as bs, root_slots m = as ++ q :: bs ∧ ∀ a, a ∈ as → never_used (slot_entry d a) = false)
  ∨ ∃ h K as bs, Reach m d dir_link h ∧ Walk m d h (K + 1)
      ∧ chain_slots m d h (K + 1) = as ++ q :: bs
      ∧ ∀ a, a ∈ as → never_used (slot_entry d a) = false

/-- The disk of `fat16_mkdir` after the entry of the new directory has been created in
`slot` on the disk `d1` that `alloc_clusters` left, with first cluster `c`. -/
def mkdir_entry_disk (now : Tm) (d1 : Disk) (u : Uninit) (slot : DirEntrySlot)
    (filename : List Nat) (c : Nat) : Disk :=
  dir_entry_create now d1 slot (to_shortname filename MAX_NAME_LEN u.shortname).2 ATTR_DIRECTORY c
    (2 * DIR_ENTRY_SIZE)

/-- The slot that `fat16_mkdir` passes to `dir_entry_create` for the entry at byte offset
`off` of the new cluster `c`: the look-up result `s` with its location replaced. -/
def mkdir_dot_slot (m : FAT16) (c : Nat) (s : DirEntrySlot) (off : Nat) : DirEntrySlot :=
  { s with sector := first_sector m c, offset := off }

/-- The disk of `fat16_mkdir` after the first entry of the new cluster has been created
from the look-up result `s1`. -/
def mkdir_dot_disk (m : FAT16) (now : Tm) (d2 : Disk) (u : Uninit) (c : Nat)
    (s1 : DirEntrySlot) : Disk :=
  dir_entry_create now d2 (mkdir_dot_slot m c s1 0) (to_shortname DOT_NAME 11 u.name).2
    ATTR_DIRECTORY (DIR_FstClusLO s1.dir) 0

/-- The disk of a result, `d0` when the call faulted. -/
def diskOf (r : Except Fault (Int × Disk)) (d0 : Disk) : Disk :=
  match r with
  | .ok (_, d) => d
  | .error _ => d0
/-! ## Concrete volumes used to exercise the model -/

/-- A sector holding the given bytes, zero elsewhere. -/
def mkSector (bytes : List Nat) : Sector := fun i => bytes.getD i 0

/-- A disk holding the listed sectors, zero elsewhere. -/
def mkDisk (l : List (Nat × List Nat)) : Disk := fun s =>
  match l.lookup s with
  | some bytes => mkSector bytes
  | none => fun _ => 0

/-- A small geometry as `fat16_init` computes it: 64-byte sectors, 2 sectors per cluster
(128-byte clusters), 1 reserved sector, 2 FAT copies of 1 sector, 4 root entries. -/
def demoMeta : FAT16 :=
  { sector_size := 64, sec_per_clus := 2, reserved := 1, fats := 2, dir_entries := 4,
    sectors := 33, sec_per_fat := 1, fat_sec := 1, root_sec := 3, root_sectors := 2,
    data_sec := 5, clusters := 14, cluster_size := 128 }

def zeroSlot : DirEntrySlot := { dir := fun _ => 0, sector := 0, offset := 0 }

/-- Uninitialised locals that happen to hold zero bytes. -/
def demoUninit : Uninit :=
  { fatname := fun _ => 0, slot := zeroSlot, shortname := fun _ => 0, name := fun _ => 0,
    slot_of_subdir := zeroSlot, first_clus := 0 }

/-- Uninitialised locals where `name[11]` of `fat16_mkdir` holds the bytes `AAAAAAAAAAA`. -/
def junkUninit : Uninit := { demoUninit with name := fun _ => 65 }

def demoNow : Tm :=
  { tm_year := 124, tm_mon := 0, tm_mday := 1, tm_hour := 0, tm_min := 0, tm_sec := 0,
    tv_nsec := 0 }

/-- FAT sector with the two reserved entries and the chain 2 → 3 → end. -/
def demoFat : List Nat := [0xF8, 0xFF, 0xFF, 0xFF, 3, 0, 0xFF, 0xFF]

/-- Root entry of the regular file `A` with first cluster 2 and the given size. -/
def demoEntryA (size : Nat) : List Nat :=
  [65, 32, 32, 32, 32, 32, 32, 32, 32, 32, 32, 0x20, 0, 0, 0, 0, 0, 0, 0, 0, 0, 0, 0, 0, 0, 0,
    2, 0, size % 256, size / 256, 0, 0]

/-- A volume whose root holds the single file `/A` of the given size on clusters 2 and 3. -/
def demoDisk (size : Nat) : Disk := mkDisk [(1, demoFat), (2, demoFat), (3, demoEntryA size)]

/-- FAT sector with only the two reserved entries. -/
def emptyFat : List Nat := [0xF8, 0xFF, 0xFF, 0xFF]

/-- A freshly formatted volume: empty root directory, every cluster free. -/
def emptyDisk : Disk := mkDisk [(1, emptyFat), (2, emptyFat)]

/-- The path `/A`. -/
def pathA : List Nat := [47, 65]
/-- The path `/D`. -/
def pathD : List Nat := [47, 68]
/-- The path `/D/B`. -/
def pathDB : List Nat := [47, 68, 47, 66]
/-- The path made of '/' and the single byte 0xE5 (first byte of many UTF-8 encoded names). -/
def pathE5 : List Nat := [47, 0xE5]

/-- The 32 bytes of a directory entry with the given name, attribute, first cluster and
size (timestamps zero). -/
def dirEntry (name : List Nat) (attr clus size : Nat) : List Nat :=
  name ++ [attr, 0, 0, 0, 0, 0, 0, 0, 0, 0, 0, 0, 0, 0, 0, clus % 256, clus / 256,
    size % 256, size / 256 % 256, 0, 0]

/-- FAT sector with the reserved entries and the two one-cluster chains 2 and 3. -/
def demoFatDir : List Nat := [0xF8, 0xFF, 0xFF, 0xFF, 0xFF, 0xFF, 0xFF, 0xFF]
def nameD : List Nat := [68, 32, 32, 32, 32, 32, 32, 32, 32, 32, 32]
def nameB : List Nat := [66, 32, 32, 32, 32, 32, 32, 32, 32, 32, 32]

/-- A volume with the directory `/D` on cluster 2, holding '.', '..' and, in its second
sector, the regular file `B` (10 bytes on cluster 3). -/
def demoDirDisk : Disk :=
  mkDisk [(1, demoFatDir), (2, demoFatDir), (3, dirEntry nameD 0x10 2 64),
    (5, dirEntry DOT_NAME 0x10 2 0 ++ dirEntry DOTDOT_NAME 0x10 0 0),
    (6, dirEntry nameB 0x20 3 10)]

/-- The scenario `mkdir /D; mknod /D/B; rmdir /D; unlink /D/B; rmdir /D` on the freshly
formatted volume: the five return values. -/
def dirScenario (u : Uninit) : Option (Int × Int × Int × Int × Int) :=
  match fat16_mkdir 10 demoMeta demoNow emptyDisk u pathD with
  | .ok (r1, d1) =>
    match fat16_mknod 10 demoMeta demoNow d1 u pathDB with
    | .ok (r2, d2) =>
      match fat16_rmdir 10 demoMeta d2 u pathD with
      | .ok (r3, d3) =>
        match fat16_unlink 10 demoMeta d3 u pathDB with
        | .ok (r4, d4) =>
          match fat16_rmdir 10 demoMeta d4 u pathD with
          | .ok (r5, _) => some (r1, r2, r3, r4, r5)
          | _ => none
        | _ => none
      | _ => none
    | _ => none
  | _ => none


/-- The path `/M/F`. -/
def pathMF : List Nat := [47, 77, 47, 70]
/-- The path `/D/M/F`. -/
def pathDMF : List Nat := [47, 68, 47, 77, 47, 70]

/-- A disk whose bytes are all 0xFF: no FAT entry reads as free. -/
def fullDisk : Disk := fun _ _ => 0xFF

/-- FAT sector (32 entries) in which every cluster from 2 to 30 is marked as the end of a
chain and cluster 31 is free. -/
def nearFullFat : List Nat := [0xF8, 0xFF, 0xFF, 0xFF] ++ List.replicate 58 0xFF

/-- A volume with the file `/A` whose only free cluster inside the FAT is cluster 31. -/
def nearFullDisk : Disk := mkDisk [(1, nearFullFat), (2, nearFullFat), (3, demoEntryA 256)]

/-- The 11-byte short name made of one letter and ten blanks. -/
def shortName (c : Nat) : List Nat := c :: List.replicate 10 32

/-- A volume whose root directory (4 slots) holds the empty regular files `A`, `B`, `C`
and `D`. -/
def fullRootDisk : Disk :=
  mkDisk [(1, emptyFat), (2, emptyFat),
    (3, dirEntry (shortName 65) 0x20 0 0 ++ dirEntry (shortName 66) 0x20 0 0),
    (4, dirEntry (shortName 67) 0x20 0 0 ++ dirEntry (shortName 68) 0x20 0 0)]

/-- The path `/E`. -/
def pathE : List Nat := [47, 69]

/-- A volume whose root directory holds a tombstoned entry, the file `B`, the file `C`
and a never-used slot, in this order. -/
def tombRootDisk : Disk :=
  mkDisk [(1, emptyFat), (2, emptyFat),
    (3, dirEntry (0xE5 :: List.replicate 10 32) 0x20 0 0 ++ dirEntry (shortName 66) 0x20 0 0),
    (4, dirEntry (shortName 67) 0x20 0 0)]

/-- A volume with the directory `/D` on the single cluster 2, whose four slots hold '.',
'..' and the empty regular files `B` and `C`; the clusters from 3 on are free. -/
def fullSubDisk : Disk :=
  mkDisk [(1, demoFatDir.take 6), (2, demoFatDir.take 6), (3, dirEntry nameD 0x10 2 0),
    (5, dirEntry DOT_NAME 0x10 2 0 ++ dirEntry DOTDOT_NAME 0x10 0 0),
    (6, dirEntry (shortName 66) 0x20 0 0 ++ dirEntry (shortName 67) 0x20 0 0)]

/-- The path `/D/E`. -/
def pathDE : List Nat := [47, 68, 47, 69]

/-- The path `/D/./.`. -/
def pathDdd : List Nat := [47, 68, 47, 46, 47, 46]

/-- A '.' entry (directory attribute) with first cluster 3. -/
def dotEntry3 : DIR_ENTRY := mkSector (dirEntry DOT_NAME 0x10 3 0)

/-- An entry with an all-zero name whose byte 12 is 1. -/
def markEntry : DIR_ENTRY := fun i => if i = 12 then 1 else 0

/-- An entry named `B` with the read-only and archive attributes, first cluster 7 and
size 99. -/
def entryB7 : DIR_ENTRY := mkSector (dirEntry nameB 0x21 7 99)

/-- The FAT name `ABCDEFGHTXT` (8-byte base, 3-byte extension). -/
def nameFull : List Nat := [65, 66, 67, 68, 69, 70, 71, 72, 84, 88, 84]

/-- The volume after `mknod /A` on the freshly formatted volume: `/A` has size 0 and first
cluster 0. -/
def newFileDisk : Except Fault (Int × Disk) := fat16_mknod 10 demoMeta demoNow emptyDisk demoUninit pathA

/-- The name `.bashrc`. -/
def nameBashrc : List Nat := [46, 98, 97, 115, 104, 114, 99]

/-- The name `toolongname12345.ext`. -/
def nameTooLong : List Nat :=
  [116, 111, 111, 108, 111, 110, 103, 110, 97, 109, 101, 49, 50, 51, 52, 53, 46, 101, 120, 116]

/-- FAT sector (32 entries) in which each of the clusters 2 to 15 is marked as the end of a
chain and the entries 16 to 31 are zero. -/
def usedFat : List Nat := [0xF8, 0xFF, 0xFF, 0xFF] ++ List.replicate 28 0xFF

/-- A volume with the geometry `demoMeta` (14 clusters, numbers 2 to 15) on which every
cluster is in use. -/
def usedDisk : Disk := mkDisk [(1, usedFat), (2, usedFat), (3, demoEntryA 256)]

/-- The path `/a.b.`. -/
def pathABdot : List Nat := [47, 97, 46, 98, 46]
/-- The path `/a.b`. -/
def pathAB : List Nat := [47, 97, 46, 98]
/-- The path `/m/f`. -/
def pathmf : List Nat := [47, 109, 47, 102]

/-- A disk whose bytes are all zero: every FAT entry reads as free. -/
def blankDisk : Disk := fun _ _ => 0

/-- FAT sector with the two reserved entries and the cycle 2 → 3 → 2. -/
def cycleFat : List Nat := [0xF8, 0xFF, 0xFF, 0xFF, 3, 0, 2, 0]

/-- A volume whose FAT copies hold the cycle 2 → 3 → 2. -/
def cycleDisk : Disk := mkDisk [(1, cycleFat), (2, cycleFat)]


/-- The FAT name whose base holds a NUL byte: `A`, NUL, `B`, blanks. -/
def nameNul : List Nat := [65, 0, 66, 32, 32, 32, 32, 32, 32, 32, 32]

/-- The volume after `mknod /a.b.` on the freshly formatted volume. -/
def dotNameDisk : Disk :=
  diskOf (fat16_mknod 10 demoMeta demoNow emptyDisk demoUninit pathABdot) emptyDisk

/-- The volume after `mknod /M/F` on the freshly formatted volume. -/
def slashNameDisk : Disk :=
  diskOf (fat16_mknod 10 demoMeta demoNow emptyDisk demoUninit pathMF) emptyDisk

/-- FAT sector (32 entries) without a free entry. -/
def fullFat : List Nat := [0xF8, 0xFF, 0xFF, 0xFF] ++ List.replicate 60 0xFF

/-- A volume with an empty root directory whose FAT copies hold no free entry. -/
def noFreeDisk : Disk := mkDisk [(1, fullFat), (2, fullFat)]

/-- The volume after `mkdir /D` on `noFreeDisk`. -/
def aliasDirDisk : Disk :=
  diskOf (fat16_mkdir 10 demoMeta demoNow noFreeDisk demoUninit pathD) noFreeDisk

/-- FAT sector with the reserved entries and the three one-cluster chains 2, 3 and 4. -/
def treeFat : List Nat := [0xF8, 0xFF, 0xFF, 0xFF, 0xFF, 0xFF, 0xFF, 0xFF, 0xFF, 0xFF]
def nameE : List Nat := [69, 32, 32, 32, 32, 32, 32, 32, 32, 32, 32]

/-- A volume with the directory `/D` on cluster 2, holding '.', '..' and the regular file `B`
(10 bytes on cluster 3), and the empty directory `/E` on cluster 4. -/
def treeDisk : Disk :=
  mkDisk [(1, treeFat), (2, treeFat),
    (3, dirEntry nameD 0x10 2 0 ++ dirEntry nameE 0x10 4 0),
    (5, dirEntry DOT_NAME 0x10 2 0 ++ dirEntry DOTDOT_NAME 0x10 0 0),
    (6, dirEntry nameB 0x20 3 10),
    (9, dirEntry DOT_NAME 0x10 4 0 ++ dirEntry DOTDOT_NAME 0x10 0 0)]

/-- The path `/D/C`. -/
def pathDC : List Nat := [47, 68, 47, 67]
/-- The path `/F`. -/
def pathF : List Nat := [47, 70]

/-- The directories of `treeDisk`: first cluster and chain length. -/
def treeDirs : List (Nat × Nat) := [(2, 1), (4, 1), (0, 0)]
/-! # Theorems -/

/-! ## Chains and the emptiness scan of `fat16_rmdir` -/

theorem cluster_first_sector_ok (m : FAT16) (c : Nat) (h : is_cluster_inuse c = true) :
    cluster_first_sector m c = .ok (first_sector m c) := by
  simp [cluster_first_sector, first_sector, h]

theorem rmdir_scan_buffer_true (buffer : Sector) (offs : List Nat) (off : Nat) (hoff : off ∈ offs)
    (h1 : is_dot (entry_at buffer off) = false) (h2 : is_free (entry_at buffer off) = false)
    (h3 : is_deleted (entry_at buffer off) = false) : rmdir_scan_buffer buffer offs = true := by
  induction offs with
  | nil => simp at hoff
  | cons o os ih =>
    unfold rmdir_scan_buffer
    rcases List.mem_cons.mp hoff with h | h
    · subst h
      simp [h1, h2, h3]
    · have := ih h
      simp only [this]
      split <;> simp

theorem rmdir_scan_cluster_true (m : FAT16) (d : Disk) (first_sec : Nat) (k j i off : Nat)
    (hj : j ≤ i) (hi : i < j + k) (hoff : off ∈ dir_offsets m)
    (h1 : is_dot (entry_at (d (first_sec + i)) off) = false)
    (h2 : is_free (entry_at (d (first_sec + i)) off) = false)
    (h3 : is_deleted (entry_at (d (first_sec + i)) off) = false) :
    rmdir_scan_cluster m d first_sec k j = true := by
  induction k generalizing j with
  | zero => omega
  | succ k ih =>
    unfold rmdir_scan_cluster
    by_cases hji : j = i
    · subst hji
      simp [sector_read, rmdir_scan_buffer_true _ _ off hoff h1 h2 h3]
    · have := ih (j + 1) (by omega) (by omega)
      simp [this]

theorem chain_nth_shift (m : FAT16) (d : Disk) (head k : Nat) :
    chain_nth m d head (k + 1) = chain_nth m d (read_fat_entry m d head) k := by
  induction k with
  | zero => rfl
  | succ k ih =>
    show read_fat_entry m d (chain_nth m d head (k + 1)) = _
    rw [ih]
    rfl

theorem rmdir_scan_chain_true (m : FAT16) (d : Disk) (n : Nat) :
    ∀ (fuel head i off : Nat), n < fuel →
    (∀ k ≤ n, is_cluster_inuse (chain_nth m d head k) = true) →
    i < m.sec_per_clus → off ∈ dir_offsets m →
    is_dot (entry_at (d (first_sector m (chain_nth m d head n) + i)) off) = false →
    is_free (entry_at (d (first_sector m (chain_nth m d head n) + i)) off) = false →
    is_deleted (entry_at (d (first_sector m (chain_nth m d head n) + i)) off) = false →
    rmdir_scan_chain m d fuel head = .ok true := by
  induction n with
  | zero =>
    intro fuel head i off hf hin hi hoff h1 h2 h3
    obtain ⟨f, rfl⟩ : ∃ f, fuel = f + 1 := ⟨fuel - 1, by omega⟩
    have h0 := hin 0 (le_refl _)
    simp only [chain_nth] at h0 h1 h2 h3
    unfold rmdir_scan_chain
    simp only [h0, if_true, cluster_first_sector_ok m head h0]
    have := rmdir_scan_cluster_true m d (first_sector m head) m.sec_per_clus 0 i off
      (Nat.zero_le _) (by omega) hoff h1 h2 h3
    simp [this, bind, Except.bind, pure, Except.pure]
  | succ n ih =>
    intro fuel head i off hf hin hi hoff h1 h2 h3
    obtain ⟨f, rfl⟩ : ∃ f, fuel = f + 1 := ⟨fuel - 1, by omega⟩
    have h0 := hin 0 (Nat.zero_le _)
    simp only [chain_nth] at h0
    unfold rmdir_scan_chain
    simp only [h0, if_true, cluster_first_sector_ok m head h0]
    simp only [bind, Except.bind, pure, Except.pure]
    by_cases hc : rmdir_scan_cluster m d (first_sector m head) m.sec_per_clus 0 = true
    · simp [hc]
    · simp only [hc]
      rw [chain_nth_shift] at h1 h2 h3
      exact ih f (read_fat_entry m d head) i off (by omega)
        (fun k hk => by rw [← chain_nth_shift]; exact hin (k + 1) (by omega)) hi hoff h1 h2 h3

/-! ## FAT entries: write then read -/

theorem sector_write_apply (d : Disk) (sec : Nat) (b : Sector) (s : Nat) :
    sector_write d sec b s = if s = sec then b else d s := rfl

theorem store16_idem (b : Nat → Nat) (o v : Nat) : store16 (store16 b o v) o v = store16 b o v := by
  funext i
  simp only [store16]
  split_ifs <;> rfl

theorem load16_store16_same (b : Nat → Nat) (o v : Nat) : load16 (store16 b o v) o = v % 65536 := by
  simp only [load16, store16]
  simp
  omega

theorem load16_store16_other (b : Nat → Nat) (o o' v : Nat) (h : o' + 1 < o ∨ o + 1 < o') :
    load16 (store16 b o v) o' = load16 b o' := by
  simp only [load16, store16]
  have h1 : o' ≠ o := by omega
  have h2 : o' ≠ o + 1 := by omega
  have h3 : o' + 1 ≠ o := by omega
  have h4 : o' + 1 ≠ o + 1 := by omega
  simp [h1, h2, h3, h4]

theorem fat_off_div (m : FAT16) (hg : Geom m) (c : Nat) :
    c * 2 / m.sector_size = c / (m.sector_size / 2) := by
  have h1 := hg.ss_pos
  have h2 := hg.ss_even
  obtain ⟨h, hh⟩ : ∃ h, m.sector_size = 2 * h := ⟨m.sector_size / 2, by omega⟩
  rw [hh]
  have hpos : 0 < h := by omega
  rw [Nat.mul_comm c 2, Nat.mul_div_mul_left _ _ (by norm_num : 0 < 2)]
  simp

theorem fat_off_mod (m : FAT16) (hg : Geom m) (c : Nat) :
    c * 2 % m.sector_size = 2 * (c % (m.sector_size / 2)) := by
  have h1 := hg.ss_pos
  have h2 := hg.ss_even
  obtain ⟨h, hh⟩ : ∃ h, m.sector_size = 2 * h := ⟨m.sector_size / 2, by omega⟩
  rw [hh]
  have hpos : 0 < h := by omega
  rw [Nat.mul_comm c 2, Nat.mul_mod_mul_left]
  simp

/-- Pointwise description of the loop over the FAT copies. -/
theorem write_fat_copies_apply (m : FAT16) (q o v : Nat) (k : Nat) :
    ∀ (i : Nat) (d : Disk) (s : Nat),
      write_fat_copies m q o v k i d s =
        if ∃ t, t < k ∧ s = m.fat_sec + (i + t) * m.sec_per_fat + q then store16 (d s) o v
        else d s := by
  induction k with
  | zero => intro i d s; simp [write_fat_copies]
  | succ k ih =>
    intro i d s
    unfold write_fat_copies
    simp only [ih, sector_read, sector_write_apply]
    by_cases h0 : s = m.fat_sec + i * m.sec_per_fat + q
    · have hex : ∃ t, t < k + 1 ∧ s = m.fat_sec + (i + t) * m.sec_per_fat + q := ⟨0, by omega, by simpa using h0⟩
      rw [if_pos hex]
      subst h0
      simp only [if_true]
      split_ifs
      · rw [store16_idem]
      · rfl
    · simp only [h0, if_false]
      by_cases h1 : ∃ t, t < k ∧ s = m.fat_sec + (i + 1 + t) * m.sec_per_fat + q
      · rw [if_pos h1]
        obtain ⟨t, ht, hs⟩ := h1
        rw [if_pos ⟨t + 1, by omega, by rw [hs]; ring_nf⟩]
      · rw [if_neg h1]
        have : ¬ ∃ t, t < k + 1 ∧ s = m.fat_sec + (i + t) * m.sec_per_fat + q := by
          rintro ⟨t, ht, hs⟩
          rcases t with _ | t
          · exact h0 (by simpa using hs)
          · exact h1 ⟨t, by omega, by rw [hs]; ring_nf⟩
        rw [if_neg this]

theorem write_fat_entry_apply (m : FAT16) (hg : Geom m) (d : Disk) (c v s : Nat) :
    write_fat_entry m d c v s =
      if ∃ t, t < m.fats ∧ s = m.fat_sec + t * m.sec_per_fat + c / (m.sector_size / 2) then
        store16 (d s) (2 * (c % (m.sector_size / 2))) v
      else d s := by
  unfold write_fat_entry
  simp only [write_fat_copies_apply, fat_off_div m hg, fat_off_mod m hg, Nat.zero_add]

/-- A sector outside the FAT region is not changed by `write_fat_entry`. -/
theorem write_fat_entry_outside (m : FAT16) (hg : Geom m) (d : Disk) (c v s : Nat)
    (hc : FatIn m c) (hs : s < m.fat_sec ∨ m.root_sec ≤ s) : write_fat_entry m d c v s = d s := by
  rw [write_fat_entry_apply m hg]
  rw [if_neg]
  rintro ⟨t, ht, rfl⟩
  unfold FatIn at hc
  have := hg.root_eq
  have h3 : (t + 1) * m.sec_per_fat ≤ m.fats * m.sec_per_fat := Nat.mul_le_mul_right _ (by omega)
  rw [Nat.add_mul] at h3
  generalize c / (m.sector_size / 2) = q at *
  omega

theorem read_write_fat_same (m : FAT16) (hg : Geom m) (d : Disk) (c v : Nat) :
    read_fat_entry m (write_fat_entry m d c v) c = v % 65536 := by
  unfold read_fat_entry
  simp only [sector_read, write_fat_entry_apply m hg, fat_off_mod m hg]
  rw [if_pos ⟨0, hg.fats_pos, by simp⟩]
  exact load16_store16_same _ _ _

theorem read_write_fat_other (m : FAT16) (hg : Geom m) (d : Disk) (c c' v : Nat)
    (hne : c' ≠ c) (hc' : FatIn m c') :
    read_fat_entry m (write_fat_entry m d c v) c' = read_fat_entry m d c' := by
  unfold read_fat_entry
  simp only [sector_read, write_fat_entry_apply m hg, fat_off_mod m hg]
  unfold FatIn at hc'
  have hss := hg.ss_pos
  have hev := hg.ss_even
  have hh : 0 < m.sector_size / 2 := by omega
  have e1 := Nat.div_add_mod c' (m.sector_size / 2)
  have e2 := Nat.div_add_mod c (m.sector_size / 2)
  have l1 := Nat.mod_lt c' hh
  have l2 := Nat.mod_lt c hh
  generalize c' / (m.sector_size / 2) = q' at *
  generalize c / (m.sector_size / 2) = q at *
  generalize c' % (m.sector_size / 2) = r' at *
  generalize c % (m.sector_size / 2) = r at *
  split_ifs with h
  · obtain ⟨t, ht, hs⟩ := h
    have ht0 : t = 0 := by
      rcases t with _ | t
      · rfl
      · exfalso
        have : (t + 1) * m.sec_per_fat ≥ m.sec_per_fat := Nat.le_mul_of_pos_left _ (by omega)
        rw [Nat.add_mul] at this hs
        omega
    subst ht0
    have hq : q' = q := by omega
    have hr : r' ≠ r := by
      intro hr
      apply hne
      rw [← e1, ← e2, hq, hr]
    apply load16_store16_other
    omega
  · rfl

/-! ## Sector and cluster transfers -/

theorem zero_sectors_apply (k : Nat) : ∀ (d : Disk) (sec s : Nat),
    zero_sectors d k sec s = if sec ≤ s ∧ s < sec + k then ZERO_SECTOR else d s := by
  induction k with
  | zero => intro d sec s; rw [if_neg (by omega)]; rfl
  | succ k ih =>
    intro d sec s
    unfold zero_sectors
    rw [ih, sector_write_apply]
    by_cases h1 : s = sec
    · subst h1; simp
    · by_cases h2 : sec + 1 ≤ s ∧ s < sec + 1 + k
      · rw [if_pos h2, if_pos (by omega)]
      · rw [if_neg h2, if_neg h1, if_neg (by omega)]

theorem write_sectors_spec (m : FAT16) (hss : 0 < m.sector_size) (size : Nat) (data : Nat → Nat)
    (base : Nat) (fuel : Nat) :
    ∀ (d : Disk) (sec sec_off pos : Nat), sec_off < m.sector_size → pos ≤ size →
      size - pos < fuel →
      write_sectors m size data base fuel d sec sec_off pos
        = .ok (size, written m d sec sec_off data (base + pos) (size - pos)) := by
  induction fuel with
  | zero => intro d sec sec_off pos _ _ h; omega
  | succ fuel ih =>
    intro d sec sec_off pos hso hps hf
    unfold write_sectors
    by_cases hlt : pos < size
    · simp only [hlt, if_true]
      have hlen : 0 < min (m.sector_size - sec_off) (size - pos) := by
        simp only [Nat.lt_min]; omega
      rw [ih _ _ _ _ hss (by omega) (by omega)]
      congr 2
      funext s o
      simp only [written, sector_write_apply, sector_read, memcpy]
      rcases Nat.lt_trichotomy s sec with h | h | h
      · rw [if_neg (by omega), if_neg (by omega), if_neg (by omega)]
      · subst h
        simp only [Nat.sub_self, Nat.zero_mul, Nat.zero_add, if_true]
        rw [if_neg (by omega)]
        simp only [memcpy]
        by_cases hc : sec_off ≤ o ∧ o < sec_off + min (m.sector_size - sec_off) (size - pos)
        · rw [if_pos hc, if_pos (by omega)]
        · rw [if_neg hc, if_neg (by omega)]
      · obtain ⟨k, rfl⟩ : ∃ k, s = sec + 1 + k := ⟨s - sec - 1, by omega⟩
        have e1 : sec + 1 + k - (sec + 1) = k := by omega
        have e2 : sec + 1 + k - sec = k + 1 := by omega
        rw [e1, e2, Nat.succ_mul]
        rw [if_neg (by omega : ¬ (sec + 1 + k = sec))]
        generalize k * m.sector_size = K
        by_cases hc : sec + 1 ≤ sec + 1 + k ∧ o < m.sector_size ∧ 0 ≤ K + o ∧
            K + o < 0 + (size - (pos + min (m.sector_size - sec_off) (size - pos)))
        · rw [if_pos hc, if_pos (by omega)]
          congr 1
          omega
        · rw [if_neg hc, if_neg (by omega)]
    · have : pos = size := by omega
      subst this
      simp only [lt_irrefl, if_false]
      congr 2
      funext s o
      simp only [written]
      rw [if_neg (by omega)]

theorem read_sectors_spec (m : FAT16) (hss : 0 < m.sector_size) (d : Disk) (size base cap : Nat)
    (hcap : base + size ≤ cap) (fuel : Nat) :
    ∀ (sec sec_off pos : Nat) (data : Nat → Nat), sec_off < m.sector_size → pos ≤ size →
      size - pos < fuel →
      read_sectors m d size base cap fuel sec sec_off pos data
        = .ok (fun i => if base + pos ≤ i ∧ i < base + size then
            lin_byte m d sec (sec_off + (i - (base + pos))) else data i) := by
  induction fuel with
  | zero => intro sec sec_off pos data _ _ h; omega
  | succ fuel ih =>
    intro sec sec_off pos data hso hps hf
    unfold read_sectors
    by_cases hlt : pos < size
    · simp only [hlt, if_true]
      have hlen : 0 < min (m.sector_size - sec_off) (size - pos) := by
        simp only [Nat.lt_min]; omega
      rw [if_neg (by omega)]
      rw [ih _ _ _ _ hss (by omega) (by omega)]
      congr 1
      funext i
      simp only [memcpy, sector_read, lin_byte, Nat.zero_add]
      generalize hl : min (m.sector_size - sec_off) (size - pos) = len at hlen
      have hl1 : len ≤ m.sector_size - sec_off := by omega
      have hl2 : len ≤ size - pos := by omega
      by_cases h1 : base + (pos + len) ≤ i ∧ i < base + size
      · rw [if_pos h1, if_pos (by omega)]
        have hfull : len = m.sector_size - sec_off := by omega
        have e : sec_off + (i - (base + pos)) = (i - (base + (pos + len))) + m.sector_size := by omega
        rw [e, Nat.add_div_right _ hss, Nat.add_mod_right]
        congr 1
        omega
      · rw [if_neg h1]
        by_cases h2 : base + pos ≤ i ∧ i < base + pos + len
        · rw [if_pos h2, if_pos (by omega)]
          have hL : sec_off + (i - (base + pos)) < m.sector_size := by omega
          rw [Nat.div_eq_of_lt hL, Nat.mod_eq_of_lt hL]
          rfl
        · rw [if_neg h2, if_neg (by omega)]
    · simp only [hlt, if_false]
      congr 1
      funext i
      rw [if_neg (by omega)]

theorem read_from_cluster_spec (m : FAT16) (hss : 0 < m.sector_size) (d : Disk) (fuel c off : Nat)
    (buf : Nat → Nat) (base cap size : Nat) (hc : is_cluster_inuse c = true)
    (hsz : off + size ≤ m.cluster_size) (hf : size < fuel) (hcap : base + size ≤ cap) :
    read_from_cluster_at_offset fuel m d c off buf base cap size
      = .ok (size, fun i => if base ≤ i ∧ i < base + size then clus_byte m d c (off + (i - base))
          else buf i) := by
  unfold read_from_cluster_at_offset
  simp only [hsz, if_true, cluster_first_sector_ok m c hc, bind, Except.bind, pure, Except.pure]
  rw [read_sectors_spec m hss d size base cap hcap fuel _ _ 0 buf (Nat.mod_lt _ hss)
    (Nat.zero_le _)
    (by omega)]
  simp only [Nat.add_zero]
  congr 2
  funext i
  by_cases h : base ≤ i ∧ i < base + size
  · rw [if_pos h, if_pos h]
    simp only [lin_byte, clus_byte]
    have e : off + (i - base) = off % m.sector_size + (i - base) + m.sector_size * (off / m.sector_size) := by
      have := Nat.div_add_mod off m.sector_size
      omega
    rw [e, Nat.add_mul_div_left _ _ hss, Nat.add_mul_mod_self_left]
    congr 1
    omega
  · rw [if_neg h, if_neg h]

theorem write_to_cluster_spec (m : FAT16) (hss : 0 < m.sector_size) (d : Disk) (fuel c off : Nat)
    (data : Nat → Nat) (base size : Nat) (hc : is_cluster_inuse c = true)
    (hsz : off + size ≤ m.cluster_size) (hf : size < fuel) :
    write_to_cluster_at_offset fuel m d c off data base size
      = .ok (size, clus_written m d c off data base size) := by
  unfold write_to_cluster_at_offset
  simp only [hsz, if_true, cluster_first_sector_ok m c hc, bind, Except.bind, pure, Except.pure]
  rw [write_sectors_spec m hss size data base fuel d _ _ 0 (Nat.mod_lt _ hss) (Nat.zero_le _)
    (by omega)]
  simp only [Nat.add_zero, Nat.sub_zero]
  congr 2
  funext s o
  simp only [written, clus_written]
  have hdm := Nat.div_add_mod off m.sector_size
  have hml := Nat.mod_lt off hss
  generalize first_sector m c = F
  generalize hq : off / m.sector_size = q at hdm
  generalize hr : off % m.sector_size = r at hdm hml
  by_cases hs : F + q ≤ s
  · obtain ⟨k, rfl⟩ : ∃ k, s = F + q + k := ⟨s - (F + q), by omega⟩
    have e1 : F + q + k - (F + q) = k := by omega
    have e2 : F + q + k - F = q + k := by omega
    rw [e1, e2, Nat.add_mul]
    have e3 : q * m.sector_size = m.sector_size * q := Nat.mul_comm _ _
    rw [e3]
    generalize k * m.sector_size = K
    generalize m.sector_size * q = Q at hdm
    by_cases hcnd : F + q ≤ F + q + k ∧ o < m.sector_size ∧ r ≤ K + o ∧ K + o < r + size
    · rw [if_pos hcnd, if_pos (by omega)]
      congr 1
      omega
    · rw [if_neg hcnd, if_neg (by omega)]
  · rw [if_neg (by omega)]
    by_cases hF : F ≤ s
    · obtain ⟨k, rfl⟩ : ∃ k, s = F + k := ⟨s - F, by omega⟩
      have e2 : F + k - F = k := by omega
      rw [e2]
      have hk : k + 1 ≤ q := by omega
      have : (k + 1) * m.sector_size ≤ q * m.sector_size := Nat.mul_le_mul_right _ hk
      rw [Nat.succ_mul] at this
      have e3 : q * m.sector_size = m.sector_size * q := Nat.mul_comm _ _
      rw [e3] at this
      generalize k * m.sector_size = K at *
      generalize m.sector_size * q = Q at *
      rw [if_neg (by omega)]
    · rw [if_neg (by omega)]

/-! ## File positions and chains -/

theorem inuse_ge (c : Nat) (h : is_cluster_inuse c = true) : 2 ≤ c ∧ c ≤ 0xFFEF := by
  simp [is_cluster_inuse, CLUSTER_MIN, CLUSTER_MAX] at h
  exact h

theorem first_sector_lt (m : FAT16) (c1 c2 : Nat) (h1 : 2 ≤ c1) (h : c1 < c2) :
    first_sector m c1 + m.sec_per_clus ≤ first_sector m c2 := by
  unfold first_sector
  have : (c1 - 2 + 1) * m.sec_per_clus ≤ (c2 - 2) * m.sec_per_clus :=
    Nat.mul_le_mul_right _ (by omega)
  rw [Nat.succ_mul] at this
  omega

theorem first_sector_ge (m : FAT16) (c : Nat) : m.data_sec ≤ first_sector m c := by
  unfold first_sector; omega

/-- Sectors of different in-use clusters are different. -/
theorem first_sector_disjoint (m : FAT16) (c1 c2 i1 i2 : Nat) (h1 : 2 ≤ c1) (h2 : 2 ≤ c2)
    (hne : c1 ≠ c2) (hi1 : i1 < m.sec_per_clus) (hi2 : i2 < m.sec_per_clus) :
    first_sector m c1 + i1 ≠ first_sector m c2 + i2 := by
  rcases Nat.lt_or_gt_of_ne hne with h | h
  · have := first_sector_lt m c1 c2 h1 h; omega
  · have := first_sector_lt m c2 c1 h2 h; omega

theorem fat_sector_lt_data (m : FAT16) (hg : Geom m) (c : Nat) (hc : FatIn m c) :
    m.fat_sec + c / (m.sector_size / 2) < m.data_sec := by
  unfold FatIn at hc
  have h1 := hg.root_eq
  have h2 := hg.data_eq
  have h3 := hg.fats_pos
  have : 1 * m.sec_per_fat ≤ m.fats * m.sec_per_fat := Nat.mul_le_mul_right _ h3
  generalize c / (m.sector_size / 2) = q at *
  generalize m.fats * m.sec_per_fat = X at *
  omega

theorem read_fat_entry_congr (m : FAT16) (hg : Geom m) (d d' : Disk) (c : Nat) (hc : FatIn m c)
    (h : ∀ s, s < m.data_sec → d' s = d s) : read_fat_entry m d' c = read_fat_entry m d c := by
  unfold read_fat_entry
  simp only [sector_read]
  rw [h _ (fat_sector_lt_data m hg c hc)]

theorem chain_nth_congr (m : FAT16) (hg : Geom m) (d d' : Disk) (head n : Nat)
    (hfat : ∀ k, k < n → FatIn m (chain_nth m d head k))
    (h : ∀ s, s < m.data_sec → d' s = d s) :
    ∀ k, k ≤ n → chain_nth m d' head k = chain_nth m d head k := by
  intro k
  induction k with
  | zero => intro _; rfl
  | succ k ih =>
    intro hk
    simp only [chain_nth]
    rw [ih (by omega)]
    exact read_fat_entry_congr m hg d d' _ (hfat k (by omega)) h

theorem cluster_walk_spec (m : FAT16) (d : Disk) (hcs : 0 < m.cluster_size) (target head : Nat)
    (fuel : Nat) :
    ∀ j, j ≤ target / m.cluster_size → target / m.cluster_size - j < fuel →
      cluster_walk m d target fuel (j * m.cluster_size) (chain_nth m d head j)
        = .ok (target / m.cluster_size * m.cluster_size,
            chain_nth m d head (target / m.cluster_size)) := by
  induction fuel with
  | zero => intro j _ h; omega
  | succ fuel ih =>
    intro j hj hf
    unfold cluster_walk
    have hdm := Nat.div_add_mod target m.cluster_size
    have hml := Nat.mod_lt target hcs
    by_cases hje : j = target / m.cluster_size
    · subst hje
      have e : m.cluster_size * (target / m.cluster_size) = target / m.cluster_size * m.cluster_size :=
        Nat.mul_comm _ _
      rw [if_pos (by constructor <;> omega)]
    · have hlt : j + 1 ≤ target / m.cluster_size := by omega
      have : (j + 1) * m.cluster_size ≤ target / m.cluster_size * m.cluster_size :=
        Nat.mul_le_mul_right _ hlt
      have e : m.cluster_size * (target / m.cluster_size) = target / m.cluster_size * m.cluster_size :=
        Nat.mul_comm _ _
      rw [Nat.succ_mul] at this
      rw [if_neg (by omega)]
      have := ih (j + 1) hlt (by omega)
      rw [Nat.succ_mul] at this
      exact this

theorem div_cs_lt (m : FAT16) (n q : Nat) (hq : q < n * m.cluster_size) : q / m.cluster_size < n :=
  Nat.div_lt_of_lt_mul (by rw [Nat.mul_comm]; exact hq)

theorem mod_cs_div_lt (m : FAT16) (hg : Geom m) (q : Nat) :
    q % m.cluster_size / m.sector_size < m.sec_per_clus := by
  have hpos : 0 < m.cluster_size := by
    rw [hg.cs_eq]; exact Nat.mul_pos hg.spc_pos hg.ss_pos
  apply Nat.div_lt_of_lt_mul
  have := Nat.mod_lt q hpos
  rw [hg.cs_eq] at this
  rw [Nat.mul_comm]
  rw [hg.cs_eq]
  exact this

theorem cs_pos (m : FAT16) (hg : Geom m) : 0 < m.cluster_size := by
  rw [hg.cs_eq]; exact Nat.mul_pos hg.spc_pos hg.ss_pos

theorem file_loc_inj (m : FAT16) (hg : Geom m) (d : Disk) (head n : Nat) (hc : ChainOK m d head n)
    (q q' : Nat) (hq : q < n * m.cluster_size) (hq' : q' < n * m.cluster_size)
    (hs : file_sector m d head q = file_sector m d head q')
    (ho : file_offset m q = file_offset m q') : q = q' := by
  unfold file_sector at hs
  unfold file_offset at ho
  have ha := div_cs_lt m n q hq
  have ha' := div_cs_lt m n q' hq'
  have hx := mod_cs_div_lt m hg q
  have hx' := mod_cs_div_lt m hg q'
  have hcl : chain_nth m d head (q / m.cluster_size) = chain_nth m d head (q' / m.cluster_size) := by
    by_contra hne
    exact first_sector_disjoint m _ _ _ _ (inuse_ge _ (hc.inuse _ ha)).1
      (inuse_ge _ (hc.inuse _ ha')).1 hne hx hx' hs
  have haa : q / m.cluster_size = q' / m.cluster_size := hc.distinct _ ha _ ha' hcl
  rw [hcl] at hs
  have hdiv : q % m.cluster_size / m.sector_size = q' % m.cluster_size / m.sector_size := by omega
  have hxx : q % m.cluster_size = q' % m.cluster_size := by
    rw [← Nat.div_add_mod (q % m.cluster_size) m.sector_size,
      ← Nat.div_add_mod (q' % m.cluster_size) m.sector_size, hdiv, ho]
  rw [← Nat.div_add_mod q m.cluster_size, ← Nat.div_add_mod q' m.cluster_size, haa, hxx]

/-! ## The write loop of `fat16_write` -/

theorem split_div (c j x : Nat) (h : x < c) : (j * c + x) / c = j := by
  have hc : 0 < c := by omega
  rw [Nat.add_comm, Nat.add_mul_div_right _ _ hc, Nat.div_eq_of_lt h, Nat.zero_add]

theorem split_mod (c j x : Nat) (h : x < c) : (j * c + x) % c = x := by
  rw [Nat.add_comm, Nat.add_mul_mod_self_right, Nat.mod_eq_of_lt h]

theorem clus_written_low (m : FAT16) (d : Disk) (c off : Nat) (data : Nat → Nat) (base size s : Nat)
    (h : s < first_sector m c ∨ first_sector m c + m.sec_per_clus ≤ s)
    (hg : Geom m) (hsz : off + size ≤ m.cluster_size) :
    clus_written m d c off data base size s = d s := by
  funext o
  unfold clus_written
  rw [if_neg]
  rintro ⟨h1, h2, _, h4⟩
  rcases h with h | h
  · omega
  · have : m.sec_per_clus * m.sector_size ≤ (s - first_sector m c) * m.sector_size :=
      Nat.mul_le_mul_right _ (by omega)
    rw [hg.cs_eq] at hsz
    omega

theorem clus_written_FW (m : FAT16) (hg : Geom m) (d0 : Disk) (head : Nat) (data : Nat → Nat)
    (offset : Nat) (d : Disk) (j off base size : Nat) (hsz : off + size ≤ m.cluster_size)
    (hb : base + offset = j * m.cluster_size + off) :
    FileWritten m d0 head data offset d
      (clus_written m d (chain_nth m d0 head j) off data base size)
      (j * m.cluster_size + off) (j * m.cluster_size + off + size) := by
  have hss := hg.ss_pos
  constructor
  · intro q hlo hhi
    obtain ⟨x, rfl⟩ : ∃ x, q = j * m.cluster_size + x := ⟨q - j * m.cluster_size, by omega⟩
    have hx : x < m.cluster_size := by omega
    simp only [file_sector, file_offset, split_div _ _ _ hx, split_mod _ _ _ hx, clus_written]
    have hdm := Nat.div_add_mod x m.sector_size
    have hml := Nat.mod_lt x hss
    have e1 : first_sector m (chain_nth m d0 head j) + x / m.sector_size
        - first_sector m (chain_nth m d0 head j) = x / m.sector_size := Nat.add_sub_cancel_left _ _
    rw [e1]
    have e2 : x / m.sector_size * m.sector_size + x % m.sector_size = x := by
      rw [Nat.mul_comm]; exact hdm
    have hle : first_sector m (chain_nth m d0 head j)
        ≤ first_sector m (chain_nth m d0 head j) + x / m.sector_size := Nat.le_add_right _ _
    rw [e2, if_pos ⟨hle, hml, by omega, by omega⟩]
    congr 1
    omega
  · intro s o hno
    simp only [clus_written]
    rw [if_neg]
    rintro ⟨h1, h2, h3, h4⟩
    generalize hF : first_sector m (chain_nth m d0 head j) = F at *
    obtain ⟨k, rfl⟩ : ∃ k, s = F + k := ⟨s - F, by omega⟩
    have e1 : F + k - F = k := by omega
    rw [e1] at h3 h4
    have hx : k * m.sector_size + o < m.cluster_size := by omega
    apply hno (j * m.cluster_size + (k * m.sector_size + o)) (by omega) (by omega)
    simp [file_sector, file_offset, split_div _ _ _ hx, split_mod _ _ _ hx, hF,
      split_div _ _ _ h2, split_mod _ _ _ h2]

theorem FileWritten_trans (m : FAT16) (hg : Geom m) (d0 : Disk) (head n : Nat)
    (hc : ChainOK m d0 head n) (data : Nat → Nat) (offset : Nat) (d d1 d2 : Disk)
    (lo mid hi : Nat) (hhi : hi ≤ n * m.cluster_size) (hlm : lo ≤ mid) (hmh : mid ≤ hi)
    (h1 : FileWritten m d0 head data offset d d1 lo mid)
    (h2 : FileWritten m d0 head data offset d1 d2 mid hi) :
    FileWritten m d0 head data offset d d2 lo hi := by
  constructor
  · intro q hlo hq
    by_cases hqm : q < mid
    · rw [h2.2 _ _ (fun q' hl' hh' hh => by
        have := file_loc_inj m hg d0 head n hc q q' (by omega) (by omega) hh.1 hh.2
        omega)]
      exact h1.1 q hlo hqm
    · exact h2.1 q (by omega) hq
  · intro s o hno
    rw [h2.2 s o (fun q hl hh => hno q (by omega) hh)]
    exact h1.2 s o (fun q hl hh => hno q hl (by omega))

theorem FileWritten_low (m : FAT16) (d0 : Disk) (head : Nat) (data : Nat → Nat) (offset : Nat)
    (d d' : Disk) (lo hi : Nat) (h : FileWritten m d0 head data offset d d' lo hi) (s : Nat)
    (hs : s < m.data_sec) : d' s = d s := by
  funext o
  apply h.2
  intro q _ _ hh
  have := first_sector_ge m (chain_nth m d0 head (q / m.cluster_size))
  unfold file_sector at hh
  have h1 := hh.1
  generalize q % m.cluster_size / m.sector_size = Q at h1
  omega

theorem write_loop_done (m : FAT16) (data : Nat → Nat) (size end_ fuel : Nat) (d : Disk)
    (p pointer clus dpos : Nat) (h : size ≤ p) :
    write_loop m data size end_ (fuel + 1) d p pointer clus dpos = .ok (p, d) := by
  unfold write_loop
  rw [if_neg (by omega)]

theorem write_loop_spec (m : FAT16) (hg : Geom m) (d0 : Disk) (head n : Nat)
    (hc : ChainOK m d0 head n) (data : Nat → Nat) (size offset : Nat)
    (hend : offset + size ≤ n * m.cluster_size) (fuel : Nat) :
    ∀ (d : Disk) (p j : Nat), p < size → offset + p = j * m.cluster_size →
      (∀ s, s < m.data_sec → d s = d0 s) → size - p + m.cluster_size < fuel →
      ∃ d', write_loop m data size (offset + size) fuel d p (j * m.cluster_size)
          (chain_nth m d0 head j) p = .ok (size, d')
        ∧ FileWritten m d0 head data offset d d' (offset + p) (offset + size)
        ∧ (∀ s, s < m.data_sec → d' s = d0 s) := by
  have hcs := cs_pos m hg
  induction fuel with
  | zero => intro d p j _ _ _ h; omega
  | succ fuel ih =>
    intro d p j hp hpj hlow hf
    have hjn : j < n := by
      have : j * m.cluster_size < n * m.cluster_size := by omega
      exact Nat.lt_of_mul_lt_mul_right this
    have hin := hc.inuse j hjn
    unfold write_loop
    simp only [hp, if_true]
    by_cases hfull : j * m.cluster_size + m.cluster_size < offset + size
    · simp only [hfull, if_true]
      rw [write_to_cluster_spec m hg.ss_pos d fuel _ 0 data p m.cluster_size hin (by omega)
        (by omega)]
      simp only [bind, Except.bind]
      have hlow1 : ∀ s, s < m.data_sec →
          clus_written m d (chain_nth m d0 head j) 0 data p m.cluster_size s = d0 s := by
        intro s hs
        rw [clus_written_low m d _ 0 data p m.cluster_size s
          (Or.inl (by have := first_sector_ge m (chain_nth m d0 head j); omega)) hg (by omega)]
        exact hlow s hs
      have hnext : read_fat_entry m (clus_written m d (chain_nth m d0 head j) 0 data p
          m.cluster_size) (chain_nth m d0 head j) = chain_nth m d0 head (j + 1) := by
        rw [read_fat_entry_congr m hg d0 _ _ (hc.fat_in j hjn) hlow1]
        rfl
      rw [hnext]
      have hfw1 := clus_written_FW m hg d0 head data offset d j 0 p m.cluster_size (by omega)
        (by omega)
      simp only [Nat.add_zero] at hfw1
      have e1 : j * m.cluster_size + m.cluster_size = (j + 1) * m.cluster_size := by
        rw [Nat.succ_mul]
      by_cases hp' : p + m.cluster_size < size
      · obtain ⟨d', hd', hfw, hl⟩ := ih _ (p + m.cluster_size) (j + 1) hp'
          (by rw [Nat.succ_mul]; omega) hlow1 (by omega)
        rw [e1, hd']
        refine ⟨d', rfl, ?_, hl⟩
        rw [← hpj] at hfw1
        exact FileWritten_trans m hg d0 head n hc data offset d _ d' (offset + p)
          (offset + p + m.cluster_size) (offset + size) hend (by omega) (by omega) hfw1
          (by rw [Nat.add_assoc]; exact hfw)
      · exfalso; omega
    · simp only [hfull, if_false]
      rw [write_to_cluster_spec m hg.ss_pos d fuel _ 0 data p (size - p) hin (by omega)
        (by omega)]
      simp only [bind, Except.bind]
      obtain ⟨f, rfl⟩ : ∃ f, fuel = f + 1 := ⟨fuel - 1, by omega⟩
      rw [write_loop_done _ _ _ _ _ _ _ _ _ _ (by omega)]
      have e : p + (size - p) = size := by omega
      rw [e]
      refine ⟨_, rfl, ?_, ?_⟩
      · have hfw1 := clus_written_FW m hg d0 head data offset d j 0 p (size - p) (by omega)
          (by omega)
        simp only [Nat.add_zero] at hfw1
        rw [← hpj] at hfw1
        have e2 : offset + p + (size - p) = offset + size := by omega
        rw [e2] at hfw1
        exact hfw1
      · intro s hs
        rw [clus_written_low m d _ 0 data p (size - p) s
          (Or.inl (by have := first_sector_ge m (chain_nth m d0 head j); omega)) hg (by omega)]
        exact hlow s hs

/-! ## The read loop of `fat16_read` -/

theorem file_byte_eq (m : FAT16) (d : Disk) (head j x : Nat) (hx : x < m.cluster_size) :
    file_byte m d head (j * m.cluster_size + x) = clus_byte m d (chain_nth m d head j) x := by
  simp only [file_byte, file_sector, file_offset, clus_byte, split_div _ _ _ hx,
    split_mod _ _ _ hx]

theorem read_loop_done (m : FAT16) (d : Disk) (size end_pointer cap fuel : Nat)
    (p read_pointer clus : Nat) (buf : Nat → Nat) (bpos : Nat) (h : size ≤ p) :
    read_loop m d size end_pointer cap (fuel + 1) p read_pointer clus buf bpos = .ok (p, buf) := by
  unfold read_loop
  rw [if_neg (by omega)]

theorem read_loop_spec (m : FAT16) (hg : Geom m) (d : Disk) (head n : Nat)
    (hc : ChainOK m d head n) (size offset dd cap : Nat)
    (hend : offset + size ≤ n * m.cluster_size) (hcap : size + dd ≤ cap) (fuel : Nat) :
    ∀ (buf : Nat → Nat) (p j : Nat), p < size → offset + p = j * m.cluster_size →
      dd ≤ offset + p → size - p + m.cluster_size < fuel →
      ∃ pf buf', read_loop m d size (offset + size) cap fuel p (offset + p - dd)
          (chain_nth m d head j) buf p = .ok (pf, buf')
        ∧ size ≤ pf
        ∧ (∀ i, p ≤ i → i < size → buf' i = file_byte m d head (offset + i))
        ∧ (∀ i, i < p → buf' i = buf i) := by
  have hcs := cs_pos m hg
  induction fuel with
  | zero => intro buf p j _ _ _ h; omega
  | succ fuel ih =>
    intro buf p j hp hpj hdd hf
    have hjn : j < n := by
      have : j * m.cluster_size < n * m.cluster_size := by omega
      exact Nat.lt_of_mul_lt_mul_right this
    have hin := hc.inuse j hjn
    unfold read_loop
    simp only [hp, if_true]
    by_cases hfull : offset + p - dd + m.cluster_size < offset + size
    · simp only [hfull, if_true]
      rw [read_from_cluster_spec m hg.ss_pos d fuel _ 0 buf p cap m.cluster_size hin (by omega)
        (by omega) (by omega)]
      simp only [bind, Except.bind]
      have hrp : offset + p - dd + m.cluster_size = offset + (p + m.cluster_size) - dd := by omega
      rw [hrp]
      have hstep : ∀ i, p ≤ i → i < p + m.cluster_size →
          (fun i => if p ≤ i ∧ i < p + m.cluster_size then
            clus_byte m d (chain_nth m d head j) (0 + (i - p)) else buf i) i
            = file_byte m d head (offset + i) := by
        intro i h1 h2
        simp only []
        rw [if_pos ⟨h1, h2⟩]
        have e : offset + i = j * m.cluster_size + (i - p) := by omega
        rw [e, file_byte_eq m d head j (i - p) (by omega), Nat.zero_add]
      by_cases hp' : p + m.cluster_size < size
      · obtain ⟨pf, buf', hr, hpf, hcont, hpre⟩ := ih _ (p + m.cluster_size) (j + 1) hp'
          (by rw [Nat.succ_mul]; omega) (by omega) (by omega)
        have hnext : read_fat_entry m d (chain_nth m d head j) = chain_nth m d head (j + 1) := rfl
        rw [hnext, hr]
        refine ⟨pf, buf', rfl, hpf, ?_, ?_⟩
        · intro i h1 h2
          by_cases hi : p + m.cluster_size ≤ i
          · exact hcont i hi h2
          · rw [hpre i (by omega)]
            exact hstep i h1 (by omega)
        · intro i hi
          rw [hpre i (by omega)]
          show (if p ≤ i ∧ i < p + m.cluster_size then _ else buf i) = buf i
          rw [if_neg (by omega)]
      · obtain ⟨f, rfl⟩ : ∃ f, fuel = f + 1 := ⟨fuel - 1, by omega⟩
        rw [read_loop_done _ _ _ _ _ _ _ _ _ _ _ (by omega)]
        refine ⟨_, _, rfl, by omega, ?_, ?_⟩
        · intro i h1 h2
          exact hstep i h1 (by omega)
        · intro i hi
          show (if p ≤ i ∧ i < p + m.cluster_size then _ else buf i) = buf i
          rw [if_neg (by omega)]
    · simp only [hfull, if_false]
      rw [read_from_cluster_spec m hg.ss_pos d fuel _ 0 buf p cap (size - p) hin (by omega)
        (by omega) (by omega)]
      simp only [bind, Except.bind]
      obtain ⟨f, rfl⟩ : ∃ f, fuel = f + 1 := ⟨fuel - 1, by omega⟩
      rw [read_loop_done _ _ _ _ _ _ _ _ _ _ _ (by omega)]
      refine ⟨_, _, rfl, by omega, ?_, ?_⟩
      · intro i h1 h2
        show (if p ≤ i ∧ i < p + (size - p) then _ else buf i) = _
        rw [if_pos ⟨h1, by omega⟩]
        have e : offset + i = j * m.cluster_size + (i - p) := by omega
        rw [e, file_byte_eq m d head j (i - p) (by omega), Nat.zero_add]
      · intro i hi
        show (if p ≤ i ∧ i < p + (size - p) then _ else buf i) = buf i
        rw [if_neg (by omega)]

/-! ## Path resolution: what a returned slot is -/

theorem find_entry_in_buffer_some (u : Uninit) (name : List Nat) (len : Nat) (buffer : Sector)
    (sec : Nat) (offs : List Nat) (st : Int) (slot : DirEntrySlot)
    (h : find_entry_in_buffer u name len buffer sec offs = some (st, slot)) :
    (st = FIND_EXIST ∨ st = FIND_EMPTY) ∧ slot.sector = sec ∧ slot.offset ∈ offs
      ∧ slot.dir = entry_at buffer slot.offset := by
  induction offs with
  | nil => simp [find_entry_in_buffer] at h
  | cons o os ih =>
    unfold find_entry_in_buffer at h
    simp only [] at h
    split_ifs at h with h1 h2 h3
    · obtain ⟨a, b, c, e⟩ := ih h
      exact ⟨a, b, List.mem_cons_of_mem _ c, e⟩
    · simp only [Option.some.injEq, Prod.mk.injEq] at h
      obtain ⟨rfl, rfl⟩ := h
      exact ⟨Or.inl rfl, rfl, List.mem_cons_self _ _, rfl⟩
    · simp only [Option.some.injEq, Prod.mk.injEq] at h
      obtain ⟨rfl, rfl⟩ := h
      exact ⟨Or.inr rfl, rfl, List.mem_cons_self _ _, rfl⟩
    · obtain ⟨a, b, c, e⟩ := ih h
      exact ⟨a, b, List.mem_cons_of_mem _ c, e⟩

theorem find_entry_in_sectors_loop_some (m : FAT16) (d : Disk) (u : Uninit) (name : List Nat)
    (len from_sector : Nat) (k : Nat) : ∀ (i : Nat) (st : Int) (slot : DirEntrySlot),
    find_entry_in_sectors_loop m d u name len from_sector k i = some (st, slot) →
    (st = FIND_EXIST ∨ st = FIND_EMPTY) ∧ from_sector + i ≤ slot.sector
      ∧ slot.sector < from_sector + i + k ∧ slot.offset ∈ dir_offsets m
      ∧ slot.dir = entry_at (d slot.sector) slot.offset := by
  induction k with
  | zero => intro i st slot h; simp [find_entry_in_sectors_loop] at h
  | succ k ih =>
    intro i st slot h
    unfold find_entry_in_sectors_loop at h
    simp only [sector_read] at h
    cases hb : find_entry_in_buffer u name len (d (from_sector + i)) (from_sector + i)
        (dir_offsets m) with
    | some r =>
      rw [hb] at h
      simp only [Option.some.injEq] at h
      subst h
      obtain ⟨a, b, c, e⟩ := find_entry_in_buffer_some _ _ _ _ _ _ _ _ hb
      refine ⟨a, by omega, by omega, c, ?_⟩
      rw [b]; exact e
    | none =>
      rw [hb] at h
      simp only [] at h
      obtain ⟨a, b, c, e, f⟩ := ih (i + 1) st slot h
      exact ⟨a, by omega, by omega, e, f⟩

/-- What `find_entry_in_sectors` returns: `FIND_FULL` with the slot untouched, or
`FIND_EXIST` / `FIND_EMPTY` with a slot inside the scanned range. -/
theorem find_entry_in_sectors_cases (m : FAT16) (d : Disk) (u : Uninit) (name : List Nat)
    (len from_sector count : Nat) (slot : DirEntrySlot) :
    (find_entry_in_sectors m d u name len from_sector count slot = (FIND_FULL, slot))
    ∨ (∃ st s, find_entry_in_sectors m d u name len from_sector count slot = (st, s)
        ∧ (st = FIND_EXIST ∨ st = FIND_EMPTY) ∧ from_sector ≤ s.sector
        ∧ s.sector < from_sector + count ∧ s.offset ∈ dir_offsets m
        ∧ s.dir = entry_at (d s.sector) s.offset) := by
  unfold find_entry_in_sectors
  cases h : find_entry_in_sectors_loop m d u name len from_sector count 0 with
  | none => left; rfl
  | some r =>
    right
    obtain ⟨st, s⟩ := r
    obtain ⟨a, b, c, e, f⟩ := find_entry_in_sectors_loop_some m d u name len from_sector count 0 st s h
    exact ⟨st, s, rfl, a, by omega, by omega, e, f⟩

theorem SlotAt_mono (m : FAT16) (d : Disk) (V V' : List Nat) (s : DirEntrySlot)
    (h : SlotAt m d V s) (hsub : ∀ c, c ∈ V → c ∈ V') : SlotAt m d V' s := by
  obtain ⟨h1, h2, h3⟩ := h
  refine ⟨h1, h2, ?_⟩
  rcases h3 with h3 | ⟨c, hc, h4⟩
  · exact Or.inl h3
  · exact Or.inr ⟨c, hsub c hc, h4⟩

theorem find_entry_chain_cases (m : FAT16) (d : Disk) (u : Uninit) (name : List Nat) (len : Nat)
    (fuel : Nat) : ∀ (clus : Nat) (state : Int) (slot : DirEntrySlot) (r : Bool) (st : Int)
      (s : DirEntrySlot) (c : Nat),
    find_entry_chain m d u name len fuel clus state slot = .ok (r, st, s, c) →
    r = false ∧ (((st = FIND_EXIST ∨ st = FIND_EMPTY)
        ∧ SlotAt m d (find_entry_chain_visits m d u name len fuel clus slot) s)
      ∨ (s = slot ∧ (st = state ∨ st = FIND_FULL))) := by
  induction fuel with
  | zero => intro clus state slot r st s c h; simp [find_entry_chain] at h
  | succ fuel ih =>
    intro clus state slot r st s c h
    unfold find_entry_chain at h
    unfold find_entry_chain_visits
    by_cases hin : is_cluster_inuse clus = true
    · simp only [hin, if_true, cluster_first_sector_ok m clus hin, bind, Except.bind] at h ⊢
      rcases find_entry_in_sectors_cases m d u name len (first_sector m clus) m.sec_per_clus slot
        with hfull | ⟨st1, s1, he, hst, hlo, hhi, hoff, hdir⟩
      · rw [hfull] at h ⊢
        simp only [FIND_FULL, FIND_EXIST, FIND_EMPTY] at h
        norm_num at h
        simp only [if_true]
        obtain ⟨r1, h1 | h1⟩ := ih _ _ _ _ _ _ _ h
        · exact ⟨r1, Or.inl ⟨h1.1, SlotAt_mono m d _ _ s h1.2
            (fun c hc => List.mem_cons_of_mem _ hc)⟩⟩
        · exact ⟨r1, Or.inr ⟨h1.1, Or.inr (by
            rcases h1.2 with h2 | h2
            · rw [h2]; rfl
            · exact h2)⟩⟩
      · rw [he] at h ⊢
        have hne : ¬ (st1 = FIND_FULL) := by
          rcases hst with h | h <;> simp [h, FIND_EXIST, FIND_EMPTY, FIND_FULL]
        simp only [hne, if_false]
        have hat : SlotAt m d [clus] s1 :=
          ⟨hdir, hoff, Or.inr ⟨clus, List.mem_singleton_self _, hin, hlo, hhi⟩⟩
        rcases hst with hst | hst
        · subst hst
          simp only [FIND_EXIST, FIND_EMPTY, pure, Except.pure] at h
          norm_num at h
          obtain ⟨rfl, rfl, rfl, rfl⟩ := h
          exact ⟨rfl, Or.inl ⟨Or.inl rfl, hat⟩⟩
        · subst hst
          simp only [FIND_EXIST, FIND_EMPTY, pure, Except.pure] at h
          norm_num at h
          obtain ⟨rfl, rfl, rfl, rfl⟩ := h
          exact ⟨rfl, Or.inl ⟨Or.inr rfl, hat⟩⟩
    · simp only [hin, pure, Except.pure] at h
      simp only [Bool.false_eq_true, if_false, Except.ok.injEq, Prod.mk.injEq] at h
      obtain ⟨rfl, rfl, rfl, rfl⟩ := h
      exact ⟨rfl, Or.inr ⟨rfl, Or.inl rfl⟩⟩

theorem find_entry_chain_visits_inuse (m : FAT16) (d : Disk) (u : Uninit) (name : List Nat)
    (len : Nat) (fuel : Nat) : ∀ (clus : Nat) (slot : DirEntrySlot) (c : Nat),
    c ∈ find_entry_chain_visits m d u name len fuel clus slot → is_cluster_inuse c = true := by
  induction fuel with
  | zero => intro clus slot c h; simp [find_entry_chain_visits] at h
  | succ fuel ih =>
    intro clus slot c h
    unfold find_entry_chain_visits at h
    by_cases hin : is_cluster_inuse clus = true
    · simp only [hin, if_true] at h
      split_ifs at h
      · rcases List.mem_cons.mp h with h1 | h1
        · rw [h1]; exact hin
        · exact ih _ _ _ h1
      · rw [List.mem_singleton.mp h]; exact hin
    · simp only [hin] at h
      simp at h

/-- One iteration of the loop of `find_entry_internal`. -/
theorem find_entry_loop_succ (m : FAT16) (d : Disk) (u : Uninit) (fuel : Nat) (remains : List Nat)
    (level clus : Nat) (state : Int) (slot : DirEntrySlot) :
    find_entry_loop m d u (fuel + 1) remains level clus state slot =
      if remains ≠ [] ∧ state = FIND_EXIST then
        if level = 0 then
          if (find_entry_in_sectors m d u remains (strcspn_slash remains) m.root_sec
              m.root_sectors slot).1 ≠ FIND_EXIST then
            .ok ((find_entry_in_sectors m d u remains (strcspn_slash remains) m.root_sec
              m.root_sectors slot).1, (find_entry_in_sectors m d u remains (strcspn_slash remains)
              m.root_sec m.root_sectors slot).2, remains)
          else find_entry_finish m d u fuel remains level clus
            (find_entry_in_sectors m d u remains (strcspn_slash remains) m.root_sec
              m.root_sectors slot).1
            (find_entry_in_sectors m d u remains (strcspn_slash remains) m.root_sec
              m.root_sectors slot).2
        else
          match find_entry_chain m d u remains (strcspn_slash remains) fuel clus state slot with
          | .error e => .error e
          | .ok (returned, st, s, c) =>
            if returned then .ok (st, s, remains)
            else find_entry_finish m d u fuel remains level c st s
      else .ok (state, slot, remains) := by
  rw [find_entry_loop]
  by_cases hc : remains ≠ [] ∧ state = FIND_EXIST
  · rw [if_pos hc, if_pos hc]
    by_cases hl : level = 0
    · rw [if_pos hl, if_pos hl]
      dsimp only
      by_cases h1 : (find_entry_in_sectors m d u remains (strcspn_slash remains) m.root_sec
              m.root_sectors slot).1 = FIND_EXIST
      · simp only [h1, ne_eq, not_true_eq_false, if_false, and_false, if_true,
          find_entry_finish, Bool.not_eq_true', pure, Except.pure]
      · simp only [h1, ne_eq, not_false_eq_true, if_true, pure, Except.pure]
    · rw [if_neg hl, if_neg hl]
      cases hch : find_entry_chain m d u remains (strcspn_slash remains) fuel clus state slot with
      | error e => rfl
      | ok r =>
        obtain ⟨returned, st, s, c⟩ := r
        simp only [bind, Except.bind]
        by_cases hr : returned = true
        · simp only [hr, if_true, pure, Except.pure]
        · simp only [hr, if_false, Bool.false_eq_true]
          by_cases h1 : st = FIND_EXIST
          · simp only [h1, ne_eq, not_true_eq_false, if_false, and_false, if_true,
              find_entry_finish, Bool.not_eq_true', pure, Except.pure]
          · simp only [h1, ne_eq, not_false_eq_true, if_true, if_false, and_true,
              find_entry_finish, pure, Except.pure]
            split_ifs <;> first | rfl | (exfalso; simp_all)
  · rw [if_neg hc, if_neg hc]
    rfl

theorem find_entry_visits_succ (m : FAT16) (d : Disk) (u : Uninit) (fuel : Nat)
    (remains : List Nat) (level clus : Nat) (state : Int) (slot : DirEntrySlot) :
    find_entry_visits m d u (fuel + 1) remains level clus state slot =
      if remains ≠ [] ∧ state = FIND_EXIST then
        if level = 0 then
          if (find_entry_in_sectors m d u remains (strcspn_slash remains) m.root_sec
              m.root_sectors slot).1 = FIND_EXIST then
            find_entry_finish_visits m d u fuel remains level clus
              (find_entry_in_sectors m d u remains (strcspn_slash remains) m.root_sec
                m.root_sectors slot).1
              (find_entry_in_sectors m d u remains (strcspn_slash remains) m.root_sec
                m.root_sectors slot).2
          else []
        else
          find_entry_chain_visits m d u remains (strcspn_slash remains) fuel clus slot ++
          match find_entry_chain m d u remains (strcspn_slash remains) fuel clus state slot with
          | .error _ => []
          | .ok (returned, st, s, c) =>
            if returned then [] else find_entry_finish_visits m d u fuel remains level c st s
      else [] := by
  rw [find_entry_visits]
  by_cases hc : remains ≠ [] ∧ state = FIND_EXIST
  · rw [if_pos hc, if_pos hc]
    by_cases hl : level = 0
    · rw [if_pos hl, if_pos hl]
      dsimp only
      by_cases h1 : (find_entry_in_sectors m d u remains (strcspn_slash remains) m.root_sec
              m.root_sectors slot).1 = FIND_EXIST
      · simp only [h1, if_true, find_entry_finish_visits]
      · simp only [h1, if_false]
    · rw [if_neg hl, if_neg hl]
      rfl
  · rw [if_neg hc, if_neg hc]

theorem find_entry_loop_slot (m : FAT16) (d : Disk) (u : Uninit) (fuel : Nat) :
    ∀ (remains : List Nat) (level clus : Nat) (state : Int) (slot : DirEntrySlot) (ret : Int)
      (s : DirEntrySlot) (rem : List Nat) (W : List Nat),
    (SlotAt m d W slot ∨ (level = 0 ∧ remains ≠ [])) →
    find_entry_loop m d u fuel remains level clus state slot = .ok (ret, s, rem) →
    ret = FIND_EXIST →
    SlotAt m d (W ++ find_entry_visits m d u fuel remains level clus state slot) s := by
  induction fuel with
  | zero => intro remains level clus state slot ret s rem W _ h; simp [find_entry_loop] at h
  | succ fuel ih =>
    intro remains level clus state slot ret s rem W hinv h hret
    have hfin : ∀ (lv c : Nat) (st : Int) (s1 : DirEntrySlot) (W1 : List Nat), SlotAt m d W1 s1 →
        find_entry_finish m d u fuel remains lv c st s1 = .ok (ret, s, rem) →
        SlotAt m d (W1 ++ find_entry_finish_visits m d u fuel remains lv c st s1) s := by
      intro lv c st s1 W1 hat hf
      unfold find_entry_finish at hf
      unfold find_entry_finish_visits
      dsimp only at hf ⊢
      split_ifs at hf with h1 h2 h3
      · simp only [Except.ok.injEq, Prod.mk.injEq] at hf
        rw [← hf.1] at hret
        simp [FIND_EXIST, ENOTDIR] at hret
      · rw [if_pos h1, if_neg h2]
        exact ih _ _ _ _ _ _ _ _ _ (Or.inl hat) hf hret
      · simp only [Except.ok.injEq, Prod.mk.injEq] at hf
        rw [← hf.1] at hret
        simp [FIND_EXIST, ENOENT] at hret
      · rw [if_neg h1, if_neg h3]
        exact ih _ _ _ _ _ _ _ _ _ (Or.inl hat) hf hret
    rw [find_entry_loop_succ] at h
    rw [find_entry_visits_succ]
    by_cases hc : remains ≠ [] ∧ state = FIND_EXIST
    · rw [if_pos hc] at h
      rw [if_pos hc]
      by_cases hl : level = 0
      · rw [if_pos hl] at h
        rw [if_pos hl]
        rcases find_entry_in_sectors_cases m d u remains (strcspn_slash remains) m.root_sec
          m.root_sectors slot with hfull | ⟨st1, s1, he, hst, hlo, hhi, hoff, hdir⟩
        · rw [hfull] at h
          rw [if_pos (by simp [FIND_FULL, FIND_EXIST])] at h
          simp only [Except.ok.injEq, Prod.mk.injEq] at h
          rw [← h.1] at hret
          simp [FIND_EXIST, FIND_FULL] at hret
        · rw [he] at h ⊢
          have hat : SlotAt m d W s1 := ⟨hdir, hoff, Or.inl ⟨hlo, hhi⟩⟩
          dsimp only at h ⊢
          split_ifs at h with h1
          · simp only [Except.ok.injEq, Prod.mk.injEq] at h
            exact absurd (h.1.trans hret) h1
          · rw [if_pos (by simpa using h1)]
            exact hfin _ _ _ _ _ hat h
      · rw [if_neg hl] at h
        rw [if_neg hl]
        have hat0 : SlotAt m d W slot := by
          rcases hinv with h1 | h1
          · exact h1
          · exact absurd h1.1 hl
        cases hch : find_entry_chain m d u remains (strcspn_slash remains) fuel clus state slot with
        | error e => rw [hch] at h; simp at h
        | ok r =>
          obtain ⟨r1, st1, s1, c1⟩ := r
          rw [hch] at h
          obtain ⟨hr, hcase⟩ := find_entry_chain_cases m d u _ _ fuel _ _ _ _ _ _ _ hch
          subst hr
          have hat : SlotAt m d (W ++ find_entry_chain_visits m d u remains
              (strcspn_slash remains) fuel clus slot) s1 := by
            rcases hcase with h1 | h1
            · exact SlotAt_mono m d _ _ s1 h1.2 (fun c hc => List.mem_append_right _ hc)
            · rw [h1.1]
              exact SlotAt_mono m d _ _ slot hat0 (fun c hc => List.mem_append_left _ hc)
          dsimp only at h ⊢
          rw [if_neg (by simp)] at h
          rw [if_neg (by simp), ← List.append_assoc]
          exact hfin _ _ _ _ _ hat h
    · rw [if_neg hc] at h
      rw [if_neg hc]
      simp only [Except.ok.injEq, Prod.mk.injEq] at h
      obtain ⟨rfl, rfl, rfl⟩ := h
      rcases hinv with h1 | h1
      · exact SlotAt_mono m d _ _ _ h1 (fun c hc => List.mem_append_left _ hc)
      · exact absurd ⟨h1.2, hret⟩ hc

/-- A successful `find_entry` of a non-root path returns the location of an entry of the
volume, in the root region or in one of the directory clusters it scanned, together with
a copy of its bytes. -/
theorem find_entry_slot (fuel : Nat) (m : FAT16) (d : Disk) (u : Uninit) (path : List Nat)
    (slot0 slot : DirEntrySlot) (hroot : path_is_root path = false)
    (h : find_entry fuel m d u path slot0 = .ok (0, slot)) :
    SlotAt m d (find_entry_clusters fuel m d u path slot0) slot := by
  unfold find_entry find_entry_internal at h
  unfold find_entry_clusters
  cases hl : find_entry_loop m d u fuel (skip_slashes path) 0 CLUSTER_END FIND_EXIST slot0 with
  | error e => rw [hl] at h; simp [bind, Except.bind] at h
  | ok r =>
    obtain ⟨ret, s, rem⟩ := r
    rw [hl] at h
    simp only [bind, Except.bind] at h
    have hne : skip_slashes path ≠ [] := by
      intro he
      simp [path_is_root, he] at hroot
    split_ifs at h with h1 h2
    · simp only [pure, Except.pure, Except.ok.injEq, Prod.mk.injEq] at h
      omega
    · simp only [pure, Except.pure, Except.ok.injEq, Prod.mk.injEq] at h
      rw [← h.2]
      have := find_entry_loop_slot m d u fuel _ _ _ _ _ _ _ _ [] (Or.inr ⟨rfl, hne⟩) hl h2
      simpa using this
    · simp only [pure, Except.pure, Except.ok.injEq, Prod.mk.injEq, ENOENT] at h
      omega

/-! ## Path resolution depends only on names, attributes and directory links -/

theorem strncmp_eq_congr (a b b' : Nat → Nat) (n : Nat) : ∀ (start : Nat),
    (∀ i, start ≤ i → i < start + n → b' i = b i) →
    strncmp_eq a b' n start = strncmp_eq a b n start := by
  induction n with
  | zero => intro start _; rfl
  | succ n ih =>
    intro start h
    unfold strncmp_eq
    rw [h start (le_refl _) (by omega), ih (start + 1) (fun i h1 h2 => h i (by omega) (by omega))]

theorem check_name_congr (u : Uninit) (name : List Nat) (len : Nat) (e e' : DIR_ENTRY)
    (h : ∀ i, i < 11 → e' i = e i) : check_name u name len e' = check_name u name len e := by
  unfold check_name
  dsimp only
  exact strncmp_eq_congr _ _ _ _ 0 (fun i _ h2 => by
    unfold DIR_Name; simp only [FAT_NAME_LEN] at h2; exact h i (by omega))

theorem find_entry_in_buffer_sim (u : Uninit) (name : List Nat) (len : Nat) (b b' : Sector)
    (sec : Nat) (offs : List Nat)
    (h : ∀ off, off ∈ offs → ∀ i, i < 12 → b' (off + i) = b (off + i)) :
    find_entry_in_buffer u name len b' sec offs
      = (find_entry_in_buffer u name len b sec offs).map
          (fun r => (r.1, { r.2 with dir := entry_at b' r.2.offset })) := by
  induction offs with
  | nil => rfl
  | cons o os ih =>
    have ih' := ih (fun off ho => h off (List.mem_cons_of_mem _ ho))
    have ho := h o (List.mem_cons_self _ _)
    unfold find_entry_in_buffer
    dsimp only
    have hattr : DIR_Attr (entry_at b' o) = DIR_Attr (entry_at b o) := by
      simp only [DIR_Attr, entry_at, DIR_ENTRY_SIZE]; norm_num; exact ho 11 (by omega)
    have hn0 : DIR_Name (entry_at b' o) 0 = DIR_Name (entry_at b o) 0 := by
      simp only [DIR_Name, entry_at, DIR_ENTRY_SIZE]; norm_num; exact ho 0 (by omega)
    have hck : check_name u name len (entry_at b' o) = check_name u name len (entry_at b o) :=
      check_name_congr u name len _ _ (fun i hi => by
        simp only [entry_at, DIR_ENTRY_SIZE]
        rw [if_pos (by omega), if_pos (by omega)]
        exact ho i (by omega))
    simp only [hattr, is_deleted, is_free, hn0, hck]
    split_ifs <;> first | exact ih' | rfl

theorem find_entry_in_sectors_loop_sim (m : FAT16) (d d' : Disk) (u : Uninit) (name : List Nat)
    (len from_sector : Nat) (k : Nat) : ∀ (i : Nat),
    (∀ t, i ≤ t → t < i + k → BufSim m (d (from_sector + t)) (d' (from_sector + t))) →
    find_entry_in_sectors_loop m d' u name len from_sector k i
      = (find_entry_in_sectors_loop m d u name len from_sector k i).map
          (fun r => (r.1, { r.2 with dir := entry_at (d' r.2.sector) r.2.offset })) := by
  induction k with
  | zero => intro i _; rfl
  | succ k ih =>
    intro i h
    unfold find_entry_in_sectors_loop
    simp only [sector_read]
    have hb := find_entry_in_buffer_sim u name len (d (from_sector + i)) (d' (from_sector + i))
      (from_sector + i) (dir_offsets m) (fun off ho => (h i (le_refl _) (by omega) off ho).1)
    rw [hb]
    cases hf : find_entry_in_buffer u name len (d (from_sector + i)) (from_sector + i)
        (dir_offsets m) with
    | some r =>
      obtain ⟨st, s⟩ := r
      obtain ⟨_, hsec, _, _⟩ := find_entry_in_buffer_some _ _ _ _ _ _ _ _ hf
      simp only [Option.map_some', hsec]
    | none =>
      simp only [Option.map_none']
      exact ih (i + 1) (fun t h1 h2 => h t (by omega) (by omega))

theorem find_entry_in_sectors_sim (m : FAT16) (d d' : Disk) (u : Uninit) (name : List Nat)
    (len from_sector count : Nat) (slot slot' : DirEntrySlot) (hs : SlotSim slot slot')
    (h : ∀ t, t < count → BufSim m (d (from_sector + t)) (d' (from_sector + t))) :
    (find_entry_in_sectors m d' u name len from_sector count slot').1
        = (find_entry_in_sectors m d u name len from_sector count slot).1
    ∧ SlotSim (find_entry_in_sectors m d u name len from_sector count slot).2
        (find_entry_in_sectors m d' u name len from_sector count slot').2 := by
  unfold find_entry_in_sectors
  rw [find_entry_in_sectors_loop_sim m d d' u name len from_sector count 0
    (fun t _ h2 => h t (by omega))]
  cases hf : find_entry_in_sectors_loop m d u name len from_sector count 0 with
  | none => exact ⟨rfl, hs⟩
  | some r =>
    obtain ⟨st, s⟩ := r
    obtain ⟨_, hlo, hhi, hoff, hdir⟩ :=
      find_entry_in_sectors_loop_some m d u name len from_sector count 0 st s hf
    simp only [Option.map_some']
    obtain ⟨t, ht⟩ : ∃ t, s.sector = from_sector + t := ⟨s.sector - from_sector, by omega⟩
    have hb := h t (by omega) s.offset hoff
    refine ⟨trivial, rfl, rfl, ?_, ?_⟩
    · show DIR_Attr (entry_at (d' s.sector) s.offset) = DIR_Attr s.dir
      rw [hdir, ht]
      simp only [DIR_Attr, entry_at, DIR_ENTRY_SIZE]
      norm_num
      exact hb.1 11 (by omega)
    · intro hd
      show DIR_FstClusLO (entry_at (d' s.sector) s.offset) = DIR_FstClusLO s.dir
      rw [hdir] at hd ⊢
      rw [ht] at hd ⊢
      apply hb.2
      simp only [DIR_Attr, entry_at, DIR_ENTRY_SIZE] at hd
      norm_num at hd
      exact hd

theorem find_entry_chain_sim (m : FAT16) (d d' : Disk) (u : Uninit) (name : List Nat) (len : Nat)
    (fuel : Nat) : ∀ (clus : Nat) (state : Int) (slot slot' : DirEntrySlot), SlotSim slot slot' →
    (∀ c, c ∈ find_entry_chain_visits m d u name len fuel clus slot →
      (∀ i, i < m.sec_per_clus →
        BufSim m (d (first_sector m c + i)) (d' (first_sector m c + i)))
      ∧ read_fat_entry m d' c = read_fat_entry m d c) →
    ChainResSim (find_entry_chain m d u name len fuel clus state slot)
      (find_entry_chain m d' u name len fuel clus state slot') := by
  induction fuel with
  | zero => intro clus state slot slot' _ _; simp [find_entry_chain, ChainResSim]
  | succ fuel ih =>
    intro clus state slot slot' hs hv
    unfold find_entry_chain
    unfold find_entry_chain_visits at hv
    by_cases hin : is_cluster_inuse clus = true
    · simp only [hin, if_true, cluster_first_sector_ok m clus hin, bind, Except.bind] at hv ⊢
      have hself : clus ∈ (if (find_entry_in_sectors m d u name len (first_sector m clus)
          m.sec_per_clus slot).1 = FIND_FULL then
            clus :: find_entry_chain_visits m d u name len fuel (read_fat_entry m d clus)
              (find_entry_in_sectors m d u name len (first_sector m clus)
                m.sec_per_clus slot).2
          else [clus]) := by
        split_ifs <;> simp
      obtain ⟨hbuf, hfat⟩ := hv clus hself
      obtain ⟨hst, hss⟩ := find_entry_in_sectors_sim m d d' u name len (first_sector m clus)
        m.sec_per_clus slot slot' hs hbuf
      generalize find_entry_in_sectors m d' u name len (first_sector m clus) m.sec_per_clus
        slot' = r' at hst hss
      obtain ⟨st', s'⟩ := r'
      simp only at hst hss
      subst hst
      rcases find_entry_in_sectors_cases m d u name len (first_sector m clus) m.sec_per_clus slot
        with hfull | ⟨st1, s1, he, hst1, _, _, _, _⟩
      · rw [hfull] at hss hv ⊢
        simp only [if_true] at hv
        have h1 : ¬ (FIND_FULL < 0) := by simp [FIND_FULL]
        have h2 : ¬ (FIND_FULL = FIND_EXIST ∨ FIND_FULL = FIND_EMPTY) := by
          simp [FIND_FULL, FIND_EXIST, FIND_EMPTY]
        simp only [h1, h2, if_false]
        rw [hfat]
        exact ih _ _ _ _ hss (fun c hc => hv c (List.mem_cons_of_mem _ hc))
      · rw [he] at hss ⊢
        have h1 : ¬ (st1 < 0) := by
          rcases hst1 with h | h <;> simp [h, FIND_EXIST, FIND_EMPTY]
        simp only [h1, hst1, if_false, if_true, pure, Except.pure, ChainResSim]
        exact ⟨trivial, trivial, trivial, hss⟩
    · simp only [hin, pure, Except.pure, ChainResSim]
      simp only [Bool.false_eq_true, if_false]
      exact ⟨trivial, trivial, trivial, hs⟩

theorem DirSim_mono (m : FAT16) (d d' : Disk) (V V' : List Nat) (h : DirSim m d d' V)
    (hsub : ∀ c, c ∈ V' → c ∈ V) : DirSim m d d' V' :=
  ⟨h.1, fun c hc => h.2 c (hsub c hc)⟩

theorem find_entry_loop_sim (m : FAT16) (d d' : Disk) (u : Uninit) (fuel : Nat) :
    ∀ (remains : List Nat) (level clus clus' : Nat) (state : Int) (slot slot' : DirEntrySlot),
    SlotSim slot slot' → (remains ≠ [] → clus' = clus) →
    DirSim m d d' (find_entry_visits m d u fuel remains level clus state slot) →
    ResSim (find_entry_loop m d u fuel remains level clus state slot)
      (find_entry_loop m d' u fuel remains level clus' state slot') := by
  induction fuel with
  | zero =>
    intro remains level clus clus' state slot slot' _ _ _
    simp [find_entry_loop, ResSim]
  | succ fuel ih =>
    intro remains level clus clus' state slot slot' hs hcl hv
    have hfin : ∀ (lv c c' : Nat) (st : Int) (s s' : DirEntrySlot), SlotSim s s' →
        (st ≠ FIND_EXIST → c' = c) →
        DirSim m d d' (find_entry_finish_visits m d u fuel remains lv c st s) →
        ResSim (find_entry_finish m d u fuel remains lv c st s)
          (find_entry_finish m d' u fuel remains lv c' st s') := by
      intro lv c c' st s s' hss hcc hvf
      unfold find_entry_finish
      unfold find_entry_finish_visits at hvf
      dsimp only at hvf ⊢
      rw [hss.2.2.1]
      by_cases hst : st = FIND_EXIST
      · rw [if_pos hst] at hvf
        rw [if_pos hst, if_pos hst]
        by_cases h1 : skip_slashes (List.drop (strcspn_slash remains) remains) ≠ []
            ∧ is_directory (DIR_Attr s.dir) = false
        · rw [if_pos h1, if_pos h1]
          exact ⟨rfl, rfl, hss⟩
        · rw [if_neg h1] at hvf
          rw [if_neg h1, if_neg h1]
          apply ih _ _ _ _ _ _ _ hss _ hvf
          intro hne
          apply hss.2.2.2
          by_contra hd
          exact h1 ⟨hne, by simpa using hd⟩
      · rw [if_neg hst] at hvf
        rw [if_neg hst, if_neg hst]
        by_cases h1 : skip_slashes (List.drop (strcspn_slash remains) remains) ≠ []
        · rw [if_pos h1, if_pos h1]
          exact ⟨rfl, rfl, hss⟩
        · rw [if_neg h1] at hvf
          rw [if_neg h1, if_neg h1]
          exact ih _ _ _ _ _ _ _ hss (fun _ => hcc hst) hvf
    rw [find_entry_loop_succ, find_entry_loop_succ]
    rw [find_entry_visits_succ] at hv
    by_cases hc : remains ≠ [] ∧ state = FIND_EXIST
    · rw [if_pos hc] at hv
      rw [if_pos hc, if_pos hc]
      have hcl' := hcl hc.1
      subst hcl'
      by_cases hl : level = 0
      · rw [if_pos hl] at hv
        rw [if_pos hl, if_pos hl]
        obtain ⟨hst, hss⟩ := find_entry_in_sectors_sim m d d' u remains (strcspn_slash remains)
          m.root_sec m.root_sectors slot slot' hs hv.1
        rw [hst]
        by_cases h1 : (find_entry_in_sectors m d u remains (strcspn_slash remains) m.root_sec
              m.root_sectors slot).1 = FIND_EXIST
        · rw [if_pos h1] at hv
          rw [if_neg (by simpa using h1), if_neg (by simpa using h1)]
          exact hfin _ _ _ _ _ _ hss (fun h => absurd h1 h) hv
        · rw [if_pos h1, if_pos h1]
          exact ⟨rfl, rfl, hss⟩
      · rw [if_neg hl] at hv
        rw [if_neg hl, if_neg hl]
        have hch := find_entry_chain_sim m d d' u remains (strcspn_slash remains) fuel clus'
          state slot slot' hs (fun c hc => hv.2 c (List.mem_append_left _ hc))
        cases h1 : find_entry_chain m d u remains (strcspn_slash remains) fuel clus' state slot with
        | error e =>
          rw [h1] at hch
          cases h2 : find_entry_chain m d' u remains (strcspn_slash remains) fuel clus' state
              slot' with
          | error e' => rw [h2] at hch; exact hch
          | ok r' => rw [h2] at hch; exact hch.elim
        | ok r =>
          rw [h1] at hch hv
          obtain ⟨b, st, s, c⟩ := r
          cases h2 : find_entry_chain m d' u remains (strcspn_slash remains) fuel clus' state
              slot' with
          | error e' => rw [h2] at hch; exact hch.elim
          | ok r' =>
            rw [h2] at hch
            obtain ⟨b', st', s', c'⟩ := r'
            obtain ⟨rfl, rfl, rfl, hss⟩ := hch
            dsimp only at hv ⊢
            by_cases hb : b' = true
            · rw [if_pos hb, if_pos hb]
              exact ⟨rfl, rfl, hss⟩
            · rw [if_neg hb] at hv
              rw [if_neg hb, if_neg hb]
              exact hfin _ _ _ _ _ _ hss (fun _ => rfl)
                (DirSim_mono m d d' _ _ hv (fun c hc => List.mem_append_right _ hc))
    · rw [if_neg hc, if_neg hc]
      exact ⟨rfl, rfl, hs⟩

theorem find_entry_visits_inuse (m : FAT16) (d : Disk) (u : Uninit) (fuel : Nat) :
    ∀ (remains : List Nat) (level clus : Nat) (state : Int) (slot : DirEntrySlot) (c : Nat),
    c ∈ find_entry_visits m d u fuel remains level clus state slot →
    is_cluster_inuse c = true := by
  induction fuel with
  | zero => intro remains level clus state slot c h; simp [find_entry_visits] at h
  | succ fuel ih =>
    intro remains level clus state slot c h
    have hfin : ∀ (lv c1 : Nat) (st : Int) (s1 : DirEntrySlot),
        c ∈ find_entry_finish_visits m d u fuel remains lv c1 st s1 →
        is_cluster_inuse c = true := by
      intro lv c1 st s1 hf
      unfold find_entry_finish_visits at hf
      dsimp only at hf
      split_ifs at hf
      · simp at hf
      · exact ih _ _ _ _ _ _ hf
      · simp at hf
      · exact ih _ _ _ _ _ _ hf
    rw [find_entry_visits_succ] at h
    split_ifs at h with h1 h2 h3
    · exact hfin _ _ _ _ h
    · simp at h
    · rcases List.mem_append.mp h with h4 | h4
      · exact find_entry_chain_visits_inuse m d u _ _ fuel _ _ _ h4
      · cases hch : find_entry_chain m d u remains (strcspn_slash remains) fuel clus state slot with
        | error e => rw [hch] at h4; simp at h4
        | ok r =>
          obtain ⟨b, st, s, c1⟩ := r
          rw [hch] at h4
          dsimp only at h4
          split_ifs at h4
          · simp at h4
          · exact hfin _ _ _ _ h4
    · simp at h

theorem BufSim_refl (m : FAT16) (b : Sector) : BufSim m b b :=
  fun _ _ => ⟨fun _ _ => rfl, fun _ => rfl⟩

/-- Frame rule for `find_entry`: on a disk that looks the same to the resolution, a
successful `find_entry` succeeds again, at the same location, and caches the bytes
that the new disk holds there. -/
theorem find_entry_sim (fuel : Nat) (m : FAT16) (d d' : Disk) (u : Uninit) (path : List Nat)
    (slot0 slot : DirEntrySlot) (hroot : path_is_root path = false)
    (hv : DirSim m d d' (find_entry_clusters fuel m d u path slot0))
    (h : find_entry fuel m d u path slot0 = .ok (0, slot)) :
    find_entry fuel m d' u path slot0
      = .ok (0, { dir := entry_at (d' slot.sector) slot.offset, sector := slot.sector,
                  offset := slot.offset }) := by
  have hsim := find_entry_loop_sim m d d' u fuel (skip_slashes path) 0 CLUSTER_END CLUSTER_END
    FIND_EXIST slot0 slot0 ⟨rfl, rfl, rfl, fun _ => rfl⟩ (fun _ => rfl) hv
  have h' : ∀ s', find_entry fuel m d' u path slot0 = .ok (0, s') →
      find_entry fuel m d' u path slot0
        = .ok (0, { dir := entry_at (d' s'.sector) s'.offset, sector := s'.sector,
                    offset := s'.offset }) := by
    intro s' hs'
    have := (find_entry_slot fuel m d' u path slot0 s' hroot hs').1
    rw [hs']
    congr 2
    cases s' with
    | mk dir sector offset => simp only at this ⊢; rw [this]
  unfold find_entry find_entry_internal at h
  cases hl : find_entry_loop m d u fuel (skip_slashes path) 0 CLUSTER_END FIND_EXIST slot0 with
  | error e => rw [hl] at h; simp [bind, Except.bind] at h
  | ok r =>
    obtain ⟨ret, s, rem⟩ := r
    rw [hl] at h hsim
    cases hl' : find_entry_loop m d' u fuel (skip_slashes path) 0 CLUSTER_END FIND_EXIST slot0 with
    | error e => rw [hl'] at hsim; exact hsim.elim
    | ok r' =>
      obtain ⟨ret', s', rem'⟩ := r'
      rw [hl'] at hsim
      obtain ⟨rfl, rfl, hss⟩ := hsim
      have hret : ret' = FIND_EXIST ∧ s = slot := by
        simp only [bind, Except.bind] at h
        split_ifs at h with h1 h2
        · simp only [pure, Except.pure, Except.ok.injEq, Prod.mk.injEq] at h
          omega
        · simp only [pure, Except.pure, Except.ok.injEq, Prod.mk.injEq] at h
          exact ⟨h2, h.2⟩
        · simp only [pure, Except.pure, Except.ok.injEq, Prod.mk.injEq, ENOENT] at h
          omega
      obtain ⟨rfl, rfl⟩ := hret
      have hfe : find_entry fuel m d' u path slot0 = .ok (0, s') := by
        unfold find_entry find_entry_internal
        rw [hl']
        simp [bind, Except.bind, FIND_EXIST, pure, Except.pure]
      rw [h' s' hfe, hss.1, hss.2.1]

/-! ## Well-formed files -/

theorem dir_entry_write_self (d : Disk) (slot : DirEntrySlot)
    (h : slot.dir = entry_at (d slot.sector) slot.offset) : dir_entry_write d slot = d := by
  funext s o
  unfold dir_entry_write
  simp only [sector_read, sector_write_apply, memcpy]
  by_cases hs : s = slot.sector
  · subst hs
    simp only [if_true]
    unfold memcpy
    simp only [DIR_ENTRY_SIZE]
    split_ifs with h1
    · rw [h]
      simp only [entry_at, Nat.zero_add, DIR_ENTRY_SIZE]
      rw [if_pos (by omega)]
      congr 1
      omega
    · rfl
  · rw [if_neg hs]

theorem not_inchain_low (m : FAT16) (d : Disk) (head n s : Nat) (h : s < m.data_sec) :
    ¬ InChain m d head n s := by
  rintro ⟨k, _, h1, _⟩
  have := first_sector_ge m (chain_nth m d head k)
  omega

theorem not_inchain_cluster (m : FAT16) (d : Disk) (head n c s : Nat)
    (hc : ChainOK m d head n) (hin : is_cluster_inuse c = true)
    (hne : ∀ k, k < n → c ≠ chain_nth m d head k)
    (h1 : first_sector m c ≤ s) (h2 : s < first_sector m c + m.sec_per_clus) :
    ¬ InChain m d head n s := by
  rintro ⟨k, hk, h3, h4⟩
  obtain ⟨i, rfl⟩ : ∃ i, s = first_sector m c + i := ⟨s - first_sector m c, by omega⟩
  exact first_sector_disjoint m c (chain_nth m d head k) i
    (first_sector m c + i - first_sector m (chain_nth m d head k)) (inuse_ge c hin).1
    (inuse_ge _ (hc.inuse k hk)).1 (hne k hk) (by omega) (by omega) (by omega)

/-- A write to file positions below `n * cluster_size` leaves every sector outside the
chain's clusters as it was. -/
theorem FileWritten_frame (m : FAT16) (hg : Geom m) (d0 : Disk) (head n : Nat)
    (data : Nat → Nat) (offset : Nat) (d d' : Disk) (lo hi : Nat)
    (hhi : hi ≤ n * m.cluster_size)
    (h : FileWritten m d0 head data offset d d' lo hi) (s : Nat)
    (hs : ¬ InChain m d0 head n s) : d' s = d s := by
  funext o
  apply h.2
  rintro q _ hq ⟨h1, _⟩
  apply hs
  refine ⟨q / m.cluster_size, div_cs_lt m n q (by omega), ?_, ?_⟩
  · rw [h1]; unfold file_sector; exact Nat.le_add_right _ _
  · rw [h1]; unfold file_sector
    have := mod_cs_div_lt m hg q
    omega

/-- The slot of a well-formed file is not stored in the file's own clusters. -/
theorem FileOK_slot_apart (fuel : Nat) (m : FAT16) (hg : Geom m) (d : Disk) (u : Uninit)
    (path : List Nat) (slot : DirEntrySlot) (n : Nat) (hf : FileOK fuel m d u path slot n) :
    ¬ InChain m d (DIR_FstClusLO slot.dir) n slot.sector := by
  obtain ⟨_, _, h3⟩ := find_entry_slot fuel m d u path u.slot slot hf.not_root hf.found
  rcases h3 with h3 | ⟨c, hc, hin, h4, h5⟩
  · exact not_inchain_low m d _ n _ (by have := hg.data_eq; omega)
  · exact not_inchain_cluster m d _ n c _ hf.chain hin (hf.dirs_apart c hc) h4 h5

/-- A disk that differs from `d` only inside the file's clusters looks the same to the
resolution of the file's path. -/
theorem FileOK_DirSim (fuel : Nat) (m : FAT16) (hg : Geom m) (d d' : Disk) (u : Uninit)
    (path : List Nat) (slot : DirEntrySlot) (n : Nat) (hf : FileOK fuel m d u path slot n)
    (h : ∀ s, ¬ InChain m d (DIR_FstClusLO slot.dir) n s → d' s = d s) :
    DirSim m d d' (find_entry_clusters fuel m d u path u.slot) := by
  constructor
  · intro i hi
    rw [h _ (not_inchain_low m d _ n _ (by have := hg.data_eq; omega))]
    exact BufSim_refl m _
  · intro c hc
    have hin := find_entry_visits_inuse m d u fuel _ _ _ _ _ c hc
    constructor
    · intro i hi
      rw [h _ (not_inchain_cluster m d _ n c _ hf.chain hin (hf.dirs_apart c hc) (by omega)
        (by omega))]
      exact BufSim_refl m _
    · exact read_fat_entry_congr m hg d d' c (hf.dirs_fat c hc)
        (fun s hs => h s (not_inchain_low m d _ n s hs))

theorem cluster_walk_start (m : FAT16) (d : Disk) (hcs : 0 < m.cluster_size) (target head : Nat)
    (fuel : Nat) (hf : target / m.cluster_size < fuel) :
    cluster_walk m d target fuel 0 head
      = .ok (target / m.cluster_size * m.cluster_size,
          chain_nth m d head (target / m.cluster_size)) := by
  have := cluster_walk_spec m d hcs target head fuel 0 (Nat.zero_le _) (by rw [Nat.sub_zero]; exact hf)
  simpa [chain_nth] using this

theorem fat16_write_inbounds (fuel : Nat) (m : FAT16) (hg : Geom m) (d : Disk) (u : Uninit)
    (path : List Nat) (slot : DirEntrySlot) (n : Nat) (hf : FileOK fuel m d u path slot n)
    (data : Nat → Nat) (size offset : Nat) (hsize : 0 < size)
    (hin : offset + size ≤ DIR_FileSize slot.dir)
    (hfuel : offset + size + m.cluster_size + 2 ≤ fuel) :
    ∃ d', fat16_write fuel m d u path data size offset = .ok ((size : Int), d')
      ∧ FileWritten m d (DIR_FstClusLO slot.dir) data offset d d' offset (offset + size) := by
  have hcs := cs_pos m hg
  have hcap := hf.capacity
  have hdm := Nat.div_add_mod offset m.cluster_size
  have hml := Nat.mod_lt offset hcs
  have hdle : offset / m.cluster_size ≤ offset := Nat.div_le_self _ _
  have hj0 : offset / m.cluster_size < n := div_cs_lt m n offset (by omega)
  have hmul : offset / m.cluster_size * m.cluster_size = m.cluster_size * (offset / m.cluster_size) :=
    Nat.mul_comm _ _
  unfold fat16_write
  have hnot : ¬ (offset + size > DIR_FileSize slot.dir) := by omega
  simp only [hf.found, bind, Except.bind, pure, Except.pure, hnot, if_false]
  rw [cluster_walk_start m d hcs offset _ fuel (by omega)]
  dsimp only
  generalize hj : offset / m.cluster_size = j0 at *
  have hoff : offset - j0 * m.cluster_size = offset % m.cluster_size := by omega
  rw [hoff]
  generalize hx : offset % m.cluster_size = x0 at *
  have hin0 := hf.chain.inuse j0 hj0
  rw [write_to_cluster_spec m hg.ss_pos d fuel _ x0 data 0 _ hin0 (by omega) (by omega)]
  dsimp only
  have hfw1 := clus_written_FW m hg d (DIR_FstClusLO slot.dir) data offset d j0 x0 0
    (min size (m.cluster_size - x0)) (by omega) (by omega)
  have hlow1 : ∀ s, s < m.data_sec →
      clus_written m d (chain_nth m d (DIR_FstClusLO slot.dir) j0) x0 data 0
        (min size (m.cluster_size - x0)) s = d s := by
    intro s hs
    exact clus_written_low m d _ x0 data 0 _ s
      (Or.inl (by have := first_sector_ge m (chain_nth m d (DIR_FstClusLO slot.dir) j0); omega))
      hg (by omega)
  have hnext : read_fat_entry m (clus_written m d (chain_nth m d (DIR_FstClusLO slot.dir) j0) x0
      data 0 (min size (m.cluster_size - x0))) (chain_nth m d (DIR_FstClusLO slot.dir) j0)
      = chain_nth m d (DIR_FstClusLO slot.dir) (j0 + 1) := by
    rw [read_fat_entry_congr m hg d _ _ (hf.chain.fat_in j0 hj0) hlow1]
    rfl
  rw [hnext]
  have hself : ∀ d2 : Disk, d2 slot.sector = d slot.sector →
      dir_entry_write d2 { dir := slot.dir, sector := slot.sector, offset := slot.offset }
        = d2 := by
    intro d2 h2
    apply dir_entry_write_self
    dsimp only
    rw [h2]
    exact (find_entry_slot fuel m d u path u.slot slot hf.not_root hf.found).1
  have hapart := FileOK_slot_apart fuel m hg d u path slot n hf
  have e0 : j0 * m.cluster_size + x0 = offset := by omega
  rw [e0] at hfw1
  by_cases hc : min size (m.cluster_size - x0) < size
  · have hcur : min size (m.cluster_size - x0) = m.cluster_size - x0 := by omega
    rw [hcur] at hfw1 hlow1 ⊢
    have e1 : j0 * m.cluster_size + m.cluster_size = (j0 + 1) * m.cluster_size := by
      rw [Nat.succ_mul]
    rw [e1]
    obtain ⟨d', hd', hfw, hl⟩ := write_loop_spec m hg d (DIR_FstClusLO slot.dir) n hf.chain data
      size offset (by omega) fuel _ (m.cluster_size - x0) (j0 + 1) (by omega)
      (by rw [Nat.succ_mul]; omega) hlow1 (by omega)
    rw [hd']
    dsimp only
    have hfwt := FileWritten_trans m hg d (DIR_FstClusLO slot.dir) n hf.chain data offset d _ d'
      offset (offset + (m.cluster_size - x0)) (offset + size) (by omega) (by omega) (by omega)
      hfw1 hfw
    have hsec := FileWritten_frame m hg d _ n data offset d d' offset (offset + size) (by omega)
      hfwt slot.sector hapart
    rw [hself d' hsec]
    exact ⟨d', rfl, hfwt⟩
  · have hcur : min size (m.cluster_size - x0) = size := by omega
    rw [hcur] at hfw1 hlow1 ⊢
    obtain ⟨f, rfl⟩ : ∃ f, fuel = f + 1 := ⟨fuel - 1, by omega⟩
    rw [write_loop_done _ _ _ _ _ _ _ _ _ _ (le_refl _)]
    dsimp only
    have hsec := FileWritten_frame m hg d _ n data offset d _ offset (offset + size) (by omega)
      hfw1 slot.sector hapart
    rw [hself _ hsec]
    exact ⟨_, rfl, hfw1⟩

/-- What `fat16_read` delivers for a range inside a regular file with a well-formed chain
when the caller's array extends `offset % cluster_size` bytes past the requested `size`:
it terminates normally, returns at least `size`, and the first `size` bytes of the buffer
are the file's bytes from `offset` on. -/
theorem fat16_read_inbounds (fuel : Nat) (m : FAT16) (hg : Geom m) (d : Disk) (u : Uninit)
    (path : List Nat) (slot : DirEntrySlot) (n : Nat)
    (hroot : path_is_root path = false)
    (hfind : find_entry fuel m d u path u.slot = .ok (0, slot))
    (hreg : is_directory (DIR_Attr slot.dir) = false)
    (hchain : ChainOK m d (DIR_FstClusLO slot.dir) n)
    (hcap : DIR_FileSize slot.dir ≤ n * m.cluster_size)
    (buf : Nat → Nat) (cap size offset : Nat) (hsize : 0 < size)
    (hin : offset + size ≤ DIR_FileSize slot.dir)
    (hfuel : offset + size + m.cluster_size + 2 ≤ fuel)
    (hcapacity : size + offset % m.cluster_size ≤ cap) :
    ∃ (r : Nat) (buf' : Nat → Nat),
      fat16_read fuel m d u path buf cap size offset = .ok ((r : Int), buf') ∧ size ≤ r
      ∧ ∀ i, i < size → buf' i = file_byte m d (DIR_FstClusLO slot.dir) (offset + i) := by
  have hcs := cs_pos m hg
  have hdm := Nat.div_add_mod offset m.cluster_size
  have hml := Nat.mod_lt offset hcs
  have hdle : offset / m.cluster_size ≤ offset := Nat.div_le_self _ _
  have hj0 : offset / m.cluster_size < n := div_cs_lt m n offset (by omega)
  have hmul : offset / m.cluster_size * m.cluster_size = m.cluster_size * (offset / m.cluster_size) :=
    Nat.mul_comm _ _
  unfold fat16_read
  have hnot : ¬ (offset > DIR_FileSize slot.dir) := by omega
  have hneg : ¬ ((0 : Int) < 0) := by omega
  have hmin : min size (DIR_FileSize slot.dir - offset) = size := by omega
  simp only [hroot, hfind, bind, Except.bind, pure, Except.pure, hnot, if_false, hreg, hneg,
    Bool.false_eq_true, hmin]
  rw [cluster_walk_start m d hcs offset _ fuel (by omega)]
  dsimp only
  generalize hj : offset / m.cluster_size = j0 at *
  have hoff : offset - j0 * m.cluster_size = offset % m.cluster_size := by omega
  rw [hoff]
  generalize hx : offset % m.cluster_size = x0 at *
  have hin0 := hchain.inuse j0 hj0
  rw [read_from_cluster_spec m hg.ss_pos d fuel _ x0 buf 0 cap _ hin0 (by omega) (by omega)
    (by omega)]
  dsimp only
  have e0 : j0 * m.cluster_size + x0 = offset := by omega
  have hfirst : ∀ i, i < min (m.cluster_size - x0) size →
      (fun i => if 0 ≤ i ∧ i < 0 + min (m.cluster_size - x0) size then
        clus_byte m d (chain_nth m d (DIR_FstClusLO slot.dir) j0) (x0 + (i - 0)) else buf i) i
        = file_byte m d (DIR_FstClusLO slot.dir) (offset + i) := by
    intro i hi
    dsimp only
    rw [if_pos ⟨Nat.zero_le _, by omega⟩]
    have e : offset + i = j0 * m.cluster_size + (x0 + i) := by omega
    rw [e, file_byte_eq m d _ j0 (x0 + i) (by omega), Nat.sub_zero]
  by_cases hc : min (m.cluster_size - x0) size < size
  · have hcur : min (m.cluster_size - x0) size = m.cluster_size - x0 := by omega
    rw [hcur] at hfirst ⊢
    have hrp : j0 * m.cluster_size + (m.cluster_size - x0)
        = offset + (m.cluster_size - x0) - x0 := by omega
    rw [hrp]
    obtain ⟨pf, buf', hr, hpf, hcont, hpre⟩ := read_loop_spec m hg d (DIR_FstClusLO slot.dir) n
      hchain size offset x0 cap (by omega) (by omega) fuel _ (m.cluster_size - x0) (j0 + 1)
      (by omega)
      (by rw [Nat.succ_mul]; omega) (by omega) (by omega)
    have hnext : read_fat_entry m d (chain_nth m d (DIR_FstClusLO slot.dir) j0)
        = chain_nth m d (DIR_FstClusLO slot.dir) (j0 + 1) := rfl
    rw [hnext, hr]
    dsimp only
    refine ⟨pf, buf', rfl, hpf, ?_⟩
    intro i hi
    by_cases hi2 : m.cluster_size - x0 ≤ i
    · exact hcont i hi2 hi
    · rw [hpre i (by omega)]
      exact hfirst i (by omega)
  · have hcur : min (m.cluster_size - x0) size = size := by omega
    rw [hcur] at hfirst ⊢
    obtain ⟨f, rfl⟩ : ∃ f, fuel = f + 1 := ⟨fuel - 1, by omega⟩
    rw [read_loop_done _ _ _ _ _ _ _ _ _ _ _ (le_refl _)]
    dsimp only
    exact ⟨size, _, rfl, le_refl _, fun i hi => hfirst i hi⟩

theorem ChainOK_congr (m : FAT16) (hg : Geom m) (d d' : Disk) (head n : Nat)
    (hc : ChainOK m d head n) (h : ∀ s, s < m.data_sec → d' s = d s) : ChainOK m d' head n := by
  have he := chain_nth_congr m hg d d' head n hc.fat_in h
  refine ⟨fun k hk => ?_, fun i hi j hj hij => ?_, fun k hk => ?_⟩
  · rw [he k (by omega)]; exact hc.inuse k hk
  · rw [he i (by omega), he j (by omega)] at hij; exact hc.distinct i hi j hj hij
  · rw [he k (by omega)]; exact hc.fat_in k hk

theorem free_clusters_spec (m : FAT16) (hg : Geom m) (k : Nat) :
    ∀ (fuel : Nat) (d : Disk) (h : Nat), ChainOK m d h k →
      is_cluster_inuse (chain_nth m d h k) = false → k < fuel →
      ∃ d', free_clusters m fuel d h = .ok d'
        ∧ (∀ i, i < k → read_fat_entry m d' (chain_nth m d h i) = CLUSTER_FREE)
        ∧ (∀ c, FatIn m c → (∀ i, i < k → c ≠ chain_nth m d h i) →
            read_fat_entry m d' c = read_fat_entry m d c)
        ∧ (∀ s, s < m.fat_sec ∨ m.root_sec ≤ s → d' s = d s) := by
  induction k with
  | zero =>
    intro fuel d h _ hstop hf
    obtain ⟨f, rfl⟩ : ∃ f, fuel = f + 1 := ⟨fuel - 1, by omega⟩
    simp only [chain_nth] at hstop
    refine ⟨d, ?_, fun i hi => by omega, fun c _ _ => rfl, fun s _ => rfl⟩
    unfold free_clusters
    simp [hstop]
  | succ k ih =>
    intro fuel d h hc hstop hf
    obtain ⟨f, rfl⟩ : ∃ f, fuel = f + 1 := ⟨fuel - 1, by omega⟩
    have h0 : is_cluster_inuse h = true := hc.inuse 0 (by omega)
    have hfat0 : FatIn m h := hc.fat_in 0 (by omega)
    have hchain : ∀ i, i ≤ k → chain_nth m (write_fat_entry m d h CLUSTER_FREE)
        (read_fat_entry m d h) i = chain_nth m d h (i + 1) := by
      intro i
      induction i with
      | zero => intro _; rfl
      | succ i ihi =>
        intro hi
        show read_fat_entry m _ (chain_nth m _ _ i) = read_fat_entry m d (chain_nth m d h (i + 1))
        rw [ihi (by omega)]
        apply read_write_fat_other m hg
        · intro he
          have := hc.distinct (i + 1) (by omega) 0 (by omega) he
          omega
        · exact hc.fat_in (i + 1) (by omega)
    have hc1 : ChainOK m (write_fat_entry m d h CLUSTER_FREE) (read_fat_entry m d h) k := by
      refine ⟨fun i hi => ?_, fun i hi j hj hij => ?_, fun i hi => ?_⟩
      · rw [hchain i (by omega)]; exact hc.inuse (i + 1) (by omega)
      · rw [hchain i (by omega), hchain j (by omega)] at hij
        have := hc.distinct (i + 1) (by omega) (j + 1) (by omega) hij
        omega
      · rw [hchain i (by omega)]; exact hc.fat_in (i + 1) (by omega)
    obtain ⟨d', hd', hfree, hother, hout⟩ := ih f (write_fat_entry m d h CLUSTER_FREE)
      (read_fat_entry m d h) hc1 (by rw [hchain k (le_refl _)]; exact hstop) (by omega)
    refine ⟨d', ?_, ?_, ?_, ?_⟩
    · unfold free_clusters
      simp only [h0, if_true]
      exact hd'
    · intro i hi
      rcases i with _ | i
      · simp only [chain_nth]
        rw [hother h hfat0 (fun i hi he => by
          rw [hchain i (by omega)] at he
          have := hc.distinct 0 (by omega) (i + 1) (by omega) he
          omega)]
        rw [read_write_fat_same m hg]
        rfl
      · rw [← hchain i (by omega)]
        exact hfree i (by omega)
    · intro c hcf hne
      rw [hother c hcf (fun i hi he => by
        rw [hchain i (by omega)] at he
        exact hne (i + 1) (by omega) he)]
      exact read_write_fat_other m hg d h c _ (hne 0 (by omega)) hcf
    · intro s hs
      rw [hout s hs]
      exact write_fat_entry_outside m hg d h _ s hfat0 hs

theorem sector_walk_spec (m : FAT16) (hss : 0 < m.sector_size) (size P0 sec0 : Nat)
    (hP : P0 ≤ size) (fuel : Nat) :
    ∀ t, t ≤ (size - P0) / m.sector_size → (size - P0) / m.sector_size - t < fuel →
      sector_walk m size fuel (P0 + t * m.sector_size) (sec0 + t)
        = .ok (P0 + (size - P0) / m.sector_size * m.sector_size,
            sec0 + (size - P0) / m.sector_size) := by
  induction fuel with
  | zero => intro t _ h; omega
  | succ fuel ih =>
    intro t ht hf
    unfold sector_walk
    have hdm := Nat.div_add_mod (size - P0) m.sector_size
    have hml := Nat.mod_lt (size - P0) hss
    have e : m.sector_size * ((size - P0) / m.sector_size)
        = (size - P0) / m.sector_size * m.sector_size := Nat.mul_comm _ _
    by_cases hte : t = (size - P0) / m.sector_size
    · subst hte
      generalize (size - P0) / m.sector_size * m.sector_size = Q at *
      rw [if_pos (by constructor <;> omega)]
    · have hlt : t + 1 ≤ (size - P0) / m.sector_size := by omega
      have hmul : (t + 1) * m.sector_size ≤ (size - P0) / m.sector_size * m.sector_size :=
        Nat.mul_le_mul_right _ hlt
      rw [Nat.succ_mul] at hmul
      have := ih (t + 1) hlt (by omega)
      rw [Nat.succ_mul] at this
      generalize (size - P0) / m.sector_size * m.sector_size = Q at *
      generalize t * m.sector_size = T at *
      rw [if_neg (by omega)]
      rw [← this]
      congr 1
      omega

theorem trunc_zero_eq (m : FAT16) (d : Disk) (F q r : Nat) (hq : q < m.sec_per_clus)
    (hr : r < m.sector_size) :
    zero_sectors (sector_write d (F + q)
        (memcpy (sector_read d (F + q)) r ZERO_SECTOR 0 (m.sector_size - r)))
      (F + m.sec_per_clus - (F + q + 1)) (F + q + 1) = trunc_zero m d F q r := by
  funext s o
  rw [zero_sectors_apply]
  simp only [trunc_zero, sector_write_apply, sector_read, memcpy, ZERO_SECTOR]
  by_cases h1 : F + q + 1 ≤ s ∧ s < F + q + 1 + (F + m.sec_per_clus - (F + q + 1))
  · rw [if_pos h1, if_pos (Or.inr (by omega))]
    rfl
  · rw [if_neg h1]
    by_cases h2 : s = F + q
    · subst h2
      simp only [if_true]
      unfold memcpy
      by_cases h3 : r ≤ o ∧ o < r + (m.sector_size - r)
      · rw [if_pos h3, if_pos (Or.inl ⟨trivial, by omega, by omega⟩)]
        rfl
      · rw [if_neg h3, if_neg (by omega)]
    · rw [if_neg h2, if_neg (by omega)]

theorem chain_nth_add (m : FAT16) (d : Disk) (h j i : Nat) :
    chain_nth m d (chain_nth m d h j) i = chain_nth m d h (j + i) := by
  induction i with
  | zero => rfl
  | succ i ih =>
    show read_fat_entry m d (chain_nth m d (chain_nth m d h j) i) = _
    rw [ih]
    rfl

theorem ChainOK_shift (m : FAT16) (d : Disk) (h n j : Nat) (hc : ChainOK m d h n) (hj : j ≤ n) :
    ChainOK m d (chain_nth m d h j) (n - j) := by
  refine ⟨fun i hi => ?_, fun i hi i' hi' he => ?_, fun i hi => ?_⟩
  · rw [chain_nth_add]; exact hc.inuse _ (by omega)
  · rw [chain_nth_add, chain_nth_add] at he
    have := hc.distinct _ (by omega) _ (by omega) he
    omega
  · rw [chain_nth_add]; exact hc.fat_in _ (by omega)

theorem ChainOK_prefix (m : FAT16) (d : Disk) (h n j : Nat) (hc : ChainOK m d h n) (hj : j ≤ n) :
    ChainOK m d h j :=
  ⟨fun i hi => hc.inuse i (by omega), fun i hi i' hi' he => hc.distinct i (by omega) i' (by omega) he,
    fun i hi => hc.fat_in i (by omega)⟩

theorem fat_sector_lt_root (m : FAT16) (hg : Geom m) (c : Nat) (hc : FatIn m c) :
    m.fat_sec + c / (m.sector_size / 2) < m.root_sec := by
  unfold FatIn at hc
  have h1 := hg.root_eq
  have h3 := hg.fats_pos
  have : 1 * m.sec_per_fat ≤ m.fats * m.sec_per_fat := Nat.mul_le_mul_right _ h3
  generalize c / (m.sector_size / 2) = q at *
  generalize m.fats * m.sec_per_fat = X at *
  omega

theorem read_fat_entry_congr_root (m : FAT16) (hg : Geom m) (d d' : Disk) (c : Nat)
    (hc : FatIn m c) (h : ∀ s, s < m.root_sec → d' s = d s) :
    read_fat_entry m d' c = read_fat_entry m d c := by
  unfold read_fat_entry
  simp only [sector_read]
  rw [h _ (fat_sector_lt_root m hg c hc)]

theorem dir_entry_write_other (d : Disk) (slot : DirEntrySlot) (s : Nat) (h : s ≠ slot.sector) :
    dir_entry_write d slot s = d s := by
  unfold dir_entry_write
  simp only [sector_write_apply, if_neg h]

theorem dir_entry_write_entry (d : Disk) (slot : DirEntrySlot) (i : Nat) (hi : i < 32) :
    entry_at (dir_entry_write d slot slot.sector) slot.offset i = slot.dir i := by
  unfold dir_entry_write
  simp only [sector_write_apply, if_true, entry_at, memcpy, sector_read, DIR_ENTRY_SIZE]
  rw [if_pos hi, if_pos (by omega)]
  congr 1
  omega

theorem load32_store32 (b : Nat → Nat) (o v : Nat) (hv : v < 4294967296) :
    load32 (store32 b o v) o = v := by
  simp only [load32, store32]
  simp
  omega

theorem load32_congr (b b' : Nat → Nat) (o : Nat)
    (h : ∀ i, o ≤ i → i < o + 4 → b' i = b i) : load32 b' o = load32 b o := by
  simp only [load32]
  rw [h o (by omega) (by omega), h (o + 1) (by omega) (by omega), h (o + 2) (by omega) (by omega),
    h (o + 3) (by omega) (by omega)]

theorem load32_lt (b : Nat → Nat) (o : Nat) : load32 b o < 4294967296 := by
  simp only [load32]
  omega

theorem sector_walk_start (m : FAT16) (hss : 0 < m.sector_size) (size P0 sec0 : Nat)
    (hP : P0 ≤ size) (fuel : Nat) (hf : (size - P0) / m.sector_size < fuel) :
    sector_walk m size fuel P0 sec0
      = .ok (P0 + (size - P0) / m.sector_size * m.sector_size,
          sec0 + (size - P0) / m.sector_size) := by
  have := sector_walk_spec m hss size P0 sec0 hP fuel 0 (Nat.zero_le _)
    (by rw [Nat.sub_zero]; exact hf)
  simpa using this

theorem is_cluster_end_not_inuse (c : Nat) (h : is_cluster_end c = true) :
    is_cluster_inuse c = false := by
  simp [is_cluster_end, CLUSTER_END_BOUND] at h
  simp [is_cluster_inuse, CLUSTER_MIN, CLUSTER_MAX]
  omega

theorem slot_sector_ge_root (m : FAT16) (hg : Geom m) (d : Disk) (V : List Nat)
    (slot : DirEntrySlot) (h : SlotAt m d V slot) : m.root_sec ≤ slot.sector := by
  rcases h.2.2 with h1 | ⟨c, _, _, h2, _⟩
  · exact h1.1
  · have := first_sector_ge m c
    have := hg.data_eq
    omega

/-- The disk that the shrinking branch of `fat16_truncate` produces, step by step. -/
theorem fat16_truncate_shrink_steps (fuel : Nat) (m : FAT16) (d : Disk) (u : Uninit)
    (path : List Nat) (slot : DirEntrySlot) (n s : Nat) (hg : Geom m)
    (hf : FileOK fuel m d u path slot n)
    (hend : is_cluster_end (chain_nth m d (DIR_FstClusLO slot.dir) n) = true)
    (hs : s < DIR_FileSize slot.dir) (hfuel : n + m.sec_per_clus < fuel) :
    ∃ d3, free_clusters m fuel
        (trunc_zero m d (first_sector m (chain_nth m d (DIR_FstClusLO slot.dir)
          (s / m.cluster_size))) (s % m.cluster_size / m.sector_size) (s % m.sector_size))
        (chain_nth m d (DIR_FstClusLO slot.dir) (s / m.cluster_size + 1)) = .ok d3
      ∧ fat16_truncate fuel m d u path s = .ok (0, dir_entry_write
          (write_fat_entry m d3 (chain_nth m d (DIR_FstClusLO slot.dir) (s / m.cluster_size))
            CLUSTER_END)
          { dir := set_DIR_FileSize slot.dir s, sector := slot.sector, offset := slot.offset })
      ∧ (∀ j, s / m.cluster_size < j → j < n →
          read_fat_entry m d3 (chain_nth m d (DIR_FstClusLO slot.dir) j) = CLUSTER_FREE)
      ∧ (∀ c, FatIn m c → (∀ j, s / m.cluster_size < j → j < n →
            c ≠ chain_nth m d (DIR_FstClusLO slot.dir) j) →
          read_fat_entry m d3 c = read_fat_entry m d c)
      ∧ (∀ t, m.root_sec ≤ t → d3 t = trunc_zero m d (first_sector m
          (chain_nth m d (DIR_FstClusLO slot.dir) (s / m.cluster_size)))
          (s % m.cluster_size / m.sector_size) (s % m.sector_size) t) := by
  have hcs := cs_pos m hg
  have hss := hg.ss_pos
  obtain ⟨hnr, hfound, hreg, hchain, hcap, hdf, hda⟩ := hf
  have hdm := Nat.div_add_mod s m.cluster_size
  have hml := Nat.mod_lt s hcs
  have hb : s / m.cluster_size < n := div_cs_lt m n s (by omega)
  have hmul : s / m.cluster_size * m.cluster_size = m.cluster_size * (s / m.cluster_size) :=
    Nat.mul_comm _ _
  have hq : s % m.cluster_size / m.sector_size < m.sec_per_clus := mod_cs_div_lt m hg s
  have hrs : s % m.sector_size = s % m.cluster_size % m.sector_size := by
    rw [hg.cs_eq, Nat.mul_comm, Nat.mod_mul_right_mod]
  generalize hhead : DIR_FstClusLO slot.dir = head at *
  generalize hbdef : s / m.cluster_size = b at *
  have hinb := hchain.inuse b hb
  -- the zero-filled disk agrees with `d` below the data region
  have hlow2 : ∀ t, t < m.data_sec → trunc_zero m d (first_sector m (chain_nth m d head b))
      (s % m.cluster_size / m.sector_size) (s % m.sector_size) t = d t := by
    intro t ht
    funext o
    unfold trunc_zero
    have := first_sector_ge m (chain_nth m d head b)
    generalize s % m.cluster_size / m.sector_size = q
    rw [if_neg (by omega)]
  have hsub : ChainOK m d (chain_nth m d head (b + 1)) (n - (b + 1)) :=
    ChainOK_shift m d head n (b + 1) hchain (by omega)
  have hsub2 := ChainOK_congr m hg d _ _ _ hsub hlow2
  have hnth2 : ∀ k, k ≤ n - (b + 1) →
      chain_nth m (trunc_zero m d (first_sector m (chain_nth m d head b))
        (s % m.cluster_size / m.sector_size) (s % m.sector_size))
        (chain_nth m d head (b + 1)) k = chain_nth m d head (b + 1 + k) := by
    intro k hk
    rw [chain_nth_congr m hg d _ _ _ hsub.fat_in hlow2 k hk, chain_nth_add]
  have hstop : is_cluster_inuse (chain_nth m (trunc_zero m d
      (first_sector m (chain_nth m d head b)) (s % m.cluster_size / m.sector_size)
      (s % m.sector_size)) (chain_nth m d head (b + 1)) (n - (b + 1))) = false := by
    rw [hnth2 _ (le_refl _)]
    have e : b + 1 + (n - (b + 1)) = n := by omega
    rw [e]
    exact is_cluster_end_not_inuse _ hend
  obtain ⟨d3, hd3, hfree, hother, hout⟩ := free_clusters_spec m hg (n - (b + 1)) fuel _ _ hsub2
    hstop (by omega)
  refine ⟨d3, hd3, ?_, ?_, ?_, ?_⟩
  · unfold fat16_truncate
    have hne : ¬ (s = DIR_FileSize slot.dir) := by omega
    have hngt : ¬ (s > DIR_FileSize slot.dir) := by omega
    simp only [hfound, bind, Except.bind, pure, Except.pure, hne, hngt, if_false, hhead]
    rw [cluster_walk_start m d hcs s _ fuel (by omega)]
    dsimp only
    rw [hbdef, cluster_first_sector_ok m _ hinb]
    dsimp only
    have hP : b * m.cluster_size ≤ s := by omega
    have hsub' : s - b * m.cluster_size = s % m.cluster_size := by omega
    rw [sector_walk_start m hss s (b * m.cluster_size) _ hP fuel (by rw [hsub']; omega)]
    dsimp only
    rw [hsub', trunc_zero_eq m d _ _ _ hq (Nat.mod_lt _ hss)]
    have hnext : read_fat_entry m (trunc_zero m d (first_sector m (chain_nth m d head b))
        (s % m.cluster_size / m.sector_size) (s % m.sector_size)) (chain_nth m d head b)
        = chain_nth m d head (b + 1) := by
      rw [read_fat_entry_congr m hg d _ _ (hchain.fat_in b hb) hlow2]
      rfl
    rw [hnext, hd3]
  · intro j hj1 hj2
    have := hfree (j - (b + 1)) (by omega)
    rw [hnth2 _ (by omega)] at this
    have e : b + 1 + (j - (b + 1)) = j := by omega
    rw [e] at this
    exact this
  · intro c hc hne
    rw [hother c hc (fun i hi he => by
      rw [hnth2 i (by omega)] at he
      exact hne (b + 1 + i) (by omega) (by omega) he)]
    exact read_fat_entry_congr m hg d _ c hc hlow2
  · intro t ht
    exact hout t (Or.inr ht)

/-- Comparison of two offsets inside a cluster through their sector index and sector
offset. -/
theorem div_mod_lt_cases (ss a b : Nat) (hss : 0 < ss) (h : a < b) :
    a / ss < b / ss ∨ (a / ss = b / ss ∧ a % ss < b % ss) := by
  have h1 := Nat.div_add_mod a ss
  have h2 := Nat.div_add_mod b ss
  have h3 := Nat.mod_lt a hss
  have h4 := Nat.mod_lt b hss
  rcases Nat.lt_trichotomy (a / ss) (b / ss) with h5 | h5 | h5
  · exact Or.inl h5
  · right
    refine ⟨h5, ?_⟩
    rw [h5] at h1
    omega
  · exfalso
    have : ss * (b / ss + 1) ≤ ss * (a / ss) := Nat.mul_le_mul_left _ h5
    rw [Nat.mul_succ] at this
    omega

theorem div_mod_le_cases (ss a b : Nat) (hss : 0 < ss) (h : a ≤ b) :
    a / ss < b / ss ∨ (a / ss = b / ss ∧ a % ss ≤ b % ss) := by
  rcases Nat.eq_or_lt_of_le h with h1 | h1
  · subst h1; exact Or.inr ⟨rfl, le_refl _⟩
  · rcases div_mod_lt_cases ss a b hss h1 with h2 | h2
    · exact Or.inl h2
    · exact Or.inr ⟨h2.1, by omega⟩

theorem dir_offsets_mod (m : FAT16) (off : Nat) (h : off ∈ dir_offsets m) :
    off % DIR_ENTRY_SIZE = 0 := by
  unfold dir_offsets at h
  obtain ⟨k, _, rfl⟩ := List.mem_map.mp h
  exact Nat.mul_mod_left _ _

theorem dir_offsets_pairwise (m : FAT16) : (dir_offsets m).Pairwise (· < ·) := by
  unfold dir_offsets
  exact List.Pairwise.map _ (fun a b h => by
    show a * DIR_ENTRY_SIZE < b * DIR_ENTRY_SIZE
    exact Nat.mul_lt_mul_of_pos_right h (by decide)) (List.pairwise_lt_range _)

theorem entry_at_tomb_other (b b' : Sector) (O off : Nat) (hO : O % DIR_ENTRY_SIZE = 0)
    (hoff : off % DIR_ENTRY_SIZE = 0) (hne : off ≠ O)
    (hb : ∀ o, b' o = if o = O then NAME_DELETED else b o) :
    entry_at b' off = entry_at b off := by
  funext i
  unfold entry_at
  unfold DIR_ENTRY_SIZE at *
  by_cases hi : i < 32
  · rw [if_pos hi, if_pos hi, hb, if_neg (by omega)]
  · rw [if_neg hi, if_neg hi]

theorem entry_at_tomb_self (b b' : Sector) (O : Nat)
    (hb : ∀ o, b' o = if o = O then NAME_DELETED else b o) :
    DIR_Attr (entry_at b' O) = DIR_Attr (entry_at b O)
    ∧ is_deleted (entry_at b' O) = true ∧ is_free (entry_at b' O) = false := by
  refine ⟨?_, ?_, ?_⟩
  · unfold DIR_Attr entry_at
    rw [if_pos (by decide), if_pos (by decide), hb, if_neg (by omega)]
  · unfold is_deleted DIR_Name entry_at
    rw [if_pos (by decide), hb, if_pos (Nat.add_zero O)]
    decide
  · unfold is_free DIR_Name entry_at
    rw [if_pos (by decide), hb, if_pos (Nat.add_zero O)]
    decide

/-- Scanning a sector buffer skips a tombstoned entry. -/
theorem find_entry_in_buffer_skip (u : Uninit) (name : List Nat) (len : Nat) (b' : Sector)
    (sec O : Nat) (offs : List Nat) (hd : is_deleted (entry_at b' O) = true)
    (hf : is_free (entry_at b' O) = false) :
    find_entry_in_buffer u name len b' sec (O :: offs)
      = find_entry_in_buffer u name len b' sec offs := by
  rw [find_entry_in_buffer]
  simp only [hd, hf, Bool.not_true, Bool.false_and, Bool.false_eq_true, if_false, ite_self]

/-- A scan of a sector buffer whose result is not the tombstoned entry gives the same result
on the buffer with the tombstone. -/
theorem find_entry_in_buffer_tomb (u : Uninit) (name : List Nat) (len : Nat) (b b' : Sector)
    (sec O : Nat) (hO : O % DIR_ENTRY_SIZE = 0)
    (hb : ∀ o, b' o = if o = O then NAME_DELETED else b o) :
    ∀ offs, (∀ off, off ∈ offs → off % DIR_ENTRY_SIZE = 0) →
    (∀ st sl, find_entry_in_buffer u name len b sec offs = some (st, sl) → sl.offset ≠ O) →
    find_entry_in_buffer u name len b' sec offs = find_entry_in_buffer u name len b sec offs := by
  intro offs
  induction offs with
  | nil => intro _ _; rfl
  | cons off os ih =>
    intro hm h
    have ih' := ih (fun o ho => hm o (List.mem_cons_of_mem _ ho))
    by_cases hoO : off = O
    · subst hoO
      obtain ⟨ha, hd, hf⟩ := entry_at_tomb_self b b' off hb
      rw [find_entry_in_buffer_skip u name len b' sec off os hd hf]
      rw [find_entry_in_buffer] at h ⊢
      split_ifs at h ⊢ with h1 h2 h3
      · exact ih' h
      · exact absurd rfl (h _ _ rfl)
      · exact absurd rfl (h _ _ rfl)
      · exact ih' h
    · have he := entry_at_tomb_other b b' O off hO (hm off (List.mem_cons_self _ _)) hoO hb
      rw [find_entry_in_buffer, find_entry_in_buffer] at *
      simp only [he] at h ⊢
      split_ifs at h ⊢ with h1 h2 h3
      · exact ih' h
      · rfl
      · rfl
      · exact ih' h

/-- A scan of a sector buffer in which no entry can be returned as found ends without a
result or with a never-used entry. -/
theorem find_entry_in_buffer_nostop (u : Uninit) (name : List Nat) (len : Nat) (b : Sector)
    (sec : Nat) : ∀ offs, (∀ off, off ∈ offs → NoStop u name len (entry_at b off)) →
    find_entry_in_buffer u name len b sec offs = none
      ∨ ∃ sl, find_entry_in_buffer u name len b sec offs = some (FIND_EMPTY, sl) := by
  intro offs
  induction offs with
  | nil => intro _; exact Or.inl rfl
  | cons off os ih =>
    intro h
    have ih' := ih (fun o ho => h o (List.mem_cons_of_mem _ ho))
    have h0 := h off (List.mem_cons_self _ _)
    rw [find_entry_in_buffer]
    split_ifs with h1 h2 h3
    · exact ih'
    · exfalso
      rcases h0 with h0 | h0 | h0
      · exact h1 h0
      · simp [h0] at h2
      · simp [h0] at h2
    · exact Or.inr ⟨_, rfl⟩
    · exact ih'

/-- A scan of a sector buffer that returns the entry at offset `O` ends, once that entry is
tombstoned, without a result or with a never-used entry, provided no later entry of the
buffer can be returned as found. -/
theorem find_entry_in_buffer_hit (u : Uninit) (name : List Nat) (len : Nat) (b b' : Sector)
    (sec O : Nat) (hO : O % DIR_ENTRY_SIZE = 0)
    (hb : ∀ o, b' o = if o = O then NAME_DELETED else b o) :
    ∀ offs, (∀ off, off ∈ offs → off % DIR_ENTRY_SIZE = 0) → offs.Pairwise (· < ·) →
    (∀ off, off ∈ offs → O < off → NoStop u name len (entry_at b off)) →
    ∀ st sl, find_entry_in_buffer u name len b sec offs = some (st, sl) → sl.offset = O →
    find_entry_in_buffer u name len b' sec offs = none
      ∨ ∃ sl', find_entry_in_buffer u name len b' sec offs = some (FIND_EMPTY, sl') := by
  intro offs
  induction offs with
  | nil => intro _ _ _ st sl h; simp [find_entry_in_buffer] at h
  | cons off os ih =>
    intro hm hp hn st sl h hsl
    have hp' := List.pairwise_cons.mp hp
    by_cases hoO : off = O
    · subst hoO
      obtain ⟨ha, hd, hf⟩ := entry_at_tomb_self b b' off hb
      rw [find_entry_in_buffer_skip u name len b' sec off os hd hf]
      apply find_entry_in_buffer_nostop
      intro o ho
      have hlt := hp'.1 o ho
      rw [entry_at_tomb_other b b' off o hO (hm o (List.mem_cons_of_mem _ ho)) (by omega) hb]
      exact hn o (List.mem_cons_of_mem _ ho) hlt
    · have he := entry_at_tomb_other b b' O off hO (hm off (List.mem_cons_self _ _)) hoO hb
      have ih' := ih (fun o ho => hm o (List.mem_cons_of_mem _ ho)) hp'.2
        (fun o ho => hn o (List.mem_cons_of_mem _ ho)) st sl
      rw [find_entry_in_buffer] at h ⊢
      simp only [he] at h ⊢
      split_ifs at h ⊢ with h1 h2 h3
      · exact ih' h hsl
      · simp only [Option.some.injEq, Prod.mk.injEq] at h
        rw [← h.2] at hsl
        exact absurd hsl hoO
      · simp only [Option.some.injEq, Prod.mk.injEq] at h
        rw [← h.2] at hsl
        exact absurd hsl hoO
      · exact ih' h hsl

theorem NoStop_tomb (m : FAT16) (d d' : Disk) (u : Uninit) (name : List Nat) (len S O : Nat)
    (hO : O % DIR_ENTRY_SIZE = 0) (ht : TombAt m d d' S O) (s off : Nat) (hs : m.root_sec ≤ s)
    (hoff : off ∈ dir_offsets m) (h : NoStop u name len (entry_at (d s) off)) :
    NoStop u name len (entry_at (d' s) off) := by
  by_cases hsS : s = S
  · subst hsS
    by_cases hoO : off = O
    · subst hoO
      exact Or.inr (Or.inl (entry_at_tomb_self (d s) (d' s) off ht.2).2.1)
    · rw [entry_at_tomb_other (d s) (d' s) O off hO (dir_offsets_mod m off hoff) hoO ht.2]
      exact h
  · rw [ht.1 s hs hsS]
    exact h

/-- A scan of a run of sectors whose result is not the tombstoned entry gives the same
result on the disk with the tombstone. -/
theorem find_entry_in_sectors_loop_tomb (m : FAT16) (d d' : Disk) (u : Uninit) (name : List Nat)
    (len from_sector S O : Nat) (hO : O % DIR_ENTRY_SIZE = 0) (ht : TombAt m d d' S O)
    (hfrom : m.root_sec ≤ from_sector) (k : Nat) : ∀ (i : Nat),
    (∀ st sl, find_entry_in_sectors_loop m d u name len from_sector k i = some (st, sl) →
      ¬ (sl.sector = S ∧ sl.offset = O)) →
    find_entry_in_sectors_loop m d' u name len from_sector k i
      = find_entry_in_sectors_loop m d u name len from_sector k i := by
  induction k with
  | zero => intro i _; rfl
  | succ k ih =>
    intro i h
    rw [find_entry_in_sectors_loop] at h ⊢
    rw [find_entry_in_sectors_loop]
    simp only [sector_read] at h ⊢
    have hb : find_entry_in_buffer u name len (d' (from_sector + i)) (from_sector + i)
          (dir_offsets m)
        = find_entry_in_buffer u name len (d (from_sector + i)) (from_sector + i)
          (dir_offsets m) := by
      by_cases hsS : from_sector + i = S
      · rw [hsS]
        rw [hsS] at h
        apply find_entry_in_buffer_tomb u name len (d S) (d' S) S O hO ht.2 _
          (fun off ho => dir_offsets_mod m off ho)
        intro st sl hf hoff
        rw [hf] at h
        exact h st sl rfl ⟨(find_entry_in_buffer_some u name len _ _ _ st sl hf).2.1, hoff⟩
      · rw [ht.1 _ (by omega) hsS]
    rw [hb]
    cases hf : find_entry_in_buffer u name len (d (from_sector + i)) (from_sector + i)
        (dir_offsets m) with
    | some r => rfl
    | none =>
      rw [hf] at h
      exact ih (i + 1) h

/-- A scan of a run of sectors in which no entry can be returned as found ends without a
result or with a never-used entry. -/
theorem find_entry_in_sectors_loop_nostop (m : FAT16) (d : Disk) (u : Uninit) (name : List Nat)
    (len from_sector : Nat) (k : Nat) : ∀ (i : Nat),
    (∀ s, from_sector + i ≤ s → s < from_sector + i + k → ∀ off, off ∈ dir_offsets m →
      NoStop u name len (entry_at (d s) off)) →
    find_entry_in_sectors_loop m d u name len from_sector k i = none
      ∨ ∃ sl, find_entry_in_sectors_loop m d u name len from_sector k i
          = some (FIND_EMPTY, sl) := by
  induction k with
  | zero => intro i _; exact Or.inl rfl
  | succ k ih =>
    intro i h
    rw [find_entry_in_sectors_loop]
    simp only [sector_read]
    rcases find_entry_in_buffer_nostop u name len (d (from_sector + i)) (from_sector + i)
        (dir_offsets m) (h _ (le_refl _) (by omega)) with hf | ⟨sl, hf⟩
    · rw [hf]
      exact ih (i + 1) (fun s h1 h2 => h s (by omega) (by omega))
    · rw [hf]
      exact Or.inr ⟨sl, rfl⟩

/-- A scan of a run of sectors that returns the entry at offset `O` of sector `S` ends, once
that entry is tombstoned, without a result or with a never-used entry, provided no later
entry of the run can be returned as found. -/
theorem find_entry_in_sectors_loop_hit (m : FAT16) (d d' : Disk) (u : Uninit) (name : List Nat)
    (len from_sector S O : Nat) (hO : O % DIR_ENTRY_SIZE = 0) (ht : TombAt m d d' S O)
    (hfrom : m.root_sec ≤ from_sector)
    (h1 : ∀ off, off ∈ dir_offsets m → O < off → NoStop u name len (entry_at (d S) off))
    (k : Nat) : ∀ (i : Nat),
    (∀ s, S < s → s < from_sector + i + k → ∀ off, off ∈ dir_offsets m →
      NoStop u name len (entry_at (d s) off)) →
    ∀ st sl, find_entry_in_sectors_loop m d u name len from_sector k i = some (st, sl) →
    sl.sector = S → sl.offset = O →
    find_entry_in_sectors_loop m d' u name len from_sector k i = none
      ∨ ∃ sl', find_entry_in_sectors_loop m d' u name len from_sector k i
          = some (FIND_EMPTY, sl') := by
  induction k with
  | zero => intro i _ st sl h; simp [find_entry_in_sectors_loop] at h
  | succ k ih =>
    intro i h2 st sl h hS hoff
    rw [find_entry_in_sectors_loop] at h ⊢
    simp only [sector_read] at h ⊢
    cases hf : find_entry_in_buffer u name len (d (from_sector + i)) (from_sector + i)
        (dir_offsets m) with
    | none =>
      rw [hf] at h
      have hb : find_entry_in_buffer u name len (d' (from_sector + i)) (from_sector + i)
          (dir_offsets m) = none := by
        by_cases hsS : from_sector + i = S
        · rw [hsS]
          rw [hsS] at hf
          rw [find_entry_in_buffer_tomb u name len (d S) (d' S) S O hO ht.2 _
            (fun off ho => dir_offsets_mod m off ho) (fun st sl hx => by rw [hf] at hx; cases hx)]
          exact hf
        · rw [ht.1 _ (by omega) hsS]
          exact hf
      rw [hb]
      exact ih (i + 1) (fun s a b => h2 s a (by omega)) st sl h hS hoff
    | some r =>
      rw [hf] at h
      simp only [Option.some.injEq] at h
      subst h
      have hsec := (find_entry_in_buffer_some u name len _ _ _ st sl hf).2.1
      rw [hS] at hsec
      rw [← hsec] at hf ⊢
      rcases find_entry_in_buffer_hit u name len (d S) (d' S) S O hO ht.2 _
          (fun off ho => dir_offsets_mod m off ho) (dir_offsets_pairwise m) h1 st sl hf hoff
        with hb | ⟨sl', hb⟩
      · rw [hb]
        apply find_entry_in_sectors_loop_nostop
        intro s a b off ho
        exact NoStop_tomb m d d' u name len S O hO ht s off (by omega) ho
          (h2 s (by omega) (by omega) off ho)
      · rw [hb]
        exact Or.inr ⟨sl', rfl⟩

/-- One iteration of the chain loop of `find_entry_internal`, in terms of the scan of the
sectors of the cluster. -/
theorem find_entry_chain_succ (m : FAT16) (d : Disk) (u : Uninit) (name : List Nat) (len : Nat)
    (fuel clus : Nat) (state : Int) (slot : DirEntrySlot) :
    find_entry_chain m d u name len (fuel + 1) clus state slot =
      if is_cluster_inuse clus = true then
        match find_entry_in_sectors_loop m d u name len (first_sector m clus) m.sec_per_clus 0 with
        | some r => .ok (false, r.1, r.2, clus)
        | none => find_entry_chain m d u name len fuel (read_fat_entry m d clus) FIND_FULL slot
      else .ok (false, state, slot, clus) := by
  rw [find_entry_chain]
  by_cases hin : is_cluster_inuse clus = true
  · simp only [hin, if_true, cluster_first_sector_ok m clus hin, bind, Except.bind,
      find_entry_in_sectors]
    cases hl : find_entry_in_sectors_loop m d u name len (first_sector m clus)
        m.sec_per_clus 0 with
    | none =>
      simp only [FIND_FULL, FIND_EXIST, FIND_EMPTY]
      norm_num
    | some r =>
      obtain ⟨st, sl⟩ := r
      have hst := (find_entry_in_sectors_loop_some m d u name len _ _ 0 st sl hl).1
      rcases hst with hst | hst <;> subst hst <;>
        simp [FIND_EXIST, FIND_EMPTY, pure, Except.pure]
  · simp only [hin, Bool.false_eq_true, if_false, pure, Except.pure]

theorem find_entry_chain_visits_succ (m : FAT16) (d : Disk) (u : Uninit) (name : List Nat)
    (len : Nat) (fuel clus : Nat) (slot : DirEntrySlot) :
    find_entry_chain_visits m d u name len (fuel + 1) clus slot =
      if is_cluster_inuse clus = true then
        match find_entry_in_sectors_loop m d u name len (first_sector m clus) m.sec_per_clus 0 with
        | some _ => [clus]
        | none => clus :: find_entry_chain_visits m d u name len fuel (read_fat_entry m d clus) slot
      else [] := by
  rw [find_entry_chain_visits]
  by_cases hin : is_cluster_inuse clus = true
  · simp only [hin, if_true, find_entry_in_sectors]
    cases hl : find_entry_in_sectors_loop m d u name len (first_sector m clus)
        m.sec_per_clus 0 with
    | none => simp
    | some r =>
      obtain ⟨st, sl⟩ := r
      have hst := (find_entry_in_sectors_loop_some m d u name len _ _ 0 st sl hl).1
      rcases hst with hst | hst <;> subst hst <;> simp [FIND_EXIST, FIND_EMPTY, FIND_FULL]
  · simp only [hin, Bool.false_eq_true, if_false]

theorem first_sector_ge_root (m : FAT16) (hg : Geom m) (c : Nat) : m.root_sec ≤ first_sector m c := by
  have h1 := first_sector_ge m c
  have h2 := hg.data_eq
  omega

/-- A run of the chain loop whose result is not the tombstoned entry gives the same result
on the disk with the tombstone, also with more fuel. -/
theorem find_entry_chain_tomb (m : FAT16) (hg : Geom m) (d d' : Disk) (u : Uninit)
    (name : List Nat) (len S O K : Nat) (hO : O % DIR_ENTRY_SIZE = 0) (ht : TombAt m d d' S O)
    (fuel : Nat) : ∀ (clus : Nat) (state : Int) (slot0 : DirEntrySlot) (ret : Bool) (st : Int)
      (s : DirEntrySlot) (c : Nat),
    find_entry_chain m d u name len fuel clus state slot0 = .ok (ret, st, s, c) →
    ¬ (s.sector = S ∧ s.offset = O) →
    (∀ x, x ∈ find_entry_chain_visits m d u name len fuel clus slot0 →
      read_fat_entry m d' x = read_fat_entry m d x) →
    find_entry_chain m d' u name len (fuel + K) clus state slot0 = .ok (ret, st, s, c) := by
  induction fuel with
  | zero => intro clus state slot0 ret st s c h; simp [find_entry_chain] at h
  | succ fuel ih =>
    intro clus state slot0 ret st s c h hne hv
    rw [Nat.add_right_comm, find_entry_chain_succ]
    rw [find_entry_chain_succ] at h
    rw [find_entry_chain_visits_succ] at hv
    by_cases hin : is_cluster_inuse clus = true
    · rw [if_pos hin] at h hv ⊢
      cases hl : find_entry_in_sectors_loop m d u name len (first_sector m clus)
          m.sec_per_clus 0 with
      | some r =>
        rw [hl] at h
        simp only [Except.ok.injEq, Prod.mk.injEq] at h
        obtain ⟨rfl, rfl, rfl, rfl⟩ := h
        rw [find_entry_in_sectors_loop_tomb m d d' u name len _ S O hO ht
          (first_sector_ge_root m hg clus) _ 0 (fun st sl hx => by
            rw [hl] at hx
            simp only [Option.some.injEq] at hx
            subst hx
            exact hne), hl]
      | none =>
        rw [hl] at h hv
        rw [find_entry_in_sectors_loop_tomb m d d' u name len _ S O hO ht
          (first_sector_ge_root m hg clus) _ 0 (fun st sl hx => by
            rw [hl] at hx
            cases hx), hl]
        dsimp only at h hv ⊢
        rw [hv clus (List.mem_cons_self _ _)]
        exact ih _ _ _ _ _ _ _ h hne (fun x hx => hv x (List.mem_cons_of_mem _ hx))
    · rw [if_neg hin] at h ⊢
      exact h

/-- The chain loop over clusters in which no entry can be returned as found, on a chain that
ends after `j` clusters, ends with `FIND_EMPTY` or `FIND_FULL`. -/
theorem find_entry_chain_rest (m : FAT16) (d : Disk) (u : Uninit) (name : List Nat) (len : Nat)
    (j : Nat) : ∀ (fuel clus : Nat) (slot : DirEntrySlot), j < fuel →
    (∀ i, i < j → is_cluster_inuse (chain_nth m d clus i) = true
      ∧ ∀ t, t < m.sec_per_clus → ∀ off, off ∈ dir_offsets m →
          NoStop u name len (entry_at (d (first_sector m (chain_nth m d clus i) + t)) off)) →
    is_cluster_inuse (chain_nth m d clus j) = false →
    ∃ st s c, find_entry_chain m d u name len fuel clus FIND_FULL slot = .ok (false, st, s, c)
      ∧ (st = FIND_EMPTY ∨ st = FIND_FULL) := by
  induction j with
  | zero =>
    intro fuel clus slot hf _ hend
    obtain ⟨f, rfl⟩ : ∃ f, fuel = f + 1 := ⟨fuel - 1, by omega⟩
    rw [find_entry_chain_succ]
    have hend' : ¬ (is_cluster_inuse clus = true) := by
      simpa [chain_nth] using hend
    rw [if_neg hend']
    exact ⟨_, _, _, rfl, Or.inr rfl⟩
  | succ j ih =>
    intro fuel clus slot hf hall hend
    obtain ⟨f, rfl⟩ : ∃ f, fuel = f + 1 := ⟨fuel - 1, by omega⟩
    rw [find_entry_chain_succ]
    have h0 := hall 0 (by omega)
    have h00 : is_cluster_inuse clus = true := h0.1
    rw [if_pos h00]
    rcases find_entry_in_sectors_loop_nostop m d u name len (first_sector m clus)
        m.sec_per_clus 0 (fun s h1 h2 off ho => by
          have := h0.2 (s - first_sector m clus) (by omega) off ho
          have he : first_sector m (chain_nth m d clus 0) + (s - first_sector m clus) = s := by
            show first_sector m clus + (s - first_sector m clus) = s
            omega
          rw [he] at this
          exact this) with hl | ⟨sl, hl⟩
    · rw [hl]
      dsimp only
      apply ih f _ slot (by omega)
      · intro i hi
        rw [← chain_nth_shift]
        exact hall (i + 1) (by omega)
      · rw [← chain_nth_shift]
        exact hend
    · rw [hl]
      exact ⟨_, _, _, rfl, Or.inl rfl⟩

theorem find_entry_in_buffer_exist (u : Uninit) (name : List Nat) (len : Nat) (buffer : Sector)
    (sec : Nat) (offs : List Nat) (slot : DirEntrySlot)
    (h : find_entry_in_buffer u name len buffer sec offs = some (FIND_EXIST, slot)) :
    check_name u name len slot.dir = true := by
  induction offs with
  | nil => simp [find_entry_in_buffer] at h
  | cons o os ih =>
    rw [find_entry_in_buffer] at h
    split_ifs at h with h1 h2 h3
    · exact ih h
    · simp only [Option.some.injEq, Prod.mk.injEq, true_and] at h
      subst h
      simp only [Bool.and_eq_true] at h2
      exact h2.2
    · simp [FIND_EXIST, FIND_EMPTY] at h
    · exact ih h

theorem find_entry_in_sectors_loop_exist (m : FAT16) (d : Disk) (u : Uninit) (name : List Nat)
    (len from_sector : Nat) (k : Nat) : ∀ (i : Nat) (slot : DirEntrySlot),
    find_entry_in_sectors_loop m d u name len from_sector k i = some (FIND_EXIST, slot) →
    check_name u name len slot.dir = true := by
  induction k with
  | zero => intro i slot h; simp [find_entry_in_sectors_loop] at h
  | succ k ih =>
    intro i slot h
    rw [find_entry_in_sectors_loop] at h
    simp only [sector_read] at h
    cases hb : find_entry_in_buffer u name len (d (from_sector + i)) (from_sector + i)
        (dir_offsets m) with
    | some r =>
      rw [hb] at h
      simp only [Option.some.injEq] at h
      subst h
      exact find_entry_in_buffer_exist u name len _ _ _ slot hb
    | none =>
      rw [hb] at h
      exact ih (i + 1) slot h

/-- A run of the chain loop that returns the entry at offset `O` of sector `S` ends, once
that entry is tombstoned, with `FIND_EMPTY` or `FIND_FULL`. -/
theorem find_entry_chain_hit (m : FAT16) (hg : Geom m) (d d' : Disk) (u : Uninit)
    (name : List Nat) (len S O K : Nat) (hO : O % DIR_ENTRY_SIZE = 0) (ht : TombAt m d d' S O)
    (hT : TailClear m d d' u S O K name len)
    (fuel : Nat) : ∀ (clus : Nat) (state : Int) (slot0 : DirEntrySlot) (ret : Bool) (st : Int)
      (s : DirEntrySlot) (c : Nat),
    find_entry_chain m d u name len fuel clus state slot0 = .ok (ret, st, s, c) →
    s.sector = S → s.offset = O → ¬ (slot0.sector = S ∧ slot0.offset = O) →
    (∀ x, x ∈ find_entry_chain_visits m d u name len fuel clus slot0 →
      read_fat_entry m d' x = read_fat_entry m d x) →
    ∃ st' s' c', find_entry_chain m d' u name len (fuel + K) clus state slot0
        = .ok (false, st', s', c') ∧ (st' = FIND_EMPTY ∨ st' = FIND_FULL) := by
  induction fuel with
  | zero => intro clus state slot0 ret st s c h; simp [find_entry_chain] at h
  | succ fuel ih =>
    intro clus state slot0 ret st s c h hS hoff hne hv
    rw [Nat.add_right_comm, find_entry_chain_succ]
    rw [find_entry_chain_succ] at h
    rw [find_entry_chain_visits_succ] at hv
    by_cases hin : is_cluster_inuse clus = true
    · rw [if_pos hin] at h hv ⊢
      cases hl : find_entry_in_sectors_loop m d u name len (first_sector m clus)
          m.sec_per_clus 0 with
      | some r =>
        rw [hl] at h hv
        simp only [Except.ok.injEq, Prod.mk.injEq] at h
        obtain ⟨rfl, rfl, rfl, rfl⟩ := h
        obtain ⟨st, s⟩ := r
        dsimp only at hS hoff hv
        obtain ⟨_, hlo, hhi, _, _⟩ :=
          find_entry_in_sectors_loop_some m d u name len _ _ 0 st s hl
        rw [hS] at hlo hhi
        obtain ⟨hafter, j, hjK, hall, hend⟩ := hT.2.2 clus hin (by omega) (by omega)
        rcases find_entry_in_sectors_loop_hit m d d' u name len (first_sector m clus) S O hO ht
            (first_sector_ge_root m hg clus) hT.1 m.sec_per_clus 0
            (fun x h1 h2 => hafter x h1 (by omega)) st s hl hS hoff with hl' | ⟨sl', hl'⟩
        · rw [hl']
          dsimp only
          rw [hv clus (List.mem_singleton_self _)]
          exact find_entry_chain_rest m d' u name len j (fuel + K) _ slot0 (by omega) hall hend
        · rw [hl']
          exact ⟨_, _, _, rfl, Or.inl rfl⟩
      | none =>
        rw [hl] at h hv
        rw [find_entry_in_sectors_loop_tomb m d d' u name len _ S O hO ht
          (first_sector_ge_root m hg clus) _ 0 (fun st sl hx => by
            rw [hl] at hx
            cases hx), hl]
        dsimp only at h hv ⊢
        rw [hv clus (List.mem_cons_self _ _)]
        exact ih _ _ _ _ _ _ _ h hS hoff hne (fun x hx => hv x (List.mem_cons_of_mem _ hx))
    · rw [if_neg hin] at h
      simp only [Except.ok.injEq, Prod.mk.injEq] at h
      obtain ⟨_, _, rfl, _⟩ := h
      exact absurd ⟨hS, hoff⟩ hne

theorem find_entry_loop_stop (m : FAT16) (d : Disk) (u : Uninit) (fuel : Nat) (remains : List Nat)
    (level clus : Nat) (state : Int) (slot : DirEntrySlot)
    (h : remains = [] ∨ state ≠ FIND_EXIST) :
    find_entry_loop m d u (fuel + 1) remains level clus state slot = .ok (state, slot, remains) := by
  rw [find_entry_loop_succ, if_neg]
  rintro ⟨h1, h2⟩
  rcases h with h | h
  · exact h1 h
  · exact h h2

theorem find_entry_loop_stop_inv (m : FAT16) (d : Disk) (u : Uninit) (fuel : Nat)
    (remains : List Nat) (level clus : Nat) (state : Int) (slot : DirEntrySlot)
    (h : remains = [] ∨ state ≠ FIND_EXIST) (r : Int × DirEntrySlot × List Nat)
    (hr : find_entry_loop m d u fuel remains level clus state slot = .ok r) :
    r = (state, slot, remains) ∧ 0 < fuel := by
  cases fuel with
  | zero => simp [find_entry_loop] at hr
  | succ f =>
    rw [find_entry_loop_stop m d u f remains level clus state slot h] at hr
    simp only [Except.ok.injEq] at hr
    exact ⟨hr.symm, Nat.succ_pos _⟩

/-- An entry that the chain loop returns as found matches the name. -/
theorem find_entry_chain_exist (m : FAT16) (d : Disk) (u : Uninit) (name : List Nat) (len : Nat)
    (fuel : Nat) : ∀ (clus : Nat) (state : Int) (slot0 : DirEntrySlot) (ret : Bool)
      (s : DirEntrySlot) (c : Nat),
    find_entry_chain m d u name len fuel clus state slot0 = .ok (ret, FIND_EXIST, s, c) →
    s ≠ slot0 → check_name u name len s.dir = true := by
  induction fuel with
  | zero => intro clus state slot0 ret s c h; simp [find_entry_chain] at h
  | succ fuel ih =>
    intro clus state slot0 ret s c h hne
    rw [find_entry_chain_succ] at h
    by_cases hin : is_cluster_inuse clus = true
    · rw [if_pos hin] at h
      cases hl : find_entry_in_sectors_loop m d u name len (first_sector m clus)
          m.sec_per_clus 0 with
      | some r =>
        rw [hl] at h
        obtain ⟨st, sl⟩ := r
        simp only [Except.ok.injEq, Prod.mk.injEq] at h
        obtain ⟨_, rfl, rfl, _⟩ := h
        exact find_entry_in_sectors_loop_exist m d u name len _ _ 0 sl hl
      | none =>
        rw [hl] at h
        exact ih _ _ _ _ _ _ h hne
    · rw [if_neg hin] at h
      simp only [Except.ok.injEq, Prod.mk.injEq] at h
      exact absurd h.2.2.1.symm hne

/-- Path resolution after the entry it resolved to has been tombstoned: when the rest of
the entry's directory holds no entry that can be returned as found, the resolution ends
with `FIND_EMPTY` or `FIND_FULL`. -/
theorem find_entry_loop_tomb (m : FAT16) (hg : Geom m) (d d' : Disk) (u : Uninit)
    (S O K : Nat) (hO : O % DIR_ENTRY_SIZE = 0) (ht : TombAt m d d' S O)
    (hE : is_directory (DIR_Attr (entry_at (d S) O)) = false)
    (hT : ∀ name len, check_name u name len (entry_at (d S) O) = true →
      TailClear m d d' u S O K name len)
    (fuel : Nat) : ∀ (remains : List Nat) (level clus : Nat) (slot0 slot : DirEntrySlot)
      (rem : List Nat),
    find_entry_loop m d u fuel remains level clus FIND_EXIST slot0 = .ok (FIND_EXIST, slot, rem) →
    remains ≠ [] → slot.sector = S → slot.offset = O →
    (level ≠ 0 → ¬ (slot0.sector = S ∧ slot0.offset = O)) →
    (∀ x, x ∈ find_entry_visits m d u fuel remains level clus FIND_EXIST slot0 →
      read_fat_entry m d' x = read_fat_entry m d x) →
    ∃ r s' rem', find_entry_loop m d' u (fuel + K) remains level clus FIND_EXIST slot0
        = .ok (r, s', rem') ∧ (r = FIND_EMPTY ∨ r = FIND_FULL) := by
  induction fuel with
  | zero => intro remains level clus slot0 slot rem h; simp [find_entry_loop] at h
  | succ fuel ih =>
    intro remains level clus slot0 slot rem h hrem hS hoff hinv hv
    have hc : remains ≠ [] ∧ FIND_EXIST = FIND_EXIST := ⟨hrem, rfl⟩
    -- the tail of the iteration, after an entry `s1` has been found on both disks
    have hfin : ∀ (lv c : Nat) (s1 : DirEntrySlot),
        s1.dir = entry_at (d s1.sector) s1.offset ∨ ¬ (s1.sector = S ∧ s1.offset = O) →
        find_entry_finish m d u fuel remains lv c FIND_EXIST s1 = .ok (FIND_EXIST, slot, rem) →
        (∀ x, x ∈ find_entry_finish_visits m d u fuel remains lv c FIND_EXIST s1 →
          read_fat_entry m d' x = read_fat_entry m d x) →
        (skip_slashes (List.drop (strcspn_slash remains) remains) = [] ∧ s1 = slot)
        ∨ (skip_slashes (List.drop (strcspn_slash remains) remains) ≠ []
            ∧ ¬ (s1.sector = S ∧ s1.offset = O)
            ∧ ∃ r s' rem', find_entry_finish m d' u (fuel + K) remains lv c FIND_EXIST s1
                = .ok (r, s', rem') ∧ (r = FIND_EMPTY ∨ r = FIND_FULL)) := by
      intro lv c s1 hs1 hf hvf
      unfold find_entry_finish at hf ⊢
      unfold find_entry_finish_visits at hvf
      dsimp only at hf hvf ⊢
      rw [if_pos rfl] at hf hvf
      rw [if_pos rfl]
      by_cases h1 : skip_slashes (List.drop (strcspn_slash remains) remains) ≠ []
          ∧ is_directory (DIR_Attr s1.dir) = false
      · rw [if_pos h1] at hf
        simp [ENOTDIR, FIND_EXIST] at hf
      · rw [if_neg h1] at hf hvf
        rw [if_neg h1]
        by_cases hn : skip_slashes (List.drop (strcspn_slash remains) remains) = []
        · left
          rw [hn] at hf
          have := (find_entry_loop_stop_inv m d u fuel [] _ _ _ s1 (Or.inl rfl) _ hf).1
          simp only [Prod.mk.injEq] at this
          exact ⟨hn, this.2.1.symm⟩
        · right
          have hdir : is_directory (DIR_Attr s1.dir) = true := by
            by_contra hd
            exact h1 ⟨hn, by simpa using hd⟩
          have hnot : ¬ (s1.sector = S ∧ s1.offset = O) := by
            rcases hs1 with hs1 | hs1
            · rintro ⟨a, b⟩
              rw [hs1, a, b, hE] at hdir
              cases hdir
            · exact hs1
          exact ⟨hn, hnot, ih _ _ _ s1 slot rem hf hn hS hoff (fun _ => hnot) hvf⟩
    rw [Nat.add_right_comm, find_entry_loop_succ]
    rw [find_entry_loop_succ] at h
    rw [find_entry_visits_succ] at hv
    rw [if_pos hc] at h hv ⊢
    by_cases hl : level = 0
    · rw [if_pos hl] at h hv ⊢
      have hr1 : (find_entry_in_sectors m d u remains (strcspn_slash remains) m.root_sec
          m.root_sectors slot0).1 = FIND_EXIST := by
        by_contra hne
        rw [if_pos hne] at h
        simp only [Except.ok.injEq, Prod.mk.injEq] at h
        exact hne h.1
      rw [if_neg (by simpa using hr1)] at h
      rw [if_pos hr1] at hv
      rw [hr1] at h hv
      -- the scan of the root region on the first disk
      unfold find_entry_in_sectors at hr1 h hv ⊢
      cases hloop : find_entry_in_sectors_loop m d u remains (strcspn_slash remains) m.root_sec
          m.root_sectors 0 with
      | none =>
        rw [hloop] at hr1
        simp [FIND_FULL, FIND_EXIST] at hr1
      | some r =>
        obtain ⟨st1, s1⟩ := r
        rw [hloop] at hr1 h hv
        dsimp only at hr1 h hv
        subst hr1
        obtain ⟨_, hlo, hhi, hmem, hdir⟩ :=
          find_entry_in_sectors_loop_some m d u remains _ _ _ 0 _ s1 hloop
        rcases hfin level clus s1 (Or.inl hdir) h hv with ⟨hn, hs⟩ | ⟨hn, hnot, hres⟩
        · subst hs
          have hchk := find_entry_in_sectors_loop_exist m d u remains _ _ _ 0 s1 hloop
          rw [hdir, hS, hoff] at hchk
          have hTC := hT _ _ hchk
          rcases find_entry_in_sectors_loop_hit m d d' u remains (strcspn_slash remains)
              m.root_sec S O hO ht (le_refl _) hTC.1 m.root_sectors 0
              (fun x h1 h2 => hTC.2.1 x h1 (by omega)) _ s1 hloop hS hoff with hl' | ⟨sl', hl'⟩
          · rw [hl']
            dsimp only
            rw [if_pos (by simp [FIND_FULL, FIND_EXIST])]
            exact ⟨_, _, _, rfl, Or.inr rfl⟩
          · rw [hl']
            dsimp only
            rw [if_pos (by simp [FIND_EMPTY, FIND_EXIST])]
            exact ⟨_, _, _, rfl, Or.inl rfl⟩
        · rw [find_entry_in_sectors_loop_tomb m d d' u remains _ m.root_sec S O hO ht (le_refl _)
            _ 0 (fun st sl hx => by
              rw [hloop] at hx
              simp only [Option.some.injEq, Prod.mk.injEq] at hx
              rw [← hx.2]
              exact hnot), hloop]
          dsimp only
          rw [if_neg (by simp)]
          exact hres
    · rw [if_neg hl] at h hv ⊢
      cases hch : find_entry_chain m d u remains (strcspn_slash remains) fuel clus FIND_EXIST
          slot0 with
      | error e =>
        rw [hch] at h
        cases h
      | ok r =>
        obtain ⟨ret, st, s1, c⟩ := r
        rw [hch] at h hv
        dsimp only at h hv
        obtain ⟨hret, hcases⟩ := find_entry_chain_cases m d u remains _ fuel clus _ slot0 _ _ _ _ hch
        subst hret
        simp only [Bool.false_eq_true, if_false] at h hv
        have hst : st = FIND_EXIST := by
          by_contra hne
          unfold find_entry_finish at h
          dsimp only at h
          rw [if_neg hne] at h
          by_cases hn : skip_slashes (List.drop (strcspn_slash remains) remains) ≠ []
          · rw [if_pos hn] at h
            simp [ENOENT, FIND_EXIST] at h
          · rw [if_neg hn] at h
            have := (find_entry_loop_stop_inv m d u fuel remains _ _ _ s1 (Or.inr hne) _ h).1
            simp only [Prod.mk.injEq] at this
            exact hne this.1.symm
        subst hst
        have hs1 : s1.dir = entry_at (d s1.sector) s1.offset
            ∨ ¬ (s1.sector = S ∧ s1.offset = O) := by
          rcases hcases with ⟨_, hat⟩ | ⟨hs, _⟩
          · exact Or.inl hat.1
          · rw [hs]; exact Or.inr (hinv hl)
        rcases hfin level c s1 hs1 h (fun x hx => hv x (List.mem_append_right _ hx))
          with ⟨hn, hs⟩ | ⟨hn, hnot, hres⟩
        · subst hs
          have hchk := find_entry_chain_exist m d u remains _ fuel clus _ slot0 _ _ _ hch
            (fun he => hinv hl (he ▸ ⟨hS, hoff⟩))
          have hdir1 : s1.dir = entry_at (d S) O := by
            rcases hcases with ⟨_, hat⟩ | ⟨hs, _⟩
            · rw [hat.1, hS, hoff]
            · exact absurd (hs ▸ ⟨hS, hoff⟩) (hinv hl)
          rw [hdir1] at hchk
          have hTC := hT _ _ hchk
          obtain ⟨st', s', c', hch', hst'⟩ := find_entry_chain_hit m hg d d' u remains
            (strcspn_slash remains) S O K hO ht hTC fuel clus FIND_EXIST slot0 _ _ _ _ hch hS hoff
            (hinv hl) (fun x hx => hv x (List.mem_append_left _ hx))
          rw [hch']
          dsimp only
          simp only [Bool.false_eq_true, if_false]
          have hne : st' ≠ FIND_EXIST := by
            rcases hst' with h1 | h1 <;> rw [h1] <;> simp [FIND_EMPTY, FIND_FULL, FIND_EXIST]
          unfold find_entry_finish
          dsimp only
          rw [if_neg hne, if_neg (by simpa using hn)]
          obtain ⟨f, hf⟩ : ∃ f, fuel = f + 1 := by
            unfold find_entry_finish at h
            dsimp only at h
            rw [if_pos rfl, hn] at h
            rw [if_neg (by simp)] at h
            have := (find_entry_loop_stop_inv m d u fuel [] _ _ _ s1 (Or.inl rfl) _ h).2
            exact ⟨fuel - 1, by omega⟩
          rw [hf, Nat.add_right_comm,
            find_entry_loop_stop m d' u _ remains level c' st' s' (Or.inr hne)]
          exact ⟨_, _, _, rfl, hst'⟩
        · rw [find_entry_chain_tomb m hg d d' u remains _ S O K hO ht fuel clus _ slot0 _ _ _ _
            hch hnot (fun x hx => hv x (List.mem_append_left _ hx))]
          dsimp only
          simp only [Bool.false_eq_true, if_false]
          exact hres

theorem strncmp_eq_trans (f a b : Nat → Nat) (n : Nat) : ∀ (i : Nat),
    strncmp_eq f a n i = true → strncmp_eq f b n i = true → strncmp_eq a b n i = true := by
  induction n with
  | zero => intro i _ _; rfl
  | succ n ih =>
    intro i h1 h2
    rw [strncmp_eq] at h1 h2 ⊢
    by_cases hfa : f i = a i
    · by_cases hfb : f i = b i
      · have hab : a i = b i := by rw [← hfa, hfb]
        simp only [hfa, bne_self_eq_false, Bool.false_eq_true, if_false] at h1
        simp only [hfb, bne_self_eq_false, Bool.false_eq_true, if_false] at h2
        simp only [hab, bne_self_eq_false, Bool.false_eq_true, if_false]
        by_cases hz : b i = 0
        · simp [hz]
        · have hz' : ¬ ((b i == 0) = true) := by simpa using hz
          have hza : ¬ ((a i == 0) = true) := by rw [hab]; exact hz'
          rw [if_neg hz']
          rw [if_neg hza] at h1
          rw [if_neg hz'] at h2
          exact ih (i + 1) h1 h2
      · have : (f i != b i) = true := by simpa using hfb
        rw [if_pos this] at h2
        cases h2
    · have : (f i != a i) = true := by simpa using hfa
      rw [if_pos this] at h1
      cases h1

theorem other_name_NoStop (u : Uninit) (name : List Nat) (len : Nat) (t e : DIR_ENTRY)
    (ht : check_name u name len t = true) (h : other_name t e) : NoStop u name len e := by
  rcases h with h | h | h
  · exact Or.inl h
  · exact Or.inr (Or.inl h)
  · refine Or.inr (Or.inr ?_)
    by_contra hc
    have hc' : check_name u name len e = true := by simpa using hc
    unfold check_name at ht hc'
    dsimp only at ht hc'
    rw [strncmp_eq_trans _ _ _ _ 0 ht hc'] at h
    cases h

/-- The disk after `dir_entry_write` of the slot's entry with its first name byte set to
`NAME_DELETED`. -/
theorem dir_entry_write_tomb (d : Disk) (slot : DirEntrySlot) (e : DIR_ENTRY)
    (h : ∀ i, i < 32 → e i = d slot.sector (slot.offset + i)) (o : Nat) :
    dir_entry_write d (DirEntrySlot.mk (set_DIR_Name0 e NAME_DELETED) slot.sector slot.offset)
        slot.sector o
      = if o = slot.offset then NAME_DELETED else d slot.sector o := by
  unfold dir_entry_write
  simp only [sector_write_apply, if_true, memcpy, sector_read, DIR_ENTRY_SIZE, set_DIR_Name0]
  by_cases h1 : slot.offset ≤ o ∧ o < slot.offset + 32
  · rw [if_pos h1]
    by_cases h2 : o = slot.offset
    · rw [if_pos h2, if_pos (by omega)]
    · rw [if_neg h2, if_neg (by omega), h _ (by omega)]
      congr 1
      omega
  · rw [if_neg h1, if_neg (by omega)]

theorem find_entry_chain_visits_sim (m : FAT16) (d d' : Disk) (u : Uninit) (name : List Nat)
    (len : Nat) (fuel : Nat) : ∀ (clus : Nat) (slot slot' : DirEntrySlot),
    (∀ c, c ∈ find_entry_chain_visits m d u name len fuel clus slot →
      (∀ i, i < m.sec_per_clus →
        BufSim m (d (first_sector m c + i)) (d' (first_sector m c + i)))
      ∧ read_fat_entry m d' c = read_fat_entry m d c) →
    find_entry_chain_visits m d' u name len fuel clus slot'
      = find_entry_chain_visits m d u name len fuel clus slot := by
  induction fuel with
  | zero => intro clus slot slot' _; rfl
  | succ fuel ih =>
    intro clus slot slot' hv
    rw [find_entry_chain_visits_succ, find_entry_chain_visits_succ]
    rw [find_entry_chain_visits_succ] at hv
    by_cases hin : is_cluster_inuse clus = true
    · rw [if_pos hin] at hv ⊢
      rw [if_pos hin]
      cases hl : find_entry_in_sectors_loop m d u name len (first_sector m clus)
          m.sec_per_clus 0 with
      | some r =>
        rw [hl] at hv
        dsimp only at hv
        rw [find_entry_in_sectors_loop_sim m d d' u name len (first_sector m clus)
          m.sec_per_clus 0 (fun t _ h2 => (hv clus (List.mem_singleton_self _)).1 t (by omega)), hl]
        rfl
      | none =>
        rw [hl] at hv
        dsimp only at hv
        rw [find_entry_in_sectors_loop_sim m d d' u name len (first_sector m clus)
          m.sec_per_clus 0 (fun t _ h2 => (hv clus (List.mem_cons_self _ _)).1 t (by omega)), hl]
        dsimp only [Option.map]
        rw [(hv clus (List.mem_cons_self _ _)).2,
          ih _ slot slot' (fun c hc => hv c (List.mem_cons_of_mem _ hc))]
    · rw [if_neg hin, if_neg hin]

/-- On a disk that looks the same to the resolution, the resolution scans the same
directory clusters. -/
theorem find_entry_visits_sim (m : FAT16) (d d' : Disk) (u : Uninit) (fuel : Nat) :
    ∀ (remains : List Nat) (level clus clus' : Nat) (state : Int) (slot slot' : DirEntrySlot),
    SlotSim slot slot' → (remains ≠ [] → clus' = clus) →
    DirSim m d d' (find_entry_visits m d u fuel remains level clus state slot) →
    find_entry_visits m d' u fuel remains level clus' state slot'
      = find_entry_visits m d u fuel remains level clus state slot := by
  induction fuel with
  | zero => intro remains level clus clus' state slot slot' _ _ _; rfl
  | succ fuel ih =>
    intro remains level clus clus' state slot slot' hs hcl hv
    have hfin : ∀ (lv c c' : Nat) (st : Int) (s s' : DirEntrySlot), SlotSim s s' →
        (st ≠ FIND_EXIST → c' = c) →
        DirSim m d d' (find_entry_finish_visits m d u fuel remains lv c st s) →
        find_entry_finish_visits m d' u fuel remains lv c' st s'
          = find_entry_finish_visits m d u fuel remains lv c st s := by
      intro lv c c' st s s' hss hcc hvf
      unfold find_entry_finish_visits at hvf ⊢
      dsimp only at hvf ⊢
      rw [hss.2.2.1]
      by_cases hst : st = FIND_EXIST
      · rw [if_pos hst] at hvf
        rw [if_pos hst, if_pos hst]
        by_cases h1 : skip_slashes (List.drop (strcspn_slash remains) remains) ≠ []
            ∧ is_directory (DIR_Attr s.dir) = false
        · rw [if_pos h1, if_pos h1]
        · rw [if_neg h1] at hvf
          rw [if_neg h1, if_neg h1]
          apply ih _ _ _ _ _ _ _ hss _ hvf
          intro hne
          apply hss.2.2.2
          by_contra hd
          exact h1 ⟨hne, by simpa using hd⟩
      · rw [if_neg hst] at hvf
        rw [if_neg hst, if_neg hst]
        by_cases h1 : skip_slashes (List.drop (strcspn_slash remains) remains) ≠ []
        · rw [if_pos h1, if_pos h1]
        · rw [if_neg h1] at hvf
          rw [if_neg h1, if_neg h1]
          exact ih _ _ _ _ _ _ _ hss (fun _ => hcc hst) hvf
    rw [find_entry_visits_succ, find_entry_visits_succ]
    rw [find_entry_visits_succ] at hv
    by_cases hc : remains ≠ [] ∧ state = FIND_EXIST
    · rw [if_pos hc] at hv
      rw [if_pos hc, if_pos hc]
      have hcl' := hcl hc.1
      subst hcl'
      by_cases hl : level = 0
      · rw [if_pos hl] at hv
        rw [if_pos hl, if_pos hl]
        obtain ⟨hst, hss⟩ := find_entry_in_sectors_sim m d d' u remains (strcspn_slash remains)
          m.root_sec m.root_sectors slot slot' hs hv.1
        rw [hst]
        by_cases h1 : (find_entry_in_sectors m d u remains (strcspn_slash remains) m.root_sec
              m.root_sectors slot).1 = FIND_EXIST
        · rw [if_pos h1] at hv
          rw [if_pos h1, if_pos h1]
          exact hfin _ _ _ _ _ _ hss (fun h => absurd h1 h) hv
        · rw [if_neg h1, if_neg h1]
      · rw [if_neg hl] at hv
        rw [if_neg hl, if_neg hl]
        have hch := find_entry_chain_sim m d d' u remains (strcspn_slash remains) fuel clus'
          state slot slot' hs (fun c hc => hv.2 c (List.mem_append_left _ hc))
        rw [find_entry_chain_visits_sim m d d' u remains (strcspn_slash remains) fuel clus'
          slot slot' (fun c hc => hv.2 c (List.mem_append_left _ hc))]
        congr 1
        cases h1 : find_entry_chain m d u remains (strcspn_slash remains) fuel clus' state slot with
        | error e =>
          rw [h1] at hch
          cases h2 : find_entry_chain m d' u remains (strcspn_slash remains) fuel clus' state
              slot' with
          | error e' => rfl
          | ok r' => rw [h2] at hch; exact hch.elim
        | ok r =>
          rw [h1] at hch hv
          obtain ⟨b, st, s, c⟩ := r
          cases h2 : find_entry_chain m d' u remains (strcspn_slash remains) fuel clus' state
              slot' with
          | error e' => rw [h2] at hch; exact hch.elim
          | ok r' =>
            rw [h2] at hch
            obtain ⟨b', st', s', c'⟩ := r'
            obtain ⟨rfl, rfl, rfl, hss⟩ := hch
            dsimp only at hv ⊢
            by_cases hb : b' = true
            · rw [if_pos hb, if_pos hb]
            · rw [if_neg hb] at hv
              rw [if_neg hb, if_neg hb]
              exact hfin _ _ _ _ _ _ hss (fun _ => rfl)
                (DirSim_mono m d d' _ _ hv (fun c hc => List.mem_append_right _ hc))
    · rw [if_neg hc, if_neg hc]

theorem find_entry_clusters_sim (fuel : Nat) (m : FAT16) (d d' : Disk) (u : Uninit)
    (path : List Nat) (slot0 : DirEntrySlot)
    (hv : DirSim m d d' (find_entry_clusters fuel m d u path slot0)) :
    find_entry_clusters fuel m d' u path slot0 = find_entry_clusters fuel m d u path slot0 :=
  find_entry_visits_sim m d d' u fuel (skip_slashes path) 0 CLUSTER_END CLUSTER_END
    FIND_EXIST slot0 slot0 ⟨rfl, rfl, rfl, fun _ => rfl⟩ (fun _ => rfl) hv

/-- The scan of `alloc_clusters` appends free clusters of the scanned range in increasing
order. -/
theorem alloc_scan_spec (m : FAT16) (d : Disk) (n : Nat) : ∀ (k cur : Nat) (acc : List Nat),
    ∃ L, alloc_scan m d n k cur acc = acc ++ L ∧ L.Pairwise (· < ·)
      ∧ ∀ c, c ∈ L → cur ≤ c ∧ c < cur + k ∧ read_fat_entry m d c = CLUSTER_FREE := by
  intro k
  induction k with
  | zero =>
    intro cur acc
    exact ⟨[], (by simp [alloc_scan]), List.Pairwise.nil, fun c hc => (by cases hc)⟩
  | succ k ih =>
    intro cur acc
    rw [alloc_scan]
    by_cases hfree : read_fat_entry m d cur = CLUSTER_FREE
    · simp only [hfree, if_true]
      by_cases hlen : (acc ++ [cur]).length = n
      · rw [if_pos hlen]
        exact ⟨[cur], rfl, List.pairwise_singleton _ _, fun c hc => by
          rw [List.mem_singleton.mp hc]
          exact ⟨le_refl _, by omega, hfree⟩⟩
      · rw [if_neg hlen]
        obtain ⟨L, hL, hp, hm⟩ := ih (cur + 1) (acc ++ [cur])
        refine ⟨cur :: L, by rw [hL]; simp, List.pairwise_cons.mpr ⟨fun c hc => ?_, hp⟩,
          fun c hc => ?_⟩
        · have := (hm c hc).1
          omega
        · rcases List.mem_cons.mp hc with h1 | h1
          · rw [h1]
            exact ⟨le_refl _, by omega, hfree⟩
          · obtain ⟨a, b, e⟩ := hm c h1
            exact ⟨by omega, by omega, e⟩
    · simp only [hfree, if_false]
      by_cases hlen : acc.length = n
      · rw [if_pos hlen]
        exact ⟨[], (by simp), List.Pairwise.nil, fun c hc => (by cases hc)⟩
      · rw [if_neg hlen]
        obtain ⟨L, hL, hp, hm⟩ := ih (cur + 1) acc
        refine ⟨L, hL, hp, fun c hc => ?_⟩
        obtain ⟨a, b, e⟩ := hm c hc
        exact ⟨by omega, by omega, e⟩

/-- The clusters that the scan of `alloc_clusters` returns are distinct in-use cluster
numbers whose FAT entries are free. -/
theorem alloc_scan_free (m : FAT16) (d : Disk) (n : Nat) (L : List Nat)
    (hL : alloc_scan m d n (CLUSTER_MAX + 1 - CLUSTER_MIN) CLUSTER_MIN [] = L) :
    L.Nodup ∧ ∀ c, c ∈ L → is_cluster_inuse c = true ∧ read_fat_entry m d c = CLUSTER_FREE := by
  obtain ⟨L', h1, hp, hm⟩ := alloc_scan_spec m d n (CLUSTER_MAX + 1 - CLUSTER_MIN) CLUSTER_MIN []
  rw [hL] at h1
  simp only [List.nil_append] at h1
  subst h1
  refine ⟨hp.imp (fun h => Nat.ne_of_lt h), fun c hc => ?_⟩
  obtain ⟨a, b, e⟩ := hm c hc
  refine ⟨?_, e⟩
  simp only [is_cluster_inuse, CLUSTER_MIN, CLUSTER_MAX] at a b ⊢
  simp only [Bool.and_eq_true, decide_eq_true_eq]
  omega

theorem clear_all_spec (m : FAT16) : ∀ (L : List Nat) (d : Disk),
    (∀ c, c ∈ L → is_cluster_inuse c = true) →
    ∃ d', clear_all m d L = .ok d'
      ∧ (∀ s, InClusters m L s → d' s = ZERO_SECTOR)
      ∧ (∀ s, ¬ InClusters m L s → d' s = d s) := by
  intro L
  induction L with
  | nil =>
    intro d _
    exact ⟨d, rfl, fun s hs => (by obtain ⟨c, hc, _⟩ := hs; cases hc), fun s _ => rfl⟩
  | cons c cs ih =>
    intro d h
    obtain ⟨d', h1, h2, h3⟩ := ih (zero_sectors d m.sec_per_clus (first_sector m c))
      (fun x hx => h x (List.mem_cons_of_mem _ hx))
    refine ⟨d', ?_, fun s hs => ?_, fun s hs => ?_⟩
    · rw [clear_all]
      simp only [cluster_clear, cluster_first_sector_ok m c (h c (List.mem_cons_self _ _)), bind,
        Except.bind, pure, Except.pure]
      exact h1
    · by_cases hin : InClusters m cs s
      · exact h2 s hin
      · rw [h3 s hin, zero_sectors_apply]
        obtain ⟨x, hx, hlo, hhi⟩ := hs
        rcases List.mem_cons.mp hx with hx | hx
        · subst hx
          rw [if_pos ⟨hlo, hhi⟩]
        · exact absurd ⟨x, hx, hlo, hhi⟩ hin
    · have hin : ¬ InClusters m cs s := fun ⟨x, hx, hh⟩ => hs ⟨x, List.mem_cons_of_mem _ hx, hh⟩
      rw [h3 s hin, zero_sectors_apply, if_neg]
      intro hh
      exact hs ⟨c, List.mem_cons_self _ _, hh⟩

theorem link_all_spec (m : FAT16) (hg : Geom m) : ∀ (L : List Nat) (d : Disk), L.Nodup →
    (∀ c, c ∈ L → FatIn m c) → (∀ c, c ∈ L → c < 65536) →
    (∀ k, k < L.length →
      read_fat_entry m (link_all m d L) (L.getD k 0) = (L ++ [CLUSTER_END]).getD (k + 1) 0)
    ∧ (∀ c, FatIn m c → c ∉ L → read_fat_entry m (link_all m d L) c = read_fat_entry m d c)
    ∧ (∀ s, s < m.fat_sec ∨ m.root_sec ≤ s → link_all m d L s = d s) := by
  intro L
  induction L with
  | nil =>
    intro d _ _ _
    exact ⟨fun k hk => (by cases hk), fun c _ _ => rfl, fun s _ => rfl⟩
  | cons c cs ih =>
    intro d hnd hfat hlt
    have hnd' := List.nodup_cons.mp hnd
    cases cs with
    | nil =>
      refine ⟨fun k hk => ?_, fun x hx hxn => ?_, fun s hs => ?_⟩
      · have hk0 : k = 0 := by simpa using hk
        subst hk0
        show read_fat_entry m (write_fat_entry m d c CLUSTER_END) c = CLUSTER_END
        rw [read_write_fat_same m hg]
        rfl
      · show read_fat_entry m (write_fat_entry m d c CLUSTER_END) x = _
        exact read_write_fat_other m hg d c x _ (fun he => hxn (by rw [he]; simp)) hx
      · show write_fat_entry m d c CLUSTER_END s = d s
        exact write_fat_entry_outside m hg d c _ s (hfat c (List.mem_cons_self _ _)) hs
    | cons c1 cs =>
      obtain ⟨h1, h2, h3⟩ := ih (write_fat_entry m d c c1) hnd'.2
        (fun x hx => hfat x (List.mem_cons_of_mem _ hx))
        (fun x hx => hlt x (List.mem_cons_of_mem _ hx))
      have hlink : link_all m d (c :: c1 :: cs) = link_all m (write_fat_entry m d c c1) (c1 :: cs) :=
        rfl
      rw [hlink]
      refine ⟨fun k hk => ?_, fun x hx hxn => ?_, fun s hs => ?_⟩
      · cases k with
        | zero =>
          show read_fat_entry m _ c = c1
          rw [h2 c (hfat c (List.mem_cons_self _ _)) hnd'.1, read_write_fat_same m hg]
          exact Nat.mod_eq_of_lt (hlt c1 (by simp))
        | succ k =>
          have := h1 k (by simpa using hk)
          simpa using this
      · rw [h2 x hx (fun hm => hxn (List.mem_cons_of_mem _ hm))]
        exact read_write_fat_other m hg d c x _
          (fun he => hxn (by rw [he]; exact List.mem_cons_self _ _)) hx
      · rw [h3 s hs]
        exact write_fat_entry_outside m hg d c _ s (hfat c (List.mem_cons_self _ _)) hs

theorem not_inclusters_low (m : FAT16) (L : List Nat) (s : Nat) (h : s < m.data_sec) :
    ¬ InClusters m L s := by
  rintro ⟨c, _, h1, _⟩
  have := first_sector_ge m c
  omega

/-- The function `alloc_clusters` when its scan finds `n` free clusters `L` whose FAT
entries lie inside the FAT: it returns 0 with the first cluster of `L`; on the new disk
the clusters of `L` are zero-filled and linked in order, the last one to `CLUSTER_END`,
and nothing else has changed in the FAT entries inside the FAT, in the root region and in
the other clusters. -/
theorem alloc_clusters_spec (m : FAT16) (hg : Geom m) (d : Disk) (n fc : Nat) (hn : n ≠ 0)
    (L : List Nat)
    (hL : alloc_scan m d n (CLUSTER_MAX + 1 - CLUSTER_MIN) CLUSTER_MIN [] = L)
    (hlen : L.length = n) (hfat : ∀ c, c ∈ L → FatIn m c) :
    ∃ d', alloc_clusters m d n fc = .ok (0, L.headD 0, d')
      ∧ (∀ k, k ≤ n → chain_nth m d' (L.headD 0) k = (L ++ [CLUSTER_END]).getD k 0)
      ∧ (∀ c, FatIn m c → c ∉ L → read_fat_entry m d' c = read_fat_entry m d c)
      ∧ (∀ s, InClusters m L s → d' s = ZERO_SECTOR)
      ∧ (∀ s, m.root_sec ≤ s → ¬ InClusters m L s → d' s = d s) := by
  obtain ⟨hnd, hfree⟩ := alloc_scan_free m d n L hL
  obtain ⟨dz, hz, hz1, hz2⟩ := clear_all_spec m L d (fun c hc => (hfree c hc).1)
  obtain ⟨hl1, hl2, hl3⟩ := link_all_spec m hg L dz hnd hfat (fun c hc => by
    have := (inuse_ge c (hfree c hc).1).2
    omega)
  have hroot : ∀ s, InClusters m L s → m.root_sec ≤ s := by
    rintro s ⟨c, _, h1, _⟩
    have := first_sector_ge_root m hg c
    omega
  refine ⟨link_all m dz L, ?_, ?_, ?_, ?_, ?_⟩
  · unfold alloc_clusters
    rw [if_neg hn]
    simp only [hL, hlen, ne_eq, not_true_eq_false, if_false, hz, bind, Except.bind, pure,
      Except.pure]
  · intro k
    induction k with
    | zero =>
      intro _
      cases L with
      | nil => exact absurd hlen.symm hn
      | cons c cs => rfl
    | succ k ih =>
      intro hk
      show read_fat_entry m _ (chain_nth m _ (L.headD 0) k) = _
      rw [ih (by omega), List.getD_append _ _ _ _ (by omega), hl1 k (by omega)]
  · intro c hc hcn
    rw [hl2 c hc hcn]
    exact read_fat_entry_congr m hg d dz c hc (fun s hs => hz2 s (not_inclusters_low m L s hs))
  · intro s hs
    rw [hl3 s (Or.inr (hroot s hs))]
    exact hz1 s hs
  · intro s hs hn
    rw [hl3 s (Or.inr hs)]
    exact hz2 s hn

/-- The loop of `file_reserve_clusters` that finds the last cluster of a terminated
chain. -/
theorem find_last_cluster_spec (m : FAT16) (d : Disk) (j : Nat) : ∀ (fuel head : Nat),
    j < fuel → (∀ i, i < j → is_cluster_end (chain_nth m d head (i + 1)) = false) →
    is_cluster_end (chain_nth m d head (j + 1)) = true →
    find_last_cluster m d fuel head = .ok (chain_nth m d head j) := by
  induction j with
  | zero =>
    intro fuel head hf _ hend
    obtain ⟨f, rfl⟩ : ∃ f, fuel = f + 1 := ⟨fuel - 1, by omega⟩
    rw [find_last_cluster]
    have : is_cluster_end (read_fat_entry m d head) = true := hend
    simp only [this, if_true]
    rfl
  | succ j ih =>
    intro fuel head hf hmid hend
    obtain ⟨f, rfl⟩ : ∃ f, fuel = f + 1 := ⟨fuel - 1, by omega⟩
    rw [find_last_cluster]
    have h0 : is_cluster_end (read_fat_entry m d head) = false := hmid 0 (by omega)
    simp only [h0, Bool.false_eq_true, if_false]
    rw [chain_nth_shift]
    apply ih f _ (by omega)
    · intro i hi
      rw [← chain_nth_shift]
      exact hmid (i + 1) (by omega)
    · rw [← chain_nth_shift]
      exact hend

theorem BufSim_of_entry (m : FAT16) (b b' : Sector) (O : Nat) (hO : O % DIR_ENTRY_SIZE = 0)
    (h3 : ∀ o, ¬ (O ≤ o ∧ o < O + 32) → b' o = b o)
    (h4 : ∀ i, i < 12 → b' (O + i) = b (O + i))
    (hreg : is_directory (b (O + 11)) = false) : BufSim m b b' := by
  intro off hoff
  have hm := dir_offsets_mod m off hoff
  unfold DIR_ENTRY_SIZE at hO hm
  by_cases he : off = O
  · subst he
    refine ⟨h4, fun hd => ?_⟩
    rw [hreg] at hd
    cases hd
  · have hb : ∀ i, i < 32 → b' (off + i) = b (off + i) := fun i hi => h3 _ (by omega)
    refine ⟨fun i hi => hb i (by omega), fun _ => ?_⟩
    unfold DIR_FstClusLO load16 entry_at DIR_ENTRY_SIZE
    simp only [show (26 : Nat) < 32 by decide, show (26 + 1 : Nat) < 32 by decide, if_true]
    rw [hb 26 (by decide), hb 27 (by decide)]

/-- The file stays well formed on a disk `d'` on which the directories scanned by the
resolution are unchanged except for the bytes after the attribute in the file's own
entry, when the chain that the new entry names is well formed on `d'`. -/
theorem FileWF_transfer (fuel : Nat) (m : FAT16) (hg : Geom m) (d d' : Disk) (u : Uninit)
    (path : List Nat) (slot : DirEntrySlot) (n n' : Nat)
    (hw : FileWF fuel m d u path slot n)
    (t1 : ∀ c, c ∈ find_entry_clusters fuel m d u path u.slot →
      read_fat_entry m d' c = read_fat_entry m d c)
    (t2 : ∀ s, s ≠ slot.sector → (m.root_sec ≤ s ∧ s < m.data_sec)
        ∨ (∃ c, c ∈ find_entry_clusters fuel m d u path u.slot ∧ first_sector m c ≤ s
            ∧ s < first_sector m c + m.sec_per_clus) → d' s = d s)
    (t3 : ∀ o, ¬ (slot.offset ≤ o ∧ o < slot.offset + 32) → d' slot.sector o = d slot.sector o)
    (t4 : ∀ i, i < 12 → d' slot.sector (slot.offset + i) = d slot.sector (slot.offset + i))
    (hchain : ChainOK m d' (DIR_FstClusLO (entry_at (d' slot.sector) slot.offset)) n')
    (hcap : DIR_FileSize (entry_at (d' slot.sector) slot.offset) ≤ n' * m.cluster_size)
    (hend : DIR_FileSize (entry_at (d' slot.sector) slot.offset) ≠ 0 →
      is_cluster_end (chain_nth m d' (DIR_FstClusLO (entry_at (d' slot.sector) slot.offset)) n')
        = true)
    (hapart : ∀ c, c ∈ find_entry_clusters fuel m d u path u.slot → ∀ k, k < n' →
      c ≠ chain_nth m d' (DIR_FstClusLO (entry_at (d' slot.sector) slot.offset)) k) :
    FileWF fuel m d' u path
      (DirEntrySlot.mk (entry_at (d' slot.sector) slot.offset) slot.sector slot.offset) n' := by
  have hat := find_entry_slot fuel m d u path u.slot slot hw.ok.not_root hw.ok.found
  have hO := dir_offsets_mod m slot.offset hat.2.1
  have hreg : is_directory (d slot.sector (slot.offset + 11)) = false := by
    have := hw.ok.regular
    rw [hat.1] at this
    unfold DIR_Attr entry_at at this
    rw [if_pos (by decide)] at this
    exact this
  have hbuf : ∀ s, (m.root_sec ≤ s ∧ s < m.data_sec)
        ∨ (∃ c, c ∈ find_entry_clusters fuel m d u path u.slot ∧ first_sector m c ≤ s
            ∧ s < first_sector m c + m.sec_per_clus) → BufSim m (d s) (d' s) := by
    intro s hs
    by_cases he : s = slot.sector
    · subst he
      exact BufSim_of_entry m _ _ slot.offset hO t3 t4 hreg
    · rw [t2 s he hs]
      exact BufSim_refl m _
  have hsim : DirSim m d d' (find_entry_clusters fuel m d u path u.slot) := by
    refine ⟨fun i hi => hbuf _ (Or.inl ⟨by omega, by have := hg.data_eq; omega⟩),
      fun c hc => ⟨fun i hi => hbuf _ (Or.inr ⟨c, hc, by omega, by omega⟩), t1 c hc⟩⟩
  have hV := find_entry_clusters_sim fuel m d d' u path u.slot hsim
  have hreg' : is_directory (DIR_Attr (entry_at (d' slot.sector) slot.offset)) = false := by
    unfold DIR_Attr entry_at
    rw [if_pos (by decide), t4 11 (by decide)]
    exact hreg
  refine ⟨⟨hw.ok.not_root, find_entry_sim fuel m d d' u path u.slot slot hw.ok.not_root hsim
    hw.ok.found, hreg', hchain, hcap, ?_, ?_⟩, hend, ?_⟩
  · rw [hV]; exact hw.ok.dirs_fat
  · rw [hV]; exact hapart
  · rw [hV]
    intro c hc
    rw [t1 c hc]
    exact hw.dirs_used c hc

theorem not_inclusters_cluster (m : FAT16) (L : List Nat) (c s : Nat)
    (hin : is_cluster_inuse c = true) (hL : ∀ x, x ∈ L → is_cluster_inuse x = true)
    (hc : c ∉ L) (h1 : first_sector m c ≤ s) (h2 : s < first_sector m c + m.sec_per_clus) :
    ¬ InClusters m L s := by
  rintro ⟨x, hx, h3, h4⟩
  obtain ⟨i, rfl⟩ : ∃ i, s = first_sector m c + i := ⟨s - first_sector m c, by omega⟩
  exact first_sector_disjoint m c x i (first_sector m c + i - first_sector m x)
    (inuse_ge c hin).1 (inuse_ge x (hL x hx)).1 (fun he => hc (he ▸ hx)) (by omega) (by omega)
    (by omega)

theorem dir_entry_write_sector (d : Disk) (slot : DirEntrySlot) (o : Nat) :
    dir_entry_write d slot slot.sector o
      = if slot.offset ≤ o ∧ o < slot.offset + 32 then slot.dir (o - slot.offset)
        else d slot.sector o := by
  unfold dir_entry_write
  simp only [sector_write_apply, if_true, memcpy, sector_read, DIR_ENTRY_SIZE, Nat.zero_add]

theorem DIR_FstClusLO_set_size (e : DIR_ENTRY) (v : Nat) :
    DIR_FstClusLO (set_DIR_FileSize e v) = DIR_FstClusLO e := by
  simp [DIR_FstClusLO, set_DIR_FileSize, load16, store32]

theorem DIR_FstClusLO_entry (b : Sector) (O : Nat) (e : DIR_ENTRY)
    (h : ∀ i, i < 32 → b (O + i) = e i) : DIR_FstClusLO (entry_at b O) = DIR_FstClusLO e := by
  unfold DIR_FstClusLO load16 entry_at DIR_ENTRY_SIZE
  simp only [show (26 : Nat) < 32 by decide, show (26 + 1 : Nat) < 32 by decide, if_true]
  rw [h 26 (by decide), h 27 (by decide)]

theorem DIR_FileSize_entry (b : Sector) (O : Nat) (e : DIR_ENTRY)
    (h : ∀ i, i < 32 → b (O + i) = e i) : DIR_FileSize (entry_at b O) = DIR_FileSize e := by
  unfold DIR_FileSize load32 entry_at DIR_ENTRY_SIZE
  simp only [show (28 : Nat) < 32 by decide, show (28 + 1 : Nat) < 32 by decide,
    show (28 + 2 : Nat) < 32 by decide, show (28 + 3 : Nat) < 32 by decide, if_true]
  rw [h 28 (by decide), h 29 (by decide), h 30 (by decide), h 31 (by decide)]

/-- The growing branch of `fat16_truncate` once `file_reserve_clusters` has returned the
entry `dir1` and the disk `d1`, on which the directories are unchanged and the chain named
by `dir1` is well formed over `n'` clusters that hold `b` bytes. -/
theorem fat16_truncate_grow_finish (fuel : Nat) (m : FAT16) (hg : Geom m) (d d1 : Disk)
    (u : Uninit) (path : List Nat) (slot : DirEntrySlot) (n n' b : Nat) (dir1 : DIR_ENTRY)
    (hw : FileWF fuel m d u path slot n) (hb : DIR_FileSize slot.dir < b)
    (hb32 : b < 4294967296)
    (hres : file_reserve_clusters fuel m d u slot.dir (b - DIR_FileSize slot.dir)
      = .ok (dir1, d1))
    (hdir1 : ∀ i, i < 12 → dir1 i = slot.dir i)
    (t1 : ∀ c, c ∈ find_entry_clusters fuel m d u path u.slot →
      read_fat_entry m d1 c = read_fat_entry m d c)
    (t2 : ∀ s, (m.root_sec ≤ s ∧ s < m.data_sec)
        ∨ (∃ c, c ∈ find_entry_clusters fuel m d u path u.slot ∧ first_sector m c ≤ s
            ∧ s < first_sector m c + m.sec_per_clus) → d1 s = d s)
    (hchain : ChainOK m d1 (DIR_FstClusLO dir1) n') (hcap : b ≤ n' * m.cluster_size)
    (hend : is_cluster_end (chain_nth m d1 (DIR_FstClusLO dir1) n') = true)
    (hapart : ∀ c, c ∈ find_entry_clusters fuel m d u path u.slot → ∀ k, k < n' →
      c ≠ chain_nth m d1 (DIR_FstClusLO dir1) k) :
    ∃ d', fat16_truncate fuel m d u path b = .ok (0, d')
      ∧ FileWF fuel m d' u path
          (DirEntrySlot.mk (entry_at (d' slot.sector) slot.offset) slot.sector slot.offset) n'
      ∧ DIR_FileSize (entry_at (d' slot.sector) slot.offset) = b
      ∧ DIR_FstClusLO (entry_at (d' slot.sector) slot.offset) = DIR_FstClusLO dir1
      ∧ (∀ k, k ≤ n' →
          chain_nth m d' (DIR_FstClusLO dir1) k = chain_nth m d1 (DIR_FstClusLO dir1) k)
      ∧ (∀ s, s ≠ slot.sector → d' s = d1 s)
      ∧ (∀ c, FatIn m c → read_fat_entry m d' c = read_fat_entry m d1 c)
      ∧ ¬ InChain m d1 (DIR_FstClusLO dir1) n' slot.sector := by
  have hat := find_entry_slot fuel m d u path u.slot slot hw.ok.not_root hw.ok.found
  have hroot := slot_sector_ge_root m hg d _ slot hat
  have hV : ∀ c, c ∈ find_entry_clusters fuel m d u path u.slot → is_cluster_inuse c = true :=
    fun c hc => find_entry_visits_inuse m d u fuel _ _ _ _ _ c hc
  have hloc : (m.root_sec ≤ slot.sector ∧ slot.sector < m.data_sec)
      ∨ (∃ c, c ∈ find_entry_clusters fuel m d u path u.slot ∧ first_sector m c ≤ slot.sector
          ∧ slot.sector < first_sector m c + m.sec_per_clus) := by
    rcases hat.2.2 with h | ⟨c, hc, _, h1, h2⟩
    · exact Or.inl ⟨h.1, by have := hg.data_eq; omega⟩
    · exact Or.inr ⟨c, hc, h1, h2⟩
  have hnin : ¬ InChain m d1 (DIR_FstClusLO dir1) n' slot.sector := by
    rcases hloc with h | ⟨c, hc, h1, h2⟩
    · exact not_inchain_low m d1 _ n' _ h.2
    · exact not_inchain_cluster m d1 _ n' c _ hchain (hV c hc) (hapart c hc) h1 h2
  generalize hd' : dir_entry_write d1
    (DirEntrySlot.mk (set_DIR_FileSize dir1 b) slot.sector slot.offset) = d'
  have hother : ∀ s, s ≠ slot.sector → d' s = d1 s := fun s hs => by
    rw [← hd']
    exact dir_entry_write_other d1 _ s hs
  have hsec : ∀ o, d' slot.sector o
      = if slot.offset ≤ o ∧ o < slot.offset + 32 then set_DIR_FileSize dir1 b (o - slot.offset)
        else d slot.sector o := by
    intro o
    rw [← hd', dir_entry_write_sector d1
      (DirEntrySlot.mk (set_DIR_FileSize dir1 b) slot.sector slot.offset) o, t2 _ hloc]
  have hent : ∀ i, i < 32 → d' slot.sector (slot.offset + i) = set_DIR_FileSize dir1 b i := by
    intro i hi
    rw [hsec, if_pos (by omega)]
    congr 1
    omega
  have hfat : ∀ c, FatIn m c → read_fat_entry m d' c = read_fat_entry m d1 c := fun c hc =>
    read_fat_entry_congr_root m hg d1 d' c hc (fun t ht => hother t (by omega))
  have hnth : ∀ k, k ≤ n' →
      chain_nth m d' (DIR_FstClusLO dir1) k = chain_nth m d1 (DIR_FstClusLO dir1) k := by
    intro k
    induction k with
    | zero => intro _; rfl
    | succ k ih =>
      intro hk
      show read_fat_entry m d' (chain_nth m d' _ k) = read_fat_entry m d1 (chain_nth m d1 _ k)
      rw [ih (by omega), hfat _ (hchain.fat_in k (by omega))]
  have hclus : DIR_FstClusLO (entry_at (d' slot.sector) slot.offset) = DIR_FstClusLO dir1 := by
    rw [DIR_FstClusLO_entry _ _ _ hent, DIR_FstClusLO_set_size]
  have hsize : DIR_FileSize (entry_at (d' slot.sector) slot.offset) = b := by
    rw [DIR_FileSize_entry _ _ _ hent]
    exact load32_store32 _ _ _ hb32
  refine ⟨d', ?_, ?_, hsize, hclus, hnth, hother, hfat, hnin⟩
  · unfold fat16_truncate
    rw [hw.ok.found]
    simp only [bind, Except.bind]
    rw [if_neg (by omega), if_pos (by omega), hres]
    simp only [pure, Except.pure, hd']
  · apply FileWF_transfer fuel m hg d d' u path slot n n' hw
    · intro c hc
      rw [hfat c (hw.ok.dirs_fat c hc)]
      exact t1 c hc
    · intro s hs hin
      rw [hother s hs]
      exact t2 s hin
    · intro o ho
      rw [hsec, if_neg ho]
    · intro i hi
      rw [hent i (by omega)]
      have : set_DIR_FileSize dir1 b i = dir1 i := by
        unfold set_DIR_FileSize store32
        rw [if_neg (by omega), if_neg (by omega), if_neg (by omega), if_neg (by omega)]
      rw [this, hdir1 i hi, hat.1]
      unfold entry_at
      rw [if_pos (by unfold DIR_ENTRY_SIZE; omega)]
    · rw [hclus]
      exact ⟨fun k hk => by rw [hnth k (by omega)]; exact hchain.inuse k hk,
        fun i hi j hj he => by
          rw [hnth i (by omega), hnth j (by omega)] at he
          exact hchain.distinct i hi j hj he,
        fun k hk => by rw [hnth k (by omega)]; exact hchain.fat_in k hk⟩
    · rw [hsize]; exact hcap
    · intro _
      rw [hclus, hnth n' (le_refl _)]
      exact hend
    · intro c hc k hk
      rw [hclus, hnth k (by omega)]
      exact hapart c hc k hk

theorem getD_mem_of_lt (L : List Nat) (k : Nat) (h : k < L.length) : L.getD k 0 ∈ L := by
  rw [List.getD_eq_getElem _ _ h]
  exact List.getElem_mem h

theorem getD_inj_of_nodup (L : List Nat) (hnd : L.Nodup) (i j : Nat) (hi : i < L.length)
    (hj : j < L.length) (h : L.getD i 0 = L.getD j 0) : i = j := by
  rw [List.getD_eq_getElem _ _ hi, List.getD_eq_getElem _ _ hj] at h
  exact (List.Nodup.getElem_inj_iff hnd).mp h

theorem file_byte_congr (m : FAT16) (d d' : Disk) (head head' p : Nat)
    (hc : chain_nth m d' head' (p / m.cluster_size) = chain_nth m d head (p / m.cluster_size))
    (hs : d' (file_sector m d head p) = d (file_sector m d head p)) :
    file_byte m d' head' p = file_byte m d head p := by
  have : file_sector m d' head' p = file_sector m d head p := by
    unfold file_sector
    rw [hc]
  unfold file_byte
  rw [this, hs]

theorem file_sector_inchain (m : FAT16) (hg : Geom m) (d : Disk) (head n p : Nat)
    (hp : p < n * m.cluster_size) : InChain m d head n (file_sector m d head p) :=
  ⟨p / m.cluster_size, div_cs_lt m n p hp, Nat.le_add_right _ _,
    Nat.add_lt_add_left (mod_cs_div_lt m hg p) _⟩

/-- Growing inside the last cluster: no cluster is allocated. -/
theorem fat16_truncate_grow_same (fuel : Nat) (m : FAT16) (hg : Geom m) (d : Disk)
    (u : Uninit) (path : List Nat) (slot : DirEntrySlot) (n b : Nat)
    (hw : FileWF fuel m d u path slot n) (hb : DIR_FileSize slot.dir < b)
    (hb32 : b < 4294967296) (h0 : DIR_FileSize slot.dir ≠ 0)
    (hsp : (if DIR_FileSize slot.dir % m.cluster_size = 0 then 0
      else m.cluster_size - DIR_FileSize slot.dir % m.cluster_size) ≥ b - DIR_FileSize slot.dir) :
    ∃ d' n', fat16_truncate fuel m d u path b = .ok (0, d')
      ∧ Grown fuel m d u path slot n b d' n' := by
  have hcs := cs_pos m hg
  have hcap := hw.ok.capacity
  have hcap' : b ≤ n * m.cluster_size := by
    have hdm := Nat.div_add_mod (DIR_FileSize slot.dir) m.cluster_size
    have hml := Nat.mod_lt (DIR_FileSize slot.dir) hcs
    by_cases hz : DIR_FileSize slot.dir % m.cluster_size = 0
    · rw [if_pos hz] at hsp
      omega
    · rw [if_neg hz] at hsp
      have hlt : DIR_FileSize slot.dir / m.cluster_size < n := by
        apply Nat.div_lt_of_lt_mul
        rw [Nat.mul_comm]
        rcases Nat.lt_or_ge (DIR_FileSize slot.dir) (n * m.cluster_size) with h | h
        · exact h
        · exfalso
          have he : DIR_FileSize slot.dir = n * m.cluster_size := by omega
          rw [he, Nat.mul_mod_left] at hz
          exact hz rfl
      have h2 : (DIR_FileSize slot.dir / m.cluster_size + 1) * m.cluster_size
          ≤ n * m.cluster_size := Nat.mul_le_mul_right _ hlt
      rw [Nat.succ_mul, Nat.mul_comm] at h2
      omega
  have hres : file_reserve_clusters fuel m d u slot.dir (b - DIR_FileSize slot.dir)
      = .ok (slot.dir, d) := by
    unfold file_reserve_clusters
    rw [if_neg h0]
    dsimp only
    rw [if_pos hsp]
    rfl
  obtain ⟨d', htr, hwf, hsize, hclus, hnth, hother, hfat, hnin⟩ :=
    fat16_truncate_grow_finish fuel m hg d d u path slot n n b slot.dir hw hb hb32 hres
      (fun _ _ => rfl) (fun _ _ => rfl) (fun _ _ => rfl) hw.ok.chain hcap' (hw.ended h0)
      hw.ok.dirs_apart
  refine ⟨d', n, htr, hwf, hsize, fun _ => ⟨hclus, fun p hp => ?_⟩, fun p h1 h2 => ?_,
    Nat.le_add_right _ _, [], ?_, fun c hc hf _ => ?_⟩
  · apply file_byte_congr
    · exact hnth _ (Nat.le_of_lt (div_cs_lt m n p hp))
    · exact hother _ (fun he => hnin (he ▸ file_sector_inchain m hg d _ n p hp))
  · rcases h1 with h1 | h1
    · exact absurd h1 h0
    · omega
  · unfold grow_clusters
    rw [if_neg h0, if_pos hsp]
    rfl
  · rw [hfat c hc]
    exact hf

theorem DIR_FstClusLO_set (e : DIR_ENTRY) (v : Nat) (hv : v < 65536) :
    DIR_FstClusLO (set_DIR_FstClusLO e v) = v := by
  unfold DIR_FstClusLO set_DIR_FstClusLO
  rw [load16_store16_same]
  exact Nat.mod_eq_of_lt hv

/-- Growing an empty file: the whole chain is newly allocated. -/
theorem fat16_truncate_grow_fresh (fuel : Nat) (m : FAT16) (hg : Geom m) (d : Disk)
    (u : Uninit) (path : List Nat) (slot : DirEntrySlot) (n b : Nat)
    (hw : FileWF fuel m d u path slot n) (hb : DIR_FileSize slot.dir < b)
    (hb32 : b < 4294967296) (h0 : DIR_FileSize slot.dir = 0)
    (h16 : b / m.cluster_size + 1 < 65536)
    (hfree : EnoughFree m d (b / m.cluster_size + 1)) :
    ∃ d' n', fat16_truncate fuel m d u path b = .ok (0, d')
      ∧ Grown fuel m d u path slot n b d' n' := by
  have hcs := cs_pos m hg
  obtain ⟨hlen, hfatL⟩ := hfree (Nat.succ_ne_zero _)
  generalize hL : alloc_scan m d (b / m.cluster_size + 1) (CLUSTER_MAX + 1 - CLUSTER_MIN)
    CLUSTER_MIN [] = L at hlen hfatL
  obtain ⟨hnd, hLfree⟩ := alloc_scan_free m d _ L hL
  obtain ⟨d1, hal, hnth1, hfat1, hzero1, hkeep1⟩ :=
    alloc_clusters_spec m hg d (b / m.cluster_size + 1) u.first_clus (Nat.succ_ne_zero _) L hL
      hlen hfatL
  have hV : ∀ c, c ∈ find_entry_clusters fuel m d u path u.slot → is_cluster_inuse c = true :=
    fun c hc => find_entry_visits_inuse m d u fuel _ _ _ _ _ c hc
  have hVL : ∀ c, c ∈ find_entry_clusters fuel m d u path u.slot → c ∉ L :=
    fun c hc hcl => hw.dirs_used c hc (hLfree c hcl).2
  have hhead : L.headD 0 < 65536 := by
    cases L with
    | nil => simp at hlen
    | cons c cs =>
      have := (inuse_ge c (hLfree c (List.mem_cons_self _ _)).1).2
      show c < 65536
      omega
  have hres : file_reserve_clusters fuel m d u slot.dir (b - DIR_FileSize slot.dir)
      = .ok (set_DIR_FstClusLO slot.dir (L.headD 0), d1) := by
    unfold file_reserve_clusters
    rw [if_pos h0, h0, Nat.sub_zero, Nat.mod_eq_of_lt h16]
    dsimp only
    rw [hal]
    rfl
  have hcl1 : DIR_FstClusLO (set_DIR_FstClusLO slot.dir (L.headD 0)) = L.headD 0 :=
    DIR_FstClusLO_set _ _ hhead
  have hget : ∀ k, k < b / m.cluster_size + 1 →
      chain_nth m d1 (L.headD 0) k = L.getD k 0 := fun k hk => by
    rw [hnth1 k (by omega), List.getD_append _ _ _ _ (by omega)]
  have hchain : ChainOK m d1 (L.headD 0) (b / m.cluster_size + 1) := by
    refine ⟨fun k hk => ?_, fun i hi j hj he => ?_, fun k hk => ?_⟩
    · rw [hget k hk]
      exact (hLfree _ (getD_mem_of_lt L k (by omega))).1
    · rw [hget i hi, hget j hj] at he
      exact getD_inj_of_nodup L hnd i j (by omega) (by omega) he
    · rw [hget k hk]
      exact hfatL _ (getD_mem_of_lt L k (by omega))
  have hcap' : b ≤ (b / m.cluster_size + 1) * m.cluster_size := by
    have hdm := Nat.div_add_mod b m.cluster_size
    have hml := Nat.mod_lt b hcs
    rw [Nat.succ_mul, Nat.mul_comm]
    omega
  obtain ⟨d', htr, hwf, hsize, hclus, hnth, hother, hfat, hnin⟩ :=
    fat16_truncate_grow_finish fuel m hg d d1 u path slot n (b / m.cluster_size + 1) b
      (set_DIR_FstClusLO slot.dir (L.headD 0)) hw hb hb32 hres
      (fun i hi => by
        unfold set_DIR_FstClusLO store16
        rw [if_neg (by omega), if_neg (by omega)])
      (fun c hc => hfat1 c (hw.ok.dirs_fat c hc) (hVL c hc))
      (fun s hs => by
        rcases hs with hs | ⟨c, hc, h1, h2⟩
        · exact hkeep1 s hs.1 (not_inclusters_low m L s hs.2)
        · exact hkeep1 s (Nat.le_trans (first_sector_ge_root m hg c) h1)
            (not_inclusters_cluster m L c s (hV c hc) (fun x hx => (hLfree x hx).1) (hVL c hc)
              h1 h2))
      (by rw [hcl1]; exact hchain) hcap'
      (by
        rw [hcl1, hnth1 _ (le_refl _), List.getD_append_right _ _ _ _ (by omega), hlen]
        simp [is_cluster_end, CLUSTER_END, CLUSTER_END_BOUND])
      (fun c hc k hk => by
        rw [hcl1, hget k hk]
        exact fun he => hVL c hc (he ▸ getD_mem_of_lt L k (by omega)))
  rw [hcl1] at hclus hnth hnin
  have hcount : b / m.cluster_size + 1 ≤ n + grow_clusters m (DIR_FileSize slot.dir) b := by
    unfold grow_clusters
    rw [if_pos h0]
    omega
  refine ⟨d', b / m.cluster_size + 1, htr, hwf, hsize, fun h => absurd h0 h,
    fun p _ hp => ?_, hcount, L, ?_, fun c hc hf hcl => ?_⟩
  · rw [hclus]
    have hk := div_cs_lt m _ p hp
    have hin := file_sector_inchain m hg d1 (L.headD 0) _ p hp
    have hsec : file_sector m d' (L.headD 0) p = file_sector m d1 (L.headD 0) p := by
      unfold file_sector
      rw [hnth _ (Nat.le_of_lt hk)]
    unfold file_byte
    rw [hsec, hother _ (fun he => hnin (he ▸ hin)), hzero1]
    · rfl
    · unfold file_sector
      rw [hget _ hk]
      exact ⟨_, getD_mem_of_lt L _ (by omega), Nat.le_add_right _ _,
        Nat.add_lt_add_left (mod_cs_div_lt m hg p) _⟩
  · unfold grow_clusters
    rw [if_pos h0]
    exact hlen
  · rw [hfat c hc, hfat1 c hc hcl]
    exact hf

theorem is_cluster_end_ne_free (c : Nat) (h : is_cluster_end c = true) : c ≠ CLUSTER_FREE := by
  simp [is_cluster_end, CLUSTER_END_BOUND] at h
  simp only [CLUSTER_FREE]
  omega

theorem inuse_ne_free (c : Nat) (h : is_cluster_inuse c = true) : c ≠ CLUSTER_FREE := by
  have := (inuse_ge c h).1
  simp only [CLUSTER_FREE]
  omega

theorem inuse_not_end (c : Nat) (h : is_cluster_inuse c = true) : is_cluster_end c = false := by
  have := (inuse_ge c h).2
  simp [is_cluster_end, CLUSTER_END_BOUND]
  omega

/-- The clusters of a terminated chain have FAT entries that are not free. -/
theorem chain_not_free (m : FAT16) (d : Disk) (head n : Nat) (hc : ChainOK m d head n)
    (hend : is_cluster_end (chain_nth m d head n) = true) (k : Nat) (hk : k < n) :
    read_fat_entry m d (chain_nth m d head k) ≠ CLUSTER_FREE := by
  show chain_nth m d head (k + 1) ≠ CLUSTER_FREE
  rcases Nat.lt_or_ge (k + 1) n with h | h
  · exact inuse_ne_free _ (hc.inuse (k + 1) h)
  · have : k + 1 = n := by omega
    rw [this]
    exact is_cluster_end_ne_free _ hend

/-- Growing a non-empty file past its last cluster: new clusters are linked after the last
cluster of the chain. -/
theorem fat16_truncate_grow_extend (fuel : Nat) (m : FAT16) (hg : Geom m) (d : Disk)
    (u : Uninit) (path : List Nat) (slot : DirEntrySlot) (n b g : Nat)
    (hw : FileWF fuel m d u path slot n) (hb : DIR_FileSize slot.dir < b)
    (hb32 : b < 4294967296) (h0 : DIR_FileSize slot.dir ≠ 0)
    (hsp : ¬ ((if DIR_FileSize slot.dir % m.cluster_size = 0 then 0
      else m.cluster_size - DIR_FileSize slot.dir % m.cluster_size) ≥ b - DIR_FileSize slot.dir))
    (hgdef : g = (b - DIR_FileSize slot.dir - (if DIR_FileSize slot.dir % m.cluster_size = 0 then 0
      else m.cluster_size - DIR_FileSize slot.dir % m.cluster_size)) / m.cluster_size + 1)
    (h16 : g < 65536) (hfree : EnoughFree m d g) (hfuel : n ≤ fuel) :
    ∃ d' n', fat16_truncate fuel m d u path b = .ok (0, d')
      ∧ Grown fuel m d u path slot n b d' n' := by
  have hcs := cs_pos m hg
  have hcap := hw.ok.capacity
  have hended := hw.ended h0
  have hchain := hw.ok.chain
  have hgne : g ≠ 0 := by rw [hgdef]; exact Nat.succ_ne_zero _
  have hn : 1 ≤ n := by
    rcases Nat.eq_zero_or_pos n with h | h
    · rw [h, Nat.zero_mul] at hcap
      omega
    · exact h
  obtain ⟨hlen, hfatL⟩ := hfree hgne
  generalize hL : alloc_scan m d g (CLUSTER_MAX + 1 - CLUSTER_MIN) CLUSTER_MIN [] = L
    at hlen hfatL
  obtain ⟨hnd, hLfree⟩ := alloc_scan_free m d _ L hL
  obtain ⟨d1, hal, hnth1, hfat1, hzero1, hkeep1⟩ :=
    alloc_clusters_spec m hg d g u.first_clus hgne L hL hlen hfatL
  have hV : ∀ c, c ∈ find_entry_clusters fuel m d u path u.slot → is_cluster_inuse c = true :=
    fun c hc => find_entry_visits_inuse m d u fuel _ _ _ _ _ c hc
  have hVL : ∀ c, c ∈ find_entry_clusters fuel m d u path u.slot → c ∉ L :=
    fun c hc hcl => hw.dirs_used c hc (hLfree c hcl).2
  have hhead : L.headD 0 < 65536 ∧ L.headD 0 = (L ++ [CLUSTER_END]).getD 0 0 := by
    cases L with
    | nil => exact absurd hlen.symm hgne
    | cons c cs =>
      have := (inuse_ge c (hLfree c (List.mem_cons_self _ _)).1).2
      exact ⟨by show c < 65536; omega, rfl⟩
  generalize hhd : DIR_FstClusLO slot.dir = head at *
  -- the old chain and the new clusters
  have holdL : ∀ k, k < n → chain_nth m d head k ∉ L := fun k hk hcl =>
    chain_not_free m d head n hchain hended k hk (hLfree _ hcl).2
  have hold1 : ∀ k, k ≤ n → chain_nth m d1 head k = chain_nth m d head k := by
    intro k
    induction k with
    | zero => intro _; rfl
    | succ k ih =>
      intro hk
      show read_fat_entry m d1 (chain_nth m d1 head k) = read_fat_entry m d (chain_nth m d head k)
      rw [ih (by omega), hfat1 _ (hchain.fat_in k (by omega)) (holdL k (by omega))]
  have hlast : find_last_cluster m d1 fuel head = .ok (chain_nth m d head (n - 1)) := by
    have := find_last_cluster_spec m d1 (n - 1) fuel head (by omega)
      (fun i hi => by
        rw [hold1 _ (by omega)]
        exact inuse_not_end _ (hchain.inuse _ (by omega)))
      (by
        rw [show n - 1 + 1 = n by omega, hold1 _ (le_refl _)]
        exact hended)
    rw [this, hold1 _ (by omega)]
  generalize hlc : chain_nth m d head (n - 1) = last at hlast
  have hlastL : last ∉ L := by rw [← hlc]; exact holdL _ (by omega)
  have hlastF : FatIn m last := by rw [← hlc]; exact hchain.fat_in _ (by omega)
  generalize hd2 : write_fat_entry m d1 last (L.headD 0) = d2
  have hres : file_reserve_clusters fuel m d u slot.dir (b - DIR_FileSize slot.dir)
      = .ok (slot.dir, d2) := by
    unfold file_reserve_clusters
    rw [if_neg h0]
    dsimp only
    rw [if_neg hsp, ← hgdef, Nat.mod_eq_of_lt h16, hal]
    simp only [bind, Except.bind, hhd, hlast, hd2]
    rfl
  have hgetL : ∀ i, i < g → chain_nth m d1 (L.headD 0) i = L.getD i 0 := fun i hi => by
    rw [hnth1 i (by omega), List.getD_append _ _ _ _ (by omega)]
  have hc2 : ∀ k, k ≤ n + g → chain_nth m d2 head k
      = if k < n then chain_nth m d head k else (L ++ [CLUSTER_END]).getD (k - n) 0 := by
    intro k
    induction k with
    | zero => intro _; rw [if_pos (by omega)]; rfl
    | succ k ih =>
      intro hk
      show read_fat_entry m d2 (chain_nth m d2 head k) = _
      rw [ih (by omega), ← hd2]
      by_cases h1 : k + 1 < n
      · rw [if_pos (by omega), if_pos h1, read_write_fat_other m hg d1 last _ _
          (fun he => by
            rw [← hlc] at he
            have := hchain.distinct k (by omega) (n - 1) (by omega) he
            omega) (hchain.fat_in k (by omega)),
          hfat1 _ (hchain.fat_in k (by omega)) (holdL k (by omega))]
        rfl
      · rw [if_neg h1]
        by_cases h2 : k + 1 = n
        · have hk1 : k = n - 1 := by omega
          rw [if_pos (by omega), hk1, hlc, read_write_fat_same m hg,
            Nat.mod_eq_of_lt hhead.1, show n - 1 + 1 - n = 0 by omega]
          exact hhead.2
        · rw [if_neg (by omega), List.getD_append _ _ _ _ (by omega),
            read_write_fat_other m hg d1 last _ _
              (fun he => hlastL (he ▸ getD_mem_of_lt L _ (by omega)))
              (hfatL _ (getD_mem_of_lt L _ (by omega))),
            ← hgetL (k - n) (by omega), show k + 1 - n = k - n + 1 by omega,
            ← hnth1 (k - n + 1) (by omega)]
          rfl
  have hc2old : ∀ k, k < n → chain_nth m d2 head k = chain_nth m d head k := fun k hk => by
    rw [hc2 k (by omega), if_pos hk]
  have hc2new : ∀ k, n ≤ k → k < n + g → chain_nth m d2 head k = L.getD (k - n) 0 :=
    fun k h1 h2 => by
      rw [hc2 k (by omega), if_neg (by omega), List.getD_append _ _ _ _ (by omega)]
  have hchain2 : ChainOK m d2 head (n + g) := by
    refine ⟨fun k hk => ?_, fun i hi j hj he => ?_, fun k hk => ?_⟩
    · by_cases h1 : k < n
      · rw [hc2old k h1]; exact hchain.inuse k h1
      · rw [hc2new k (by omega) hk]
        exact (hLfree _ (getD_mem_of_lt L _ (by omega))).1
    · by_cases h1 : i < n
      · by_cases h2 : j < n
        · rw [hc2old i h1, hc2old j h2] at he
          exact hchain.distinct i h1 j h2 he
        · rw [hc2old i h1, hc2new j (by omega) hj] at he
          exact absurd (he ▸ getD_mem_of_lt L _ (by omega)) (holdL i h1)
      · by_cases h2 : j < n
        · rw [hc2new i (by omega) hi, hc2old j h2] at he
          exact absurd (he.symm ▸ getD_mem_of_lt L _ (by omega)) (holdL j h2)
        · rw [hc2new i (by omega) hi, hc2new j (by omega) hj] at he
          have := getD_inj_of_nodup L hnd _ _ (by omega) (by omega) he
          omega
    · by_cases h1 : k < n
      · rw [hc2old k h1]; exact hchain.fat_in k h1
      · rw [hc2new k (by omega) hk]
        exact hfatL _ (getD_mem_of_lt L _ (by omega))
  have hcap' : b ≤ (n + g) * m.cluster_size := by
    have hdm := Nat.div_add_mod (DIR_FileSize slot.dir) m.cluster_size
    have hml := Nat.mod_lt (DIR_FileSize slot.dir) hcs
    have hsp2 : DIR_FileSize slot.dir
        + (if DIR_FileSize slot.dir % m.cluster_size = 0 then 0
            else m.cluster_size - DIR_FileSize slot.dir % m.cluster_size)
        ≤ n * m.cluster_size := by
      by_cases hz : DIR_FileSize slot.dir % m.cluster_size = 0
      · rw [if_pos hz]; omega
      · rw [if_neg hz]
        have hlt : DIR_FileSize slot.dir / m.cluster_size < n := by
          apply Nat.div_lt_of_lt_mul
          rw [Nat.mul_comm]
          rcases Nat.lt_or_ge (DIR_FileSize slot.dir) (n * m.cluster_size) with h | h
          · exact h
          · exfalso
            have he : DIR_FileSize slot.dir = n * m.cluster_size := by omega
            rw [he, Nat.mul_mod_left] at hz
            exact hz rfl
        have h2 : (DIR_FileSize slot.dir / m.cluster_size + 1) * m.cluster_size
            ≤ n * m.cluster_size := Nat.mul_le_mul_right _ hlt
        rw [Nat.succ_mul, Nat.mul_comm] at h2
        omega
    generalize (if DIR_FileSize slot.dir % m.cluster_size = 0 then 0
      else m.cluster_size - DIR_FileSize slot.dir % m.cluster_size) = sp at hsp hgdef hsp2
    have hdm2 := Nat.div_add_mod (b - DIR_FileSize slot.dir - sp) m.cluster_size
    have hml2 := Nat.mod_lt (b - DIR_FileSize slot.dir - sp) hcs
    rw [Nat.add_mul, hgdef, Nat.succ_mul, Nat.mul_comm (_ / _)]
    omega
  have hkeep2 : ∀ s, m.root_sec ≤ s → d2 s = d1 s := fun s hs => by
    rw [← hd2]
    exact write_fat_entry_outside m hg d1 last _ s hlastF (Or.inr hs)
  have hfat2 : ∀ c, FatIn m c → c ≠ last → read_fat_entry m d2 c = read_fat_entry m d1 c :=
    fun c hc hne => by
      rw [← hd2]
      exact read_write_fat_other m hg d1 last c _ hne hc
  obtain ⟨d', htr, hwf, hsize, hclus, hnth, hother, hfat, hnin⟩ :=
    fat16_truncate_grow_finish fuel m hg d d2 u path slot n (n + g) b slot.dir hw hb hb32 hres
      (fun _ _ => rfl)
      (fun c hc => by
        rw [hfat2 c (hw.ok.dirs_fat c hc) (by
          rw [← hlc, ← hhd]
          exact hw.ok.dirs_apart c hc (n - 1) (by omega)),
          hfat1 c (hw.ok.dirs_fat c hc) (hVL c hc)])
      (fun s hs => by
        rcases hs with hs | ⟨c, hc, h1, h2⟩
        · rw [hkeep2 s hs.1]
          exact hkeep1 s hs.1 (not_inclusters_low m L s hs.2)
        · have hr := Nat.le_trans (first_sector_ge_root m hg c) h1
          rw [hkeep2 s hr]
          exact hkeep1 s hr
            (not_inclusters_cluster m L c s (hV c hc) (fun x hx => (hLfree x hx).1) (hVL c hc)
              h1 h2))
      (by rw [hhd]; exact hchain2) hcap'
      (by
        rw [hhd, hc2 _ (le_refl _), if_neg (by omega), show n + g - n = g by omega,
          List.getD_append_right _ _ _ _ (by omega), hlen]
        simp [is_cluster_end, CLUSTER_END, CLUSTER_END_BOUND])
      (fun c hc k hk => by
        rw [hhd]
        by_cases h1 : k < n
        · rw [hc2old k h1, ← hhd]
          exact hw.ok.dirs_apart c hc k h1
        · rw [hc2new k (by omega) hk]
          exact fun he => hVL c hc (he ▸ getD_mem_of_lt L _ (by omega)))
  subst hhd
  have hcount : n + g ≤ n + grow_clusters m (DIR_FileSize slot.dir) b := by
    unfold grow_clusters
    rw [if_neg h0, if_neg hsp, ← hgdef]
  refine ⟨d', n + g, htr, hwf, hsize, fun _ => ⟨hclus, fun p hp => ?_⟩,
    fun p h1 hp => ?_, hcount, L, ?_, fun c hc hf hcl => ?_⟩
  · have hk := div_cs_lt m n p hp
    have hin : InChain m d2 (DIR_FstClusLO slot.dir) (n + g)
        (file_sector m d (DIR_FstClusLO slot.dir) p) :=
      ⟨p / m.cluster_size, by omega, by
        rw [hc2old _ hk]; exact Nat.le_add_right _ _, by
        rw [hc2old _ hk]; exact Nat.add_lt_add_left (mod_cs_div_lt m hg p) _⟩
    apply file_byte_congr
    · rw [hnth _ (by omega), hc2old _ hk]
    · have hge : m.root_sec ≤ file_sector m d (DIR_FstClusLO slot.dir) p :=
        Nat.le_trans (first_sector_ge_root m hg _) (Nat.le_add_right _ _)
      rw [hother _ (fun he => hnin (he ▸ hin)), hkeep2 _ hge]
      apply hkeep1 _ hge
      exact not_inclusters_cluster m L
        (chain_nth m d (DIR_FstClusLO slot.dir) (p / m.cluster_size)) _
        (hchain.inuse _ hk) (fun x hx => (hLfree x hx).1) (holdL _ hk) (Nat.le_add_right _ _)
        (Nat.add_lt_add_left (mod_cs_div_lt m hg p) _)
  · rw [hclus]
    have hpn : n * m.cluster_size ≤ p := by
      rcases h1 with h1 | h1
      · exact absurd h1 h0
      · exact h1
    have hk := div_cs_lt m _ p hp
    have hkn : n ≤ p / m.cluster_size := by
      rw [Nat.le_div_iff_mul_le hcs]
      exact hpn
    have hin := file_sector_inchain m hg d2 (DIR_FstClusLO slot.dir) _ p hp
    have hsec : file_sector m d' (DIR_FstClusLO slot.dir) p
        = file_sector m d2 (DIR_FstClusLO slot.dir) p := by
      unfold file_sector
      rw [hnth _ (Nat.le_of_lt hk)]
    have hge : m.root_sec ≤ file_sector m d2 (DIR_FstClusLO slot.dir) p :=
      Nat.le_trans (first_sector_ge_root m hg _) (Nat.le_add_right _ _)
    unfold file_byte
    rw [hsec, hother _ (fun he => hnin (he ▸ hin)), hkeep2 _ hge, hzero1]
    · rfl
    · unfold file_sector
      rw [hc2new _ hkn hk]
      exact ⟨_, getD_mem_of_lt L _ (by omega), Nat.le_add_right _ _,
        Nat.add_lt_add_left (mod_cs_div_lt m hg p) _⟩
  · unfold grow_clusters
    rw [if_neg h0, if_neg hsp, ← hgdef]
    exact hlen
  · rw [hfat c hc, hfat2 c hc (fun he => by
      rw [he, ← hlc] at hf
      exact chain_not_free m d _ n hchain hended (n - 1) (by omega) hf),
      hfat1 c hc hcl]
    exact hf

/-- The shrinking branch of `fat16_truncate`: what it leaves in the file, in the FAT and in
the rest of the volume. -/
theorem fat16_truncate_shrink_raw (fuel : Nat) (m : FAT16) (d : Disk) (u : Uninit)
    (path : List Nat) (slot : DirEntrySlot) (n s : Nat) (hg : Geom m)
    (hf : FileOK fuel m d u path slot n)
    (hend : is_cluster_end (chain_nth m d (DIR_FstClusLO slot.dir) n) = true)
    (hs : s < DIR_FileSize slot.dir) (hfuel : n + m.sec_per_clus < fuel) :
    ∃ d', fat16_truncate fuel m d u path s = .ok (0, d')
      ∧ DIR_FileSize (entry_at (d' slot.sector) slot.offset) = s
      ∧ (∀ p, p < s → file_byte m d' (DIR_FstClusLO slot.dir) p
          = file_byte m d (DIR_FstClusLO slot.dir) p)
      ∧ (∀ p, s ≤ p → p < (s / m.cluster_size + 1) * m.cluster_size →
          file_byte m d' (DIR_FstClusLO slot.dir) p = 0)
      ∧ is_cluster_end (read_fat_entry m d'
          (chain_nth m d (DIR_FstClusLO slot.dir) (s / m.cluster_size))) = true
      ∧ (∀ j, s / m.cluster_size < j → j < n →
          read_fat_entry m d' (chain_nth m d (DIR_FstClusLO slot.dir) j) = CLUSTER_FREE)
      ∧ (∀ c, FatIn m c → (∀ j, s / m.cluster_size ≤ j → j < n →
            c ≠ chain_nth m d (DIR_FstClusLO slot.dir) j) →
          read_fat_entry m d' c = read_fat_entry m d c)
      ∧ (∀ t, m.root_sec ≤ t → t ≠ slot.sector →
          ¬ InChain m d (DIR_FstClusLO slot.dir) n t → d' t = d t)
      ∧ (∀ o, d' slot.sector o
          = if slot.offset ≤ o ∧ o < slot.offset + 32 then
              set_DIR_FileSize slot.dir s (o - slot.offset)
            else d slot.sector o)
      ∧ (∀ k, k ≤ s / m.cluster_size → chain_nth m d' (DIR_FstClusLO slot.dir) k
          = chain_nth m d (DIR_FstClusLO slot.dir) k) := by
  obtain ⟨d3, _, htr, hfree, hother, hout⟩ :=
    fat16_truncate_shrink_steps fuel m d u path slot n s hg hf hend hs hfuel
  have hapart := FileOK_slot_apart fuel m hg d u path slot n hf
  have hat := find_entry_slot fuel m d u path u.slot slot hf.not_root hf.found
  have hroot := slot_sector_ge_root m hg d _ slot hat
  obtain ⟨hnr, hfound, hreg, hchain, hcap, hdf, hda⟩ := hf
  have hcs := cs_pos m hg
  have hss := hg.ss_pos
  have hdm := Nat.div_add_mod s m.cluster_size
  have hml := Nat.mod_lt s hcs
  have hb : s / m.cluster_size < n := div_cs_lt m n s (by omega)
  have hq : s % m.cluster_size / m.sector_size < m.sec_per_clus := mod_cs_div_lt m hg s
  have hrs : s % m.sector_size = s % m.cluster_size % m.sector_size := by
    rw [hg.cs_eq, Nat.mul_comm, Nat.mod_mul_right_mod]
  generalize hhead : DIR_FstClusLO slot.dir = head at *
  generalize hbdef : s / m.cluster_size = b at *
  have hfatb := hchain.fat_in b hb
  generalize hd4 : write_fat_entry m d3 (chain_nth m d head b) CLUSTER_END = d4 at htr
  generalize hsl : DirEntrySlot.mk (set_DIR_FileSize slot.dir s) slot.sector slot.offset
    = slot' at htr
  have hsec' : slot'.sector = slot.sector := by rw [← hsl]
  have hoff' : slot'.offset = slot.offset := by rw [← hsl]
  have hdir' : slot'.dir = set_DIR_FileSize slot.dir s := by rw [← hsl]
  have hF3 : ∀ cl, FatIn m cl →
      read_fat_entry m (dir_entry_write d4 slot') cl = read_fat_entry m d4 cl := fun cl hcl =>
    read_fat_entry_congr_root m hg d4 _ cl hcl (fun t ht =>
      dir_entry_write_other d4 slot' t (by rw [hsec']; omega))
  have hF4 : ∀ t, m.root_sec ≤ t → t ≠ slot.sector →
      dir_entry_write d4 slot' t = d3 t := fun t ht hne => by
    rw [dir_entry_write_other d4 slot' t (by rw [hsec']; exact hne), ← hd4,
      write_fat_entry_outside m hg d3 _ _ t hfatb (Or.inr ht)]
  have hnth5 : ∀ k, k ≤ b →
      chain_nth m (dir_entry_write d4 slot') head k = chain_nth m d head k := by
    intro k
    induction k with
    | zero => intro _; rfl
    | succ k ih =>
      intro hk
      show read_fat_entry m _ (chain_nth m _ head k) = read_fat_entry m d (chain_nth m d head k)
      rw [ih (by omega), hF3 _ (hchain.fat_in k (by omega)), ← hd4,
        read_write_fat_other m hg d3 _ _ _ (fun he => by
          have := hchain.distinct k (by omega) b hb he
          omega) (hchain.fat_in k (by omega))]
      exact hother _ (hchain.fat_in k (by omega)) (fun j hj1 hj2 he => by
        have := hchain.distinct k (by omega) j hj2 he
        omega)
  have htz : ∀ t, ¬ InChain m d head n t →
      trunc_zero m d (first_sector m (chain_nth m d head b))
        (s % m.cluster_size / m.sector_size) (s % m.sector_size) t = d t := by
    intro t hnin
    funext o
    unfold trunc_zero
    rw [if_neg]
    rintro (⟨h1, _⟩ | ⟨h1, h2⟩)
    · exact hnin ⟨b, hb, h1 ▸ Nat.le_add_right _ _, h1 ▸ Nat.add_lt_add_left hq _⟩
    · exact hnin ⟨b, hb, Nat.le_trans (Nat.le_add_right _ _) (Nat.le_of_lt h1), h2⟩
  refine ⟨_, htr, ?_, ?_, ?_, ?_, ?_, ?_, ?_, ?_, hnth5⟩
  · -- size field
    unfold DIR_FileSize
    rw [← hsec', ← hoff']
    rw [load32_congr (slot'.dir) _ 28 (fun i h1 h2 =>
      dir_entry_write_entry d4 slot' i (by omega))]
    rw [hdir']
    exact load32_store32 _ _ _ (by have := load32_lt slot.dir 28; unfold DIR_FileSize at hs; omega)
  · -- bytes below s
    intro p hp
    have hpb : p / m.cluster_size ≤ b := by
      rw [← hbdef]; exact Nat.div_le_div_right (by omega)
    have hpn : p / m.cluster_size < n := by omega
    have hxp := mod_cs_div_lt m hg p
    unfold file_byte file_sector
    rw [hnth5 _ hpb]
    have hin : InChain m d head n (first_sector m (chain_nth m d head (p / m.cluster_size))
        + p % m.cluster_size / m.sector_size) :=
      ⟨p / m.cluster_size, hpn, Nat.le_add_right _ _, by omega⟩
    have hge := first_sector_ge m (chain_nth m d head (p / m.cluster_size))
    have hde := hg.data_eq
    have hrl : m.root_sec ≤ first_sector m (chain_nth m d head (p / m.cluster_size))
        + p % m.cluster_size / m.sector_size :=
      Nat.le_trans (by omega) (Nat.le_add_right _ _)
    rw [hF4 _ hrl (fun he => hapart (he ▸ hin)), hout _ hrl]
    unfold trunc_zero
    rw [if_neg]
    rintro (⟨h1, h2, _⟩ | ⟨h1, h2⟩)
    · by_cases hpe : p / m.cluster_size = b
      · rw [hpe] at h1
        have hq1 : p % m.cluster_size / m.sector_size = s % m.cluster_size / m.sector_size := by
          omega
        have hlt : p % m.cluster_size < s % m.cluster_size := by
          have h3 := Nat.div_add_mod p m.cluster_size
          rw [hpe] at h3
          omega
        rcases div_mod_lt_cases m.sector_size _ _ hss hlt with h4 | h4
        · omega
        · unfold file_offset at h2
          omega
      · exact first_sector_disjoint m _ _ _ _ (inuse_ge _ (hchain.inuse _ hpn)).1
          (inuse_ge _ (hchain.inuse b hb)).1 (fun he => hpe (hchain.distinct _ hpn b hb he))
          hxp hq h1
    · by_cases hpe : p / m.cluster_size = b
      · rw [hpe] at h1
        have hlt : p % m.cluster_size < s % m.cluster_size := by
          have h3 := Nat.div_add_mod p m.cluster_size
          rw [hpe] at h3
          omega
        rcases div_mod_lt_cases m.sector_size _ _ hss hlt with h4 | h4
        · omega
        · omega
      · have hne : chain_nth m d head (p / m.cluster_size) ≠ chain_nth m d head b :=
          fun he => hpe (hchain.distinct _ hpn b hb he)
        have h5 := (inuse_ge _ (hchain.inuse _ hpn)).1
        have h6 := (inuse_ge _ (hchain.inuse b hb)).1
        clear hin hrl
        generalize p % m.cluster_size / m.sector_size = xq at h1 h2 hxp
        generalize s % m.cluster_size / m.sector_size = sq at h1 hq
        have := first_sector_disjoint m _ _ xq
          (first_sector m (chain_nth m d head (p / m.cluster_size))
            + xq - first_sector m (chain_nth m d head b))
          h5 h6 hne hxp (by omega)
        omega
  · -- zero from s to the end of the cluster
    intro p hp1 hp2
    have hpe : p / m.cluster_size = b := by
      apply Nat.div_eq_of_lt_le
      · have : b * m.cluster_size ≤ s := by
          rw [Nat.mul_comm]; omega
        omega
      · exact hp2
    have hxp := mod_cs_div_lt m hg p
    unfold file_byte file_sector
    rw [hnth5 _ (by omega), hpe]
    have hin : InChain m d head n (first_sector m (chain_nth m d head b)
        + p % m.cluster_size / m.sector_size) :=
      ⟨b, hb, Nat.le_add_right _ _, by omega⟩
    have hge := first_sector_ge m (chain_nth m d head b)
    have hde := hg.data_eq
    have hrl : m.root_sec ≤ first_sector m (chain_nth m d head b)
        + p % m.cluster_size / m.sector_size :=
      Nat.le_trans (by omega) (Nat.le_add_right _ _)
    rw [hF4 _ hrl (fun he => hapart (he ▸ hin)), hout _ hrl]
    unfold trunc_zero
    rw [if_pos]
    have hle : s % m.cluster_size ≤ p % m.cluster_size := by
      have h3 := Nat.div_add_mod p m.cluster_size
      rw [hpe] at h3
      omega
    unfold file_offset
    have hol := Nat.mod_lt (p % m.cluster_size) hss
    rcases div_mod_le_cases m.sector_size _ _ hss hle with h4 | h4
    · right; omega
    · left; exact ⟨by omega, by omega, hol⟩
  · -- terminator
    rw [hF3 _ hfatb, ← hd4, read_write_fat_same m hg]
    decide
  · -- later clusters are free
    intro j hj1 hj2
    rw [hF3 _ (hchain.fat_in j hj2), ← hd4,
      read_write_fat_other m hg d3 _ _ _ (fun he => by
        have := hchain.distinct j hj2 b hb he
        omega) (hchain.fat_in j hj2)]
    exact hfree j hj1 hj2
  · -- the other FAT entries
    intro c hc hne
    rw [hF3 c hc, ← hd4, read_write_fat_other m hg d3 _ _ _ (hne b (le_refl _) hb) hc]
    exact hother c hc (fun j hj1 hj2 => hne j (by omega) hj2)
  · -- the sectors outside the chain
    intro t ht hne hnin
    rw [hF4 t ht hne, hout t ht]
    exact htz t hnin
  · -- the sector of the entry
    intro o
    have h := dir_entry_write_sector d4 slot' o
    rw [hsec', hoff', hdir'] at h
    rw [h, ← hd4, write_fat_entry_outside m hg d3 _ _ _ hfatb (Or.inr hroot), hout _ hroot,
      htz _ hapart]

/-- The growing branch of `fat16_truncate` on a well-formed file, when the scan of
`alloc_clusters` finds the clusters that the growth needs. -/
theorem fat16_truncate_grow (fuel : Nat) (m : FAT16) (hg : Geom m) (d : Disk)
    (u : Uninit) (path : List Nat) (slot : DirEntrySlot) (n b : Nat)
    (hw : FileWF fuel m d u path slot n) (hb : DIR_FileSize slot.dir < b)
    (hb32 : b < 4294967296) (h16 : grow_clusters m (DIR_FileSize slot.dir) b < 65536)
    (hfree : EnoughFree m d (grow_clusters m (DIR_FileSize slot.dir) b)) (hfuel : n ≤ fuel) :
    ∃ d' n', fat16_truncate fuel m d u path b = .ok (0, d')
      ∧ Grown fuel m d u path slot n b d' n' := by
  by_cases h0 : DIR_FileSize slot.dir = 0
  · unfold grow_clusters at h16 hfree
    rw [if_pos h0] at h16 hfree
    exact fat16_truncate_grow_fresh fuel m hg d u path slot n b hw hb hb32 h0 h16 hfree
  · by_cases hsp : (if DIR_FileSize slot.dir % m.cluster_size = 0 then 0
        else m.cluster_size - DIR_FileSize slot.dir % m.cluster_size) ≥ b - DIR_FileSize slot.dir
    · exact fat16_truncate_grow_same fuel m hg d u path slot n b hw hb hb32 h0 hsp
    · unfold grow_clusters at h16 hfree
      rw [if_neg h0, if_neg hsp] at h16 hfree
      exact fat16_truncate_grow_extend fuel m hg d u path slot n b _ hw hb hb32 h0 hsp rfl h16
        hfree hfuel

/-- The shrinking branch of `fat16_truncate` on a well-formed file. -/
theorem fat16_truncate_shrink_wf (fuel : Nat) (m : FAT16) (hg : Geom m) (d : Disk)
    (u : Uninit) (path : List Nat) (slot : DirEntrySlot) (n s : Nat)
    (hw : FileWF fuel m d u path slot n) (hs : s < DIR_FileSize slot.dir)
    (hfuel : n + m.sec_per_clus < fuel) :
    ∃ d', fat16_truncate fuel m d u path s = .ok (0, d')
      ∧ Shrunk fuel m d u path slot s d' := by
  have hcs := cs_pos m hg
  have h0 : DIR_FileSize slot.dir ≠ 0 := by omega
  have hended := hw.ended h0
  have hchain := hw.ok.chain
  have hcap := hw.ok.capacity
  obtain ⟨d', htr, hsize, hkeep, hzero, hterm, hfreed, r1, r2, r3, r4⟩ :=
    fat16_truncate_shrink_raw fuel m d u path slot n s hg hw.ok hended hs hfuel
  have hat := find_entry_slot fuel m d u path u.slot slot hw.ok.not_root hw.ok.found
  have hV : ∀ c, c ∈ find_entry_clusters fuel m d u path u.slot → is_cluster_inuse c = true :=
    fun c hc => find_entry_visits_inuse m d u fuel _ _ _ _ _ c hc
  have hbn : s / m.cluster_size < n := div_cs_lt m n s (by omega)
  have hent : ∀ i, i < 32 →
      d' slot.sector (slot.offset + i) = set_DIR_FileSize slot.dir s i := by
    intro i hi
    rw [r3, if_pos (by omega)]
    congr 1
    omega
  have hclus : DIR_FstClusLO (entry_at (d' slot.sector) slot.offset)
      = DIR_FstClusLO slot.dir := by
    rw [DIR_FstClusLO_entry _ _ _ hent, DIR_FstClusLO_set_size]
  refine ⟨d', htr, ?_, hsize, hclus, hkeep, hzero, fun c hc hf => ?_⟩
  · apply FileWF_transfer fuel m hg d d' u path slot n _ hw
    · intro c hc
      exact r1 c (hw.ok.dirs_fat c hc) (fun j _ hj => hw.ok.dirs_apart c hc j hj)
    · intro t hne hin
      rcases hin with hin | ⟨c, hc, h1, h2⟩
      · exact r2 t hin.1 hne (not_inchain_low m d _ n _ hin.2)
      · exact r2 t (Nat.le_trans (first_sector_ge_root m hg c) h1) hne
          (not_inchain_cluster m d _ n c _ hchain (hV c hc) (hw.ok.dirs_apart c hc) h1 h2)
    · intro o ho
      rw [r3, if_neg ho]
    · intro i hi
      rw [hent i (by omega)]
      have : set_DIR_FileSize slot.dir s i = slot.dir i := by
        unfold set_DIR_FileSize store32
        rw [if_neg (by omega), if_neg (by omega), if_neg (by omega), if_neg (by omega)]
      rw [this, hat.1]
      unfold entry_at
      rw [if_pos (by unfold DIR_ENTRY_SIZE; omega)]
    · rw [hclus]
      exact ⟨fun k hk => by rw [r4 k (by omega)]; exact hchain.inuse k (by omega),
        fun i hi j hj he => by
          rw [r4 i (by omega), r4 j (by omega)] at he
          exact hchain.distinct i (by omega) j (by omega) he,
        fun k hk => by rw [r4 k (by omega)]; exact hchain.fat_in k (by omega)⟩
    · rw [hsize]
      have hdm := Nat.div_add_mod s m.cluster_size
      have hml := Nat.mod_lt s hcs
      rw [Nat.succ_mul, Nat.mul_comm]
      omega
    · intro _
      rw [hclus]
      show is_cluster_end (read_fat_entry m d' (chain_nth m d' _ (s / m.cluster_size))) = true
      rw [r4 _ (le_refl _)]
      exact hterm
    · intro c hc k hk
      rw [hclus, r4 k (by omega)]
      exact hw.ok.dirs_apart c hc k (by omega)
  · rw [r1 c hc (fun j _ hj he => chain_not_free m d _ n hchain hended j hj (he ▸ hf))]
    exact hf

theorem FatIn_mono (m : FAT16) (x y : Nat) (h : y ≤ x) (hx : FatIn m x) : FatIn m y := by
  unfold FatIn at hx ⊢
  exact Nat.lt_of_le_of_lt (Nat.div_le_div_right h) hx

/-- The scan of `alloc_clusters` misses no free cluster of the scanned range below the
point where it stops. -/
theorem alloc_scan_complete (m : FAT16) (d : Disk) (n : Nat) : ∀ (k cur : Nat) (acc : List Nat),
    acc.length < n →
    (alloc_scan m d n k cur acc).length ≤ n
    ∧ ∀ x, cur ≤ x → x < cur + k → read_fat_entry m d x = CLUSTER_FREE →
        x ∈ alloc_scan m d n k cur acc
        ∨ ((alloc_scan m d n k cur acc).length = n
            ∧ ∀ y, y ∈ alloc_scan m d n k cur acc → y ∈ acc ∨ y < x) := by
  intro k
  induction k with
  | zero =>
    intro cur acc hacc
    exact ⟨Nat.le_of_lt hacc, fun x h1 h2 _ => (by omega)⟩
  | succ k ih =>
    intro cur acc hacc
    rw [alloc_scan]
    by_cases hfree : read_fat_entry m d cur = CLUSTER_FREE
    · simp only [hfree, if_true]
      by_cases hlen : (acc ++ [cur]).length = n
      · rw [if_pos hlen]
        refine ⟨Nat.le_of_eq hlen, fun x h1 h2 _ => ?_⟩
        rcases Nat.eq_or_lt_of_le h1 with h3 | h3
        · left; rw [← h3]; simp
        · right
          refine ⟨hlen, fun y hy => ?_⟩
          rcases List.mem_append.mp hy with h4 | h4
          · exact Or.inl h4
          · rw [List.mem_singleton.mp h4]; exact Or.inr h3
      · rw [if_neg hlen]
        have hacc' : (acc ++ [cur]).length < n := by
          simp only [List.length_append, List.length_singleton] at hlen ⊢
          omega
        obtain ⟨ih1, ih2⟩ := ih (cur + 1) (acc ++ [cur]) hacc'
        refine ⟨ih1, fun x h1 h2 hx => ?_⟩
        obtain ⟨L, hL, _, _⟩ := alloc_scan_spec m d n k (cur + 1) (acc ++ [cur])
        rcases Nat.eq_or_lt_of_le h1 with h3 | h3
        · left; rw [← h3, hL]; simp
        · rcases ih2 x (by omega) (by omega) hx with h4 | ⟨h4, h5⟩
          · exact Or.inl h4
          · right
            refine ⟨h4, fun y hy => ?_⟩
            rcases h5 y hy with h6 | h6
            · rcases List.mem_append.mp h6 with h7 | h7
              · exact Or.inl h7
              · rw [List.mem_singleton.mp h7]; exact Or.inr h3
            · exact Or.inr h6
    · simp only [hfree, if_false]
      rw [if_neg (by omega)]
      obtain ⟨ih1, ih2⟩ := ih (cur + 1) acc hacc
      refine ⟨ih1, fun x h1 h2 hx => ?_⟩
      rcases Nat.eq_or_lt_of_le h1 with h3 | h3
      · rw [← h3] at hx; exact absurd hx hfree
      · exact ih2 x (by omega) (by omega) hx

/-- On a volume with at least `N` free clusters the scan of `alloc_clusters` for `g ≤ N`
clusters succeeds, with clusters whose FAT entries lie inside the FAT. -/
theorem HasFree_EnoughFree (m : FAT16) (d : Disk) (N g : Nat) (h : HasFree m d N)
    (hg : g ≤ N) : EnoughFree m d g := by
  intro hg0
  obtain ⟨F, hnd, hlen, hF⟩ := h
  generalize hR : alloc_scan m d g (CLUSTER_MAX + 1 - CLUSTER_MIN) CLUSTER_MIN [] = R
  obtain ⟨hRnd, _⟩ := alloc_scan_free m d g R hR
  obtain ⟨hle, hcomp⟩ := alloc_scan_complete m d g (CLUSTER_MAX + 1 - CLUSTER_MIN) CLUSTER_MIN []
    (by simpa using Nat.pos_of_ne_zero hg0)
  rw [hR] at hle hcomp
  have hin : ∀ x, x ∈ F → x ∈ R ∨ (R.length = g ∧ ∀ y, y ∈ R → y < x) := by
    intro x hx
    obtain ⟨h1, _, h3⟩ := hF x hx
    have h4 := inuse_ge x h1
    rcases hcomp x (by simp only [CLUSTER_MIN]; omega)
        (by simp only [CLUSTER_MIN, CLUSTER_MAX]; omega) h3 with h5 | ⟨h5, h6⟩
    · exact Or.inl h5
    · exact Or.inr ⟨h5, fun y hy => by
        rcases h6 y hy with h7 | h7
        · cases h7
        · exact h7⟩
  by_cases hall : ∀ x, x ∈ F → x ∈ R
  · have hsp := List.subperm_of_subset hnd hall
    have h1 := hsp.length_le
    have hperm := hsp.perm_of_length_le (by omega)
    exact ⟨by omega, fun c hc => (hF c (hperm.symm.subset hc)).2.1⟩
  · have hex : ∃ x, x ∈ F ∧ x ∉ R := by
      by_contra hne
      exact hall (fun x hx => by
        by_contra hxr
        exact hne ⟨x, hx, hxr⟩)
    obtain ⟨x, hx, hxr⟩ := hex
    rcases hin x hx with h1 | ⟨h1, h2⟩
    · exact absurd h1 hxr
    · exact ⟨h1, fun c hc => FatIn_mono m x c (Nat.le_of_lt (h2 c hc)) (hF x hx).2.1⟩

theorem length_le_filter_notin (F A : List Nat) (hnd : F.Nodup) :
    F.length ≤ (F.filter (fun c => decide (c ∉ A))).length + A.length := by
  have h1 : F.toFinset ⊆ (F.filter (fun c => decide (c ∉ A))).toFinset ∪ A.toFinset := by
    intro x hx
    rw [Finset.mem_union, List.mem_toFinset, List.mem_toFinset, List.mem_filter]
    rw [List.mem_toFinset] at hx
    by_cases hxa : x ∈ A
    · exact Or.inr hxa
    · exact Or.inl ⟨hx, by simpa using hxa⟩
  have h2 := Finset.card_le_card h1
  have h3 := Finset.card_union_le (F.filter (fun c => decide (c ∉ A))).toFinset A.toFinset
  have h4 := List.toFinset_card_le (F.filter (fun c => decide (c ∉ A)))
  have h5 := List.toFinset_card_le A
  rw [List.toFinset_card_of_nodup hnd] at h2
  omega

/-- The free clusters that remain after an operation that took at most the clusters of a
list `A` out of the free ones. -/
theorem HasFree_after (m : FAT16) (d d' : Disk) (N : Nat) (A : List Nat) (h : HasFree m d N)
    (hA : ∀ c, FatIn m c → read_fat_entry m d c = CLUSTER_FREE → c ∉ A →
      read_fat_entry m d' c = CLUSTER_FREE) : HasFree m d' (N - A.length) := by
  obtain ⟨F, hnd, hlen, hF⟩ := h
  refine ⟨F.filter (fun c => decide (c ∉ A)), hnd.filter _, ?_, fun c hc => ?_⟩
  · have := length_le_filter_notin F A hnd
    omega
  · obtain ⟨h1, h2⟩ := List.mem_filter.mp hc
    obtain ⟨a, b, e⟩ := hF c h1
    exact ⟨a, b, hA c b e (by simpa using h2)⟩

theorem HasFree_mono (m : FAT16) (d : Disk) (N N' : Nat) (h : HasFree m d N) (hle : N' ≤ N) :
    HasFree m d N' := by
  obtain ⟨F, hnd, hlen, hF⟩ := h
  exact ⟨F, hnd, by omega, hF⟩

theorem grow_clusters_le (m : FAT16) (S0 b : Nat) :
    grow_clusters m S0 b ≤ b / m.cluster_size + 1 := by
  unfold grow_clusters
  by_cases h0 : S0 = 0
  · rw [if_pos h0]
  · rw [if_neg h0]
    generalize (if S0 % m.cluster_size = 0 then 0 else m.cluster_size - S0 % m.cluster_size) = sp
    by_cases h1 : sp ≥ b - S0
    · rw [if_pos h1]
      exact Nat.zero_le _
    · rw [if_neg h1]
      exact Nat.succ_le_succ (Nat.div_le_div_right
        (Nat.le_trans (Nat.sub_le _ _) (Nat.sub_le _ _)))

/-- `fat16_truncate` to a size `b` on a well-formed file of any size, on a volume with
enough free clusters: the file stays well formed, has size `b`, keeps the bytes below the
old and the new size, and at most `b / cluster_size + 1` free clusters are used up. -/
theorem fat16_truncate_to (fuel : Nat) (m : FAT16) (hg : Geom m) (d : Disk) (u : Uninit)
    (path : List Nat) (slot : DirEntrySlot) (n b N : Nat)
    (hw : FileWF fuel m d u path slot n) (hb32 : b < 4294967296)
    (h16 : b / m.cluster_size + 1 < 65536) (hfree : HasFree m d N)
    (hN : b / m.cluster_size + 1 ≤ N) (hfuel : n + m.sec_per_clus < fuel) :
    ∃ d1 n1, fat16_truncate fuel m d u path b = .ok (0, d1)
      ∧ FileWF fuel m d1 u path
          (DirEntrySlot.mk (entry_at (d1 slot.sector) slot.offset) slot.sector slot.offset) n1
      ∧ DIR_FileSize (entry_at (d1 slot.sector) slot.offset) = b
      ∧ n1 ≤ n + (b / m.cluster_size + 1)
      ∧ (∀ p, p < DIR_FileSize slot.dir → p < b →
          file_byte m d1 (DIR_FstClusLO (entry_at (d1 slot.sector) slot.offset)) p
            = file_byte m d (DIR_FstClusLO slot.dir) p)
      ∧ HasFree m d1 (N - (b / m.cluster_size + 1)) := by
  have hat := find_entry_slot fuel m d u path u.slot slot hw.ok.not_root hw.ok.found
  have hgl := grow_clusters_le m (DIR_FileSize slot.dir) b
  rcases Nat.lt_trichotomy (DIR_FileSize slot.dir) b with hlt | heq | hgt
  · obtain ⟨d1, n1, htr, hG⟩ := fat16_truncate_grow fuel m hg d u path slot n b hw hlt hb32
      (by omega) (HasFree_EnoughFree m d N _ hfree (by omega)) (by omega)
    obtain ⟨A, hA1, hA2⟩ := hG.free
    refine ⟨d1, n1, htr, hG.wf, hG.size, ?_, fun p hp _ => ?_, ?_⟩
    · have := hG.count
      omega
    · have h0 : DIR_FileSize slot.dir ≠ 0 := by omega
      obtain ⟨h1, h2⟩ := hG.keep h0
      rw [h1]
      exact h2 p (Nat.lt_of_lt_of_le hp hw.ok.capacity)
    · exact HasFree_mono m d1 _ _ (HasFree_after m d d1 N A hfree hA2) (by omega)
  · have hsl : DirEntrySlot.mk (entry_at (d slot.sector) slot.offset) slot.sector slot.offset
        = slot := by
      cases slot
      simp only [DirEntrySlot.mk.injEq, and_true]
      exact hat.1.symm
    refine ⟨d, n, ?_, by rw [hsl]; exact hw, by rw [← hat.1]; exact heq, Nat.le_add_right _ _,
      fun p _ _ => by rw [← hat.1], HasFree_mono m d _ _ hfree (Nat.sub_le _ _)⟩
    unfold fat16_truncate
    rw [hw.ok.found]
    simp only [bind, Except.bind]
    rw [if_pos heq.symm]
    rfl
  · obtain ⟨d1, htr, hS⟩ := fat16_truncate_shrink_wf fuel m hg d u path slot n b hw hgt hfuel
    refine ⟨d1, b / m.cluster_size + 1, htr, hS.wf, hS.size, Nat.le_add_left _ _,
      fun p _ hp => ?_, ?_⟩
    · rw [hS.head]
      exact hS.keep p hp
    · have := HasFree_after m d d1 N [] hfree (fun c hc hf _ => hS.free c hc hf)
      exact HasFree_mono m d1 _ _ this (by simp)
/-! ## FAT entries under the bare hypotheses on the sector size -/

theorem fat_off_div_of (m : FAT16) (h1 : 0 < m.sector_size) (h2 : m.sector_size % 2 = 0)
    (c : Nat) : c * 2 / m.sector_size = c / (m.sector_size / 2) := by
  obtain ⟨h, hh⟩ : ∃ h, m.sector_size = 2 * h := ⟨m.sector_size / 2, by omega⟩
  rw [hh]
  have hpos : 0 < h := by omega
  rw [Nat.mul_comm c 2, Nat.mul_div_mul_left _ _ (by norm_num : 0 < 2)]
  simp

theorem fat_off_mod_of (m : FAT16) (h1 : 0 < m.sector_size) (h2 : m.sector_size % 2 = 0)
    (c : Nat) : c * 2 % m.sector_size = 2 * (c % (m.sector_size / 2)) := by
  obtain ⟨h, hh⟩ : ∃ h, m.sector_size = 2 * h := ⟨m.sector_size / 2, by omega⟩
  rw [hh]
  have hpos : 0 < h := by omega
  rw [Nat.mul_comm c 2, Nat.mul_mod_mul_left]
  simp

theorem write_fat_entry_apply_of (m : FAT16) (h1 : 0 < m.sector_size)
    (h2 : m.sector_size % 2 = 0) (d : Disk) (c v s : Nat) :
    write_fat_entry m d c v s =
      if ∃ t, t < m.fats ∧ s = m.fat_sec + t * m.sec_per_fat + c / (m.sector_size / 2) then
        store16 (d s) (2 * (c % (m.sector_size / 2))) v
      else d s := by
  unfold write_fat_entry
  simp only [write_fat_copies_apply, fat_off_div_of m h1 h2, fat_off_mod_of m h1 h2, Nat.zero_add]

theorem read_write_fat_same_of (m : FAT16) (h1 : 0 < m.sector_size)
    (h2 : m.sector_size % 2 = 0) (hf : 0 < m.fats) (d : Disk) (c v : Nat) :
    read_fat_entry m (write_fat_entry m d c v) c = v % 65536 := by
  unfold read_fat_entry
  simp only [sector_read, write_fat_entry_apply_of m h1 h2, fat_off_mod_of m h1 h2]
  rw [if_pos ⟨0, hf, by simp⟩]
  exact load16_store16_same _ _ _

/-- A write of the entry of `c` changes the value read for `c'` only when `c'` is `c` plus
a multiple (below the number of copies) of the number of entries of one FAT copy. -/
theorem read_write_fat_apart (m : FAT16) (h1 : 0 < m.sector_size)
    (h2 : m.sector_size % 2 = 0) (d : Disk) (c c' v : Nat)
    (hne : ∀ t, t < m.fats → c' ≠ c + t * (m.sec_per_fat * (m.sector_size / 2))) :
    read_fat_entry m (write_fat_entry m d c v) c' = read_fat_entry m d c' := by
  unfold read_fat_entry
  simp only [sector_read, write_fat_entry_apply_of m h1 h2, fat_off_mod_of m h1 h2]
  have hh : 0 < m.sector_size / 2 := by omega
  have e1 := Nat.div_add_mod c' (m.sector_size / 2)
  have e2 := Nat.div_add_mod c (m.sector_size / 2)
  have l1 := Nat.mod_lt c' hh
  have l2 := Nat.mod_lt c hh
  split_ifs with h
  · obtain ⟨t, ht, hs⟩ := h
    have hq : c' / (m.sector_size / 2) = t * m.sec_per_fat + c / (m.sector_size / 2) := by
      omega
    have hr : c' % (m.sector_size / 2) ≠ c % (m.sector_size / 2) := by
      intro hr
      apply hne t ht
      rw [← e1, hq, hr]
      conv_rhs => rw [← e2]
      ring
    apply load16_store16_other
    omega
  · rfl

/-! ## The allocator on the list of free clusters -/

theorem free_list_mem (m : FAT16) (d : Disk) (c : Nat) :
    c ∈ free_list m d ↔ is_cluster_inuse c = true ∧ read_fat_entry m d c = CLUSTER_FREE := by
  unfold free_list
  rw [List.mem_filter, List.mem_range'_1]
  simp only [is_cluster_inuse, CLUSTER_MIN, CLUSTER_MAX, Bool.and_eq_true, decide_eq_true_eq]
  constructor
  · rintro ⟨⟨a, b⟩, e⟩
    exact ⟨⟨a, by omega⟩, e⟩
  · rintro ⟨⟨a, b⟩, e⟩
    exact ⟨⟨a, by omega⟩, e⟩

theorem free_list_sorted (m : FAT16) (d : Disk) : (free_list m d).Pairwise (· < ·) := by
  unfold free_list
  exact List.Pairwise.filter _ (List.pairwise_lt_range' _ _)

theorem free_list_nodup (m : FAT16) (d : Disk) : (free_list m d).Nodup :=
  (free_list_sorted m d).imp (fun h => Nat.ne_of_lt h)

/-- A list of distinct free clusters is no longer than `free_list`. -/
theorem free_list_length_ge (m : FAT16) (d : Disk) (F : List Nat) (hF : F.Nodup)
    (h : ∀ c, c ∈ F → is_cluster_inuse c = true ∧ read_fat_entry m d c = CLUSTER_FREE) :
    F.length ≤ (free_list m d).length :=
  (List.Nodup.subperm hF (fun c hc => (free_list_mem m d c).mpr (h c hc))).length_le

/-- The scan of `alloc_clusters` returns the first `n` free clusters of the scanned range,
or all of them when there are fewer. -/
theorem alloc_scan_take (m : FAT16) (d : Disk) (n : Nat) : ∀ (k cur : Nat) (acc : List Nat),
    acc.length < n →
    alloc_scan m d n k cur acc
      = (acc ++ (List.range' cur k).filter
          (fun c => decide (read_fat_entry m d c = CLUSTER_FREE))).take n := by
  intro k
  induction k with
  | zero =>
    intro cur acc hacc
    simp only [alloc_scan, List.range'_zero, List.filter_nil, List.append_nil]
    rw [List.take_of_length_le (Nat.le_of_lt hacc)]
  | succ k ih =>
    intro cur acc hacc
    rw [alloc_scan, List.range'_succ, List.filter_cons]
    by_cases hfree : read_fat_entry m d cur = CLUSTER_FREE
    · simp only [hfree, if_true, decide_True]
      by_cases hlen : (acc ++ [cur]).length = n
      · rw [if_pos hlen]
        have : acc ++ cur :: List.filter (fun c => decide (read_fat_entry m d c = CLUSTER_FREE))
            (List.range' (cur + 1) k) = (acc ++ [cur]) ++ List.filter
              (fun c => decide (read_fat_entry m d c = CLUSTER_FREE)) (List.range' (cur + 1) k) := by
          simp
        rw [this, List.take_append_of_le_length (Nat.le_of_eq hlen.symm),
          List.take_of_length_le (Nat.le_of_eq hlen)]
      · rw [if_neg hlen]
        have hacc' : (acc ++ [cur]).length < n := by
          simp only [List.length_append, List.length_singleton] at hlen ⊢
          omega
        rw [ih (cur + 1) (acc ++ [cur]) hacc']
        simp
    · simp only [hfree, if_false, decide_False]
      rw [if_neg (Nat.ne_of_lt hacc)]
      simpa using ih (cur + 1) acc hacc

theorem alloc_scan_free_list (m : FAT16) (d : Disk) (n : Nat) (hn : n ≠ 0) :
    alloc_scan m d n (CLUSTER_MAX + 1 - CLUSTER_MIN) CLUSTER_MIN [] = (free_list m d).take n := by
  rw [alloc_scan_take m d n _ _ [] (by simpa using Nat.pos_of_ne_zero hn)]
  rfl

theorem read_write_fat_lower (m : FAT16) (hg : Geom m) (d : Disk) (c c' v : Nat) (h : c' < c) :
    read_fat_entry m (write_fat_entry m d c v) c' = read_fat_entry m d c' := by
  apply read_write_fat_apart m hg.ss_pos hg.ss_even
  intro t _
  have := Nat.zero_le (t * (m.sec_per_fat * (m.sector_size / 2)))
  omega

theorem link_all_lower (m : FAT16) (hg : Geom m) : ∀ (L : List Nat) (d : Disk) (c : Nat),
    (∀ x, x ∈ L → c < x) → read_fat_entry m (link_all m d L) c = read_fat_entry m d c := by
  intro L
  induction L with
  | nil => intro d c _; rfl
  | cons a cs ih =>
    intro d c h
    cases cs with
    | nil =>
      show read_fat_entry m (write_fat_entry m d a CLUSTER_END) c = _
      exact read_write_fat_lower m hg d a c _ (h a (List.mem_cons_self _ _))
    | cons c1 cs =>
      show read_fat_entry m (link_all m (write_fat_entry m d a c1) (c1 :: cs)) c = _
      rw [ih _ c (fun x hx => h x (List.mem_cons_of_mem _ hx))]
      exact read_write_fat_lower m hg d a c _ (h a (List.mem_cons_self _ _))

/-- Linking an increasing list of clusters: each entry holds the next cluster, the last
one `CLUSTER_END`, wherever the entries lie. -/
theorem link_all_sorted (m : FAT16) (hg : Geom m) : ∀ (L : List Nat) (d : Disk),
    L.Pairwise (· < ·) → (∀ c, c ∈ L → c < 65536) →
    ∀ k, k < L.length →
      read_fat_entry m (link_all m d L) (L.getD k 0) = (L ++ [CLUSTER_END]).getD (k + 1) 0 := by
  intro L
  induction L with
  | nil => intro d _ _ k hk; cases hk
  | cons c cs ih =>
    intro d hp hlt k hk
    have hp' := List.pairwise_cons.mp hp
    cases cs with
    | nil =>
      have hk0 : k = 0 := by simpa using hk
      subst hk0
      show read_fat_entry m (write_fat_entry m d c CLUSTER_END) c = CLUSTER_END
      rw [read_write_fat_same m hg]
      rfl
    | cons c1 cs =>
      show read_fat_entry m (link_all m (write_fat_entry m d c c1) (c1 :: cs)) _ = _
      cases k with
      | zero =>
        show read_fat_entry m _ c = c1
        rw [link_all_lower m hg _ _ c hp'.1, read_write_fat_same m hg]
        exact Nat.mod_eq_of_lt (hlt c1 (by simp))
      | succ k =>
        have := ih (write_fat_entry m d c c1) hp'.2
          (fun x hx => hlt x (List.mem_cons_of_mem _ hx)) k (by simpa using hk)
        simpa using this

/-- The function `alloc_clusters` for `n ≥ 1` on a disk with at least `n` free clusters:
it returns 0 with the lowest free cluster, and on the new disk the `n` lowest free
clusters are linked in increasing order, the last one to `CLUSTER_END`. -/
theorem alloc_clusters_free_list (m : FAT16) (hg : Geom m) (d : Disk) (n fc : Nat) (hn : n ≠ 0)
    (hlen : n ≤ (free_list m d).length) :
    ∃ dz, clear_all m d ((free_list m d).take n) = .ok dz
      ∧ alloc_clusters m d n fc
          = .ok (0, (free_list m d).headD 0, link_all m dz ((free_list m d).take n))
      ∧ ∀ k, k ≤ n →
          chain_nth m (link_all m dz ((free_list m d).take n)) ((free_list m d).headD 0) k
            = ((free_list m d).take n ++ [CLUSTER_END]).getD k 0 := by
  have hscan := alloc_scan_free_list m d n hn
  have hL : ((free_list m d).take n).length = n := by
    rw [List.length_take]; omega
  have hmem : ∀ c, c ∈ (free_list m d).take n →
      is_cluster_inuse c = true ∧ read_fat_entry m d c = CLUSTER_FREE :=
    fun c hc => (free_list_mem m d c).mp (List.mem_of_mem_take hc)
  have hsorted : ((free_list m d).take n).Pairwise (· < ·) :=
    (free_list_sorted m d).sublist (List.take_sublist _ _)
  obtain ⟨dz, hz, _, _⟩ := clear_all_spec m _ d (fun c hc => (hmem c hc).1)
  have hhead : ((free_list m d).take n).headD 0 = (free_list m d).headD 0 := by
    cases hfl : free_list m d with
    | nil => simp
    | cons a l =>
      obtain ⟨n', rfl⟩ : ∃ n', n = n' + 1 := ⟨n - 1, by omega⟩
      simp
  have hlink := link_all_sorted m hg _ dz hsorted (fun c hc => by
    have := (inuse_ge c (hmem c hc).1).2
    omega)
  refine ⟨dz, hz, ?_, ?_⟩
  · unfold alloc_clusters
    rw [if_neg hn]
    simp only [hscan, hL, ne_eq, not_true_eq_false, if_false, hz, bind, Except.bind, pure,
      Except.pure, hhead]
  · intro k
    induction k with
    | zero =>
      intro _
      rw [← hhead]
      cases hfl : (free_list m d).take n with
      | nil => rw [hfl] at hL; exact absurd hL.symm hn
      | cons c cs => rfl
    | succ k ih =>
      intro hk
      show read_fat_entry m _ (chain_nth m _ _ k) = _
      rw [ih (by omega), List.getD_append _ _ _ _ (by omega), hlink k (by omega)]

theorem write_fat_entry_byte_other (m : FAT16) (hg : Geom m) (d : Disk) (c v s o : Nat)
    (h : ¬ EntryByte m c s o) : write_fat_entry m d c v s o = d s o := by
  rw [write_fat_entry_apply m hg]
  split_ifs with hs
  · simp only [store16]
    have h1 : o ≠ 2 * (c % (m.sector_size / 2)) := fun e => h ⟨hs, Or.inl e⟩
    have h2 : o ≠ 2 * (c % (m.sector_size / 2)) + 1 := fun e => h ⟨hs, Or.inr e⟩
    rw [if_neg h1, if_neg h2]
  · rfl

theorem write_fat_entry_byte_zero (m : FAT16) (hg : Geom m) (d : Disk) (c s o : Nat)
    (h : EntryByte m c s o) : write_fat_entry m d c CLUSTER_FREE s o = 0 := by
  rw [write_fat_entry_apply m hg, if_pos h.1]
  simp only [store16, CLUSTER_FREE]
  rcases h.2 with e | e
  · rw [if_pos e]
  · rw [if_neg (by omega), if_pos e]

theorem EntryByte_inj (m : FAT16) (hg : Geom m) (c c' s o : Nat) (hc : FatIn m c)
    (hc' : FatIn m c') (h : EntryByte m c s o) (h' : EntryByte m c' s o) : c = c' := by
  obtain ⟨⟨t, _, hs⟩, ho⟩ := h
  obtain ⟨⟨t', _, hs'⟩, ho'⟩ := h'
  unfold FatIn at hc hc'
  have hss := hg.ss_pos
  have hev := hg.ss_even
  have hh : 0 < m.sector_size / 2 := by omega
  have e1 := Nat.div_add_mod c' (m.sector_size / 2)
  have e2 := Nat.div_add_mod c (m.sector_size / 2)
  have hr : c % (m.sector_size / 2) = c' % (m.sector_size / 2) := by omega
  have hq : c / (m.sector_size / 2) = c' / (m.sector_size / 2) := by
    generalize c / (m.sector_size / 2) = q at *
    generalize c' / (m.sector_size / 2) = q' at *
    rcases Nat.lt_trichotomy t t' with h | h | h
    · exfalso
      have : (t + 1) * m.sec_per_fat ≤ t' * m.sec_per_fat := Nat.mul_le_mul_right _ h
      rw [Nat.add_mul] at this
      omega
    · subst h; omega
    · exfalso
      have : (t' + 1) * m.sec_per_fat ≤ t * m.sec_per_fat := Nat.mul_le_mul_right _ h
      rw [Nat.add_mul] at this
      omega
  rw [← e1, ← e2, hq, hr]

theorem EntryByte_fat_region (m : FAT16) (hg : Geom m) (c s o : Nat) (hc : FatIn m c)
    (h : EntryByte m c s o) : m.fat_sec ≤ s ∧ s < m.root_sec := by
  obtain ⟨⟨t, ht, hs⟩, _⟩ := h
  unfold FatIn at hc
  have := hg.root_eq
  have h3 : (t + 1) * m.sec_per_fat ≤ m.fats * m.sec_per_fat := Nat.mul_le_mul_right _ (by omega)
  rw [Nat.add_mul] at h3
  generalize c / (m.sector_size / 2) = q at *
  omega

theorem link_all_bytes (m : FAT16) (hg : Geom m) : ∀ (L : List Nat) (d : Disk) (s o : Nat),
    (∀ c, c ∈ L → ¬ EntryByte m c s o) → link_all m d L s o = d s o := by
  intro L
  induction L with
  | nil => intro d s o _; rfl
  | cons a cs ih =>
    intro d s o h
    cases cs with
    | nil =>
      show write_fat_entry m d a CLUSTER_END s o = _
      exact write_fat_entry_byte_other m hg d a _ s o (h a (List.mem_cons_self _ _))
    | cons c1 cs =>
      show link_all m (write_fat_entry m d a c1) (c1 :: cs) s o = _
      rw [ih _ s o (fun x hx => h x (List.mem_cons_of_mem _ hx))]
      exact write_fat_entry_byte_other m hg d a _ s o (h a (List.mem_cons_self _ _))

/-- Byte-level effect of `free_clusters` on a well-formed chain: the entry bytes of the
chain clusters are zero in every FAT copy and no other byte of the disk changes. -/
theorem free_clusters_bytes (m : FAT16) (hg : Geom m) (k : Nat) :
    ∀ (fuel : Nat) (d : Disk) (h : Nat), ChainOK m d h k →
      is_cluster_inuse (chain_nth m d h k) = false → k < fuel →
      ∃ d', free_clusters m fuel d h = .ok d'
        ∧ (∀ s o i, i < k → EntryByte m (chain_nth m d h i) s o → d' s o = 0)
        ∧ (∀ s o, (∀ i, i < k → ¬ EntryByte m (chain_nth m d h i) s o) → d' s o = d s o) := by
  induction k with
  | zero =>
    intro fuel d h _ hstop hf
    obtain ⟨f, rfl⟩ : ∃ f, fuel = f + 1 := ⟨fuel - 1, by omega⟩
    simp only [chain_nth] at hstop
    refine ⟨d, ?_, fun s o i hi => by omega, fun s o _ => rfl⟩
    unfold free_clusters
    simp [hstop]
  | succ k ih =>
    intro fuel d h hc hstop hf
    obtain ⟨f, rfl⟩ : ∃ f, fuel = f + 1 := ⟨fuel - 1, by omega⟩
    have h0 : is_cluster_inuse h = true := hc.inuse 0 (by omega)
    have hfat0 : FatIn m h := hc.fat_in 0 (by omega)
    have hchain : ∀ i, i ≤ k → chain_nth m (write_fat_entry m d h CLUSTER_FREE)
        (read_fat_entry m d h) i = chain_nth m d h (i + 1) := by
      intro i
      induction i with
      | zero => intro _; rfl
      | succ i ihi =>
        intro hi
        show read_fat_entry m _ (chain_nth m _ _ i) = read_fat_entry m d (chain_nth m d h (i + 1))
        rw [ihi (by omega)]
        apply read_write_fat_other m hg
        · intro he
          have := hc.distinct (i + 1) (by omega) 0 (by omega) he
          omega
        · exact hc.fat_in (i + 1) (by omega)
    have hc1 : ChainOK m (write_fat_entry m d h CLUSTER_FREE) (read_fat_entry m d h) k := by
      refine ⟨fun i hi => ?_, fun i hi j hj hij => ?_, fun i hi => ?_⟩
      · rw [hchain i (by omega)]; exact hc.inuse (i + 1) (by omega)
      · rw [hchain i (by omega), hchain j (by omega)] at hij
        have := hc.distinct (i + 1) (by omega) (j + 1) (by omega) hij
        omega
      · rw [hchain i (by omega)]; exact hc.fat_in (i + 1) (by omega)
    obtain ⟨d', hd', hzero, hother⟩ := ih f (write_fat_entry m d h CLUSTER_FREE)
      (read_fat_entry m d h) hc1 (by rw [hchain k (le_refl _)]; exact hstop) (by omega)
    refine ⟨d', ?_, ?_, ?_⟩
    · unfold free_clusters
      simp only [h0, if_true]
      exact hd'
    · intro s o i hi he
      rcases i with _ | i
      · simp only [chain_nth] at he
        rw [hother s o (fun i hi h2 => by
          rw [hchain i (by omega)] at h2
          have e := EntryByte_inj m hg _ _ s o hfat0 (hc.fat_in (i + 1) (by omega)) he h2
          have := hc.distinct 0 (by omega) (i + 1) (by omega) e
          omega)]
        exact write_fat_entry_byte_zero m hg d h s o he
      · rw [← hchain i (by omega)] at he
        exact hzero s o i (by omega) he
    · intro s o hne
      rw [hother s o (fun i hi h2 => by
        rw [hchain i (by omega)] at h2
        exact hne (i + 1) (by omega) h2)]
      exact write_fat_entry_byte_other m hg d h _ s o (hne 0 (by omega))

theorem end_not_inuse (c : Nat) (h : is_cluster_end c = true) : is_cluster_inuse c = false := by
  simp [is_cluster_end, CLUSTER_END_BOUND] at h
  simp [is_cluster_inuse, CLUSTER_MIN, CLUSTER_MAX]
  omega

/-- Allocation followed by release, for `n` lowest free clusters `L` whose entries lie
inside the FAT and are zero in every FAT copy: both calls succeed, the clusters read as
free again and every sector of the FAT region is as before the allocation. -/
theorem alloc_free_round_trip (m : FAT16) (hg : Geom m) (fuel : Nat) (d : Disk) (n first : Nat)
    (hn : 1 ≤ n) (hlen : n ≤ (free_list m d).length)
    (hin : ∀ c, c ∈ (free_list m d).take n → FatIn m c ∧ FreeInCopies m d c)
    (hfuel : n < fuel) :
    ∃ d1 d2, alloc_clusters m d n first = .ok (0, (free_list m d).headD 0, d1)
      ∧ free_clusters m fuel d1 ((free_list m d).headD 0) = .ok d2
      ∧ (∀ c, c ∈ (free_list m d).take n → read_fat_entry m d2 c = CLUSTER_FREE)
      ∧ ∀ s, m.fat_sec ≤ s → s < m.root_sec → d2 s = d s := by
  obtain ⟨dz, hz, hal, hch⟩ := alloc_clusters_free_list m hg d n first (by omega) hlen
  generalize hLdef : (free_list m d).take n = L at *
  generalize hhd : (free_list m d).headD 0 = head at *
  have hL : L.length = n := by
    rw [← hLdef, List.length_take]; omega
  have hmem : ∀ c, c ∈ L → is_cluster_inuse c = true := fun c hc =>
    ((free_list_mem m d c).mp (List.mem_of_mem_take (hLdef ▸ hc))).1
  have hnd : L.Nodup := by
    rw [← hLdef]
    exact (free_list_nodup m d).sublist (List.take_sublist _ _)
  have hget : ∀ k, k < n → chain_nth m (link_all m dz L) head k = L.getD k 0 := fun k hk => by
    rw [hch k (by omega), List.getD_append _ _ _ _ (by omega)]
  have hchain : ChainOK m (link_all m dz L) head n := by
    refine ⟨fun k hk => ?_, fun i hi j hj hij => ?_, fun k hk => ?_⟩
    · rw [hget k hk]; exact hmem _ (getD_mem_of_lt L k (by omega))
    · rw [hget i hi, hget j hj] at hij
      exact getD_inj_of_nodup L hnd i j (by omega) (by omega) hij
    · rw [hget k hk]; exact (hin _ (getD_mem_of_lt L k (by omega))).1
  have hstop : is_cluster_inuse (chain_nth m (link_all m dz L) head n) = false := by
    rw [hch n (le_refl _), List.getD_append_right _ _ _ _ (by omega), hL]
    simp [is_cluster_inuse, CLUSTER_END, CLUSTER_MAX]
  obtain ⟨d2, hfr, hzero, hother⟩ := free_clusters_bytes m hg n fuel _ head hchain hstop hfuel
  obtain ⟨dz', hz', _, hzkeep⟩ := clear_all_spec m L d hmem
  have hdz : dz' = dz := by
    rw [hz] at hz'
    exact (Except.ok.inj hz').symm
  subst hdz
  have hidx : ∀ c, c ∈ L → ∃ i, i < n ∧ chain_nth m (link_all m dz' L) head i = c := by
    intro c hc
    obtain ⟨i, hi, he⟩ := List.mem_iff_getElem.mp hc
    refine ⟨i, by omega, ?_⟩
    rw [hget i (by omega), List.getD_eq_getElem _ _ hi, he]
  refine ⟨_, d2, hal, hfr, fun c hc => ?_, fun s hs1 hs2 => ?_⟩
  · obtain ⟨i, hi, he⟩ := hidx c hc
    have hb0 := hzero (m.fat_sec + c / (m.sector_size / 2)) (2 * (c % (m.sector_size / 2))) i hi
      (by rw [he]; exact ⟨⟨0, hg.fats_pos, by simp⟩, Or.inl rfl⟩)
    have hb1 := hzero (m.fat_sec + c / (m.sector_size / 2)) (2 * (c % (m.sector_size / 2)) + 1)
      i hi (by rw [he]; exact ⟨⟨0, hg.fats_pos, by simp⟩, Or.inr rfl⟩)
    unfold read_fat_entry
    simp only [sector_read, fat_off_mod m hg, load16, hb0, hb1, CLUSTER_FREE]
  · funext o
    by_cases hE : ∃ i, i < n ∧ EntryByte m (chain_nth m (link_all m dz' L) head i) s o
    · obtain ⟨i, hi, he⟩ := hE
      rw [hzero s o i hi he]
      rw [hget i hi] at he
      have hfc := (hin _ (getD_mem_of_lt L i (by omega))).2
      obtain ⟨⟨t, ht, hst⟩, ho⟩ := he
      rcases ho with ho | ho
      · rw [hst, ho]; exact ((hfc t ht).1).symm
      · rw [hst, ho]; exact ((hfc t ht).2).symm
    · have hno : ∀ c, c ∈ L → ¬ EntryByte m c s o := by
        intro c hc he
        obtain ⟨i, hi, hci⟩ := hidx c hc
        exact hE ⟨i, hi, by rw [hci]; exact he⟩
      rw [hother s o (fun i hi he => hE ⟨i, hi, he⟩), link_all_bytes m hg L dz' s o hno]
      have hds : s < m.data_sec := by
        have := hg.data_eq
        omega
      rw [hzkeep s (not_inclusters_low m L s hds)]

/-! ## The directory scan by its first stopping slot -/

theorem toupper_ne_zero (c : Nat) (h : c ≠ 0) : toupper c ≠ 0 := by
  unfold toupper
  split_ifs <;> omega

/-- The first loop of `to_shortname`: the bytes before the final length are not NUL, the
base length is at most the final length and smaller when an extension was seen. -/
theorem to_shortname_scan_spec (name : List Nat) (len : Nat) : ∀ (k i base_len : Nat)
    (has_ext : Bool) (len1 bl : Nat) (he : Bool),
    i + k = len → (∀ j, j < i → cstr name j ≠ 0) → base_len ≤ len →
    (has_ext = true → base_len < i) →
    to_shortname_scan name k i len base_len has_ext = some (len1, bl, he) →
    (∀ j, j < len1 → cstr name j ≠ 0) ∧ bl ≤ len1 ∧ (he = true → bl < len1) := by
  intro k
  induction k with
  | zero =>
    intro i base_len has_ext len1 bl he hik hnz hbl hext h
    simp only [to_shortname_scan, Option.some.injEq, Prod.mk.injEq] at h
    obtain ⟨h1, rfl, rfl⟩ := h
    have : i = len1 := by omega
    subst this
    exact ⟨hnz, by omega, hext⟩
  | succ k ih =>
    intro i base_len has_ext len1 bl he hik hnz hbl hext h
    unfold to_shortname_scan at h
    split_ifs at h with h1 h2 h3
    · simp only [Option.some.injEq, Prod.mk.injEq] at h
      obtain ⟨rfl, rfl, rfl⟩ := h
      refine ⟨hnz, Nat.min_le_right _ _, fun hh => ?_⟩
      have := hext hh
      rw [Nat.min_eq_left (by omega)]
      exact this
    · exact ih (i + 1) i true len1 bl he (by omega) (fun j hj => by
        rcases Nat.lt_succ_iff_lt_or_eq.mp hj with h4 | h4
        · exact hnz j h4
        · rw [h4]; exact h1) (by omega) (fun _ => by omega) h
    · exact ih (i + 1) base_len has_ext len1 bl he (by omega) (fun j hj => by
        rcases Nat.lt_succ_iff_lt_or_eq.mp hj with h4 | h4
        · exact hnz j h4
        · rw [h4]; exact h1) hbl (fun hh => by have := hext hh; omega) h

theorem upper_copy_ne_zero (src : List Nat) (soff : Nat) (res : Nat → Nat) (dst n : Nat)
    (hres : ∀ j, j < 11 → res j ≠ 0) (hsrc : ∀ t, t < n → cstr src (soff + t) ≠ 0) :
    ∀ j, j < 11 → upper_copy src soff res dst n j ≠ 0 := by
  intro j hj
  unfold upper_copy
  split_ifs with h1
  · exact toupper_ne_zero _ (hsrc _ (by omega))
  · exact hres j hj

/-- The 11 bytes that `to_shortname` produces for a valid name are not NUL. -/
theorem to_shortname_ne_zero (name : List Nat) (len : Nat) (res : Nat → Nat)
    (hv : (to_shortname name len res).1 = 0) :
    ∀ i, i < FAT_NAME_LEN → (to_shortname name len res).2 i ≠ 0 := by
  cases hs : to_shortname_scan name len 0 len len false with
  | none =>
    simp [to_shortname, hs, EINVAL] at hv
  | some r =>
    obtain ⟨len1, bl, he⟩ := r
    obtain ⟨hnz, hbl, hext⟩ := to_shortname_scan_spec name len len 0 len false len1 bl he
      (by omega) (fun j hj => by omega) (le_refl _) (fun h => by cases h) hs
    have hr0 : ∀ j, j < 11 → (fun j => if j < FAT_NAME_LEN then 32 else res j) j ≠ 0 := by
      intro j hj
      simp only [FAT_NAME_LEN, if_pos hj]
      omega
    have hr1 := upper_copy_ne_zero name 0 _ 0 (min bl FAT_NAME_BASE_LEN) hr0 (fun t ht => by
      apply hnz
      have := Nat.min_le_left bl FAT_NAME_BASE_LEN
      omega)
    have hout : (to_shortname name len res).2 = if he = true then
        upper_copy name (bl + 1)
          (fun j => if j = 0 then
            (if char_to_int (upper_copy name 0 (fun j => if j < FAT_NAME_LEN then 32 else res j) 0
              (min bl FAT_NAME_BASE_LEN) 0) = 0xe5 then 0x05
            else upper_copy name 0 (fun j => if j < FAT_NAME_LEN then 32 else res j) 0
              (min bl FAT_NAME_BASE_LEN) 0)
            else upper_copy name 0 (fun j => if j < FAT_NAME_LEN then 32 else res j) 0
              (min bl FAT_NAME_BASE_LEN) j)
          FAT_NAME_BASE_LEN (min (len1 - bl - 1) FAT_NAME_EXT_LEN)
        else (fun j => if j = 0 then
            (if char_to_int (upper_copy name 0 (fun j => if j < FAT_NAME_LEN then 32 else res j) 0
              (min bl FAT_NAME_BASE_LEN) 0) = 0xe5 then 0x05
            else upper_copy name 0 (fun j => if j < FAT_NAME_LEN then 32 else res j) 0
              (min bl FAT_NAME_BASE_LEN) 0)
            else upper_copy name 0 (fun j => if j < FAT_NAME_LEN then 32 else res j) 0
              (min bl FAT_NAME_BASE_LEN) j) := by
      simp only [to_shortname, hs]
    generalize upper_copy name 0 (fun j => if j < FAT_NAME_LEN then 32 else res j) 0
      (min bl FAT_NAME_BASE_LEN) = r1 at hr1 hout
    have hr2 : ∀ j, j < 11 →
        (fun j => if j = 0 then (if char_to_int (r1 0) = 0xe5 then 0x05 else r1 0) else r1 j) j
          ≠ 0 := by
      intro j hj
      simp only []
      by_cases h1 : j = 0
      · rw [if_pos h1]
        by_cases h2 : char_to_int (r1 0) = 0xe5
        · rw [if_pos h2]; omega
        · rw [if_neg h2]; exact hr1 0 (by omega)
      · rw [if_neg h1]; exact hr1 j hj
    intro i hi
    rw [hout]
    simp only [FAT_NAME_LEN] at hi
    by_cases h1 : he = true
    · rw [if_pos h1]
      exact upper_copy_ne_zero name (bl + 1) _ _ _ hr2 (fun t ht => by
        apply hnz
        have h3 := hext h1
        have h4 : t < len1 - bl - 1 := Nat.lt_of_lt_of_le ht (Nat.min_le_left _ _)
        omega) i hi
    · rw [if_neg h1]
      exact hr2 i hi

theorem strncmp_eq_of_ne_zero (a b : Nat → Nat) (n : Nat) : ∀ (start : Nat),
    (∀ i, start ≤ i → i < start + n → a i ≠ 0) →
    strncmp_eq a b n start = decide (∀ i, start ≤ i → i < start + n → b i = a i) := by
  induction n with
  | zero =>
    intro start _
    simp only [strncmp_eq]
    symm
    apply decide_eq_true
    intro i h1 h2
    omega
  | succ n ih =>
    intro start h
    unfold strncmp_eq
    by_cases h1 : a start = b start
    · have h2 : a start ≠ 0 := h start (le_refl _) (by omega)
      simp only [h1, bne_self_eq_false, Bool.false_eq_true, if_false, beq_iff_eq]
      rw [if_neg (by rw [← h1]; exact h2), ih (start + 1) (fun i hi1 hi2 => h i (by omega) (by omega))]
      apply decide_eq_decide.mpr
      constructor
      · intro hh i hi1 hi2
        rcases Nat.eq_or_lt_of_le hi1 with h3 | h3
        · rw [← h3, h1]
        · exact hh i h3 (by omega)
      · intro hh i hi1 hi2
        exact hh i (by omega) (by omega)
    · have : (a start != b start) = true := by simpa using h1
      rw [if_pos this]
      symm
      apply decide_eq_false
      intro hh
      exact h1 (hh start (le_refl _) (by omega)).symm

/-- For a valid name `check_name` compares all 11 name bytes. -/
theorem check_name_eq_name_eq (u : Uninit) (name : List Nat) (len : Nat) (dir : DIR_ENTRY)
    (hv : (to_shortname name len u.fatname).1 = 0) :
    check_name u name len dir = name_eq (to_shortname name len u.fatname).2 dir := by
  unfold check_name name_eq
  simp only []
  rw [strncmp_eq_of_ne_zero _ _ _ 0 (fun i _ hi => to_shortname_ne_zero name len u.fatname hv i
    (by simpa using hi))]
  apply decide_eq_decide.mpr
  constructor
  · intro h i hi; exact h i (Nat.zero_le _) (by simpa using hi)
  · intro h i _ hi; exact h i (by simpa using hi)

theorem is_match_eq (u : Uninit) (name : List Nat) (len : Nat) (e : DIR_ENTRY)
    (hv : (to_shortname name len u.fatname).1 = 0) :
    is_match u name len e = (!is_deleted e && check_name u name len e) := by
  unfold is_match
  rw [check_name_eq_name_eq u name len e hv]

theorem find_entry_in_buffer_first (u : Uninit) (name : List Nat) (len : Nat) (b : Sector)
    (sec : Nat) (hv : (to_shortname name len u.fatname).1 = 0) : ∀ (offs : List Nat),
    find_entry_in_buffer u name len b sec offs
      = (offs.find? (fun o => is_stop u name len (entry_at b o))).map
          (fun o => (if is_match u name len (entry_at b o) then FIND_EXIST else FIND_EMPTY,
            DirEntrySlot.mk (entry_at b o) sec o)) := by
  intro offs
  induction offs with
  | nil => rfl
  | cons o os ih =>
    have hm := is_match_eq u name len (entry_at b o) hv
    unfold find_entry_in_buffer
    rw [List.find?_cons]
    by_cases h1 : is_lfn (DIR_Attr (entry_at b o)) = true
    · have hs : is_stop u name len (entry_at b o) = false := by simp [is_stop, h1]
      simp only [h1, if_true, hs]
      exact ih
    · by_cases h2 : (!is_deleted (entry_at b o) && check_name u name len (entry_at b o)) = true
      · have hm1 : is_match u name len (entry_at b o) = true := by rw [hm, h2]
        have hs : is_stop u name len (entry_at b o) = true := by
          simp only [is_stop, hm1, Bool.or_true, Bool.and_true]
          simpa using h1
        simp only [h1, h2, if_true, hs, hm1, Option.map_some', Bool.false_eq_true, if_false]
      · have hm1 : is_match u name len (entry_at b o) = false := by
          rw [hm]; simpa using h2
        by_cases h3 : is_free (entry_at b o) = true
        · have hs : is_stop u name len (entry_at b o) = true := by
            simp only [is_stop, h3, Bool.true_or, Bool.and_true]
            simpa using h1
          simp only [h1, h2, h3, if_true, hs, hm1, Option.map_some', Bool.false_eq_true, if_false]
        · have hs : is_stop u name len (entry_at b o) = false := by
            simp only [is_stop, hm1, Bool.or_false]
            simp only [Bool.not_eq_true] at h3
            simp [h3]
          simp only [h1, h2, h3, hs, Bool.false_eq_true, if_false]
          exact ih

theorem find_entry_in_sectors_loop_first (m : FAT16) (d : Disk) (u : Uninit) (name : List Nat)
    (len from_sector : Nat) (hv : (to_shortname name len u.fatname).1 = 0) : ∀ (k i : Nat),
    find_entry_in_sectors_loop m d u name len from_sector k i
      = ((scan_slots m from_sector k i).find?
          (fun p => is_stop u name len (entry_at (d p.1) p.2))).map
          (stop_result d u name len) := by
  intro k
  induction k with
  | zero => intro i; rfl
  | succ k ih =>
    intro i
    unfold find_entry_in_sectors_loop scan_slots
    simp only [sector_read, find_entry_in_buffer_first u name len _ _ hv, List.find?_append,
      List.find?_map, ih]
    cases h : (dir_offsets m).find? (fun o => is_stop u name len (entry_at (d (from_sector + i)) o))
      with
    | none =>
      have : List.find? ((fun p : Nat × Nat => is_stop u name len (entry_at (d p.1) p.2)) ∘
          fun off => (from_sector + i, off)) (dir_offsets m) = none := h
      simp only [this, Option.map_none', Option.none_or, Option.or]
    | some o =>
      have : List.find? ((fun p : Nat × Nat => is_stop u name len (entry_at (d p.1) p.2)) ∘
          fun off => (from_sector + i, off)) (dir_offsets m) = some o := h
      simp only [this, Option.map_some', Option.or]
      rfl

/-- The function `find_entry_in_sectors` on a valid name, by the first slot at which its
scan stops. -/
theorem find_entry_in_sectors_first (m : FAT16) (d : Disk) (u : Uninit) (name : List Nat)
    (len from_sector count : Nat) (slot : DirEntrySlot)
    (hv : (to_shortname name len u.fatname).1 = 0) :
    find_entry_in_sectors m d u name len from_sector count slot
      = ((first_stop m d u name len from_sector count).map (stop_result d u name len)).getD
          (FIND_FULL, slot) := by
  unfold find_entry_in_sectors first_stop
  rw [find_entry_in_sectors_loop_first m d u name len from_sector hv]
  cases (scan_slots m from_sector count 0).find?
      (fun p => is_stop u name len (entry_at (d p.1) p.2)) <;> rfl

theorem find?_congr_mem {α : Type} (p q : α → Bool) : ∀ (l : List α),
    (∀ x, x ∈ l → p x = q x) → l.find? p = l.find? q := by
  intro l
  induction l with
  | nil => intro _; rfl
  | cons a l ih =>
    intro h
    rw [List.find?_cons, List.find?_cons, h a (List.mem_cons_self _ _),
      ih (fun x hx => h x (List.mem_cons_of_mem _ hx))]

/-! ## The resolver depends on the first `len` bytes of the name only -/

theorem to_shortname_scan_congr (n1 n2 : List Nat) (len : Nat) : ∀ (k i bl : Nat) (he : Bool),
    (∀ j, i ≤ j → j < i + k → cstr n1 j = cstr n2 j) →
    to_shortname_scan n1 k i len bl he = to_shortname_scan n2 k i len bl he := by
  intro k
  induction k with
  | zero => intro i bl he _; rfl
  | succ k ih =>
    intro i bl he h
    unfold to_shortname_scan
    rw [h i (le_refl _) (by omega), ih (i + 1) i true (fun j h1 h2 => h j (by omega) (by omega)),
      ih (i + 1) bl he (fun j h1 h2 => h j (by omega) (by omega))]

theorem to_shortname_scan_le (name : List Nat) (len : Nat) : ∀ (k i bl : Nat) (he : Bool)
    (len1 bl1 : Nat) (he1 : Bool), i + k = len →
    to_shortname_scan name k i len bl he = some (len1, bl1, he1) → len1 ≤ len := by
  intro k
  induction k with
  | zero =>
    intro i bl he len1 bl1 he1 _ h
    simp only [to_shortname_scan, Option.some.injEq, Prod.mk.injEq] at h
    omega
  | succ k ih =>
    intro i bl he len1 bl1 he1 hik h
    unfold to_shortname_scan at h
    split_ifs at h with h1 h2 h3
    · simp only [Option.some.injEq, Prod.mk.injEq] at h
      omega
    · exact ih _ _ _ _ _ _ (by omega) h
    · exact ih _ _ _ _ _ _ (by omega) h

theorem upper_copy_congr (n1 n2 : List Nat) (soff : Nat) (res : Nat → Nat) (dst n : Nat)
    (h : ∀ t, t < n → cstr n1 (soff + t) = cstr n2 (soff + t)) :
    upper_copy n1 soff res dst n = upper_copy n2 soff res dst n := by
  funext j
  unfold upper_copy
  split_ifs with h1
  · rw [h _ (by omega)]
  · rfl

theorem to_shortname_congr (n1 n2 : List Nat) (len : Nat) (res : Nat → Nat)
    (h : ∀ j, j < len → cstr n1 j = cstr n2 j) :
    to_shortname n1 len res = to_shortname n2 len res := by
  have hscan := to_shortname_scan_congr n1 n2 len len 0 len false
    (fun j _ hj => h j (by omega))
  unfold to_shortname
  rw [← hscan]
  cases hs : to_shortname_scan n1 len 0 len len false with
  | none => rfl
  | some r =>
    obtain ⟨len1, bl, he⟩ := r
    obtain ⟨_, hbl, hext⟩ := to_shortname_scan_spec n1 len len 0 len false len1 bl he
      (by omega) (fun j hj => by omega) (le_refl _) (fun h => by cases h) hs
    have hle := to_shortname_scan_le n1 len len 0 len false len1 bl he (by omega) hs
    simp only []
    have e1 : upper_copy n1 0 (fun j => if j < FAT_NAME_LEN then 32 else res j) 0
        (min bl FAT_NAME_BASE_LEN)
        = upper_copy n2 0 (fun j => if j < FAT_NAME_LEN then 32 else res j) 0
          (min bl FAT_NAME_BASE_LEN) :=
      upper_copy_congr n1 n2 0 _ 0 _ (fun t ht => h _ (by
        have := Nat.min_le_left bl FAT_NAME_BASE_LEN
        omega))
    rw [e1]
    cases he with
    | false => rfl
    | true =>
      simp only [if_true]
      rw [upper_copy_congr n1 n2 (bl + 1) _ _ _ (fun t ht => h _ (by
        have h3 := hext rfl
        have h4 : t < len1 - bl - 1 := Nat.lt_of_lt_of_le ht (Nat.min_le_left _ _)
        omega))]

theorem check_name_name_congr (u : Uninit) (n1 n2 : List Nat) (len : Nat) (dir : DIR_ENTRY)
    (h : ∀ j, j < len → cstr n1 j = cstr n2 j) :
    check_name u n1 len dir = check_name u n2 len dir := by
  unfold check_name
  rw [to_shortname_congr n1 n2 len u.fatname h]

theorem find_entry_in_buffer_name_congr (u : Uninit) (n1 n2 : List Nat) (len : Nat)
    (b : Sector) (sec : Nat) (h : ∀ j, j < len → cstr n1 j = cstr n2 j) : ∀ (offs : List Nat),
    find_entry_in_buffer u n1 len b sec offs = find_entry_in_buffer u n2 len b sec offs := by
  intro offs
  induction offs with
  | nil => rfl
  | cons o os ih =>
    unfold find_entry_in_buffer
    dsimp only
    rw [ih, check_name_name_congr u n1 n2 len _ h]

theorem find_entry_in_sectors_loop_name_congr (m : FAT16) (d : Disk) (u : Uninit)
    (n1 n2 : List Nat) (len from_sector : Nat) (h : ∀ j, j < len → cstr n1 j = cstr n2 j) :
    ∀ (k i : Nat), find_entry_in_sectors_loop m d u n1 len from_sector k i
      = find_entry_in_sectors_loop m d u n2 len from_sector k i := by
  intro k
  induction k with
  | zero => intro i; rfl
  | succ k ih =>
    intro i
    unfold find_entry_in_sectors_loop
    dsimp only
    rw [find_entry_in_buffer_name_congr u n1 n2 len _ _ h, ih]

theorem find_entry_in_sectors_name_congr (m : FAT16) (d : Disk) (u : Uninit)
    (n1 n2 : List Nat) (len from_sector count : Nat) (slot : DirEntrySlot)
    (h : ∀ j, j < len → cstr n1 j = cstr n2 j) :
    find_entry_in_sectors m d u n1 len from_sector count slot
      = find_entry_in_sectors m d u n2 len from_sector count slot := by
  unfold find_entry_in_sectors
  rw [find_entry_in_sectors_loop_name_congr m d u n1 n2 len from_sector h]

theorem find_entry_chain_name_congr (m : FAT16) (d : Disk) (u : Uninit) (n1 n2 : List Nat)
    (len : Nat) (h : ∀ j, j < len → cstr n1 j = cstr n2 j) : ∀ (fuel clus : Nat) (state : Int)
      (slot : DirEntrySlot),
    find_entry_chain m d u n1 len fuel clus state slot
      = find_entry_chain m d u n2 len fuel clus state slot := by
  intro fuel
  induction fuel with
  | zero => intro clus state slot; rfl
  | succ fuel ih =>
    intro clus state slot
    rw [find_entry_chain_succ, find_entry_chain_succ,
      find_entry_in_sectors_loop_name_congr m d u n1 n2 len _ h, ih]

/-- More fuel does not change a result of the chain loop. -/
theorem find_entry_chain_more_fuel (m : FAT16) (d : Disk) (u : Uninit) (name : List Nat)
    (len F : Nat) : ∀ (fuel clus : Nat) (state : Int) (slot : DirEntrySlot)
      (r : Bool × Int × DirEntrySlot × Nat),
    find_entry_chain m d u name len fuel clus state slot = .ok r →
    find_entry_chain m d u name len (fuel + F) clus state slot = .ok r := by
  intro fuel
  induction fuel with
  | zero => intro clus state slot r h; simp [find_entry_chain] at h
  | succ fuel ih =>
    intro clus state slot r h
    have e : fuel + 1 + F = (fuel + F) + 1 := by omega
    rw [e, find_entry_chain_succ]
    rw [find_entry_chain_succ] at h
    by_cases hin : is_cluster_inuse clus = true
    · rw [if_pos hin] at h ⊢
      cases hl : find_entry_in_sectors_loop m d u name len (first_sector m clus)
          m.sec_per_clus 0 with
      | some r1 => rw [hl] at h; exact h
      | none => rw [hl] at h; exact ih _ _ _ _ h
    · rw [if_neg hin] at h ⊢
      exact h

/-! ## Paths that end in one more component -/

theorem strcspn_slash_append (P name : List Nat) :
    strcspn_slash (P ++ 47 :: name) = strcspn_slash P := by
  unfold strcspn_slash
  induction P with
  | nil => simp [List.takeWhile]
  | cons a P ih =>
    simp only [List.cons_append, List.takeWhile_cons]
    split_ifs
    · simp only [List.length_cons, ih]
    · rfl

theorem strcspn_slash_le (P : List Nat) : strcspn_slash P ≤ P.length := by
  unfold strcspn_slash
  exact (List.takeWhile_sublist _).length_le

theorem strcspn_slash_no_slash (name : List Nat) (h : 47 ∉ name) :
    strcspn_slash name = name.length := by
  unfold strcspn_slash
  rw [List.takeWhile_eq_self_iff.mpr]
  intro x hx
  simp only [bne_iff_ne, ne_eq]
  rintro rfl
  exact h hx

theorem skip_slashes_no_slash (name : List Nat) (h : 47 ∉ name) : skip_slashes name = name := by
  unfold skip_slashes
  cases name with
  | nil => rfl
  | cons a l =>
    rw [List.dropWhile_cons]
    have : a ≠ 47 := fun e => h (by rw [e]; exact List.mem_cons_self _ _)
    simp [this]

theorem skip_slashes_append (Q name : List Nat) (h : 47 ∉ name) :
    skip_slashes (Q ++ 47 :: name)
      = if skip_slashes Q = [] then name else skip_slashes Q ++ 47 :: name := by
  induction Q with
  | nil =>
    have := skip_slashes_no_slash name h
    unfold skip_slashes at this ⊢
    simp [List.dropWhile_cons, this]
  | cons a Q ih =>
    unfold skip_slashes at ih ⊢
    simp only [List.cons_append, List.dropWhile_cons]
    by_cases ha : (a == 47) = true
    · simp only [ha, if_true]
      exact ih
    · simp only [ha, Bool.false_eq_true, if_false]
      simp

theorem cstr_append_left (P Q : List Nat) (j : Nat) (h : j < P.length) :
    cstr (P ++ Q) j = cstr P j := by
  unfold cstr
  rw [List.getD_append _ _ _ _ h]

theorem drop_strcspn_append (P name : List Nat) :
    (P ++ 47 :: name).drop (strcspn_slash P) = P.drop (strcspn_slash P) ++ 47 :: name :=
  List.drop_append_of_le_length (strcspn_slash_le P)

/-- The chain loop over `K` clusters none of which holds a slot at which the scan stops:
it ends at the end of the chain with `FIND_FULL` (with the incoming state when the chain
is empty) and the slot untouched. -/
theorem find_entry_chain_full (m : FAT16) (d : Disk) (u : Uninit) (name : List Nat) (len : Nat)
    (hv : (to_shortname name len u.fatname).1 = 0) (K : Nat) :
    ∀ (fuel clus : Nat) (state : Int) (slot : DirEntrySlot), K < fuel →
    (∀ k, k < K → is_cluster_inuse (chain_nth m d clus k) = true
      ∧ first_stop m d u name len (first_sector m (chain_nth m d clus k)) m.sec_per_clus = none) →
    is_cluster_inuse (chain_nth m d clus K) = false →
    find_entry_chain m d u name len fuel clus state slot
      = .ok (false, if K = 0 then state else FIND_FULL, slot, chain_nth m d clus K) := by
  induction K with
  | zero =>
    intro fuel clus state slot hf _ hend
    obtain ⟨f, rfl⟩ : ∃ f, fuel = f + 1 := ⟨fuel - 1, by omega⟩
    rw [find_entry_chain_succ]
    have hend' : ¬ (is_cluster_inuse clus = true) := by
      simpa [chain_nth] using hend
    rw [if_neg hend']
    rfl
  | succ K ih =>
    intro fuel clus state slot hf hall hend
    obtain ⟨f, rfl⟩ : ∃ f, fuel = f + 1 := ⟨fuel - 1, by omega⟩
    rw [find_entry_chain_succ]
    have h0 := hall 0 (by omega)
    have h00 : is_cluster_inuse clus = true := h0.1
    have h01 : first_stop m d u name len (first_sector m clus) m.sec_per_clus = none := h0.2
    rw [if_pos h00, find_entry_in_sectors_loop_first m d u name len _ hv]
    unfold first_stop at h01
    rw [h01]
    simp only [Option.map_none']
    rw [ih f (read_fat_entry m d clus) FIND_FULL slot (by omega) (fun k hk => by
      rw [← chain_nth_shift]
      exact hall (k + 1) (by omega)) (by rw [← chain_nth_shift]; exact hend)]
    rw [← chain_nth_shift]
    simp

/-- The last level of a resolution in a sub-directory whose `K ≥ 1` clusters hold no slot at
which the scan for the single remaining component stops: the result is `FIND_FULL`. -/
theorem find_entry_loop_full_chain (m : FAT16) (d : Disk) (u : Uninit) (name : List Nat)
    (hne : name ≠ []) (hns : 47 ∉ name) (hv : (to_shortname name name.length u.fatname).1 = 0)
    (K f lvl c0 : Nat) (ps : DirEntrySlot) (hl : lvl ≠ 0) (hK : 1 ≤ K) (hf : K + 2 ≤ f)
    (hall : ∀ k, k < K → is_cluster_inuse (chain_nth m d c0 k) = true
      ∧ first_stop m d u name name.length (first_sector m (chain_nth m d c0 k)) m.sec_per_clus
          = none)
    (hend : is_cluster_inuse (chain_nth m d c0 K) = false) :
    find_entry_loop m d u f name lvl c0 FIND_EXIST ps = .ok (FIND_FULL, ps, name) := by
  obtain ⟨f1, rfl⟩ : ∃ f1, f = f1 + 1 + 1 := ⟨f - 2, by omega⟩
  rw [find_entry_loop_succ, if_pos ⟨hne, rfl⟩, if_neg hl, strcspn_slash_no_slash name hns,
    find_entry_chain_full m d u name name.length hv K (f1 + 1) c0 FIND_EXIST ps (by omega) hall hend]
  simp only [Bool.false_eq_true, if_false]
  rw [if_neg (by omega)]
  unfold find_entry_finish
  simp only [strcspn_slash_no_slash name hns, List.drop_length]
  have hnil : skip_slashes ([] : List Nat) = [] := rfl
  rw [hnil]
  simp only [FIND_FULL, FIND_EXIST]
  norm_num
  exact find_entry_loop_stop m d u f1 name lvl _ 2 ps (Or.inr (by decide))

/-- Resolving a path that continues, after the components `P` of an existing directory,
with one more component: the resolution goes through the levels of `P` as the resolution
of `P` alone does and enters the last level with the directory's slot and first cluster. -/
theorem find_entry_loop_through_parent (m : FAT16) (d : Disk) (u : Uninit) (name : List Nat)
    (hns : 47 ∉ name) :
    ∀ (fuel : Nat) (P : List Nat) (lvl clus : Nat) (slot ps : DirEntrySlot) (rem : List Nat),
    P ≠ [] →
    find_entry_loop m d u fuel P lvl clus FIND_EXIST slot = .ok (FIND_EXIST, ps, rem) →
    is_directory (DIR_Attr ps.dir) = true →
    ∃ f' lvl', 0 < f' ∧ lvl' ≠ 0 ∧ ∀ F,
      find_entry_loop m d u (fuel + F) (P ++ 47 :: name) lvl clus FIND_EXIST slot
        = find_entry_loop m d u (f' + F) name lvl' (DIR_FstClusLO ps.dir) FIND_EXIST ps := by
  intro fuel
  induction fuel with
  | zero => intro P lvl clus slot ps rem _ h; simp [find_entry_loop] at h
  | succ fuel ih =>
    intro P lvl clus slot ps rem hP h hdir
    have hlen : strcspn_slash (P ++ 47 :: name) = strcspn_slash P := strcspn_slash_append P name
    have hcstr : ∀ j, j < strcspn_slash P → cstr (P ++ 47 :: name) j = cstr P j :=
      fun j hj => cstr_append_left P _ j (Nat.lt_of_lt_of_le hj (strcspn_slash_le P))
    have hP' : P ++ 47 :: name ≠ [] := by simp
    have hnext : skip_slashes ((P ++ 47 :: name).drop (strcspn_slash (P ++ 47 :: name)))
        = if skip_slashes (P.drop (strcspn_slash P)) = [] then name
          else skip_slashes (P.drop (strcspn_slash P)) ++ 47 :: name := by
      rw [hlen, drop_strcspn_append, skip_slashes_append _ _ hns]
    have hfin : ∀ (c : Nat) (st : Int) (s : DirEntrySlot),
        find_entry_finish m d u fuel P lvl c st s = .ok (FIND_EXIST, ps, rem) →
        ∃ f' lvl', 0 < f' ∧ lvl' ≠ 0 ∧ ∀ F,
          find_entry_finish m d u (fuel + F) (P ++ 47 :: name) lvl c st s
            = find_entry_loop m d u (f' + F) name lvl' (DIR_FstClusLO ps.dir) FIND_EXIST ps := by
      intro c st s hf
      unfold find_entry_finish at hf
      dsimp only at hf
      by_cases hst : st = FIND_EXIST
      · subst hst
        rw [if_pos rfl] at hf
        by_cases hnl : skip_slashes (P.drop (strcspn_slash P)) = []
        · rw [if_neg (fun hh => hh.1 hnl), hnl] at hf
          obtain ⟨he, hfuel⟩ := find_entry_loop_stop_inv m d u fuel [] _ _ _ _ (Or.inl rfl) _ hf
          simp only [Prod.mk.injEq] at he
          obtain ⟨_, hps, _⟩ := he
          subst hps
          refine ⟨fuel, lvl + 1, hfuel, by omega, fun F => ?_⟩
          unfold find_entry_finish
          dsimp only
          rw [if_pos rfl, hnext, if_pos hnl, if_neg (fun hh => by
            rw [hdir] at hh; exact absurd hh.2 (by decide))]
        · by_cases hd : is_directory (DIR_Attr s.dir) = false
          · rw [if_pos ⟨hnl, hd⟩] at hf
            simp [FIND_EXIST, ENOTDIR] at hf
          · rw [if_neg (fun hh => hd hh.2)] at hf
            obtain ⟨f', lvl', h1, h2, h3⟩ := ih _ _ _ _ _ _ hnl hf hdir
            refine ⟨f', lvl', h1, h2, fun F => ?_⟩
            unfold find_entry_finish
            dsimp only
            rw [if_pos rfl, hnext, if_neg hnl, if_neg (fun hh => hd hh.2)]
            exact h3 F
      · rw [if_neg hst] at hf
        by_cases hnl : skip_slashes (P.drop (strcspn_slash P)) ≠ []
        · rw [if_pos hnl] at hf
          simp [FIND_EXIST, ENOENT] at hf
        · rw [if_neg hnl] at hf
          obtain ⟨he, _⟩ := find_entry_loop_stop_inv m d u fuel P _ _ _ _ (Or.inr hst) _ hf
          simp only [Prod.mk.injEq] at he
          exact absurd he.1.symm hst
    rw [find_entry_loop_succ, if_pos ⟨hP, rfl⟩] at h
    by_cases hl : lvl = 0
    · rw [if_pos hl] at h
      by_cases hr : (find_entry_in_sectors m d u P (strcspn_slash P) m.root_sec
          m.root_sectors slot).1 = FIND_EXIST
      · rw [if_neg (fun hh => hh hr)] at h
        obtain ⟨f', lvl', h1, h2, h3⟩ := hfin _ _ _ h
        refine ⟨f', lvl', h1, h2, fun F => ?_⟩
        have e : fuel + 1 + F = (fuel + F) + 1 := by omega
        rw [e, find_entry_loop_succ, if_pos ⟨hP', rfl⟩, if_pos hl, hlen,
          find_entry_in_sectors_name_congr m d u (P ++ 47 :: name) P _ _ _ _ hcstr,
          if_neg (fun hh => hh hr)]
        exact h3 F
      · rw [if_pos hr] at h
        simp only [Except.ok.injEq, Prod.mk.injEq] at h
        exact absurd h.1 hr
    · rw [if_neg hl] at h
      cases hch : find_entry_chain m d u P (strcspn_slash P) fuel clus FIND_EXIST slot with
      | error e => rw [hch] at h; simp at h
      | ok r =>
        obtain ⟨ret, st, s, c⟩ := r
        rw [hch] at h
        have hret := (find_entry_chain_cases m d u P _ fuel _ _ _ _ _ _ _ hch).1
        subst hret
        simp only [Bool.false_eq_true, if_false] at h
        obtain ⟨f', lvl', h1, h2, h3⟩ := hfin _ _ _ h
        refine ⟨f', lvl', h1, h2, fun F => ?_⟩
        have e : fuel + 1 + F = (fuel + F) + 1 := by omega
        rw [e, find_entry_loop_succ, if_pos ⟨hP', rfl⟩, if_neg hl, hlen,
          find_entry_chain_name_congr m d u (P ++ 47 :: name) P _ hcstr,
          find_entry_chain_more_fuel m d u P _ F fuel _ _ _ _ hch]
        simp only [Bool.false_eq_true, if_false]
        exact h3 F

/-! ## Path resolution after an entry has been rewritten under its name -/

theorem find_entry_in_buffer_rw (u : Uninit) (name : List Nat) (len : Nat) (b b' : Sector)
    (sec : Nat) (offs : List Nat)
    (h : ∀ off, off ∈ offs → (∀ i, i < 11 → entry_at b' off i = entry_at b off i)
      ∧ is_lfn (DIR_Attr (entry_at b' off)) = is_lfn (DIR_Attr (entry_at b off))) :
    find_entry_in_buffer u name len b' sec offs
      = (find_entry_in_buffer u name len b sec offs).map
          (fun r => (r.1, DirEntrySlot.mk (entry_at b' r.2.offset) sec r.2.offset)) := by
  induction offs with
  | nil => rfl
  | cons o os ih =>
    have ih' := ih (fun off ho => h off (List.mem_cons_of_mem _ ho))
    have ho := h o (List.mem_cons_self _ _)
    unfold find_entry_in_buffer
    dsimp only
    have hn0 : DIR_Name (entry_at b' o) 0 = DIR_Name (entry_at b o) 0 := ho.1 0 (by omega)
    have hck : check_name u name len (entry_at b' o) = check_name u name len (entry_at b o) :=
      check_name_congr u name len _ _ ho.1
    simp only [ho.2, is_deleted, is_free, hn0, hck]
    split_ifs <;> first | exact ih' | rfl

theorem Rewritten_scan (m : FAT16) (d d' : Disk) (S O : Nat) (hr : Rewritten m d d' S O)
    (sec off : Nat) (hoff : off ∈ dir_offsets m) :
    (∀ i, i < 11 → entry_at (d' sec) off i = entry_at (d sec) off i)
    ∧ is_lfn (DIR_Attr (entry_at (d' sec) off)) = is_lfn (DIR_Attr (entry_at (d sec) off)) := by
  by_cases hs : sec = S
  · subst hs
    by_cases ho : off = O
    · subst ho
      exact ⟨hr.name, by rw [hr.old_lfn, hr.new_lfn]⟩
    · rw [hr.apart off hoff ho]
      exact ⟨fun _ _ => rfl, rfl⟩
  · rw [hr.other sec hs]
    exact ⟨fun _ _ => rfl, rfl⟩

theorem reread_other (m : FAT16) (d d' : Disk) (S O : Nat) (hr : Rewritten m d d' S O)
    (s : DirEntrySlot) (hdir : s.dir = entry_at (d s.sector) s.offset)
    (hoff : s.offset ∈ dir_offsets m) (hne : ¬ (s.sector = S ∧ s.offset = O)) :
    reread d' s = s := by
  obtain ⟨dir, sec, off⟩ := s
  simp only at hdir hoff hne
  unfold reread
  simp only [DirEntrySlot.mk.injEq, and_true]
  rw [hdir]
  by_cases hs : sec = S
  · subst hs
    exact hr.apart off hoff (fun ho => hne ⟨rfl, ho⟩)
  · rw [hr.other sec hs]

theorem find_entry_in_sectors_loop_rw (m : FAT16) (d d' : Disk) (u : Uninit) (name : List Nat)
    (len from_sector S O : Nat) (hr : Rewritten m d d' S O) : ∀ (k i : Nat),
    find_entry_in_sectors_loop m d' u name len from_sector k i
      = (find_entry_in_sectors_loop m d u name len from_sector k i).map
          (fun r => (r.1, reread d' r.2)) := by
  intro k
  induction k with
  | zero => intro i; rfl
  | succ k ih =>
    intro i
    unfold find_entry_in_sectors_loop
    simp only [sector_read]
    rw [find_entry_in_buffer_rw u name len (d (from_sector + i)) (d' (from_sector + i)) _ _
      (fun off ho => Rewritten_scan m d d' S O hr _ off ho), ih]
    cases hb : find_entry_in_buffer u name len (d (from_sector + i)) (from_sector + i)
        (dir_offsets m) with
    | none => rfl
    | some r =>
      obtain ⟨st, sl⟩ := r
      have hsec := (find_entry_in_buffer_some _ _ _ _ _ _ _ _ hb).2.1
      simp only [Option.map_some', reread, hsec]

/-- A found entry is not a long-name entry. -/
theorem find_entry_in_buffer_nonlfn (u : Uninit) (name : List Nat) (len : Nat) (b : Sector)
    (sec : Nat) (offs : List Nat) (st : Int) (sl : DirEntrySlot)
    (h : find_entry_in_buffer u name len b sec offs = some (st, sl)) :
    is_lfn (DIR_Attr sl.dir) = false := by
  induction offs with
  | nil => simp [find_entry_in_buffer] at h
  | cons o os ih =>
    unfold find_entry_in_buffer at h
    simp only [] at h
    split_ifs at h with h1 h2 h3
    · exact ih h
    · simp only [Option.some.injEq, Prod.mk.injEq] at h
      obtain ⟨_, rfl⟩ := h
      simpa using h1
    · simp only [Option.some.injEq, Prod.mk.injEq] at h
      obtain ⟨_, rfl⟩ := h
      simpa using h1
    · exact ih h

theorem find_entry_in_sectors_loop_nonlfn (m : FAT16) (d : Disk) (u : Uninit) (name : List Nat)
    (len from_sector : Nat) (k : Nat) : ∀ (i : Nat) (st : Int) (sl : DirEntrySlot),
    find_entry_in_sectors_loop m d u name len from_sector k i = some (st, sl) →
    is_lfn (DIR_Attr sl.dir) = false := by
  induction k with
  | zero => intro i st sl h; simp [find_entry_in_sectors_loop] at h
  | succ k ih =>
    intro i st sl h
    unfold find_entry_in_sectors_loop at h
    simp only [sector_read] at h
    cases hb : find_entry_in_buffer u name len (d (from_sector + i)) (from_sector + i)
        (dir_offsets m) with
    | some r =>
      rw [hb] at h
      simp only [Option.some.injEq] at h
      subst h
      exact find_entry_in_buffer_nonlfn _ _ _ _ _ _ _ _ hb
    | none =>
      rw [hb] at h
      exact ih (i + 1) st sl h

/-- What the chain loop returns: the incoming slot untouched, or an entry found by the scan
of a cluster, which is a copy of the bytes on the disk and not a long-name entry. -/
theorem find_entry_chain_found (m : FAT16) (d : Disk) (u : Uninit) (name : List Nat) (len : Nat)
    (fuel : Nat) : ∀ (clus : Nat) (state : Int) (slot : DirEntrySlot) (ret : Bool) (st : Int)
      (s : DirEntrySlot) (c : Nat),
    find_entry_chain m d u name len fuel clus state slot = .ok (ret, st, s, c) →
    ret = false ∧ (s = slot
      ∨ (s.dir = entry_at (d s.sector) s.offset ∧ s.offset ∈ dir_offsets m
          ∧ is_lfn (DIR_Attr s.dir) = false)) := by
  induction fuel with
  | zero => intro clus state slot ret st s c h; simp [find_entry_chain] at h
  | succ fuel ih =>
    intro clus state slot ret st s c h
    rw [find_entry_chain_succ] at h
    by_cases hin : is_cluster_inuse clus = true
    · rw [if_pos hin] at h
      cases hl : find_entry_in_sectors_loop m d u name len (first_sector m clus)
          m.sec_per_clus 0 with
      | some r =>
        rw [hl] at h
        obtain ⟨st1, sl⟩ := r
        simp only [Except.ok.injEq, Prod.mk.injEq] at h
        obtain ⟨rfl, _, rfl, _⟩ := h
        have h1 := find_entry_in_sectors_loop_some m d u name len _ _ 0 st1 sl hl
        exact ⟨rfl, Or.inr ⟨h1.2.2.2.2, h1.2.2.2.1,
          find_entry_in_sectors_loop_nonlfn m d u name len _ _ 0 st1 sl hl⟩⟩
      | none =>
        rw [hl] at h
        exact ih _ _ _ _ _ _ _ h
    · rw [if_neg hin] at h
      simp only [Except.ok.injEq, Prod.mk.injEq] at h
      obtain ⟨rfl, _, rfl, _⟩ := h
      exact ⟨rfl, Or.inl rfl⟩

/-- The chain loop on the rewritten disk: the same result, with an entry found by the scan
read from the new disk. -/
theorem find_entry_chain_rw (m : FAT16) (hg : Geom m) (d d' : Disk) (u : Uninit)
    (name : List Nat) (len S O : Nat) (hr : Rewritten m d d' S O) (hS : m.root_sec ≤ S)
    (fuel : Nat) : ∀ (clus : Nat) (state : Int) (slot : DirEntrySlot) (ret : Bool) (st : Int)
      (s : DirEntrySlot) (c : Nat),
    find_entry_chain m d u name len fuel clus state slot = .ok (ret, st, s, c) →
    (∀ x, x ∈ find_entry_chain_visits m d u name len fuel clus slot → FatIn m x) →
    (s = slot ∧ find_entry_chain m d' u name len fuel clus state slot = .ok (ret, st, s, c))
    ∨ (s.dir = entry_at (d s.sector) s.offset ∧ s.offset ∈ dir_offsets m
        ∧ find_entry_chain m d' u name len fuel clus state slot = .ok (ret, st, reread d' s, c))
    := by
  induction fuel with
  | zero => intro clus state slot ret st s c h; simp [find_entry_chain] at h
  | succ fuel ih =>
    intro clus state slot ret st s c h hv
    rw [find_entry_chain_succ] at h ⊢
    rw [find_entry_chain_visits_succ] at hv
    by_cases hin : is_cluster_inuse clus = true
    · rw [if_pos hin] at h hv ⊢
      rw [find_entry_in_sectors_loop_rw m d d' u name len _ S O hr]
      cases hl : find_entry_in_sectors_loop m d u name len (first_sector m clus)
          m.sec_per_clus 0 with
      | some r =>
        rw [hl] at h
        obtain ⟨st1, sl⟩ := r
        simp only [Except.ok.injEq, Prod.mk.injEq] at h
        obtain ⟨rfl, rfl, rfl, rfl⟩ := h
        have h1 := find_entry_in_sectors_loop_some m d u name len _ _ 0 st1 sl hl
        exact Or.inr ⟨h1.2.2.2.2, h1.2.2.2.1, rfl⟩
      | none =>
        rw [hl] at h hv
        simp only [Option.map_none']
        have hfat : FatIn m clus := hv clus (List.mem_cons_self _ _)
        have hread : read_fat_entry m d' clus = read_fat_entry m d clus :=
          read_fat_entry_congr_root m hg d d' clus hfat (fun s hs => hr.other s (by omega))
        rw [hread]
        exact ih _ _ _ _ _ _ _ h (fun x hx => hv x (List.mem_cons_of_mem _ hx))
    · rw [if_neg hin] at h ⊢
      simp only [Except.ok.injEq, Prod.mk.injEq] at h
      obtain ⟨rfl, rfl, rfl, rfl⟩ := h
      exact Or.inl ⟨rfl, rfl⟩

theorem find_entry_finish_exist (m : FAT16) (d : Disk) (u : Uninit) (fuel : Nat)
    (remains : List Nat) (lv c : Nat) (st : Int) (s1 s : DirEntrySlot) (rem : List Nat)
    (hf : find_entry_finish m d u fuel remains lv c st s1 = .ok (FIND_EXIST, s, rem)) :
    st = FIND_EXIST := by
  by_contra hst
  unfold find_entry_finish at hf
  dsimp only at hf
  rw [if_neg hst] at hf
  by_cases hnl : skip_slashes (remains.drop (strcspn_slash remains)) ≠ []
  · rw [if_pos hnl] at hf
    simp [FIND_EXIST, ENOENT] at hf
  · rw [if_neg hnl] at hf
    obtain ⟨he, _⟩ := find_entry_loop_stop_inv m d u fuel remains _ _ _ _ (Or.inr hst) _ hf
    simp only [Prod.mk.injEq] at he
    exact hst he.1.symm

/-- The entry that a successful resolution returns is not a long-name entry. -/
theorem find_entry_loop_nonlfn (m : FAT16) (d : Disk) (u : Uninit) (fuel : Nat) :
    ∀ (remains : List Nat) (level clus : Nat) (slot s : DirEntrySlot) (rem : List Nat),
    find_entry_loop m d u fuel remains level clus FIND_EXIST slot = .ok (FIND_EXIST, s, rem) →
    remains ≠ [] → (level ≠ 0 → is_lfn (DIR_Attr slot.dir) = false) →
    is_lfn (DIR_Attr s.dir) = false := by
  induction fuel with
  | zero => intro remains level clus slot s rem h; simp [find_entry_loop] at h
  | succ fuel ih =>
    intro remains level clus slot s rem h hrem hinv
    have hfin : ∀ (lv c : Nat) (s1 : DirEntrySlot), is_lfn (DIR_Attr s1.dir) = false →
        find_entry_finish m d u fuel remains lv c FIND_EXIST s1 = .ok (FIND_EXIST, s, rem) →
        is_lfn (DIR_Attr s.dir) = false := by
      intro lv c s1 hs1 hf
      unfold find_entry_finish at hf
      dsimp only at hf
      rw [if_pos rfl] at hf
      by_cases hnl : skip_slashes (remains.drop (strcspn_slash remains)) = []
      · rw [if_neg (fun hh => hh.1 hnl), hnl] at hf
        obtain ⟨he, _⟩ := find_entry_loop_stop_inv m d u fuel [] _ _ _ _ (Or.inl rfl) _ hf
        simp only [Prod.mk.injEq] at he
        rw [he.2.1]
        exact hs1
      · by_cases hd : is_directory (DIR_Attr s1.dir) = false
        · rw [if_pos ⟨hnl, hd⟩] at hf
          simp [FIND_EXIST, ENOTDIR] at hf
        · rw [if_neg (fun hh => hd hh.2)] at hf
          exact ih _ _ _ _ _ _ hf hnl (fun _ => hs1)
    rw [find_entry_loop_succ, if_pos ⟨hrem, rfl⟩] at h
    by_cases hl : level = 0
    · rw [if_pos hl] at h
      by_cases hr : (find_entry_in_sectors m d u remains (strcspn_slash remains) m.root_sec
          m.root_sectors slot).1 = FIND_EXIST
      · rw [if_neg (fun hh => hh hr), hr] at h
        refine hfin _ _ _ ?_ h
        unfold find_entry_in_sectors at hr ⊢
        cases hsl : find_entry_in_sectors_loop m d u remains (strcspn_slash remains) m.root_sec
            m.root_sectors 0 with
        | none => rw [hsl] at hr; simp [FIND_FULL, FIND_EXIST] at hr
        | some r =>
          exact find_entry_in_sectors_loop_nonlfn m d u _ _ _ _ 0 r.1 r.2 hsl
      · rw [if_pos hr] at h
        simp only [Except.ok.injEq, Prod.mk.injEq] at h
        exact absurd h.1 hr
    · rw [if_neg hl] at h
      cases hch : find_entry_chain m d u remains (strcspn_slash remains) fuel clus FIND_EXIST
          slot with
      | error e => rw [hch] at h; simp at h
      | ok r =>
        obtain ⟨ret, st, s1, c⟩ := r
        rw [hch] at h
        obtain ⟨hret, hs1⟩ := find_entry_chain_found m d u remains _ fuel _ _ _ _ _ _ _ hch
        subst hret
        simp only [Bool.false_eq_true, if_false] at h
        have hst := find_entry_finish_exist m d u fuel remains _ _ _ _ _ _ h
        subst hst
        refine hfin _ _ _ ?_ h
        rcases hs1 with hs1 | hs1
        · rw [hs1]; exact hinv hl
        · exact hs1.2.2

/-- A successful resolution of a path that is not the root does not depend on the initial
contents of the slot. -/
theorem find_entry_loop_init_slot (m : FAT16) (d : Disk) (u : Uninit) (fuel : Nat)
    (remains : List Nat) (clus : Nat) (slot0 slot1 s : DirEntrySlot) (rem : List Nat)
    (h : find_entry_loop m d u fuel remains 0 clus FIND_EXIST slot0 = .ok (FIND_EXIST, s, rem))
    (hrem : remains ≠ []) :
    find_entry_loop m d u fuel remains 0 clus FIND_EXIST slot1 = .ok (FIND_EXIST, s, rem) := by
  cases fuel with
  | zero => simp [find_entry_loop] at h
  | succ fuel =>
    rw [find_entry_loop_succ, if_pos ⟨hrem, rfl⟩, if_pos rfl] at h ⊢
    have hsame : find_entry_in_sectors m d u remains (strcspn_slash remains) m.root_sec
        m.root_sectors slot1 = find_entry_in_sectors m d u remains (strcspn_slash remains)
        m.root_sec m.root_sectors slot0 := by
      unfold find_entry_in_sectors at h ⊢
      cases hsl : find_entry_in_sectors_loop m d u remains (strcspn_slash remains) m.root_sec
          m.root_sectors 0 with
      | none =>
        rw [hsl] at h
        simp [FIND_FULL, FIND_EXIST] at h
      | some r => rfl
    rw [hsame]
    exact h

/-- Path resolution on a disk on which one entry has been rewritten under its name: a
resolution that does not pass through that entry on its way succeeds as before and returns
the same location, with the new bytes when the location is that of the rewritten entry. -/
theorem find_entry_loop_rw (m : FAT16) (hg : Geom m) (d d' : Disk) (u : Uninit) (S O : Nat)
    (hr : Rewritten m d d' S O) (hS : m.root_sec ≤ S) (fuel : Nat) :
    ∀ (remains : List Nat) (level clus : Nat) (slot s : DirEntrySlot) (rem : List Nat),
    find_entry_loop m d u fuel remains level clus FIND_EXIST slot = .ok (FIND_EXIST, s, rem) →
    remains ≠ [] →
    (level ≠ 0 → ¬ (slot.sector = S ∧ slot.offset = O)) →
    (S, O) ∉ find_entry_trail m d u fuel remains level clus FIND_EXIST slot →
    (∀ x, x ∈ find_entry_visits m d u fuel remains level clus FIND_EXIST slot → FatIn m x) →
    ∃ s', find_entry_loop m d' u fuel remains level clus FIND_EXIST slot
        = .ok (FIND_EXIST, s', rem)
      ∧ s'.sector = s.sector ∧ s'.offset = s.offset
      ∧ (s.sector = S → s.offset = O → s'.dir = entry_at (d' S) O) := by
  induction fuel with
  | zero => intro remains level clus slot s rem h; simp [find_entry_loop] at h
  | succ fuel ih =>
    intro remains level clus slot s rem h hrem hinv htr hvis
    have hfin : ∀ (lv c c' : Nat) (s1 s1' : DirEntrySlot),
        s1'.sector = s1.sector → s1'.offset = s1.offset →
        (¬ (s1.sector = S ∧ s1.offset = O) → s1' = s1) →
        (s1.sector = S → s1.offset = O → s1'.dir = entry_at (d' S) O) →
        find_entry_finish m d u fuel remains lv c FIND_EXIST s1 = .ok (FIND_EXIST, s, rem) →
        (skip_slashes (remains.drop (strcspn_slash remains)) ≠ [] →
          ¬ (s1.sector = S ∧ s1.offset = O)
          ∧ (S, O) ∉ find_entry_trail m d u fuel
              (skip_slashes (remains.drop (strcspn_slash remains))) (lv + 1)
              (DIR_FstClusLO s1.dir) FIND_EXIST s1) →
        (∀ x, x ∈ find_entry_finish_visits m d u fuel remains lv c FIND_EXIST s1 → FatIn m x) →
        ∃ s', find_entry_finish m d' u fuel remains lv c' FIND_EXIST s1'
            = .ok (FIND_EXIST, s', rem)
          ∧ s'.sector = s.sector ∧ s'.offset = s.offset
          ∧ (s.sector = S → s.offset = O → s'.dir = entry_at (d' S) O) := by
      intro lv c c' s1 s1' hsec hoff hsame hnew hf htr1 hvis1
      unfold find_entry_finish at hf ⊢
      unfold find_entry_finish_visits at hvis1
      dsimp only at hf hvis1 ⊢
      rw [if_pos rfl] at hf hvis1
      rw [if_pos rfl]
      by_cases hnl : skip_slashes (remains.drop (strcspn_slash remains)) = []
      · rw [if_neg (fun hh => hh.1 hnl), hnl] at hf
        obtain ⟨he, hfuel⟩ := find_entry_loop_stop_inv m d u fuel [] _ _ _ _ (Or.inl rfl) _ hf
        simp only [Prod.mk.injEq] at he
        obtain ⟨_, hs, hrem'⟩ := he
        subst hs hrem'
        obtain ⟨f, rfl⟩ : ∃ f, fuel = f + 1 := ⟨fuel - 1, by omega⟩
        rw [if_neg (fun hh => hh.1 hnl), hnl, find_entry_loop_stop m d' u f [] _ _ _ _ (Or.inl rfl)]
        exact ⟨s1', rfl, hsec, hoff, hnew⟩
      · by_cases hd : is_directory (DIR_Attr s1.dir) = false
        · rw [if_pos ⟨hnl, hd⟩] at hf
          simp [FIND_EXIST, ENOTDIR] at hf
        · rw [if_neg (fun hh => hd hh.2)] at hf hvis1
          obtain ⟨hnot, htr2⟩ := htr1 hnl
          have hs1 := hsame hnot
          subst hs1
          rw [if_neg (fun hh => hd hh.2)]
          exact ih _ _ _ _ _ _ hf hnl (fun _ => hnot) htr2 hvis1
    have hrel : ∀ s1 : DirEntrySlot, s1.dir = entry_at (d s1.sector) s1.offset →
        s1.offset ∈ dir_offsets m →
        (¬ (s1.sector = S ∧ s1.offset = O) → reread d' s1 = s1)
        ∧ (s1.sector = S → s1.offset = O → (reread d' s1).dir = entry_at (d' S) O) := by
      intro s1 h1 h2
      refine ⟨fun hne => reread_other m d d' S O hr s1 h1 h2 hne, fun e1 e2 => ?_⟩
      unfold reread
      simp only [e1, e2]
    rw [find_entry_loop_succ, if_pos ⟨hrem, rfl⟩] at h ⊢
    rw [find_entry_visits_succ, if_pos ⟨hrem, rfl⟩] at hvis
    unfold find_entry_trail at htr
    rw [if_pos ⟨hrem, rfl⟩] at htr
    dsimp only at htr
    by_cases hl : level = 0
    · rw [if_pos hl] at h hvis htr ⊢
      have hscan : find_entry_in_sectors m d' u remains (strcspn_slash remains) m.root_sec
          m.root_sectors slot
          = match find_entry_in_sectors_loop m d u remains (strcspn_slash remains) m.root_sec
              m.root_sectors 0 with
            | some r => (r.1, reread d' r.2)
            | none => (FIND_FULL, slot) := by
        unfold find_entry_in_sectors
        rw [find_entry_in_sectors_loop_rw m d d' u _ _ _ S O hr]
        cases find_entry_in_sectors_loop m d u remains (strcspn_slash remains) m.root_sec
          m.root_sectors 0 <;> rfl
      have hscan0 : find_entry_in_sectors m d u remains (strcspn_slash remains) m.root_sec
          m.root_sectors slot
          = match find_entry_in_sectors_loop m d u remains (strcspn_slash remains) m.root_sec
              m.root_sectors 0 with
            | some r => r
            | none => (FIND_FULL, slot) := rfl
      rw [hscan]
      rw [hscan0] at h hvis htr
      cases hsl : find_entry_in_sectors_loop m d u remains (strcspn_slash remains) m.root_sec
          m.root_sectors 0 with
      | none =>
        rw [hsl] at h
        simp [FIND_FULL, FIND_EXIST] at h
      | some r =>
        obtain ⟨st, s1⟩ := r
        rw [hsl] at h hvis htr
        dsimp only at h hvis htr ⊢
        by_cases hst : st = FIND_EXIST
        · subst hst
          rw [if_neg (fun hh => hh rfl)] at h
          rw [if_neg (fun hh => hh rfl)]
          rw [if_pos rfl] at hvis
          have h1 := find_entry_in_sectors_loop_some m d u _ _ _ _ 0 _ s1 hsl
          obtain ⟨ha, hb⟩ := hrel s1 h1.2.2.2.2 h1.2.2.2.1
          refine hfin _ _ _ s1 (reread d' s1) rfl rfl ha hb h (fun hnl => ?_) hvis
          rw [if_pos ⟨rfl, hnl⟩] at htr
          simp only [List.mem_cons, not_or, Prod.mk.injEq] at htr
          exact ⟨fun hh => htr.1 ⟨hh.1.symm, hh.2.symm⟩, htr.2⟩
        · rw [if_pos hst] at h
          simp only [Except.ok.injEq, Prod.mk.injEq] at h
          exact absurd h.1 hst
    · rw [if_neg hl] at h hvis htr ⊢
      cases hch : find_entry_chain m d u remains (strcspn_slash remains) fuel clus FIND_EXIST
          slot with
      | error e => rw [hch] at h; simp at h
      | ok r =>
        obtain ⟨ret, st, s1, c⟩ := r
        rw [hch] at h hvis htr
        obtain ⟨hret, _⟩ := find_entry_chain_found m d u remains _ fuel _ _ _ _ _ _ _ hch
        subst hret
        simp only [Bool.false_eq_true, if_false] at h hvis
        dsimp only at htr
        have hst := find_entry_finish_exist m d u fuel remains _ _ _ _ _ _ h
        subst hst
        have htr1 : skip_slashes (remains.drop (strcspn_slash remains)) ≠ [] →
            ¬ (s1.sector = S ∧ s1.offset = O)
            ∧ (S, O) ∉ find_entry_trail m d u fuel
                (skip_slashes (remains.drop (strcspn_slash remains))) (level + 1)
                (DIR_FstClusLO s1.dir) FIND_EXIST s1 := by
          intro hnl
          rw [if_pos ⟨rfl, hnl⟩] at htr
          simp only [List.mem_cons, not_or, Prod.mk.injEq] at htr
          exact ⟨fun hh => htr.1 ⟨hh.1.symm, hh.2.symm⟩, htr.2⟩
        have hvis1 : ∀ x, x ∈ find_entry_finish_visits m d u fuel remains level c FIND_EXIST s1 →
            FatIn m x := fun x hx => hvis x (List.mem_append_right _ hx)
        rcases find_entry_chain_rw m hg d d' u remains _ S O hr hS fuel _ _ _ _ _ _ _ hch
            (fun x hx => hvis x (List.mem_append_left _ hx)) with ⟨hs1, hch'⟩ | ⟨hd1, ho1, hch'⟩
        · rw [hch']
          simp only [Bool.false_eq_true, if_false]
          refine hfin _ _ _ s1 s1 rfl rfl (fun _ => rfl) (fun e1 e2 => ?_) h htr1 hvis1
          rw [hs1] at e1 e2
          exact absurd ⟨e1, e2⟩ (hinv hl)
        · rw [hch']
          simp only [Bool.false_eq_true, if_false]
          obtain ⟨ha, hb⟩ := hrel s1 hd1 ho1
          exact hfin _ _ _ s1 (reread d' s1) rfl rfl ha hb h htr1 hvis1

theorem Rewritten_of_write (m : FAT16) (d : Disk) (s : DirEntrySlot) (e : DIR_ENTRY)
    (hdir : s.dir = entry_at (d s.sector) s.offset) (hoff : s.offset ∈ dir_offsets m)
    (hold : is_lfn (DIR_Attr s.dir) = false) (hname : ∀ i, i < 11 → e i = s.dir i)
    (hlfn : is_lfn (DIR_Attr e) = false) :
    Rewritten m d (dir_entry_write d (DirEntrySlot.mk e s.sector s.offset)) s.sector s.offset := by
  have hO := dir_offsets_mod m _ hoff
  refine ⟨fun sec hs => dir_entry_write_other d _ sec hs, fun off ho hne => ?_, fun i hi => ?_,
    by rw [← hdir]; exact hold, ?_⟩
  · have hoffm := dir_offsets_mod m off ho
    funext i
    unfold entry_at
    unfold DIR_ENTRY_SIZE at *
    by_cases hi : i < 32
    · rw [if_pos hi, if_pos hi]
      have := dir_entry_write_sector d (DirEntrySlot.mk e s.sector s.offset) (off + i)
      simp only at this
      rw [this, if_neg (by omega)]
    · rw [if_neg hi, if_neg hi]
  · have := dir_entry_write_entry d (DirEntrySlot.mk e s.sector s.offset) i (by omega)
    simp only at this
    rw [this, hname i hi, hdir]
  · have := dir_entry_write_entry d (DirEntrySlot.mk e s.sector s.offset) 11 (by omega)
    simp only at this
    unfold DIR_Attr at hlfn ⊢
    rw [this]
    exact hlfn

/-! ## The short-name codec in closed form -/

theorem is_invalid_char_iff (c : Nat) : is_invalid_char c = true ↔ c ∈ INVALID_CHARS := by
  simp [is_invalid_char, INVALID_CHARS, or_assoc]

theorem char_to_int_ne_e5 (b : Nat) : char_to_int b ≠ 0xe5 := by
  unfold char_to_int
  split_ifs <;> omega

/-- The first loop of `to_shortname` in full: it fails exactly at an invalid byte before the
first NUL; otherwise it stops at the first NUL (or at `len`), with the position of the last
`'.'` other than a first byte as the base length, when there is one. -/
theorem to_shortname_scan_full (name : List Nat) (len : Nat) : ∀ (k i bl : Nat) (he : Bool),
    i + k = len →
    (∀ j, j < i → cstr name j ≠ 0 ∧ is_invalid_char (cstr name j) = false) →
    (he = true → 0 < bl ∧ bl < i ∧ cstr name bl = 46
      ∧ ∀ j, bl < j → j < i → cstr name j ≠ 46) →
    (he = false → bl = len ∧ ∀ j, 0 < j → j < i → cstr name j ≠ 46) →
    (to_shortname_scan name k i len bl he = none →
      ∃ t, t < len ∧ (∀ j, j ≤ t → cstr name j ≠ 0) ∧ is_invalid_char (cstr name t) = true)
    ∧ ∀ len1 bl1 he1, to_shortname_scan name k i len bl he = some (len1, bl1, he1) →
      len1 ≤ len
      ∧ (∀ j, j < len1 → cstr name j ≠ 0 ∧ is_invalid_char (cstr name j) = false)
      ∧ (len1 < len → cstr name len1 = 0)
      ∧ (he1 = true → 0 < bl1 ∧ bl1 < len1 ∧ cstr name bl1 = 46
          ∧ ∀ j, bl1 < j → j < len1 → cstr name j ≠ 46)
      ∧ (he1 = false → bl1 = len1 ∧ ∀ j, 0 < j → j < len1 → cstr name j ≠ 46) := by
  intro k
  induction k with
  | zero =>
    intro i bl he hik hpre ht hf
    refine ⟨fun h => by simp [to_shortname_scan] at h, fun len1 bl1 he1 h => ?_⟩
    simp only [to_shortname_scan, Option.some.injEq, Prod.mk.injEq] at h
    obtain ⟨h1, h2, h3⟩ := h
    have hi : i = len := by omega
    subst h1 h2 h3 hi
    exact ⟨le_refl _, hpre, fun h => absurd h (lt_irrefl _), ht, hf⟩
  | succ k ih =>
    intro i bl he hik hpre ht hf
    unfold to_shortname_scan
    by_cases h0 : cstr name i = 0
    · rw [if_pos h0]
      refine ⟨fun h => by simp at h, fun len1 bl1 he1 h => ?_⟩
      simp only [Option.some.injEq, Prod.mk.injEq] at h
      obtain ⟨h1, h2, h3⟩ := h
      subst h1 h3
      refine ⟨by omega, hpre, fun _ => h0, fun hh => ?_, fun hh => ?_⟩
      · obtain ⟨a, b, c, e⟩ := ht hh
        have : min bl i = bl := Nat.min_eq_left (by omega)
        rw [← h2, this]
        exact ⟨a, b, c, e⟩
      · obtain ⟨a, b⟩ := hf hh
        have : min bl i = i := Nat.min_eq_right (by omega)
        rw [← h2, this]
        exact ⟨rfl, b⟩
    · rw [if_neg h0]
      by_cases hinv : is_invalid_char (cstr name i) = true
      · rw [if_pos hinv]
        refine ⟨fun _ => ⟨i, by omega, fun j hj => ?_, hinv⟩, fun len1 bl1 he1 h => by simp at h⟩
        rcases Nat.lt_or_eq_of_le hj with h4 | h4
        · exact (hpre j h4).1
        · rw [h4]; exact h0
      · rw [if_neg hinv]
        have hinv' : is_invalid_char (cstr name i) = false := by
          cases hb : is_invalid_char (cstr name i) with
          | true => exact absurd hb hinv
          | false => rfl
        have hpre' : ∀ j, j < i + 1 →
            cstr name j ≠ 0 ∧ is_invalid_char (cstr name j) = false := by
          intro j hj
          rcases Nat.lt_succ_iff_lt_or_eq.mp hj with h4 | h4
          · exact hpre j h4
          · rw [h4]; exact ⟨h0, hinv'⟩
        by_cases hdot : cstr name i = 46 ∧ i ≠ 0
        · rw [if_pos hdot]
          exact ih (i + 1) i true (by omega) hpre'
            (fun _ => ⟨by omega, by omega, hdot.1, fun j h1 h2 => by omega⟩)
            (fun h => by cases h)
        · rw [if_neg hdot]
          refine ih (i + 1) bl he (by omega) hpre' (fun hh => ?_) (fun hh => ?_)
          · obtain ⟨a, b, c, e⟩ := ht hh
            refine ⟨a, by omega, c, fun j h1 h2 => ?_⟩
            rcases Nat.lt_succ_iff_lt_or_eq.mp h2 with h4 | h4
            · exact e j h1 h4
            · subst h4
              intro h46
              exact hdot ⟨h46, by omega⟩
          · obtain ⟨a, b⟩ := hf hh
            refine ⟨a, fun j h1 h2 => ?_⟩
            rcases Nat.lt_succ_iff_lt_or_eq.mp h2 with h4 | h4
            · exact b j h1 h4
            · subst h4
              intro h46
              exact hdot ⟨h46, by omega⟩

/-- The first loop of `to_shortname` from its initial state. -/
theorem to_shortname_scan_init (name : List Nat) (len : Nat) :
    (to_shortname_scan name len 0 len len false = none →
      ∃ t, t < len ∧ (∀ j, j ≤ t → cstr name j ≠ 0) ∧ is_invalid_char (cstr name t) = true)
    ∧ ∀ len1 bl1 he1, to_shortname_scan name len 0 len len false = some (len1, bl1, he1) →
      len1 ≤ len
      ∧ (∀ j, j < len1 → cstr name j ≠ 0 ∧ is_invalid_char (cstr name j) = false)
      ∧ (len1 < len → cstr name len1 = 0)
      ∧ (he1 = true → 0 < bl1 ∧ bl1 < len1 ∧ cstr name bl1 = 46
          ∧ ∀ j, bl1 < j → j < len1 → cstr name j ≠ 46)
      ∧ (he1 = false → bl1 = len1 ∧ ∀ j, 0 < j → j < len1 → cstr name j ≠ 46) :=
  to_shortname_scan_full name len len 0 len false (by omega) (fun j hj => by omega)
    (fun h => by cases h) (fun _ => ⟨rfl, fun j h1 h2 => by omega⟩)


theorem to_shortname_of_scan (name : List Nat) (len : Nat) (res : Nat → Nat) (len1 bl : Nat)
    (he : Bool) (hs : to_shortname_scan name len 0 len len false = some (len1, bl, he)) :
    to_shortname name len res = (0, shortname_out name res len1 bl he) := by
  unfold to_shortname
  rw [hs]
  dsimp only
  congr 1
  funext j
  unfold shortname_out upper_copy
  simp only [char_to_int_ne_e5, if_false, FAT_NAME_BASE_LEN, FAT_NAME_EXT_LEN, FAT_NAME_LEN,
    Nat.zero_le, true_and, Nat.zero_add, Nat.sub_zero]
  cases he with
  | true =>
    simp only [if_true, true_and]
    by_cases h1 : 8 ≤ j ∧ j < 8 + min (len1 - bl - 1) 3
    · have h2 : ¬ j < min bl 8 := by omega
      rw [if_pos h1, if_neg h2, if_pos h1]
    · rw [if_neg h1]
      by_cases h2 : j < min bl 8
      · have h3 : j = 0 ∨ j ≠ 0 := by omega
        rcases h3 with h3 | h3
        · subst h3
          simp only [if_true, h2]
        · simp only [h3, if_false, h2, if_true]
      · have h3 : j = 0 ∨ j ≠ 0 := by omega
        rcases h3 with h3 | h3
        · subst h3
          have h4 : ¬ (0 < min bl 8) := h2
          simp only [if_true, h4, if_false, h1]
        · simp only [h3, if_false, h2, h1]
  | false =>
    simp only [Bool.false_eq_true, if_false, false_and]
    have h3 : j = 0 ∨ j ≠ 0 := by omega
    rcases h3 with h3 | h3
    · subst h3
      simp only [if_true]
    · simp only [h3, if_false]

theorem to_shortname_of_none (name : List Nat) (len : Nat) (res : Nat → Nat)
    (hs : to_shortname_scan name len 0 len len false = none) :
    to_shortname name len res = (-EINVAL, res) := by
  unfold to_shortname
  rw [hs]

/-! ## The reference 8 + 3 encoding -/

theorem name_bytes_nil (len : Nat) : name_bytes [] len = [] := by
  simp [name_bytes]

theorem name_bytes_zero (name : List Nat) : name_bytes name 0 = [] := by
  simp [name_bytes]

theorem name_bytes_cons (a : Nat) (t : List Nat) (len : Nat) :
    name_bytes (a :: t) (len + 1) = if a = 0 then [] else a :: name_bytes t len := by
  unfold name_bytes
  rw [List.take_succ_cons, List.takeWhile_cons]
  by_cases h : a = 0
  · simp [h]
  · simp [h]

/-- The encoded bytes are the bytes of `name` up to its first NUL among the first `len`. -/
theorem name_bytes_spec : ∀ (name : List Nat) (len : Nat),
    (name_bytes name len).length ≤ len
    ∧ (∀ j, j < (name_bytes name len).length →
        cstr (name_bytes name len) j = cstr name j ∧ cstr name j ≠ 0)
    ∧ ((name_bytes name len).length < len → cstr name (name_bytes name len).length = 0) := by
  intro name
  induction name with
  | nil =>
    intro len
    rw [name_bytes_nil]
    exact ⟨Nat.zero_le _, fun j hj => absurd hj (Nat.not_lt_zero _), fun _ => rfl⟩
  | cons a t ih =>
    intro len
    cases len with
    | zero =>
      rw [name_bytes_zero]
      exact ⟨le_refl _, fun j hj => absurd hj (Nat.not_lt_zero _),
        fun h => absurd h (lt_irrefl _)⟩
    | succ len =>
      rw [name_bytes_cons]
      by_cases h : a = 0
      · rw [if_pos h]
        refine ⟨Nat.zero_le _, fun j hj => absurd hj (Nat.not_lt_zero _), fun _ => ?_⟩
        rw [h]
        rfl
      · rw [if_neg h]
        obtain ⟨h1, h2, h3⟩ := ih len
        refine ⟨by simp only [List.length_cons]; omega, fun j hj => ?_, fun hj => ?_⟩
        · cases j with
          | zero => exact ⟨rfl, h⟩
          | succ j =>
            simp only [List.length_cons] at hj
            exact h2 j (by omega)
        · simp only [List.length_cons] at hj ⊢
          exact h3 (by omega)

/-- The stop position of the first loop of `to_shortname` is the number of encoded bytes. -/
theorem name_bytes_length (name : List Nat) (len len1 : Nat) (h1 : len1 ≤ len)
    (h2 : ∀ j, j < len1 → cstr name j ≠ 0) (h3 : len1 < len → cstr name len1 = 0) :
    (name_bytes name len).length = len1 := by
  obtain ⟨g1, g2, g3⟩ := name_bytes_spec name len
  by_contra hne
  rcases Nat.lt_or_gt_of_ne hne with h | h
  · exact h2 _ h (g3 (by omega))
  · exact (g2 _ h).2 (h3 (by omega))

theorem last_index_some (p : Nat → Bool) (b : Nat) (hp : p b = true) : ∀ n, b < n →
    (∀ j, b < j → j < n → p j = false) → last_index p n = some b := by
  intro n
  induction n with
  | zero => intro h; omega
  | succ n ih =>
    intro hb hj
    unfold last_index
    rcases Nat.lt_succ_iff_lt_or_eq.mp hb with h | h
    · rw [hj n h (Nat.lt_succ_self _)]
      simp only [Bool.false_eq_true, if_false]
      exact ih h (fun j h1 h2 => hj j h1 (by omega))
    · subst h
      rw [hp]
      rfl

theorem last_index_none (p : Nat → Bool) : ∀ n, (∀ j, j < n → p j = false) →
    last_index p n = none := by
  intro n
  induction n with
  | zero => intro _; rfl
  | succ n ih =>
    intro hj
    unfold last_index
    rw [hj n (Nat.lt_succ_self _)]
    simp only [Bool.false_eq_true, if_false]
    exact ih (fun j h => hj j (by omega))

theorem getD_take_lt (l : List Nat) (p i : Nat) (h : i < p) :
    (l.take p).getD i 0 = l.getD i 0 := by
  simp [List.getD_eq_getElem?_getD, List.getElem?_take, h]

theorem getD_drop_add (l : List Nat) (p i : Nat) : (l.drop p).getD i 0 = l.getD (p + i) 0 := by
  simp [List.getD_eq_getElem?_getD, List.getElem?_drop]

/-- The bytes stored by `to_shortname` are the reference encoding split at the last `'.'`
other than a first byte. -/
theorem shortname_out_inner_dot (name : List Nat) (len : Nat) (res : Nat → Nat) (len1 bl : Nat)
    (he : Bool) (h1 : len1 ≤ len)
    (h2 : ∀ j, j < len1 → cstr name j ≠ 0 ∧ is_invalid_char (cstr name j) = false)
    (h3 : len1 < len → cstr name len1 = 0)
    (h4 : he = true → 0 < bl ∧ bl < len1 ∧ cstr name bl = 46
      ∧ ∀ j, bl < j → j < len1 → cstr name j ≠ 46)
    (h5 : he = false → bl = len1 ∧ ∀ j, 0 < j → j < len1 → cstr name j ≠ 46) :
    ∀ i, i < FAT_NAME_LEN →
      shortname_out name res len1 bl he i = shortname_inner_dot (name_bytes name len) i := by
  intro i hi
  have hL := name_bytes_length name len len1 h1 (fun j hj => (h2 j hj).1) h3
  obtain ⟨_, g2, _⟩ := name_bytes_spec name len
  rw [hL] at g2
  have hget : ∀ j, j < len1 → (name_bytes name len).getD j 0 = cstr name j :=
    fun j hj => (g2 j hj).1
  simp only [FAT_NAME_LEN] at hi
  unfold shortname_inner_dot shortname_out
  rw [hL]
  simp only [FAT_NAME_LEN, FAT_NAME_BASE_LEN, FAT_NAME_EXT_LEN]
  cases he with
  | true =>
    obtain ⟨a, b, c, e⟩ := h4 rfl
    have hsplit : last_index (fun k => k != 0 && (name_bytes name len).getD k 0 == 46) len1
        = some bl := by
      apply last_index_some _ bl _ len1 b
      · intro j hj1 hj2
        have := e j hj1 hj2
        simp only [hget j hj2, Bool.and_eq_false_imp, bne_iff_ne, ne_eq, beq_eq_false_iff_ne]
        exact fun _ => this
      · simp only [hget bl b, c, beq_self_eq_true, Bool.and_true, bne_iff_ne, ne_eq]
        omega
    rw [hsplit]
    unfold shortname_of_split
    simp only [List.length_take, List.length_drop, hL, true_and]
    by_cases hi8 : i < 8
    · rw [if_pos hi8]
      have hm : min 8 (min bl len1) = min bl 8 := by omega
      rw [hm]
      by_cases hb : i < min bl 8
      · rw [if_pos hb, if_pos hb, getD_take_lt _ _ _ (by omega), hget i (by omega)]
      · have hn : ¬ (8 ≤ i ∧ i < 8 + min (len1 - bl - 1) 3) := by omega
        rw [if_neg hb, if_neg hb, if_neg hn, if_pos hi]
    · rw [if_neg hi8]
      have hb : ¬ i < min bl 8 := by omega
      rw [if_neg hb]
      by_cases hx : i - 8 < min 3 (len1 - (bl + 1))
      · have hy : 8 ≤ i ∧ i < 8 + min (len1 - bl - 1) 3 := by omega
        rw [if_pos hx, if_pos hy, getD_drop_add, hget _ (by omega)]
      · have hy : ¬ (8 ≤ i ∧ i < 8 + min (len1 - bl - 1) 3) := by omega
        rw [if_neg hx, if_neg hy, if_pos hi]
  | false =>
    obtain ⟨a, e⟩ := h5 rfl
    subst a
    have hsplit : last_index (fun k => k != 0 && (name_bytes name len).getD k 0 == 46) bl
        = none := by
      apply last_index_none
      intro j hj
      by_cases hj0 : j = 0
      · simp [hj0]
      · have := e j (by omega) hj
        simp only [hget j hj, Bool.and_eq_false_imp, bne_iff_ne, ne_eq, beq_eq_false_iff_ne]
        exact fun _ => this
    rw [hsplit]
    unfold shortname_of_split
    simp only [hL, Bool.false_eq_true, false_and, if_false, List.length_nil]
    by_cases hi8 : i < 8
    · rw [if_pos hi8]
      have hm : min 8 bl = min bl 8 := by omega
      rw [hm]
      by_cases hb : i < min bl 8
      · rw [if_pos hb, if_pos hb, hget i (by omega)]
      · rw [if_neg hb, if_neg hb, if_pos hi]
    · have hb : ¬ i < min bl 8 := by omega
      have hx : ¬ (i - 8 < min 3 0) := by omega
      rw [if_neg hi8, if_neg hb, if_pos hi, if_neg hx]

/-! ## The long-name decoder -/

theorem tolower_toupper (c : Nat) : tolower (toupper c) = tolower c := by
  unfold tolower toupper
  split_ifs <;> omega

theorem toupper_ne_space (c : Nat) (h : c ≠ 32) : toupper c ≠ 32 := by
  unfold toupper
  split_ifs <;> omega

theorem cstr_append_right (P Q : List Nat) (j : Nat) :
    cstr (P ++ Q) (P.length + j) = cstr Q j := by
  unfold cstr
  rw [List.getD_append_right _ _ _ _ (Nat.le_add_right _ _), Nat.add_sub_cancel_left]

theorem cstr_mem (P : List Nat) (j : Nat) (h : j < P.length) : cstr P j ∈ P := by
  unfold cstr
  rw [List.getD_eq_getElem _ _ h]
  exact List.getElem_mem _

theorem cstr_ge (P : List Nat) (j : Nat) (h : P.length ≤ j) : cstr P j = 0 := by
  unfold cstr
  exact List.getD_eq_default _ _ h

/-- The first loop of `to_longname` on a base of `b` non-blank bytes. -/
theorem to_longname_base_run (fat : Nat → Nat) (len b : Nat) (hb : b ≤ 8) (hbl : b ≤ len)
    (hnb : ∀ t, t < b → fat t ≠ 32) (hend : b < 8 → fat b = 32) :
    ∀ (k i : Nat) (res : Nat → Nat), i + k = 8 → i ≤ b →
      to_longname_base fat len k i res
        = (b, fun x => if i ≤ x ∧ x < b then tolower (fat x) else res x) := by
  intro k
  induction k with
  | zero =>
    intro i res hik hib
    have : i = b := by omega
    subst this
    unfold to_longname_base
    congr 1
    funext x
    rw [if_neg (by omega)]
  | succ k ih =>
    intro i res hik hib
    unfold to_longname_base
    simp only [FAT_NAME_BASE_LEN]
    by_cases hlt : i < b
    · rw [if_pos (by omega), if_neg (hnb i hlt), ih (i + 1) _ (by omega) (by omega)]
      congr 1
      funext x
      by_cases hx : x = i
      · subst hx
        rw [if_neg (by omega), if_pos rfl, if_pos ⟨le_refl _, hlt⟩]
      · by_cases hx2 : i + 1 ≤ x ∧ x < b
        · rw [if_pos hx2, if_pos (by omega)]
        · rw [if_neg hx2, if_neg hx, if_neg (by omega)]
    · have : i = b := by omega
      subst this
      have hres : (fun x => if i ≤ x ∧ x < i then tolower (fat x) else res x) = res := by
        funext x
        rw [if_neg (by omega)]
      rw [hres]
      by_cases hc : i < len ∧ i < 8
      · rw [if_pos hc, if_pos (hend hc.2)]
      · rw [if_neg hc]

/-- The second loop of `to_longname` on an extension of `e` non-blank bytes. -/
theorem to_longname_ext_run (fat : Nat → Nat) (len e i0 : Nat) (he : e ≤ 3)
    (hel : i0 + e ≤ len) (hnb : ∀ t, t < e → fat (8 + t) ≠ 32) (hend : e < 3 → fat (8 + e) = 32) :
    ∀ (k t : Nat) (res : Nat → Nat), t + k = 3 → t ≤ e →
      to_longname_ext fat len k (i0 + t) (8 + t) res
        = (i0 + e, fun x => if i0 + t ≤ x ∧ x < i0 + e then tolower (fat (8 + (x - i0)))
            else res x) := by
  intro k
  induction k with
  | zero =>
    intro t res htk hte
    have : t = e := by omega
    subst this
    unfold to_longname_ext
    congr 1
    funext x
    rw [if_neg (by omega)]
  | succ k ih =>
    intro t res htk hte
    unfold to_longname_ext
    simp only [FAT_NAME_LEN]
    by_cases hlt : t < e
    · rw [if_pos (by omega), if_neg (hnb t hlt)]
      have := ih (t + 1) (fun x => if x = i0 + t then tolower (fat (8 + t)) else res x)
        (by omega) (by omega)
      rw [← Nat.add_assoc, ← Nat.add_assoc] at this
      rw [this]
      congr 1
      funext x
      dsimp only
      by_cases hx : x = i0 + t
      · subst hx
        rw [if_neg (by omega), if_pos rfl, if_pos (by omega)]
        congr 3
        omega
      · by_cases hx2 : i0 + t + 1 ≤ x ∧ x < i0 + e
        · rw [if_pos hx2, if_pos (by omega)]
        · rw [if_neg hx2, if_neg hx, if_neg (by omega)]
    · have : t = e := by omega
      subst this
      have hres : (fun x => if i0 + t ≤ x ∧ x < i0 + t then tolower (fat (8 + (x - i0)))
          else res x) = res := by
        funext x
        rw [if_neg (by omega)]
      rw [hres]
      by_cases hc : i0 + t < len ∧ 8 + t < 11
      · rw [if_pos hc, if_pos (hend (by omega))]
      · rw [if_neg hc]

theorem name_char_valid (c : Nat) (h : NameChar c) : is_invalid_char c = false := by
  obtain ⟨_, _, _, _, _, h6⟩ := h
  cases hb : is_invalid_char c with
  | true => exact absurd ((is_invalid_char_iff c).mp hb) h6
  | false => rfl

/-- Round trip of the codec on a name given by its indices: `b` base bytes, then, when
`hasdot`, a `'.'` and `e` extension bytes. -/
theorem to_longname_to_shortname_core (name : List Nat) (b e : Nat) (hasdot : Bool)
    (len cap : Nat) (res out : Nat → Nat) (hb1 : 1 ≤ b) (hb8 : b ≤ 8) (he3 : e ≤ 3)
    (hd : hasdot = true → name.length = b + 1 + e ∧ 1 ≤ e ∧ cstr name b = 46)
    (hnd : hasdot = false → name.length = b ∧ e = 0)
    (hc : ∀ j, j < name.length → (hasdot = true → j ≠ b) → NameChar (cstr name j))
    (hlen : name.length ≤ len) (hcap : 13 ≤ cap) :
    (to_shortname name len res).1 = 0
    ∧ (to_longname (to_shortname name len res).2 out cap).1 = name.length
    ∧ (∀ i, i < name.length →
        (to_longname (to_shortname name len res).2 out cap).2 i = tolower (cstr name i))
    ∧ (to_longname (to_shortname name len res).2 out cap).2 name.length = 0 := by
  have hchar : ∀ j, j < name.length →
      cstr name j ≠ 0 ∧ is_invalid_char (cstr name j) = false := by
    intro j hj
    by_cases hjb : hasdot = true ∧ j = b
    · obtain ⟨h1, h2⟩ := hjb
      rw [h2, (hd h1).2.2]
      exact ⟨by omega, by decide⟩
    · have hn := hc j hj (fun h1 h2 => hjb ⟨h1, h2⟩)
      exact ⟨hn.2.1, name_char_valid _ hn⟩
  obtain ⟨hnone, hsome⟩ := to_shortname_scan_init name len
  cases hs : to_shortname_scan name len 0 len len false with
  | none =>
    exfalso
    obtain ⟨t, _, h2, h3⟩ := hnone hs
    have ht : t < name.length := by
      by_contra hge
      exact h2 t (le_refl _) (cstr_ge name t (by omega))
    rw [(hchar t ht).2] at h3
    cases h3
  | some r =>
    obtain ⟨len1, bl, he⟩ := r
    obtain ⟨h1, h2, h3, h4, h5⟩ := hsome len1 bl he hs
    have hl : len1 = name.length := by
      by_contra hne
      rcases Nat.lt_or_gt_of_ne hne with h | h
      · exact (hchar len1 h).1 (h3 (by omega))
      · exact (h2 name.length h).1 (cstr_ge name _ (le_refl _))
    subst hl
    have hhe : he = hasdot ∧ bl = b := by
      cases hdot : hasdot with
      | true =>
        obtain ⟨g1, g2, g3⟩ := hd hdot
        cases hhe : he with
        | true =>
          obtain ⟨a1, a2, a3, _⟩ := h4 hhe
          refine ⟨rfl, ?_⟩
          by_contra hne
          exact (hc bl a2 (fun _ => hne)).2.2.2.1 a3
        | false =>
          exfalso
          exact (h5 hhe).2 b (by omega) (by omega) g3
      | false =>
        obtain ⟨g1, g2⟩ := hnd hdot
        cases hhe : he with
        | true =>
          exfalso
          obtain ⟨a1, a2, a3, _⟩ := h4 hhe
          exact (hc bl a2 (fun h => by rw [hdot] at h; cases h)).2.2.2.1 a3
        | false =>
          exact ⟨rfl, by rw [(h5 hhe).1, g1]⟩
    obtain ⟨hhe1, hbl⟩ := hhe
    subst hhe1 hbl
    rw [to_shortname_of_scan name len res _ _ _ hs]
    dsimp only
    generalize hfat : shortname_out name res name.length bl he = fat
    have hble : bl ≤ name.length := by
      cases hdot : he with
      | true => have := (hd hdot).1; omega
      | false => have := (hnd hdot).1; omega
    have hf1 : ∀ t, t < bl → fat t = toupper (cstr name t) := by
      intro t ht
      rw [← hfat]
      unfold shortname_out
      rw [if_pos (by simp only [FAT_NAME_BASE_LEN]; omega)]
    have hf1n : ∀ t, t < bl → fat t ≠ 32 := by
      intro t ht
      rw [hf1 t ht]
      apply toupper_ne_space
      have := hc t (by omega) (fun _ => by omega)
      exact this.2.2.1
    have hf2 : bl < 8 → fat bl = 32 := by
      intro _
      rw [← hfat]
      unfold shortname_out
      simp only [FAT_NAME_BASE_LEN, FAT_NAME_LEN]
      rw [if_neg (by omega), if_neg (by omega), if_pos (by omega)]
    have hf3 : ∀ t, t < e → fat (8 + t) = toupper (cstr name (bl + 1 + t)) := by
      intro t ht
      have hdot : he = true := by
        cases hh : he with
        | true => rfl
        | false => have := (hnd hh).2; omega
      have hnl := (hd hdot).1
      rw [← hfat]
      unfold shortname_out
      simp only [FAT_NAME_BASE_LEN, FAT_NAME_EXT_LEN]
      rw [if_neg (by omega), if_pos ⟨hdot, by omega, by omega⟩]
      congr 2
      omega
    have hf3n : ∀ t, t < e → fat (8 + t) ≠ 32 := by
      intro t ht
      have hdot : he = true := by
        cases hh : he with
        | true => rfl
        | false => have := (hnd hh).2; omega
      have hnl := (hd hdot).1
      rw [hf3 t ht]
      apply toupper_ne_space
      exact (hc (bl + 1 + t) (by omega) (fun _ => by omega)).2.2.1
    have hf4 : e < 3 → fat (8 + e) = 32 := by
      intro _
      rw [← hfat]
      unfold shortname_out
      simp only [FAT_NAME_BASE_LEN, FAT_NAME_EXT_LEN, FAT_NAME_LEN]
      have hcond : ¬ (he = true ∧ 8 ≤ 8 + e ∧ 8 + e < 8 + min (name.length - bl - 1) 3) := by
        intro hh
        obtain ⟨hdot, _, hh3⟩ := hh
        have hnl := (hd hdot).1
        omega
      rw [if_neg (by omega), if_neg hcond, if_pos (by omega)]
    have hbase := to_longname_base_run fat (cap - 1) bl hb8 (by omega) hf1n hf2 8 0 out rfl
      (Nat.zero_le _)
    have hext := fun r => to_longname_ext_run fat (cap - 1) e (bl + 1) he3 (by omega) hf3n hf4
      3 0 r rfl (Nat.zero_le _)
    simp only [Nat.add_zero] at hext
    unfold to_longname
    simp only [FAT_NAME_BASE_LEN, FAT_NAME_EXT_LEN]
    rw [hbase]
    dsimp only
    cases hdot : he with
    | true =>
      obtain ⟨g1, g2, g3⟩ := hd hdot
      have h8 : fat 8 ≠ 32 := hf3n 0 g2
      rw [if_pos h8, hext]
      dsimp only
      refine ⟨trivial, g1.symm, fun i hi => ?_, ?_⟩
      · rw [if_neg (by omega)]
        by_cases hi1 : bl + 1 ≤ i ∧ i < bl + 1 + e
        · rw [if_pos hi1]
          have := hf3 (i - (bl + 1)) (by omega)
          rw [this, tolower_toupper]
          congr 2
          omega
        · rw [if_neg hi1]
          by_cases hi2 : i = bl
          · rw [if_pos hi2, hi2, g3]
            rfl
          · rw [if_neg hi2, if_pos (by omega), hf1 i (by omega), tolower_toupper]
      · rw [if_pos g1]
    | false =>
      obtain ⟨g1, g2⟩ := hnd hdot
      have h8 : ¬ fat 8 ≠ 32 := by
        have := hf4 (by omega)
        rw [g2] at this
        exact fun h => h this
      rw [if_neg h8]
      dsimp only
      refine ⟨trivial, g1.symm, fun i hi => ?_, ?_⟩
      · rw [if_neg (by omega), if_pos (by omega), hf1 i (by omega), tolower_toupper]
      · rw [if_pos g1]


theorem base_run_ge (fat : Nat → Nat) : ∀ (k i : Nat), i ≤ base_run fat k i := by
  intro k
  induction k with
  | zero => intro i; exact le_refl _
  | succ k ih =>
    intro i
    unfold base_run
    by_cases h : fat i = 32
    · rw [if_pos h]
    · rw [if_neg h]
      exact Nat.le_trans (Nat.le_succ i) (ih (i + 1))

theorem base_run_le (fat : Nat → Nat) : ∀ (k i : Nat), base_run fat k i ≤ i + k := by
  intro k
  induction k with
  | zero => intro i; exact le_refl _
  | succ k ih =>
    intro i
    unfold base_run
    by_cases h : fat i = 32
    · rw [if_pos h]; omega
    · rw [if_neg h]
      have := ih (i + 1)
      omega

theorem tolower_ne_zero (c : Nat) (h : c ≠ 0) : tolower c ≠ 0 := by
  unfold tolower
  split <;> omega

theorem to_longname_base_bounds (fat : Nat → Nat) (len : Nat) :
    ∀ (k i : Nat) (res : Nat → Nat), i + k = 8 → i ≤ len →
      (to_longname_base fat len k i res).1 = min len (base_run fat k i)
      ∧ (∀ x, x < i ∨ (to_longname_base fat len k i res).1 ≤ x →
          (to_longname_base fat len k i res).2 x = res x)
      ∧ ((∀ t, t < 11 → fat t ≠ 0) → ∀ x, i ≤ x → x < (to_longname_base fat len k i res).1 →
          (to_longname_base fat len k i res).2 x ≠ 0) := by
  intro k
  induction k with
  | zero =>
    intro i res _ hi
    unfold to_longname_base base_run
    refine ⟨by simp only []; omega, fun x _ => rfl, fun _ x h1 h2 => ?_⟩
    simp only [] at h2
    omega
  | succ k ih =>
    intro i res hik hi
    unfold to_longname_base base_run
    simp only [FAT_NAME_BASE_LEN]
    by_cases hlt : i < len
    · rw [if_pos ⟨hlt, by omega⟩]
      by_cases hb : fat i = 32
      · rw [if_pos hb, if_pos hb]
        refine ⟨by simp only []; omega, fun x _ => rfl, fun _ x h1 h2 => ?_⟩
        simp only [] at h2
        omega
      · rw [if_neg hb, if_neg hb]
        obtain ⟨h1, h2, h3⟩ := ih (i + 1) (fun x => if x = i then tolower (fat i) else res x)
          (by omega) (by omega)
        have hge : i + 1 ≤ (to_longname_base fat len k (i + 1)
            (fun x => if x = i then tolower (fat i) else res x)).1 := by
          rw [h1]
          have := base_run_ge fat k (i + 1)
          omega
        refine ⟨h1, fun x hx => ?_, fun hnz x hx1 hx2 => ?_⟩
        · rw [h2 x (by omega)]
          rw [if_neg (by omega)]
        · by_cases hxi : x = i
          · rw [h2 x (by omega)]
            rw [if_pos hxi]
            exact tolower_ne_zero _ (hnz i (by omega))
          · exact h3 hnz x (by omega) hx2
    · rw [if_neg (by omega)]
      have hg := base_run_ge fat (k + 1) i
      unfold base_run at hg
      refine ⟨by simp only []; omega, fun x _ => rfl, fun _ x h1 h2 => ?_⟩
      simp only [] at h2
      omega

theorem to_longname_ext_bounds (fat : Nat → Nat) (len : Nat) :
    ∀ (k i j : Nat) (res : Nat → Nat), j + k = 11 →
      i ≤ (to_longname_ext fat len k i j res).1
      ∧ (i ≤ len → (to_longname_ext fat len k i j res).1 ≤ len)
      ∧ (len ≤ i → (to_longname_ext fat len k i j res).1 = i)
      ∧ (∀ x, x < i ∨ (to_longname_ext fat len k i j res).1 ≤ x →
          (to_longname_ext fat len k i j res).2 x = res x)
      ∧ ((∀ t, t < 11 → fat t ≠ 0) → ∀ x, i ≤ x → x < (to_longname_ext fat len k i j res).1 →
          (to_longname_ext fat len k i j res).2 x ≠ 0) := by
  intro k
  induction k with
  | zero =>
    intro i j res _
    unfold to_longname_ext
    refine ⟨le_refl _, fun h => h, fun _ => rfl, fun x _ => rfl, fun _ x h1 h2 => ?_⟩
    simp only [] at h2
    omega
  | succ k ih =>
    intro i j res hjk
    unfold to_longname_ext
    simp only [FAT_NAME_LEN]
    by_cases hlt : i < len
    · rw [if_pos ⟨hlt, by omega⟩]
      by_cases hb : fat j = 32
      · rw [if_pos hb]
        refine ⟨le_refl _, fun h => h, fun _ => rfl, fun x _ => rfl, fun _ x h1 h2 => ?_⟩
        simp only [] at h2
        omega
      · rw [if_neg hb]
        obtain ⟨h1, h2, _, h4, h5⟩ := ih (i + 1) (j + 1)
          (fun x => if x = i then tolower (fat j) else res x) (by omega)
        refine ⟨by omega, fun _ => h2 (by omega), fun h => by omega, fun x hx => ?_,
          fun hnz x hx1 hx2 => ?_⟩
        · rw [h4 x (by omega)]
          rw [if_neg (by omega)]
        · by_cases hxi : x = i
          · rw [h4 x (by omega)]
            rw [if_pos hxi]
            exact tolower_ne_zero _ (hnz j (by omega))
          · exact h5 hnz x (by omega) hx2
    · rw [if_neg (by omega)]
      refine ⟨le_refl _, fun h => h, fun _ => rfl, fun x _ => rfl, fun _ x h1 h2 => ?_⟩
      simp only [] at h2
      omega

theorem to_longname_eq (fat res : Nat → Nat) (len : Nat) :
    to_longname fat res len
      = (if fat 8 ≠ 32 then
          ((to_longname_ext fat (len - 1) 3 ((to_longname_base fat (len - 1) 8 0 res).1 + 1) 8
            (fun x => if x = (to_longname_base fat (len - 1) 8 0 res).1 then 46
              else (to_longname_base fat (len - 1) 8 0 res).2 x)).1,
           fun x => if x = (to_longname_ext fat (len - 1) 3
              ((to_longname_base fat (len - 1) 8 0 res).1 + 1) 8
              (fun x => if x = (to_longname_base fat (len - 1) 8 0 res).1 then 46
                else (to_longname_base fat (len - 1) 8 0 res).2 x)).1 then 0
            else (to_longname_ext fat (len - 1) 3
              ((to_longname_base fat (len - 1) 8 0 res).1 + 1) 8
              (fun x => if x = (to_longname_base fat (len - 1) 8 0 res).1 then 46
                else (to_longname_base fat (len - 1) 8 0 res).2 x)).2 x)
        else ((to_longname_base fat (len - 1) 8 0 res).1,
          fun x => if x = (to_longname_base fat (len - 1) 8 0 res).1 then 0
            else (to_longname_base fat (len - 1) 8 0 res).2 x)) := by
  unfold to_longname
  simp only [FAT_NAME_BASE_LEN, FAT_NAME_EXT_LEN]
  split <;> rfl

/-! ## Replication of the FAT copies -/

theorem copy_sector_inj (spf t t' s q : Nat) (hs : s < spf) (hq : q < spf)
    (h : t * spf + s = t' * spf + q) : t = t' ∧ s = q := by
  have h1 := split_div spf t s hs
  have h2 := split_div spf t' q hq
  have h3 := split_mod spf t s hs
  have h4 := split_mod spf t' q hq
  rw [h] at h1 h3
  exact ⟨by omega, by omega⟩

/-- Inside the FAT copies, `write_fat_entry` for a cluster whose entry lies in one copy
stores the value in sector `c / (sector_size / 2)` of each copy and nowhere else. -/
theorem write_fat_entry_copy (m : FAT16) (hg : Geom m) (d : Disk) (c v t s : Nat)
    (hc : FatIn m c) (ht : t < m.fats) (hs : s < m.sec_per_fat) :
    write_fat_entry m d c v (m.fat_sec + t * m.sec_per_fat + s)
      = if s = c / (m.sector_size / 2) then
          store16 (d (m.fat_sec + t * m.sec_per_fat + s)) (2 * (c % (m.sector_size / 2))) v
        else d (m.fat_sec + t * m.sec_per_fat + s) := by
  rw [write_fat_entry_apply m hg]
  unfold FatIn at hc
  by_cases h : s = c / (m.sector_size / 2)
  · rw [if_pos h, if_pos ⟨t, ht, by rw [h]⟩]
  · rw [if_neg h, if_neg]
    rintro ⟨t', _, h'⟩
    exact h (copy_sector_inj m.sec_per_fat t t' s _ hs hc (by omega)).2

theorem write_fat_entry_sync (m : FAT16) (hg : Geom m) (d : Disk) (c v : Nat)
    (hc : FatIn m c) (hsync : FatSync m d) : FatSync m (write_fat_entry m d c v) := by
  intro t ht s hs o ho
  have h0 := write_fat_entry_copy m hg d c v 0 s hc hg.fats_pos hs
  rw [Nat.zero_mul, Nat.add_zero] at h0
  rw [write_fat_entry_copy m hg d c v t s hc ht hs, h0]
  have := hsync t ht s hs
  by_cases h : s = c / (m.sector_size / 2)
  · rw [if_pos h, if_pos h]
    unfold store16
    split_ifs
    · rfl
    · rfl
    · exact this o ho
  · rw [if_neg h, if_neg h]
    exact this o ho

theorem write_fat_entry_holds (m : FAT16) (hg : Geom m) (d : Disk) (c v t : Nat)
    (hc : FatIn m c) (ht : t < m.fats) (hv : v < 65536) :
    load16 (write_fat_entry m d c v (m.fat_sec + t * m.sec_per_fat + c / (m.sector_size / 2)))
      (2 * (c % (m.sector_size / 2))) = v := by
  rw [write_fat_entry_copy m hg d c v t _ hc ht hc, if_pos rfl, load16_store16_same,
    Nat.mod_eq_of_lt hv]

theorem FatSync_congr (m : FAT16) (hg : Geom m) (d d' : Disk)
    (h : ∀ s, s < m.root_sec → d' s = d s) (hsync : FatSync m d) : FatSync m d' := by
  intro t ht s hs o ho
  have hr := hg.root_eq
  have h3 : (t + 1) * m.sec_per_fat ≤ m.fats * m.sec_per_fat := Nat.mul_le_mul_right _ (by omega)
  rw [Nat.add_mul] at h3
  have h4 : 1 * m.sec_per_fat ≤ m.fats * m.sec_per_fat :=
    Nat.mul_le_mul_right _ hg.fats_pos
  rw [h _ (by omega), h _ (by omega)]
  exact hsync t ht s hs o ho

theorem link_all_sync (m : FAT16) (hg : Geom m) : ∀ (L : List Nat) (d : Disk),
    (∀ c, c ∈ L → FatIn m c) → FatSync m d → FatSync m (link_all m d L) := by
  intro L
  induction L with
  | nil => intro d _ h; exact h
  | cons c cs ih =>
    intro d hin hsync
    cases cs with
    | nil =>
      exact write_fat_entry_sync m hg d c _ (hin c (List.mem_cons_self _ _)) hsync
    | cons c1 cs =>
      rw [link_all]
      exact ih _ (fun x hx => hin x (List.mem_cons_of_mem _ hx))
        (write_fat_entry_sync m hg d c _ (hin c (List.mem_cons_self _ _)) hsync)

/-- The function `alloc_clusters` returns, and keeps the FAT copies identical when the
clusters it hands out have their entries inside one FAT copy. -/
theorem alloc_clusters_sync (m : FAT16) (hg : Geom m) (d : Disk) (n first : Nat)
    (hin : ∀ c, c ∈ (free_list m d).take n → FatIn m c) (hsync : FatSync m d) :
    ∃ r, alloc_clusters m d n first = .ok r ∧ FatSync m r.2.2 := by
  by_cases hn : n = 0
  · refine ⟨(CLUSTER_END, first, d), ?_, hsync⟩
    unfold alloc_clusters
    rw [if_pos hn]
    rfl
  · by_cases hlen : n ≤ (free_list m d).length
    · obtain ⟨dz, hz, ha, _⟩ := alloc_clusters_free_list m hg d n first hn hlen
      refine ⟨_, ha, ?_⟩
      have hmem : ∀ c, c ∈ (free_list m d).take n → is_cluster_inuse c = true :=
        fun c hc => ((free_list_mem m d c).mp (List.mem_of_mem_take hc)).1
      obtain ⟨dz', hz', _, hout⟩ := clear_all_spec m _ d hmem
      rw [hz] at hz'
      have hdz : dz = dz' := by
        injection hz'
      subst hdz
      apply link_all_sync m hg _ _ hin
      apply FatSync_congr m hg d dz _ hsync
      intro s hs
      apply hout
      rintro ⟨c, _, h1, _⟩
      have := first_sector_ge m c
      have := hg.data_eq
      omega
    · refine ⟨(-ENOSPC, first, d), ?_, hsync⟩
      unfold alloc_clusters
      rw [if_neg hn]
      have hL : ((free_list m d).take n).length ≠ n := by
        rw [List.length_take]
        omega
      simp only [alloc_scan_free_list m d n hn, hL, ne_eq, not_false_eq_true, if_true]
      rfl

theorem EntryByte_copy (m : FAT16) (hg : Geom m) (c t s o : Nat) (hc : FatIn m c)
    (ht : t < m.fats) (hs : s < m.sec_per_fat) :
    EntryByte m c (m.fat_sec + t * m.sec_per_fat + s) o ↔ EntryByte m c (m.fat_sec + s) o := by
  unfold EntryByte
  unfold FatIn at hc
  constructor
  · rintro ⟨⟨t', ht', h⟩, ho⟩
    have := (copy_sector_inj m.sec_per_fat t t' s _ hs hc (by omega)).2
    exact ⟨⟨0, hg.fats_pos, by rw [this]; simp⟩, ho⟩
  · rintro ⟨⟨t', ht', h⟩, ho⟩
    have := (copy_sector_inj m.sec_per_fat 0 t' s _ hs hc (by omega)).2
    exact ⟨⟨t, ht, by rw [this]⟩, ho⟩

/-- The function `free_clusters` on a well-formed chain returns and keeps the FAT copies
identical. -/
theorem free_clusters_sync (m : FAT16) (hg : Geom m) (fuel : Nat) (d : Disk) (head k : Nat)
    (hc : ChainOK m d head k) (hend : is_cluster_inuse (chain_nth m d head k) = false)
    (hfuel : k < fuel) (hsync : FatSync m d) :
    ∃ d', free_clusters m fuel d head = .ok d' ∧ FatSync m d' := by
  obtain ⟨d', hf, hz, hs⟩ := free_clusters_bytes m hg k fuel d head hc hend hfuel
  refine ⟨d', hf, fun t ht s hs' o ho => ?_⟩
  by_cases hex : ∃ i, i < k ∧ EntryByte m (chain_nth m d head i) (m.fat_sec + s) o
  · obtain ⟨i, hi, he⟩ := hex
    rw [hz _ _ i hi he,
      hz _ _ i hi ((EntryByte_copy m hg _ t s o (hc.fat_in i hi) ht hs').mpr he)]
  · have hno : ∀ i, i < k → ¬ EntryByte m (chain_nth m d head i) (m.fat_sec + s) o :=
      fun i hi he => hex ⟨i, hi, he⟩
    rw [hs _ _ hno, hs _ _ (fun i hi he =>
      hno i hi ((EntryByte_copy m hg _ t s o (hc.fat_in i hi) ht hs').mp he))]
    exact hsync t ht s hs' o ho

/-! ## Termination of `free_clusters` -/

theorem FatIn_iff_lt (m : FAT16) (hg : Geom m) (c : Nat) : FatIn m c ↔ c < fat_entries m := by
  unfold FatIn fat_entries
  have h1 := hg.ss_pos
  have h2 := hg.ss_even
  have hh : 0 < m.sector_size / 2 := by omega
  exact Nat.div_lt_iff_lt_mul hh

theorem countP_succ_le (p q : Nat → Bool) : ∀ (l : List Nat),
    (∀ x, x ∈ l → q x = true → p x = true) → ∀ c, c ∈ l → p c = true → q c = false →
    l.countP q + 1 ≤ l.countP p := by
  intro l
  induction l with
  | nil => intro _ c hc; cases hc
  | cons a t ih =>
    intro hqp c hc hpc hqc
    rw [List.countP_cons, List.countP_cons]
    have hmono : t.countP q ≤ t.countP p :=
      List.countP_mono_left (fun x hx hq => hqp x (List.mem_cons_of_mem _ hx) hq) 
    rcases List.mem_cons.mp hc with h | h
    · subst h
      rw [hpc, hqc]
      simp only [if_true, Bool.false_eq_true, if_false]
      omega
    · have := ih (fun x hx => hqp x (List.mem_cons_of_mem _ hx)) c h hpc hqc
      by_cases hqa : q a = true
      · rw [hqa, hqp a (List.mem_cons_self _ _) hqa]
        simp only [if_true]
        omega
      · have hqa' : q a = false := by
          cases hb : q a with
          | true => exact absurd hb hqa
          | false => rfl
        rw [hqa']
        simp only [Bool.false_eq_true, if_false]
        omega

/-- Freeing a non-free entry inside one FAT copy lowers the number of non-free entries. -/
theorem nonfree_count_write (m : FAT16) (hg : Geom m) (d : Disk) (c : Nat) (hc : FatIn m c)
    (hne : read_fat_entry m d c ≠ CLUSTER_FREE) :
    nonfree_count m (write_fat_entry m d c CLUSTER_FREE) + 1 ≤ nonfree_count m d := by
  unfold nonfree_count
  apply countP_succ_le _ _ _ _ c (List.mem_range.mpr ((FatIn_iff_lt m hg c).mp hc))
  · simpa using hne
  · rw [read_write_fat_same m hg]
    rfl
  · intro x hx hq
    by_cases hxc : x = c
    · subst hxc
      rw [read_write_fat_same m hg] at hq
      cases hq
    · rw [read_write_fat_other m hg d c x _ hxc
        ((FatIn_iff_lt m hg x).mpr (List.mem_range.mp hx))] at hq
      exact hq

theorem free_iter_succ (m : FAT16) (k : Nat) (d : Disk) (clus : Nat)
    (h : is_cluster_inuse clus = true) :
    free_iter m (k + 1) d clus
      = free_iter m k (write_fat_entry m d clus CLUSTER_FREE) (read_fat_entry m d clus) := by
  rw [free_iter, if_pos h]

theorem free_clusters_succ (m : FAT16) (fuel : Nat) (d : Disk) (clus : Nat)
    (h : is_cluster_inuse clus = true) :
    free_clusters m (fuel + 1) d clus
      = free_clusters m fuel (write_fat_entry m d clus CLUSTER_FREE) (read_fat_entry m d clus) := by
  rw [free_clusters, if_pos h]

/-- The loop of `free_clusters` is left after at most `n + 1` executions of its body when
at most `n` entries of the FAT copy are not free and the clusters it visits have their
entries inside one FAT copy. -/
theorem free_clusters_rounds (m : FAT16) (hg : Geom m) : ∀ (n : Nat) (d : Disk) (head : Nat),
    nonfree_count m d ≤ n →
    (∀ k, k ≤ n → is_cluster_inuse (free_iter m k d head).2 = true →
      FatIn m (free_iter m k d head).2) →
    ∃ k, k ≤ n + 1 ∧ is_cluster_inuse (free_iter m k d head).2 = false
      ∧ (∀ j, j < k → is_cluster_inuse (free_iter m j d head).2 = true)
      ∧ ∀ fuel, k < fuel → free_clusters m fuel d head = .ok (free_iter m k d head).1 := by
  have hstop : ∀ (d : Disk) (head : Nat), is_cluster_inuse head = false →
      ∃ k, k ≤ 0 ∧ is_cluster_inuse (free_iter m k d head).2 = false
        ∧ (∀ j, j < k → is_cluster_inuse (free_iter m j d head).2 = true)
        ∧ ∀ fuel, k < fuel → free_clusters m fuel d head = .ok (free_iter m k d head).1 := by
    intro d head h
    refine ⟨0, le_refl _, h, fun j hj => absurd hj (Nat.not_lt_zero _), fun fuel hf => ?_⟩
    obtain ⟨f, rfl⟩ : ∃ f, fuel = f + 1 := ⟨fuel - 1, by omega⟩
    rw [free_clusters, h]
    rfl
  have hstep : ∀ (d : Disk) (head b : Nat), is_cluster_inuse head = true →
      (∃ k, k ≤ b ∧ is_cluster_inuse (free_iter m k (write_fat_entry m d head CLUSTER_FREE)
          (read_fat_entry m d head)).2 = false
        ∧ (∀ j, j < k → is_cluster_inuse (free_iter m j (write_fat_entry m d head CLUSTER_FREE)
          (read_fat_entry m d head)).2 = true)
        ∧ ∀ fuel, k < fuel →
            free_clusters m fuel (write_fat_entry m d head CLUSTER_FREE) (read_fat_entry m d head)
              = .ok (free_iter m k (write_fat_entry m d head CLUSTER_FREE)
                  (read_fat_entry m d head)).1) →
      ∃ k, k ≤ b + 1 ∧ is_cluster_inuse (free_iter m k d head).2 = false
        ∧ (∀ j, j < k → is_cluster_inuse (free_iter m j d head).2 = true)
        ∧ ∀ fuel, k < fuel → free_clusters m fuel d head = .ok (free_iter m k d head).1 := by
    intro d head b hin ⟨k, hk, h1, h2, h3⟩
    refine ⟨k + 1, by omega, ?_, fun j hj => ?_, fun fuel hf => ?_⟩
    · rw [free_iter_succ m k d head hin]
      exact h1
    · cases j with
      | zero => exact hin
      | succ j =>
        rw [free_iter_succ m j d head hin]
        exact h2 j (by omega)
    · obtain ⟨f, rfl⟩ : ∃ f, fuel = f + 1 := ⟨fuel - 1, by omega⟩
      rw [free_clusters_succ m f d head hin, free_iter_succ m k d head hin]
      exact h3 f (by omega)
  intro n
  induction n with
  | zero =>
    intro d head hcount hvis
    by_cases hin : is_cluster_inuse head = true
    · have hfat : FatIn m head := hvis 0 (le_refl _) hin
      by_cases hnext : is_cluster_inuse (read_fat_entry m d head) = true
      · exfalso
        have hne : read_fat_entry m d head ≠ CLUSTER_FREE := by
          intro h0
          rw [h0] at hnext
          cases hnext
        have := nonfree_count_write m hg d head hfat hne
        omega
      · have hnext' : is_cluster_inuse (read_fat_entry m d head) = false := by
          cases hb : is_cluster_inuse (read_fat_entry m d head) with
          | true => exact absurd hb hnext
          | false => rfl
        exact hstep d head 0 hin (hstop _ _ hnext')
    · have hin' : is_cluster_inuse head = false := by
        cases hb : is_cluster_inuse head with
        | true => exact absurd hb hin
        | false => rfl
      obtain ⟨k, hk, h⟩ := hstop d head hin'
      exact ⟨k, by omega, h⟩
  | succ n ih =>
    intro d head hcount hvis
    by_cases hin : is_cluster_inuse head = true
    · have hfat : FatIn m head := hvis 0 (Nat.zero_le _) hin
      by_cases hnext : is_cluster_inuse (read_fat_entry m d head) = true
      · have hne : read_fat_entry m d head ≠ CLUSTER_FREE := by
          intro h0
          rw [h0] at hnext
          cases hnext
        have hdec := nonfree_count_write m hg d head hfat hne
        apply hstep d head (n + 1) hin
        apply ih _ _ (by omega)
        intro k hk hk2
        rw [← free_iter_succ m k d head hin] at hk2 ⊢
        exact hvis (k + 1) (by omega) hk2
      · have hnext' : is_cluster_inuse (read_fat_entry m d head) = false := by
          cases hb : is_cluster_inuse (read_fat_entry m d head) with
          | true => exact absurd hb hnext
          | false => rfl
        obtain ⟨k, hk, h⟩ := hstep d head 0 hin (hstop _ _ hnext')
        exact ⟨k, by omega, h⟩
    · have hin' : is_cluster_inuse head = false := by
        cases hb : is_cluster_inuse head with
        | true => exact absurd hb hin
        | false => rfl
      obtain ⟨k, hk, h⟩ := hstop d head hin'
      exact ⟨k, by omega, h⟩

/-! ## The clusters that `alloc_clusters` selects -/

/-- In an increasing list with at least `n` elements below `B`, the first `n` elements are
below `B`. -/
theorem take_lt_of_filter (B : Nat) : ∀ (l : List Nat) (n : Nat), l.Pairwise (· < ·) →
    n ≤ (l.filter (fun c => decide (c < B))).length → ∀ c, c ∈ l.take n → c < B := by
  intro l
  induction l with
  | nil => intro n _ _ c hc; simp at hc
  | cons a t ih =>
    intro n hs hn c hc
    cases n with
    | zero => simp at hc
    | succ n =>
      rw [List.take_succ_cons] at hc
      have hs' := List.pairwise_cons.mp hs
      by_cases ha : a < B
      · rcases List.mem_cons.mp hc with h | h
        · rw [h]; exact ha
        · apply ih n hs'.2 _ c h
          rw [List.filter_cons_of_pos (by simpa using ha)] at hn
          simp only [List.length_cons] at hn
          omega
      · exfalso
        have hnil : (a :: t).filter (fun c => decide (c < B)) = [] := by
          rw [List.filter_eq_nil_iff]
          intro x hx
          rcases List.mem_cons.mp hx with h | h
          · rw [h]; simpa using ha
          · have := hs'.1 x h
            simp only [decide_eq_true_eq]
            omega
        rw [hnil] at hn
        simp at hn

/-- The scan of `alloc_clusters` stays inside the volume when at least `n` cluster numbers
of the volume read as free. -/
theorem alloc_scan_inside (m : FAT16) (hg : Geom m) (d : Disk) (n : Nat) (hn : n ≠ 0)
    (hcl : m.clusters = (m.sectors - m.data_sec) / m.sec_per_clus)
    (hds : m.data_sec ≤ m.sectors) (hfat : m.clusters + 2 ≤ fat_entries m)
    (hfree : n ≤ ((free_list m d).filter (fun c => decide (c < m.clusters + 2))).length) :
    ∀ c, c ∈ alloc_scan m d n (CLUSTER_MAX + 1 - CLUSTER_MIN) CLUSTER_MIN [] →
      CLUSTER_MIN ≤ c ∧ c < m.clusters + 2
      ∧ first_sector m c + m.sec_per_clus ≤ m.sectors
      ∧ m.fat_sec + c / (m.sector_size / 2) < m.fat_sec + m.sec_per_fat := by
  intro c hc
  rw [alloc_scan_free_list m d n hn] at hc
  have hlt := take_lt_of_filter (m.clusters + 2) _ n (free_list_sorted m d) hfree c hc
  have hmin := (inuse_ge c ((free_list_mem m d c).mp (List.mem_of_mem_take hc)).1).1
  refine ⟨hmin, hlt, ?_, ?_⟩
  · unfold first_sector
    have h1 : m.clusters * m.sec_per_clus ≤ m.sectors - m.data_sec := by
      rw [hcl]
      exact Nat.div_mul_le_self _ _
    have h2 : (c - 2 + 1) * m.sec_per_clus ≤ m.clusters * m.sec_per_clus :=
      Nat.mul_le_mul_right _ (by omega)
    rw [Nat.add_mul, Nat.one_mul] at h2
    omega
  · have := (FatIn_iff_lt m hg c).mpr (by omega)
    unfold FatIn at this
    omega

/-- A list of distinct free clusters below `B` is no longer than the part of `free_list`
below `B`. -/
theorem free_list_below_length_ge (m : FAT16) (d : Disk) (B : Nat) (F : List Nat) (hF : F.Nodup)
    (h : ∀ c, c ∈ F → is_cluster_inuse c = true ∧ read_fat_entry m d c = CLUSTER_FREE ∧ c < B) :
    F.length ≤ ((free_list m d).filter (fun c => decide (c < B))).length :=
  (List.Nodup.subperm hF (fun c hc => List.mem_filter.mpr
    ⟨(free_list_mem m d c).mpr ⟨(h c hc).1, (h c hc).2.1⟩, by simpa using (h c hc).2.2⟩)).length_le

/-! ## Directory prefix invariant: preservation and resolution -/

theorem scan_slots_mem (m : FAT16) (from_sector : Nat) : ∀ (k i : Nat) (p : Nat × Nat),
    p ∈ scan_slots m from_sector k i
      ↔ from_sector + i ≤ p.1 ∧ p.1 < from_sector + i + k ∧ p.2 ∈ dir_offsets m := by
  intro k
  induction k with
  | zero =>
    intro i p
    simp only [scan_slots, List.not_mem_nil, false_iff]
    omega
  | succ k ih =>
    intro i p
    simp only [scan_slots, List.mem_append, List.mem_map, ih]
    constructor
    · rintro (⟨off, hoff, rfl⟩ | ⟨h1, h2, h3⟩)
      · exact ⟨le_refl _, by omega, hoff⟩
      · exact ⟨by omega, by omega, h3⟩
    · rintro ⟨h1, h2, h3⟩
      by_cases h : p.1 = from_sector + i
      · exact Or.inl ⟨p.2, h3, by rw [← h]⟩
      · exact Or.inr ⟨by omega, by omega, h3⟩

theorem dir_offsets_nodup (m : FAT16) : (dir_offsets m).Nodup :=
  (dir_offsets_pairwise m).imp (fun h => Nat.ne_of_lt h)

theorem scan_slots_nodup (m : FAT16) (from_sector : Nat) : ∀ (k i : Nat),
    (scan_slots m from_sector k i).Nodup := by
  intro k
  induction k with
  | zero => intro i; exact List.nodup_nil
  | succ k ih =>
    intro i
    simp only [scan_slots]
    rw [List.nodup_append]
    refine ⟨?_, ih (i + 1), ?_⟩
    · exact (dir_offsets_nodup m).map (fun a b h => by simpa using h)
    · intro p hp1 hp2
      rw [List.mem_map] at hp1
      obtain ⟨off, _, rfl⟩ := hp1
      rw [scan_slots_mem] at hp2
      simp only at hp2
      omega

theorem root_slots_mem (m : FAT16) (p : Nat × Nat) :
    p ∈ root_slots m ↔ m.root_sec ≤ p.1 ∧ p.1 < m.root_sec + m.root_sectors
      ∧ p.2 ∈ dir_offsets m := by
  unfold root_slots
  rw [scan_slots_mem]
  simp only [Nat.add_zero]

theorem clus_slots_mem (m : FAT16) (c : Nat) (p : Nat × Nat) :
    p ∈ clus_slots m c ↔ first_sector m c ≤ p.1 ∧ p.1 < first_sector m c + m.sec_per_clus
      ∧ p.2 ∈ dir_offsets m := by
  unfold clus_slots
  rw [scan_slots_mem]
  simp only [Nat.add_zero]

theorem chain_slots_mem (m : FAT16) (d : Disk) (h : Nat) : ∀ (n : Nat) (p : Nat × Nat),
    p ∈ chain_slots m d h n ↔ ∃ j, j < n ∧ p ∈ clus_slots m (chain_nth m d h j) := by
  intro n
  induction n with
  | zero => intro p; simp [chain_slots]
  | succ n ih =>
    intro p
    simp only [chain_slots, List.mem_append, ih]
    constructor
    · rintro (⟨j, hj, hp⟩ | hp)
      · exact ⟨j, by omega, hp⟩
      · exact ⟨n, by omega, hp⟩
    · rintro ⟨j, hj, hp⟩
      by_cases hjn : j = n
      · subst hjn; exact Or.inr hp
      · exact Or.inl ⟨j, by omega, hp⟩

theorem chain_slots_init (m : FAT16) (d : Disk) (h : Nat) (n : Nat) : ∀ (k : Nat),
    ∃ R, chain_slots m d h (n + k) = chain_slots m d h n ++ R := by
  intro k
  induction k with
  | zero => exact ⟨[], by simp⟩
  | succ k ih =>
    obtain ⟨R, hR⟩ := ih
    refine ⟨R ++ clus_slots m (chain_nth m d h (n + k)), ?_⟩
    rw [← Nat.add_assoc, chain_slots, hR, List.append_assoc]

theorem Walk_mono (m : FAT16) (d : Disk) (h n k : Nat) (hw : Walk m d h n) (hk : k ≤ n) :
    Walk m d h k := fun j hj => hw j (by omega)

theorem chain_slots_congr (m : FAT16) (d d' : Disk) (h : Nat) : ∀ (n : Nat),
    (∀ j, j < n → chain_nth m d' h j = chain_nth m d h j) →
    chain_slots m d' h n = chain_slots m d h n := by
  intro n
  induction n with
  | zero => intro _; rfl
  | succ n ih =>
    intro hj
    simp only [chain_slots]
    rw [ih (fun j hjn => hj j (by omega)), hj n (by omega)]

theorem root_slot_sector (m : FAT16) (p : Nat × Nat) (hp : p ∈ root_slots m) :
    m.root_sec ≤ p.1 ∧ p.1 < m.root_sec + m.root_sectors ∧ p.2 % DIR_ENTRY_SIZE = 0 := by
  rw [root_slots_mem] at hp
  exact ⟨hp.1, hp.2.1, dir_offsets_mod m _ hp.2.2⟩

theorem chain_slot_sector (m : FAT16) (hg : Geom m) (d : Disk) (h n : Nat) (p : Nat × Nat)
    (hp : p ∈ chain_slots m d h n) :
    m.data_sec ≤ p.1 ∧ m.root_sec ≤ p.1 ∧ p.2 % DIR_ENTRY_SIZE = 0 := by
  rw [chain_slots_mem] at hp
  obtain ⟨j, _, hp⟩ := hp
  rw [clus_slots_mem] at hp
  have h1 := first_sector_ge m (chain_nth m d h j)
  have h2 := first_sector_ge_root m hg (chain_nth m d h j)
  exact ⟨by omega, by omega, dir_offsets_mod m _ hp.2.2⟩

/-- Two clusters that share a sector are equal. -/
theorem cluster_of_sector (m : FAT16) (c1 c2 s : Nat) (h1 : is_cluster_inuse c1 = true)
    (h2 : is_cluster_inuse c2 = true) (hs1 : first_sector m c1 ≤ s)
    (hs1' : s < first_sector m c1 + m.sec_per_clus) (hs2 : first_sector m c2 ≤ s)
    (hs2' : s < first_sector m c2 + m.sec_per_clus) : c1 = c2 := by
  by_contra hne
  have := first_sector_disjoint m c1 c2 (s - first_sector m c1) (s - first_sector m c2)
    (inuse_ge c1 h1).1 (inuse_ge c2 h2).1 hne (by omega) (by omega)
  omega

theorem Reach_mono (m : FAT16) (d : Disk) (l1 l2 : DIR_ENTRY → Bool)
    (hl : ∀ e, l1 e = true → l2 e = true) (h : Nat) (hr : Reach m d l1 h) : Reach m d l2 h := by
  induction hr with
  | root p hp hl1 => exact Reach.root p hp (hl _ hl1)
  | sub h n p _ hw hp hl1 ih => exact Reach.sub h n p ih hw hp (hl _ hl1)

theorem dir_valid_link (e : DIR_ENTRY) (h : dir_valid e = true) : dir_link e = true := by
  unfold dir_valid is_valid at h
  unfold dir_link is_deleted
  simp only [Bool.and_eq_true, Bool.not_eq_true', bne_iff_ne, ne_eq] at h
  simp only [Bool.and_eq_true, Bool.not_eq_true', beq_eq_false_iff_ne, ne_eq]
  exact ⟨⟨h.1.1.1, h.1.1.2⟩, h.2⟩

/-- The predicates on a directory entry read its first 32 bytes only. -/
theorem entry_pred_congr (e1 e2 : DIR_ENTRY) (h : ∀ i, i < 32 → e1 i = e2 i) :
    never_used e1 = never_used e2 ∧ is_valid e1 = is_valid e2 ∧ dir_valid e1 = dir_valid e2
    ∧ dir_link e1 = dir_link e2 ∧ DIR_FstClusLO e1 = DIR_FstClusLO e2 := by
  have h0 := h 0 (by omega)
  have h11 := h 11 (by omega)
  have h26 := h 26 (by omega)
  have h27 := h 27 (by omega)
  simp only [never_used, is_valid, dir_valid, dir_link, DIR_FstClusLO, is_free, is_deleted,
    DIR_Attr, DIR_Name, load16, h0, h11, h26, h27, and_self]

/-- Bytes of the slots of a disk after `dir_entry_write`. -/
theorem slot_entry_write (d : Disk) (s : DirEntrySlot) (hO : s.offset % DIR_ENTRY_SIZE = 0) :
    (∀ i, i < 32 → slot_entry (dir_entry_write d s) (s.sector, s.offset) i = s.dir i)
    ∧ ∀ p : Nat × Nat, p.2 % DIR_ENTRY_SIZE = 0 → p ≠ (s.sector, s.offset) →
        slot_entry (dir_entry_write d s) p = slot_entry d p := by
  constructor
  · intro i hi
    exact dir_entry_write_entry d s i hi
  · intro p hp hne
    unfold slot_entry
    by_cases hs : p.1 = s.sector
    · have ho : p.2 ≠ s.offset := by
        intro ho
        exact hne (Prod.ext hs ho)
      funext i
      simp only [entry_at, DIR_ENTRY_SIZE] at hp hO ⊢
      by_cases hi : i < 32
      · rw [if_pos hi, if_pos hi, hs, dir_entry_write_sector, if_neg (by omega)]
      · rw [if_neg hi, if_neg hi]
    · rw [dir_entry_write_other d s p.1 hs]

theorem PrefixIn_congr (d d' : Disk) (L : List (Nat × Nat))
    (h : ∀ p, p ∈ L → slot_entry d' p = slot_entry d p) (hp : PrefixIn d L) : PrefixIn d' L := by
  unfold PrefixIn at hp ⊢
  refine hp.imp_of_mem ?_
  intro a b ha hb hab
  rw [h a ha, h b hb]
  exact hab

/-- An entry that is turned into one that is neither in use nor never-used keeps the
prefix property of every list of slots. -/
theorem PrefixIn_tomb (d d' : Disk) (L : List (Nat × Nat)) (q : Nat × Nat)
    (h : ∀ p, p ∈ L → p ≠ q → slot_entry d' p = slot_entry d p)
    (hv : is_valid (slot_entry d' q) = false) (hn : never_used (slot_entry d' q) = false)
    (hp : PrefixIn d L) : PrefixIn d' L := by
  unfold PrefixIn at hp ⊢
  refine hp.imp_of_mem ?_
  intro a b ha hb hab hna
  by_cases hbq : b = q
  · rw [hbq]; exact hv
  · by_cases haq : a = q
    · rw [haq, hn] at hna
      exact absurd hna (by decide)
    · rw [h b hb hbq]
      rw [h a ha haq] at hna
      exact hab hna

/-- An entry written over the first never-used slot of a list keeps the prefix property,
when the new entry is not never-used. -/
theorem PrefixIn_create (d d' : Disk) (L1 L2 : List (Nat × Nat)) (q : Nat × Nat)
    (h1 : ∀ p, p ∈ L1 → slot_entry d' p = slot_entry d p)
    (h2 : ∀ p, p ∈ L2 → slot_entry d' p = slot_entry d p)
    (hfirst : ∀ a, a ∈ L1 → never_used (slot_entry d a) = false)
    (hn : never_used (slot_entry d' q) = false)
    (hp : PrefixIn d (L1 ++ q :: L2)) : PrefixIn d' (L1 ++ q :: L2) := by
  unfold PrefixIn at hp ⊢
  rw [List.pairwise_append] at hp ⊢
  obtain ⟨hp1, hp2, _⟩ := hp
  rw [List.pairwise_cons] at hp2 ⊢
  refine ⟨?_, ⟨?_, ?_⟩, ?_⟩
  · exact PrefixIn_congr d d' L1 h1 hp1
  · intro b _ hna
    rw [hn] at hna
    exact absurd hna (by decide)
  · exact PrefixIn_congr d d' L2 h2 hp2.2
  · intro a ha b _ hna
    rw [h1 a ha, hfirst a ha] at hna
    exact absurd hna (by decide)

theorem PrefixIn_init (d : Disk) (L R : List (Nat × Nat)) (hp : PrefixIn d (L ++ R)) :
    PrefixIn d L := by
  unfold PrefixIn at hp ⊢
  exact (List.pairwise_append.mp hp).1

theorem find_entry_in_buffer_split (u : Uninit) (name : List Nat) (len : Nat) (b : Sector)
    (sec : Nat) : ∀ (offs : List Nat) (st : Int) (sl : DirEntrySlot),
    find_entry_in_buffer u name len b sec offs = some (st, sl) →
    ∃ as bs, offs = as ++ sl.offset :: bs
      ∧ (∀ o, o ∈ as → never_used (entry_at b o) = false)
      ∧ sl.sector = sec ∧ sl.dir = entry_at b sl.offset ∧ is_lfn (DIR_Attr sl.dir) = false
      ∧ ((st = FIND_EXIST ∧ is_deleted sl.dir = false ∧ check_name u name len sl.dir = true)
        ∨ (st = FIND_EMPTY ∧ is_free sl.dir = true)) := by
  intro offs
  induction offs with
  | nil => intro st sl h; simp [find_entry_in_buffer] at h
  | cons off offs ih =>
    intro st sl h
    unfold find_entry_in_buffer at h
    simp only [] at h
    by_cases hl : is_lfn (DIR_Attr (entry_at b off)) = true
    · rw [if_pos hl] at h
      obtain ⟨as, bs, h1, h2, h3⟩ := ih st sl h
      refine ⟨off :: as, bs, by rw [h1]; rfl, ?_, h3⟩
      intro o ho
      rcases List.mem_cons.mp ho with rfl | ho
      · simp [never_used, hl]
      · exact h2 o ho
    · rw [if_neg hl] at h
      have hl' : is_lfn (DIR_Attr (entry_at b off)) = false := by simpa using hl
      by_cases hm : (!is_deleted (entry_at b off) && check_name u name len (entry_at b off)) = true
      · rw [if_pos hm] at h
        simp only [Option.some.injEq, Prod.mk.injEq] at h
        obtain ⟨rfl, rfl⟩ := h
        simp only [Bool.and_eq_true, Bool.not_eq_true'] at hm
        exact ⟨[], offs, rfl, fun o ho => absurd ho (List.not_mem_nil o), rfl, rfl, hl', Or.inl ⟨rfl, hm.1, hm.2⟩⟩
      · rw [if_neg hm] at h
        by_cases hf : is_free (entry_at b off) = true
        · rw [if_pos hf] at h
          simp only [Option.some.injEq, Prod.mk.injEq] at h
          obtain ⟨rfl, rfl⟩ := h
          exact ⟨[], offs, rfl, fun o ho => absurd ho (List.not_mem_nil o), rfl, rfl, hl', Or.inr ⟨rfl, hf⟩⟩
        · rw [if_neg hf] at h
          obtain ⟨as, bs, h1, h2, h3⟩ := ih st sl h
          refine ⟨off :: as, bs, by rw [h1]; rfl, ?_, h3⟩
          intro o ho
          rcases List.mem_cons.mp ho with rfl | ho
          · simp only [never_used, Bool.and_eq_false_imp]
            intro _
            simpa using hf
          · exact h2 o ho

theorem find_entry_in_buffer_none (u : Uninit) (name : List Nat) (len : Nat) (b : Sector)
    (sec : Nat) : ∀ (offs : List Nat),
    find_entry_in_buffer u name len b sec offs = none →
    ∀ o, o ∈ offs → never_used (entry_at b o) = false := by
  intro offs
  induction offs with
  | nil => intro _ o ho; cases ho
  | cons off offs ih =>
    intro h
    unfold find_entry_in_buffer at h
    simp only [] at h
    by_cases hl : is_lfn (DIR_Attr (entry_at b off)) = true
    · rw [if_pos hl] at h
      intro o ho
      rcases List.mem_cons.mp ho with rfl | ho
      · simp [never_used, hl]
      · exact ih h o ho
    · rw [if_neg hl] at h
      by_cases hm : (!is_deleted (entry_at b off) && check_name u name len (entry_at b off)) = true
      · rw [if_pos hm] at h
        cases h
      · rw [if_neg hm] at h
        by_cases hf : is_free (entry_at b off) = true
        · rw [if_pos hf] at h
          cases h
        · rw [if_neg hf] at h
          intro o ho
          rcases List.mem_cons.mp ho with rfl | ho
          · simp only [never_used, Bool.and_eq_false_imp]
            intro _
            simpa using hf
          · exact ih h o ho

theorem find_entry_in_sectors_loop_split (m : FAT16) (d : Disk) (u : Uninit) (name : List Nat)
    (len from_sector : Nat) : ∀ (k i : Nat) (st : Int) (sl : DirEntrySlot),
    find_entry_in_sectors_loop m d u name len from_sector k i = some (st, sl) →
    ScanStop d u name len (scan_slots m from_sector k i) st sl := by
  intro k
  induction k with
  | zero => intro i st sl h; simp [find_entry_in_sectors_loop] at h
  | succ k ih =>
    intro i st sl h
    unfold find_entry_in_sectors_loop at h
    simp only [sector_read] at h
    cases hb : find_entry_in_buffer u name len (d (from_sector + i)) (from_sector + i)
        (dir_offsets m) with
    | some r =>
      rw [hb] at h
      simp only [Option.some.injEq] at h
      subst h
      obtain ⟨as, bs, h1, h2, h3, h4, h5, h6⟩ :=
        find_entry_in_buffer_split u name len _ _ _ st sl hb
      refine ⟨as.map (fun o => (from_sector + i, o)),
        bs.map (fun o => (from_sector + i, o)) ++ scan_slots m from_sector k (i + 1), ?_, ?_, ?_,
        h5, h6⟩
      · simp only [scan_slots]
        rw [h1, List.map_append, List.map_cons, h3, List.append_assoc]
        rfl
      · intro a ha
        rw [List.mem_map] at ha
        obtain ⟨o, ho, rfl⟩ := ha
        exact h2 o ho
      · rw [h4, h3]
        rfl
    | none =>
      rw [hb] at h
      obtain ⟨as, bs, h1, h2, h3⟩ := ih (i + 1) st sl h
      refine ⟨(dir_offsets m).map (fun o => (from_sector + i, o)) ++ as, bs, ?_, ?_, h3⟩
      · simp only [scan_slots]
        rw [h1, List.append_assoc]
      · intro a ha
        rcases List.mem_append.mp ha with ha | ha
        · rw [List.mem_map] at ha
          obtain ⟨o, ho, rfl⟩ := ha
          exact find_entry_in_buffer_none u name len _ _ _ hb o ho
        · exact h2 a ha

theorem find_entry_in_sectors_loop_none (m : FAT16) (d : Disk) (u : Uninit) (name : List Nat)
    (len from_sector : Nat) : ∀ (k i : Nat),
    find_entry_in_sectors_loop m d u name len from_sector k i = none →
    ∀ a, a ∈ scan_slots m from_sector k i → never_used (slot_entry d a) = false := by
  intro k
  induction k with
  | zero => intro i _ a ha; simp [scan_slots] at ha
  | succ k ih =>
    intro i h
    unfold find_entry_in_sectors_loop at h
    simp only [sector_read] at h
    cases hb : find_entry_in_buffer u name len (d (from_sector + i)) (from_sector + i)
        (dir_offsets m) with
    | some r => rw [hb] at h; cases h
    | none =>
      rw [hb] at h
      intro a ha
      simp only [scan_slots] at ha
      rcases List.mem_append.mp ha with ha | ha
      · rw [List.mem_map] at ha
        obtain ⟨o, ho, rfl⟩ := ha
        exact find_entry_in_buffer_none u name len _ _ _ hb o ho
      · exact ih (i + 1) h a ha

theorem chain_slots_shift (m : FAT16) (d : Disk) (h : Nat) : ∀ (n : Nat),
    chain_slots m d h (n + 1) = clus_slots m h ++ chain_slots m d (read_fat_entry m d h) n := by
  intro n
  induction n with
  | zero => simp [chain_slots, chain_nth]
  | succ n ih =>
    rw [chain_slots, ih, chain_slots, chain_nth_shift, List.append_assoc]

theorem Walk_shift (m : FAT16) (d : Disk) (h n : Nat) (hin : is_cluster_inuse h = true)
    (hw : Walk m d (read_fat_entry m d h) n) : Walk m d h (n + 1) := by
  intro j hj
  cases j with
  | zero => exact hin
  | succ j =>
    rw [chain_nth_shift]
    exact hw j (by omega)

/-- What the cluster loop of `find_entry_internal` has seen when it ends: either every
cluster of the chain, none of which holds a never-used slot, or the slots before the one it
stops at. -/
theorem find_entry_chain_scan (m : FAT16) (d : Disk) (u : Uninit) (name : List Nat) (len : Nat) :
    ∀ (fuel clus : Nat) (state : Int) (slot : DirEntrySlot) (r : Bool) (st : Int)
      (s : DirEntrySlot) (c : Nat),
    find_entry_chain m d u name len fuel clus state slot = .ok (r, st, s, c) →
    r = false ∧
    ((s = slot ∧ (st = state ∨ st = FIND_FULL) ∧ ∃ K, Walk m d clus K
        ∧ is_cluster_inuse (chain_nth m d clus K) = false
        ∧ ∀ a, a ∈ chain_slots m d clus K → never_used (slot_entry d a) = false)
      ∨ ∃ K, Walk m d clus (K + 1) ∧ ScanStop d u name len (chain_slots m d clus (K + 1)) st s)
    := by
  intro fuel
  induction fuel with
  | zero => intro clus state slot r st s c h; simp [find_entry_chain] at h
  | succ fuel ih =>
    intro clus state slot r st s c h
    rw [find_entry_chain_succ] at h
    by_cases hin : is_cluster_inuse clus = true
    · rw [if_pos hin] at h
      cases hl : find_entry_in_sectors_loop m d u name len (first_sector m clus)
          m.sec_per_clus 0 with
      | some x =>
        rw [hl] at h
        simp only [Except.ok.injEq, Prod.mk.injEq] at h
        obtain ⟨rfl, rfl, rfl, rfl⟩ := h
        refine ⟨rfl, Or.inr ⟨0, ?_, ?_⟩⟩
        · intro j hj
          have : j = 0 := by omega
          subst this
          exact hin
        · have := find_entry_in_sectors_loop_split m d u name len _ _ 0 x.1 x.2 hl
          simpa [chain_slots, chain_nth, clus_slots] using this
      | none =>
        rw [hl] at h
        simp only [] at h
        obtain ⟨hr, hcase⟩ := ih _ _ _ _ _ _ _ h
        have hnone := find_entry_in_sectors_loop_none m d u name len _ _ 0 hl
        refine ⟨hr, ?_⟩
        rcases hcase with ⟨hs, hst, K, hw, hend, hno⟩ | ⟨K, hw, as, bs, h1, h2, h3⟩
        · refine Or.inl ⟨hs, Or.inr (by rcases hst with h | h <;> exact h), K + 1,
            Walk_shift m d clus K hin hw, by rw [chain_nth_shift]; exact hend, ?_⟩
          intro a ha
          rw [chain_slots_shift] at ha
          rcases List.mem_append.mp ha with ha | ha
          · exact hnone a ha
          · exact hno a ha
        · refine Or.inr ⟨K + 1, Walk_shift m d clus (K + 1) hin hw, clus_slots m clus ++ as, bs,
            ?_, ?_, h3⟩
          · rw [chain_slots_shift, h1, List.append_assoc]
          · intro a ha
            rcases List.mem_append.mp ha with ha | ha
            · exact hnone a ha
            · exact h2 a ha
    · rw [if_neg hin] at h
      simp only [Except.ok.injEq, Prod.mk.injEq] at h
      obtain ⟨rfl, rfl, rfl, rfl⟩ := h
      refine ⟨rfl, Or.inl ⟨rfl, Or.inl rfl, 0, fun j hj => by omega, by simpa using hin, ?_⟩⟩
      intro a ha
      simp [chain_slots] at ha

theorem ScanStop_mem (d : Disk) (u : Uninit) (name : List Nat) (len : Nat)
    (L : List (Nat × Nat)) (st : Int) (sl : DirEntrySlot) (h : ScanStop d u name len L st sl) :
    (sl.sector, sl.offset) ∈ L := by
  obtain ⟨as, bs, h1, _⟩ := h
  rw [h1]
  simp

/-- The slot that `find_entry_internal` returns with the state `FIND_EMPTY` is the first
never-used slot of the root region or of the chain of a directory entry on the path. -/
theorem find_entry_loop_first_free (m : FAT16) (d : Disk) (u : Uninit) :
    ∀ (fuel : Nat) (remains : List Nat) (level clus : Nat) (slot : DirEntrySlot) (ret : Int)
      (s : DirEntrySlot) (rem : List Nat),
    (level ≠ 0 → Reach m d dir_link clus ∧ clus = DIR_FstClusLO slot.dir) →
    find_entry_loop m d u fuel remains level clus FIND_EXIST slot = .ok (ret, s, rem) →
    0 < ret → ret ≠ FIND_FULL →
    FirstFree m d (s.sector, s.offset) ∧ s.dir = slot_entry d (s.sector, s.offset)
      ∧ is_free s.dir = true ∧ is_lfn (DIR_Attr s.dir) = false := by
  intro fuel
  induction fuel with
  | zero => intro remains level clus slot ret s rem _ h; simp [find_entry_loop] at h
  | succ fuel ih =>
    intro remains level clus slot ret s rem hpre h hpos hnf
    rw [find_entry_loop_succ] at h
    by_cases hrem : remains = []
    · rw [if_neg (by simp [hrem])] at h
      simp only [Except.ok.injEq, Prod.mk.injEq] at h
      rw [← h.1] at hpos
      exact absurd hpos (by decide)
    · rw [if_pos ⟨hrem, rfl⟩] at h
      -- the continuation after a component was found
      have hfin : ∀ (s1 : DirEntrySlot) (c1 : Nat),
          Reach m d dir_link (DIR_FstClusLO s1.dir) ∨
            (is_directory (DIR_Attr s1.dir) = true → Reach m d dir_link (DIR_FstClusLO s1.dir)) →
          find_entry_finish m d u fuel remains level c1 FIND_EXIST s1 = .ok (ret, s, rem) →
          FirstFree m d (s.sector, s.offset) ∧ s.dir = slot_entry d (s.sector, s.offset)
            ∧ is_free s.dir = true ∧ is_lfn (DIR_Attr s.dir) = false := by
        intro s1 c1 hreach hf
        unfold find_entry_finish at hf
        simp only [if_true] at hf
        by_cases hnext : skip_slashes (remains.drop (strcspn_slash remains)) = []
        · rw [if_neg (by simp [hnext]), hnext] at hf
          have := (find_entry_loop_stop_inv m d u fuel [] (level + 1) _ FIND_EXIST s1
            (Or.inl rfl) _ hf).1
          simp only [Prod.mk.injEq] at this
          rw [this.1] at hpos
          exact absurd hpos (by decide)
        · by_cases hdir : is_directory (DIR_Attr s1.dir) = false
          · rw [if_pos ⟨hnext, hdir⟩] at hf
            simp only [Except.ok.injEq, Prod.mk.injEq] at hf
            rw [← hf.1] at hpos
            exact absurd hpos (by decide)
          · rw [if_neg (by simp [hdir])] at hf
            have hd : is_directory (DIR_Attr s1.dir) = true := by simpa using hdir
            have hr : Reach m d dir_link (DIR_FstClusLO s1.dir) := by
              rcases hreach with h | h
              · exact h
              · exact h hd
            exact ih _ _ _ _ _ _ _ (fun _ => ⟨hr, rfl⟩) hf hpos hnf
      by_cases hlev : level = 0
      · rw [if_pos hlev] at h
        unfold find_entry_in_sectors at h
        cases hl : find_entry_in_sectors_loop m d u remains (strcspn_slash remains) m.root_sec
            m.root_sectors 0 with
        | none =>
          rw [hl] at h
          simp only [] at h
          rw [if_pos (by decide)] at h
          simp only [Except.ok.injEq, Prod.mk.injEq] at h
          exact absurd h.1.symm hnf
        | some x =>
          rw [hl] at h
          simp only [] at h
          have hss := find_entry_in_sectors_loop_split m d u remains _ _ _ 0 x.1 x.2 hl
          obtain ⟨as, bs, h1, h2, h3, h4, h5⟩ := hss
          by_cases hx : x.1 = FIND_EXIST
          · rw [if_neg (by simp [hx]), hx] at h
            refine hfin x.2 clus (Or.inr ?_) h
            intro hd
            rcases h5 with ⟨_, h6, _⟩ | ⟨h6, _⟩
            · have := @Reach.root m d dir_link (x.2.sector, x.2.offset)
                (by unfold root_slots; rw [h1]; simp)
                (by rw [← h3]; simp [dir_link, h4, h6, hd])
              rw [← h3] at this
              exact this
            · rw [hx] at h6
              exact absurd h6 (by decide)
          · rw [if_pos hx] at h
            simp only [Except.ok.injEq, Prod.mk.injEq] at h
            obtain ⟨rfl, rfl, rfl⟩ := h
            rcases h5 with ⟨h6, _⟩ | ⟨_, h6⟩
            · exact absurd h6 hx
            · exact ⟨Or.inl ⟨as, bs, h1, h2⟩, h3, h6, h4⟩
      · rw [if_neg hlev] at h
        cases hc : find_entry_chain m d u remains (strcspn_slash remains) fuel clus FIND_EXIST
            slot with
        | error e => rw [hc] at h; cases h
        | ok x =>
          obtain ⟨returned, st, s1, c1⟩ := x
          rw [hc] at h
          simp only [] at h
          obtain ⟨hret, hcase⟩ := find_entry_chain_scan m d u remains _ fuel clus FIND_EXIST slot
            returned st s1 c1 hc
          subst hret
          simp only [Bool.false_eq_true, if_false] at h
          obtain ⟨hreach, hclus⟩ := hpre hlev
          by_cases hst : st = FIND_EXIST
          · subst hst
            refine hfin s1 c1 ?_ h
            rcases hcase with ⟨hs, _, _⟩ | ⟨K, hw, as, bs, h1, h2, h3, h4, h5⟩
            · left
              rw [hs, ← hclus]
              exact hreach
            · right
              intro hd
              rcases h5 with ⟨_, h6, _⟩ | ⟨h6, _⟩
              · have := @Reach.sub m d dir_link clus (K + 1)
                  (s1.sector, s1.offset) hreach hw (by rw [h1]; simp)
                  (by rw [← h3]; simp [dir_link, h4, h6, hd])
                rw [← h3] at this
                exact this
              · exact absurd h6 (by decide)
          · unfold find_entry_finish at h
            simp only [if_neg hst] at h
            by_cases hnext : skip_slashes (remains.drop (strcspn_slash remains)) = []
            · rw [if_neg (by simp [hnext])] at h
              have := (find_entry_loop_stop_inv m d u fuel remains level c1 st s1
                (Or.inr hst) _ h).1
              simp only [Prod.mk.injEq] at this
              obtain ⟨rfl, rfl, rfl⟩ := this
              rcases hcase with ⟨_, hst2, _⟩ | ⟨K, hw, as, bs, h1, h2, h3, h4, h5⟩
              · rcases hst2 with h6 | h6
                · exact absurd h6 hst
                · exact absurd h6 hnf
              · rcases h5 with ⟨h6, _⟩ | ⟨_, h6⟩
                · exact absurd h6 hst
                · exact ⟨Or.inr ⟨clus, K, as, bs, hreach, hw, h1, h2⟩, h3, h6, h4⟩
            · rw [if_pos hnext] at h
              simp only [Except.ok.injEq, Prod.mk.injEq] at h
              rw [← h.1] at hpos
              exact absurd hpos (by decide)

/-- The slot that a successful `find_empty_slot` returns. -/
theorem find_empty_slot_first_free (fuel : Nat) (m : FAT16) (d : Disk) (u : Uninit)
    (path : List Nat) (slot0 s : DirEntrySlot) (ret : Int) (fn : List Nat)
    (h : find_empty_slot fuel m d u path slot0 = .ok (ret, s, fn)) (hret : ¬ ret < 0) :
    ret = 0 ∧ FirstFree m d (s.sector, s.offset) ∧ s.dir = slot_entry d (s.sector, s.offset)
      ∧ is_free s.dir = true ∧ is_lfn (DIR_Attr s.dir) = false := by
  unfold find_empty_slot find_entry_internal at h
  cases hl : find_entry_loop m d u fuel (skip_slashes path) 0 CLUSTER_END FIND_EXIST slot0 with
  | error e => rw [hl] at h; cases h
  | ok x =>
    obtain ⟨r, s1, rem⟩ := x
    rw [hl] at h
    simp only [bind, Except.bind, pure, Except.pure] at h
    by_cases h1 : r < 0
    · rw [if_pos h1] at h
      simp only [Except.ok.injEq, Prod.mk.injEq] at h
      rw [← h.1] at hret
      exact absurd h1 hret
    · rw [if_neg h1] at h
      by_cases h2 : r = FIND_EXIST
      · rw [if_pos h2] at h
        simp only [Except.ok.injEq, Prod.mk.injEq] at h
        rw [← h.1] at hret
        exact absurd (by decide) hret
      · rw [if_neg h2] at h
        by_cases h3 : r = FIND_FULL
        · rw [if_pos h3] at h
          simp only [Except.ok.injEq, Prod.mk.injEq] at h
          rw [← h.1] at hret
          exact absurd (by decide) hret
        · rw [if_neg h3] at h
          simp only [Except.ok.injEq, Prod.mk.injEq] at h
          obtain ⟨rfl, rfl, rfl⟩ := h
          have hpos : 0 < r := by
            simp only [FIND_EXIST] at h2
            omega
          exact ⟨rfl, find_entry_loop_first_free m d u fuel _ 0 _ slot0 r s1 rem
            (fun h => absurd rfl h) hl hpos h3⟩

theorem not_inuse_zero : is_cluster_inuse 0 = false := by decide

/-- The chain from `h` is read alike on two disks as far as the second disk reaches it, when
the FAT entries of its clusters are the same or are free on the second disk. -/
theorem chain_agree (m : FAT16) (d d' : Disk) (h : Nat)
    (hfat : ∀ n j, Walk m d h n → j < n →
      read_fat_entry m d' (chain_nth m d h j) = read_fat_entry m d (chain_nth m d h j)
      ∨ read_fat_entry m d' (chain_nth m d h j) = CLUSTER_FREE) :
    ∀ n, Walk m d' h n → ∀ j, j < n → chain_nth m d' h j = chain_nth m d h j := by
  intro n
  induction n with
  | zero => intro _ j hj; omega
  | succ n ih =>
    intro hw j hj
    have ih' := ih (Walk_mono m d' h (n + 1) n hw (by omega))
    by_cases hjn : j < n
    · exact ih' j hjn
    · have : j = n := by omega
      subst this
      cases j with
      | zero => rfl
      | succ k =>
        have hwd : Walk m d h (k + 1) := by
          intro i hi
          rw [← ih' i hi]
          exact hw i (by omega)
        show read_fat_entry m d' (chain_nth m d' h k) = read_fat_entry m d (chain_nth m d h k)
        rw [ih' k (by omega)]
        rcases hfat (k + 1) k hwd (by omega) with h1 | h1
        · exact h1
        · have h2 := hw (k + 1) (by omega)
          have h3 : chain_nth m d' h (k + 1) = 0 := by
            show read_fat_entry m d' (chain_nth m d' h k) = 0
            rw [ih' k (by omega), h1]
            rfl
          rw [h3, not_inuse_zero] at h2
          cases h2

theorem Walk_agree (m : FAT16) (d d' : Disk) (h n : Nat) (hw : Walk m d' h n)
    (heq : ∀ j, j < n → chain_nth m d' h j = chain_nth m d h j) : Walk m d h n := by
  intro j hj
  rw [← heq j hj]
  exact hw j hj

/-- The slots of a chain without a repeated cluster are pairwise different. -/
theorem chain_slots_nodup (m : FAT16) (d : Disk) (h : Nat) : ∀ (n : Nat), Walk m d h n →
    (∀ i j, i < n → j < n → chain_nth m d h i = chain_nth m d h j → i = j) →
    (chain_slots m d h n).Nodup := by
  intro n
  induction n with
  | zero => intro _ _; exact List.nodup_nil
  | succ n ih =>
    intro hw hinj
    simp only [chain_slots]
    rw [List.nodup_append]
    refine ⟨ih (Walk_mono m d h _ n hw (by omega))
      (fun i j hi hj => hinj i j (by omega) (by omega)), scan_slots_nodup m _ _ _, ?_⟩
    intro p hp1 hp2
    rw [chain_slots_mem] at hp1
    obtain ⟨j, hj, hp1⟩ := hp1
    rw [clus_slots_mem] at hp1
    have hp2' := (clus_slots_mem m _ p).mp hp2
    have := cluster_of_sector m _ _ p.1 (hw j (by omega)) (hw n (by omega)) hp1.1 hp1.2.1
      hp2'.1 hp2'.2.1
    have := hinj j n (by omega) (by omega) this
    omega

/-- The slot `p` lies in the root region or in a reached cluster of a chain that the
resolver can descend into. -/
theorem dir_slot_sector (m : FAT16) (hg : Geom m) (d : Disk) (p : Nat × Nat)
    (hp : p ∈ root_slots m ∨ ∃ h n, Reach m d dir_link h ∧ Walk m d h n
      ∧ p ∈ chain_slots m d h n) : m.root_sec ≤ p.1 ∧ p.2 % DIR_ENTRY_SIZE = 0 := by
  rcases hp with hp | ⟨h, n, _, _, hp⟩
  · have := root_slot_sector m p hp
    exact ⟨this.1, this.2.2⟩
  · have := chain_slot_sector m hg d h n p hp
    exact ⟨this.2.1, this.2.2⟩

/-- The first clusters of the directories of `d'` are those of `d` or new ones, when the
chains of `d` are read alike on `d'`, every accepted entry of `d'` in a directory of `d` is
the same entry of `d` or carries a new first cluster, and the accepted entries in the chains
of the new first clusters lead to new or old first clusters only. -/
theorem Reach_transfer (m : FAT16) (d d' : Disk) (link : DIR_ENTRY → Bool) (New : Nat → Prop)
    (hsub : ∀ e, link e = true → dir_link e = true)
    (hchain : ∀ h n, Reach m d dir_link h → Walk m d' h n →
      ∀ j, j < n → chain_nth m d' h j = chain_nth m d h j)
    (hent : ∀ p, (p ∈ root_slots m ∨ ∃ h n, Reach m d dir_link h ∧ Walk m d h n
        ∧ p ∈ chain_slots m d h n) → link (slot_entry d' p) = true →
      (link (slot_entry d p) = true
        ∧ DIR_FstClusLO (slot_entry d' p) = DIR_FstClusLO (slot_entry d p))
      ∨ New (DIR_FstClusLO (slot_entry d' p)))
    (hnew : ∀ h n p, New h → Walk m d' h n → p ∈ chain_slots m d' h n →
      link (slot_entry d' p) = true →
      New (DIR_FstClusLO (slot_entry d' p)) ∨ Reach m d link (DIR_FstClusLO (slot_entry d' p))) :
    ∀ h, Reach m d' link h → Reach m d link h ∨ New h := by
  intro h hr
  induction hr with
  | root p hp hl =>
    rcases hent p (Or.inl hp) hl with ⟨h1, h2⟩ | h1
    · left
      rw [h2]
      exact Reach.root p hp h1
    · exact Or.inr h1
  | sub h0 n p _ hw hp hl ih =>
    rcases ih with ih | ih
    · have hrl := Reach_mono m d link dir_link hsub h0 ih
      have heq := hchain h0 n hrl hw
      have hwd := Walk_agree m d d' h0 n hw heq
      have hpd : p ∈ chain_slots m d h0 n := by
        rw [← chain_slots_congr m d d' h0 n heq]
        exact hp
      rcases hent p (Or.inr ⟨h0, n, hrl, hwd, hpd⟩) hl with ⟨h1, h2⟩ | h1
      · left
        rw [h2]
        exact Reach.sub h0 n p ih hwd hpd h1
      · exact Or.inr h1
    · rcases hnew h0 n p ih hw hp hl with h1 | h1
      · exact Or.inr h1
      · exact Or.inl h1

/-- Writing an entry that is not never-used over the first never-used slot of a directory
keeps the prefix property of the root region and of the chains of the directories. -/
theorem PrefixIn_first_free (m : FAT16) (hg : Geom m) (d d' : Disk) (q : Nat × Nat)
    (hwf : DirWF m d) (hinv : DirInv m d) (hff : FirstFree m d q)
    (hent : ∀ p, p ≠ q → (p ∈ root_slots m ∨ ∃ h n, Reach m d dir_link h ∧ Walk m d h n
        ∧ p ∈ chain_slots m d h n) → slot_entry d' p = slot_entry d p)
    (hnew : never_used (slot_entry d' q) = false) :
    PrefixIn d' (root_slots m)
    ∧ ∀ h n, Reach m d dir_valid h → Walk m d h n → PrefixIn d' (chain_slots m d h n) := by
  have hdata := hg.data_eq
  constructor
  · rcases hff with ⟨as, bs, h1, h2⟩ | ⟨h0, K, as, bs, hr0, hw0, h1, _⟩
    · have hnd := scan_slots_nodup m m.root_sec m.root_sectors 0
      have hp := hinv.1
      unfold root_slots at h1
      unfold root_slots at hp ⊢
      rw [h1] at hnd hp ⊢
      have hnd' := List.nodup_append.mp hnd
      have hq1 : q ∉ as := fun hq => hnd'.2.2 hq (List.mem_cons_self _ _)
      have hq2 : q ∉ bs := (List.nodup_cons.mp hnd'.2.1).1
      refine PrefixIn_create d d' as bs q ?_ ?_ h2 hnew hp
      · intro p hp1
        exact hent p (fun h => hq1 (h ▸ hp1)) (Or.inl (by unfold root_slots; rw [h1]; simp [hp1]))
      · intro p hp1
        exact hent p (fun h => hq2 (h ▸ hp1)) (Or.inl (by unfold root_slots; rw [h1]; simp [hp1]))
    · refine PrefixIn_congr d d' _ ?_ hinv.1
      intro p hp
      refine hent p ?_ (Or.inl hp)
      intro hpq
      have hq : q ∈ chain_slots m d h0 (K + 1) := by rw [h1]; simp
      have h3 := chain_slot_sector m hg d h0 (K + 1) q hq
      have h4 := root_slot_sector m p hp
      rw [hpq] at h4
      omega
  · intro h n hr hw
    have hrl := Reach_mono m d dir_valid dir_link dir_valid_link h hr
    by_cases hq : q ∈ chain_slots m d h n
    · rcases hff with ⟨as, bs, h1, _⟩ | ⟨h0, K, as, bs, hr0, hw0, h1, h2⟩
      · have hq0 : q ∈ root_slots m := by rw [h1]; simp
        have h3 := chain_slot_sector m hg d h n q hq
        have h4 := root_slot_sector m q hq0
        omega
      · -- the chain of `h` is the chain of `h0`
        have hq0 : q ∈ chain_slots m d h0 (K + 1) := by rw [h1]; simp
        rw [chain_slots_mem] at hq hq0
        obtain ⟨j, hj, hqj⟩ := hq
        obtain ⟨j0, hj0, hqj0⟩ := hq0
        rw [clus_slots_mem] at hqj hqj0
        have hc := cluster_of_sector m _ _ q.1 (hw j hj) (hw0 j0 hj0) hqj.1 hqj.2.1 hqj0.1
          hqj0.2.1
        have heq := hwf.inj h h0 j j0 hrl hr0 (Walk_mono m d h n _ hw (by omega))
          (Walk_mono m d h0 _ _ hw0 (by omega)) hc
        obtain ⟨rfl, _⟩ := heq
        -- work on the longer of the two reached parts
        have hmax : ∃ N, n ≤ N ∧ K + 1 ≤ N ∧ Walk m d h N := by
          by_cases hle : n ≤ K + 1
          · exact ⟨K + 1, hle, le_refl _, hw0⟩
          · exact ⟨n, le_refl _, by omega, hw⟩
        obtain ⟨N, hN1, hN2, hwN⟩ := hmax
        obtain ⟨R1, hR1⟩ := chain_slots_init m d h n (N - n)
        obtain ⟨R2, hR2⟩ := chain_slots_init m d h (K + 1) (N - (K + 1))
        rw [show n + (N - n) = N by omega] at hR1
        rw [show K + 1 + (N - (K + 1)) = N by omega, h1, List.append_assoc,
          List.cons_append] at hR2
        have hnd := chain_slots_nodup m d h N hwN (fun i j hi hj hij =>
          (hwf.inj h h i j hrl hrl (Walk_mono m d h N _ hwN (by omega))
            (Walk_mono m d h N _ hwN (by omega)) hij).2)
        have hpN := hinv.2 h N hr hwN
        have hmemN : ∀ p, p ∈ chain_slots m d h N →
            (p ∈ root_slots m ∨ ∃ h' n', Reach m d dir_link h' ∧ Walk m d h' n'
              ∧ p ∈ chain_slots m d h' n') := fun p hp => Or.inr ⟨h, N, hrl, hwN, hp⟩
        rw [hR2] at hnd hpN hmemN
        have hnd' := List.nodup_append.mp hnd
        have hq1 : q ∉ as := fun hq => hnd'.2.2 hq (List.mem_cons_self _ _)
        have hq2 : q ∉ bs ++ R2 := (List.nodup_cons.mp hnd'.2.1).1
        have hres := PrefixIn_create d d' as (bs ++ R2) q
          (fun p hp1 => hent p (fun h => hq1 (h ▸ hp1)) (hmemN p (by simp [hp1])))
          (fun p hp1 => hent p (fun h => hq2 (h ▸ hp1))
            (hmemN p (List.mem_append_right _ (List.mem_cons_of_mem _ hp1))))
          h2 hnew hpN
        rw [← hR2, hR1] at hres
        exact PrefixIn_init d' _ _ hres
    · refine PrefixIn_congr d d' _ ?_ (hinv.2 h n hr hw)
      intro p hp
      exact hent p (fun h' => hq (h' ▸ hp)) (Or.inr ⟨h, n, hrl, hw, hp⟩)

theorem to_shortname_ret (name : List Nat) (len : Nat) (res : Nat → Nat) :
    (to_shortname name len res).1 = 0 ∨ (to_shortname name len res).1 = -EINVAL := by
  unfold to_shortname
  cases to_shortname_scan name len 0 len len false with
  | none => exact Or.inr rfl
  | some x => exact Or.inl rfl

theorem new_dir_entry_bytes (now : Tm) (sn : Nat → Nat) (attr fc fs : Nat) :
    new_dir_entry now sn attr fc fs 0 = sn 0
    ∧ new_dir_entry now sn attr fc fs 11 = attr % 256
    ∧ DIR_FstClusLO (new_dir_entry now sn attr fc fs) = fc % 65536 := by
  refine ⟨?_, ?_, ?_⟩
  · simp [new_dir_entry, store16, store32, memcpy]
  · simp [new_dir_entry, store16, store32, memcpy]
  · simp only [DIR_FstClusLO, new_dir_entry, store16, store32, memcpy, load16]
    norm_num
    omega

theorem FirstFree_mem (m : FAT16) (d : Disk) (q : Nat × Nat) (h : FirstFree m d q) :
    q ∈ root_slots m ∨ ∃ h n, Reach m d dir_link h ∧ Walk m d h n ∧ q ∈ chain_slots m d h n := by
  rcases h with ⟨as, bs, h1, _⟩ | ⟨h0, K, as, bs, hr, hw, h1, _⟩
  · exact Or.inl (by rw [h1]; simp)
  · exact Or.inr ⟨h0, K + 1, hr, hw, by rw [h1]; simp⟩

/-- The chains of the directories are read alike on a disk with the same FAT sectors. -/
theorem chain_agree_same_fat (m : FAT16) (hg : Geom m) (d d' : Disk) (hwf : DirWF m d)
    (hfat : ∀ s, s < m.root_sec → d' s = d s) (h : Nat) (hr : Reach m d dir_link h) :
    ∀ n, Walk m d' h n → ∀ j, j < n → chain_nth m d' h j = chain_nth m d h j :=
  chain_agree m d d' h (fun n j hw hj =>
    Or.inl (read_fat_entry_congr_root m hg d d' _ (hwf.fat_in h n j hr hw hj) hfat))

/-- The invariant after an entry that is neither never-used nor a directory has been written
over the first never-used slot of a directory. -/
theorem DirInv_create_file (m : FAT16) (hg : Geom m) (d : Disk) (s : DirEntrySlot)
    (hwf : DirWF m d) (hinv : DirInv m d) (hff : FirstFree m d (s.sector, s.offset))
    (hname : s.dir 0 ≠ 0) (hattr : is_directory (DIR_Attr s.dir) = false) :
    DirInv m (dir_entry_write d s) := by
  have hq := dir_slot_sector m hg d _ (FirstFree_mem m d _ hff)
  simp only at hq
  obtain ⟨hw1, hw2⟩ := slot_entry_write d s hq.2
  have hpred := entry_pred_congr (slot_entry (dir_entry_write d s) (s.sector, s.offset)) s.dir hw1
  have hfat : ∀ x, x < m.root_sec → dir_entry_write d s x = d x := fun x hx =>
    dir_entry_write_other d s x (by omega)
  have hent : ∀ p, p ≠ (s.sector, s.offset) →
      (p ∈ root_slots m ∨ ∃ h n, Reach m d dir_link h ∧ Walk m d h n
        ∧ p ∈ chain_slots m d h n) →
      slot_entry (dir_entry_write d s) p = slot_entry d p := fun p hne hp =>
    hw2 p (dir_slot_sector m hg d p hp).2 hne
  have hnew : never_used (slot_entry (dir_entry_write d s) (s.sector, s.offset)) = false := by
    rw [hpred.1]
    simp [never_used, is_free, DIR_Name, NAME_FREE, hname]
  obtain ⟨hA1, hA2⟩ := PrefixIn_first_free m hg d _ _ hwf hinv hff hent hnew
  have hchain := chain_agree_same_fat m hg d _ hwf hfat
  have hreach := Reach_transfer m d (dir_entry_write d s) dir_valid (fun _ => False)
    dir_valid_link (fun h n hr hw => hchain h hr n hw) (by
      intro p hp hl
      by_cases hpq : p = (s.sector, s.offset)
      · rw [hpq, hpred.2.2.1] at hl
        simp [dir_valid, hattr] at hl
      · rw [hent p hpq hp] at hl ⊢
        exact Or.inl ⟨hl, rfl⟩)
    (fun _ _ _ hf => hf.elim)
  refine ⟨hA1, ?_⟩
  intro h n hr hw
  rcases hreach h hr with hr' | hf
  · have hrl := Reach_mono m d dir_valid dir_link dir_valid_link h hr'
    have heq := hchain h hrl n hw
    rw [chain_slots_congr m d _ h n heq]
    exact hA2 h n hr' (Walk_agree m d _ h n hw heq)
  · exact hf.elim

/-- Preservation of the invariant by a successful `fat16_mknod`. -/
theorem DirInv_mknod (fuel : Nat) (m : FAT16) (hg : Geom m) (now : Tm) (d d' : Disk)
    (u : Uninit) (path : List Nat) (hwf : DirWF m d) (hinv : DirInv m d)
    (h : fat16_mknod fuel m now d u path = .ok (0, d')) : DirInv m d' := by
  unfold fat16_mknod at h
  cases hs : find_empty_slot fuel m d u path u.slot with
  | error e => rw [hs] at h; cases h
  | ok x =>
    obtain ⟨ret, slot, filename⟩ := x
    rw [hs] at h
    simp only [bind, Except.bind, pure, Except.pure] at h
    by_cases hret : ret < 0
    · rw [if_pos hret] at h
      simp only [Except.ok.injEq, Prod.mk.injEq] at h
      omega
    · rw [if_neg hret] at h
      obtain ⟨_, hff, _⟩ := find_empty_slot_first_free fuel m d u path u.slot slot ret filename
        hs hret
      by_cases hr2 : (to_shortname filename MAX_NAME_LEN u.shortname).1 < 0
      · rw [if_pos hr2] at h
        simp only [Except.ok.injEq, Prod.mk.injEq] at h
        omega
      · rw [if_neg hr2] at h
        simp only [Except.ok.injEq, Prod.mk.injEq, true_and] at h
        subst h
        have hv : (to_shortname filename MAX_NAME_LEN u.shortname).1 = 0 := by
          rcases to_shortname_ret filename MAX_NAME_LEN u.shortname with h1 | h1
          · exact h1
          · rw [h1] at hr2
            exact absurd (by decide) hr2
        have hnz := to_shortname_ne_zero filename MAX_NAME_LEN u.shortname hv 0 (by decide)
        have hb := new_dir_entry_bytes now (to_shortname filename MAX_NAME_LEN u.shortname).2
          ATTR_REGULAR 0 0
        unfold dir_entry_create
        refine DirInv_create_file m hg d _ hwf hinv hff ?_ ?_
        · show new_dir_entry now (to_shortname filename MAX_NAME_LEN u.shortname).2 ATTR_REGULAR 0 0 0
            ≠ 0
          rw [hb.1]
          exact hnz
        · show is_directory (new_dir_entry now
            (to_shortname filename MAX_NAME_LEN u.shortname).2 ATTR_REGULAR 0 0 11) = false
          rw [hb.2.1]
          decide

theorem free_clusters_more_fuel (m : FAT16) (F : Nat) : ∀ (fuel : Nat) (d : Disk) (h : Nat)
    (r : Disk), free_clusters m fuel d h = .ok r → free_clusters m (fuel + F) d h = .ok r := by
  intro fuel
  induction fuel with
  | zero => intro d h r hr; simp [free_clusters] at hr
  | succ fuel ih =>
    intro d h r hr
    rw [show fuel + 1 + F = (fuel + F) + 1 by omega]
    unfold free_clusters at hr ⊢
    by_cases hin : is_cluster_inuse h = true
    · rw [if_pos hin] at hr ⊢
      exact ih _ _ _ hr
    · rw [if_neg hin] at hr ⊢
      exact hr

/-- What a successful `free_clusters` on a well-formed chain leaves of the disk: the sectors
outside the FAT, and FAT entries that are unchanged or free. -/
theorem free_clusters_frame (m : FAT16) (hg : Geom m) (fuel k : Nat) (d d1 : Disk) (h : Nat)
    (hc : ChainOK m d h k) (hend : is_cluster_inuse (chain_nth m d h k) = false)
    (hf : free_clusters m fuel d h = .ok d1) :
    (∀ s, m.root_sec ≤ s → d1 s = d s)
    ∧ ∀ c, FatIn m c →
        read_fat_entry m d1 c = read_fat_entry m d c ∨ read_fat_entry m d1 c = CLUSTER_FREE := by
  obtain ⟨d2, h1, h2, h3, h4⟩ := free_clusters_spec m hg k (fuel + (k + 1)) d h hc hend (by omega)
  rw [free_clusters_more_fuel m (k + 1) fuel d h d1 hf] at h1
  simp only [Except.ok.injEq] at h1
  subst h1
  refine ⟨fun s hs => h4 s (Or.inr hs), fun c hcin => ?_⟩
  by_cases hx : ∃ i, i < k ∧ c = chain_nth m d h i
  · obtain ⟨i, hi, rfl⟩ := hx
    exact Or.inr (h2 i hi)
  · exact Or.inl (h3 c hcin (fun i hi hci => hx ⟨i, hi, hci⟩))

/-- The invariant after the chain of an entry has been released and the entry tombstoned. -/
theorem DirInv_remove (m : FAT16) (hg : Geom m) (fuel k : Nat) (d d1 : Disk) (s : DirEntrySlot)
    (hwf : DirWF m d) (hinv : DirInv m d)
    (hS : m.root_sec ≤ s.sector) (hO : s.offset % DIR_ENTRY_SIZE = 0)
    (hc : ChainOK m d (DIR_FstClusLO s.dir) k)
    (hend : is_cluster_inuse (chain_nth m d (DIR_FstClusLO s.dir) k) = false)
    (hf : free_clusters m fuel d (DIR_FstClusLO s.dir) = .ok d1) :
    DirInv m (dir_entry_write d1
      { s with dir := set_DIR_Name0 s.dir NAME_DELETED }) := by
  obtain ⟨hfr1, hfr2⟩ := free_clusters_frame m hg fuel k d d1 _ hc hend hf
  generalize hs' : ({ s with dir := set_DIR_Name0 s.dir NAME_DELETED } : DirEntrySlot) = s'
  have hsec : s'.sector = s.sector := by rw [← hs']
  have hoff : s'.offset = s.offset := by rw [← hs']
  have hdir : s'.dir = set_DIR_Name0 s.dir NAME_DELETED := by rw [← hs']
  obtain ⟨hw1, hw2⟩ := slot_entry_write d1 s' (by rw [hoff]; exact hO)
  rw [hsec, hoff] at hw1 hw2
  have hq0 : slot_entry (dir_entry_write d1 s') (s.sector, s.offset) 0 = NAME_DELETED := by
    rw [hw1 0 (by omega), hdir]
    rfl
  have hv : is_valid (slot_entry (dir_entry_write d1 s') (s.sector, s.offset)) = false := by
    simp [is_valid, DIR_Name, hq0]
  have hn : never_used (slot_entry (dir_entry_write d1 s') (s.sector, s.offset)) = false := by
    simp [never_used, is_free, DIR_Name, hq0, NAME_DELETED, NAME_FREE]
  have hdv : dir_valid (slot_entry (dir_entry_write d1 s') (s.sector, s.offset)) = false := by
    simp [dir_valid, hv]
  have hent : ∀ p : Nat × Nat, p ≠ (s.sector, s.offset) → m.root_sec ≤ p.1 →
      p.2 % DIR_ENTRY_SIZE = 0 → slot_entry (dir_entry_write d1 s') p = slot_entry d p := by
    intro p hne hp1 hp2
    rw [hw2 p hp2 hne]
    unfold slot_entry
    rw [hfr1 p.1 hp1]
  have hfat : ∀ c, FatIn m c →
      read_fat_entry m (dir_entry_write d1 s') c = read_fat_entry m d c
      ∨ read_fat_entry m (dir_entry_write d1 s') c = CLUSTER_FREE := by
    intro c hcin
    have : read_fat_entry m (dir_entry_write d1 s') c = read_fat_entry m d1 c :=
      read_fat_entry_congr_root m hg d1 _ c hcin (fun x hx =>
        dir_entry_write_other d1 s' x (by rw [hsec]; omega))
    rw [this]
    exact hfr2 c hcin
  have hchain : ∀ h n, Reach m d dir_link h → Walk m (dir_entry_write d1 s') h n →
      ∀ j, j < n → chain_nth m (dir_entry_write d1 s') h j = chain_nth m d h j :=
    fun h n hr => chain_agree m d _ h (fun n' j hw hj => hfat _ (hwf.fat_in h n' j hr hw hj)) n
  have hreach := Reach_transfer m d (dir_entry_write d1 s') dir_valid (fun _ => False)
    dir_valid_link hchain (by
      intro p hp hl
      by_cases hpq : p = (s.sector, s.offset)
      · rw [hpq, hdv] at hl
        cases hl
      · have hps := dir_slot_sector m hg d p hp
        rw [hent p hpq hps.1 hps.2] at hl ⊢
        exact Or.inl ⟨hl, rfl⟩)
    (fun _ _ _ hf => hf.elim)
  constructor
  · refine PrefixIn_tomb d _ _ (s.sector, s.offset) ?_ hv hn hinv.1
    intro p hp hne
    have hps := root_slot_sector m p hp
    exact hent p hne hps.1 hps.2.2
  · intro h n hr hw
    rcases hreach h hr with hr' | hf
    · have hrl := Reach_mono m d dir_valid dir_link dir_valid_link h hr'
      have heq := hchain h n hrl hw
      rw [chain_slots_congr m d _ h n heq]
      refine PrefixIn_tomb d _ _ (s.sector, s.offset) ?_ hv hn
        (hinv.2 h n hr' (Walk_agree m d _ h n hw heq))
      intro p hp hne
      have hps := chain_slot_sector m hg d h n p hp
      exact hent p hne hps.2.1 hps.2.2
    · exact hf.elim

/-- Preservation of the invariant by a successful `fat16_unlink` of a path other than the
root, when the chain of the file is well formed. -/
theorem DirInv_unlink (fuel : Nat) (m : FAT16) (hg : Geom m) (d d' : Disk) (u : Uninit)
    (path : List Nat) (hwf : DirWF m d) (hinv : DirInv m d)
    (hroot : path_is_root path = false)
    (hchain : ∀ slot, find_entry fuel m d u path u.slot = .ok (0, slot) →
      ∃ k, ChainOK m d (DIR_FstClusLO slot.dir) k
        ∧ is_cluster_inuse (chain_nth m d (DIR_FstClusLO slot.dir) k) = false)
    (h : fat16_unlink fuel m d u path = .ok (0, d')) : DirInv m d' := by
  unfold fat16_unlink at h
  cases hs : find_entry fuel m d u path u.slot with
  | error e => rw [hs] at h; cases h
  | ok x =>
    obtain ⟨ret, slot⟩ := x
    rw [hs] at h
    simp only [bind, Except.bind, pure, Except.pure] at h
    by_cases hret : ret < 0
    · rw [if_pos hret] at h
      simp only [Except.ok.injEq, Prod.mk.injEq] at h
      omega
    · rw [if_neg hret] at h
      by_cases hd : is_directory (DIR_Attr slot.dir) = true
      · rw [if_pos hd] at h
        simp only [Except.ok.injEq, Prod.mk.injEq] at h
        exact absurd h.1 (by decide)
      · rw [if_neg hd] at h
        cases hfc : free_clusters m fuel d (DIR_FstClusLO slot.dir) with
        | error e => rw [hfc] at h; cases h
        | ok d1 =>
          rw [hfc] at h
          simp only [Except.ok.injEq, Prod.mk.injEq, true_and] at h
          subst h
          have hret0 : ret = 0 := by
            unfold find_entry at hs
            cases hi : find_entry_internal fuel m d u path u.slot with
            | error e => rw [hi] at hs; cases hs
            | ok y =>
              rw [hi] at hs
              simp only [bind, Except.bind, pure, Except.pure] at hs
              split at hs
              · simp only [Except.ok.injEq, Prod.mk.injEq] at hs; omega
              · split at hs
                · simp only [Except.ok.injEq, Prod.mk.injEq] at hs; exact hs.1.symm
                · simp only [Except.ok.injEq, Prod.mk.injEq] at hs
                  rw [← hs.1] at hret
                  exact absurd (by decide) hret
          subst hret0
          obtain ⟨k, hck, hend⟩ := hchain slot hs
          have hsl := find_entry_slot fuel m d u path u.slot slot hroot hs
          exact DirInv_remove m hg fuel k d d1 slot hwf hinv
            (slot_sector_ge_root m hg d _ slot hsl) (dir_offsets_mod m _ hsl.2.1) hck hend hfc

theorem find_entry_ret (fuel : Nat) (m : FAT16) (d : Disk) (u : Uninit) (path : List Nat)
    (slot0 slot : DirEntrySlot) (ret : Int)
    (hs : find_entry fuel m d u path slot0 = .ok (ret, slot)) (hret : ¬ ret < 0) : ret = 0 := by
  unfold find_entry at hs
  cases hi : find_entry_internal fuel m d u path slot0 with
  | error e => rw [hi] at hs; cases hs
  | ok y =>
    rw [hi] at hs
    simp only [bind, Except.bind, pure, Except.pure] at hs
    split at hs
    · simp only [Except.ok.injEq, Prod.mk.injEq] at hs; omega
    · split at hs
      · simp only [Except.ok.injEq, Prod.mk.injEq] at hs; exact hs.1.symm
      · simp only [Except.ok.injEq, Prod.mk.injEq] at hs
        rw [← hs.1] at hret
        exact absurd (by decide) hret

/-- Preservation of the invariant by a successful `fat16_rmdir`, when the chain of the
removed directory is well formed. -/
theorem DirInv_rmdir (fuel : Nat) (m : FAT16) (hg : Geom m) (d d' : Disk) (u : Uninit)
    (path : List Nat) (hwf : DirWF m d) (hinv : DirInv m d)
    (hchain : ∀ slot, find_entry fuel m d u path u.slot = .ok (0, slot) →
      ∃ k, ChainOK m d (DIR_FstClusLO slot.dir) k
        ∧ is_cluster_inuse (chain_nth m d (DIR_FstClusLO slot.dir) k) = false)
    (h : fat16_rmdir fuel m d u path = .ok (0, d')) : DirInv m d' := by
  unfold fat16_rmdir at h
  by_cases hroot : path_is_root path = true
  · rw [if_pos hroot] at h
    simp only [pure, Except.pure, Except.ok.injEq, Prod.mk.injEq] at h
    exact absurd h.1 (by decide)
  · rw [if_neg hroot] at h
    cases hs : find_entry fuel m d u path u.slot with
    | error e => rw [hs] at h; cases h
    | ok x =>
      obtain ⟨ret, slot⟩ := x
      rw [hs] at h
      simp only [bind, Except.bind, pure, Except.pure] at h
      by_cases hret : ret < 0
      · rw [if_pos hret] at h
        simp only [Except.ok.injEq, Prod.mk.injEq] at h
        omega
      · rw [if_neg hret] at h
        by_cases hd : (!is_directory (DIR_Attr slot.dir)) = true
        · rw [if_pos hd] at h
          simp only [Except.ok.injEq, Prod.mk.injEq] at h
          exact absurd h.1 (by decide)
        · rw [if_neg hd] at h
          cases hsc : rmdir_scan_chain m d fuel (DIR_FstClusLO slot.dir) with
          | error e => rw [hsc] at h; cases h
          | ok ne =>
            rw [hsc] at h
            simp only [] at h
            by_cases hne : ne = true
            · rw [if_pos hne] at h
              simp only [Except.ok.injEq, Prod.mk.injEq] at h
              exact absurd h.1 (by decide)
            · rw [if_neg hne] at h
              cases hfc : free_clusters m fuel d (DIR_FstClusLO slot.dir) with
              | error e => rw [hfc] at h; cases h
              | ok d1 =>
                rw [hfc] at h
                simp only [Except.ok.injEq, Prod.mk.injEq, true_and] at h
                subst h
                have hret0 := find_entry_ret fuel m d u path u.slot slot ret hs hret
                subst hret0
                obtain ⟨k, hck, hend⟩ := hchain slot hs
                have hsl := find_entry_slot fuel m d u path u.slot slot
                  (by simpa using hroot) hs
                exact DirInv_remove m hg fuel k d d1 slot hwf hinv
                  (slot_sector_ge_root m hg d _ slot hsl) (dir_offsets_mod m _ hsl.2.1) hck hend
                  hfc

/-- In a list of slots with the prefix property that holds an in-use match `p`, the first
stop of a scan of an initial part of the list is a match, unless that part holds no stop. -/
theorem first_stop_match (d : Disk) (u : Uninit) (name : List Nat) (len : Nat)
    (A B : List (Nat × Nat)) (p : Nat × Nat) (hp : p ∈ A ++ B)
    (hv : is_valid (slot_entry d p) = true)
    (hm : is_match u name len (slot_entry d p) = true)
    (hpre : PrefixIn d (A ++ B)) :
    (∃ q, A.find? (fun p => is_stop u name len (entry_at (d p.1) p.2)) = some q
        ∧ is_match u name len (entry_at (d q.1) q.2) = true)
    ∨ (A.find? (fun p => is_stop u name len (entry_at (d p.1) p.2)) = none ∧ p ∈ B) := by
  have hstop : is_stop u name len (entry_at (d p.1) p.2) = true := by
    have hl : is_lfn (DIR_Attr (slot_entry d p)) = false := by
      simp only [is_valid, Bool.and_eq_true, Bool.not_eq_true'] at hv
      exact hv.1.1
    unfold slot_entry at hl hm
    simp [is_stop, hl, hm]
  cases hf : A.find? (fun p => is_stop u name len (entry_at (d p.1) p.2)) with
  | none =>
    right
    refine ⟨rfl, ?_⟩
    rw [List.find?_eq_none] at hf
    rcases List.mem_append.mp hp with h | h
    · exact absurd hstop (hf p h)
    · exact h
  | some q =>
    left
    refine ⟨q, rfl, ?_⟩
    rw [List.find?_eq_some] at hf
    obtain ⟨hq, as, bs, hA, has⟩ := hf
    by_contra hnm
    have hnm' : is_match u name len (entry_at (d q.1) q.2) = false := by simpa using hnm
    have hnu : never_used (slot_entry d q) = true := by
      unfold slot_entry
      simp only [is_stop, hnm', Bool.or_false, Bool.and_eq_true, Bool.not_eq_true'] at hq
      simp [never_used, hq.1, hq.2]
    have hpas : p ∉ as := by
      intro h
      have := has p h
      simp only [Bool.not_eq_true'] at this
      rw [this] at hstop
      cases hstop
    have hpq : p ≠ q := by
      intro h
      rw [h] at hm
      unfold slot_entry at hm
      rw [hm] at hnm'
      cases hnm'
    have hmem : p ∈ bs ++ B := by
      rw [hA, List.append_assoc, List.cons_append] at hp
      rcases List.mem_append.mp hp with h | h
      · exact absurd h hpas
      · rcases List.mem_cons.mp h with h | h
        · exact absurd h hpq
        · exact h
    unfold PrefixIn at hpre
    rw [hA, List.append_assoc, List.cons_append, List.pairwise_append] at hpre
    have := (List.pairwise_cons.mp hpre.2.1).1 p hmem hnu
    rw [this] at hv
    cases hv

theorem stop_result_match (d : Disk) (u : Uninit) (name : List Nat) (len : Nat) (q : Nat × Nat)
    (h : is_match u name len (entry_at (d q.1) q.2) = true) :
    (stop_result d u name len q).1 = FIND_EXIST := by
  simp [stop_result, h]

/-- The cluster loop finds a name that an in-use entry of a reached cluster carries, when
the reached part of the chain has the prefix property. -/
theorem find_entry_chain_resolves (m : FAT16) (d : Disk) (u : Uninit) (name : List Nat)
    (len : Nat) (hv : (to_shortname name len u.fatname).1 = 0) (p : Nat × Nat)
    (hval : is_valid (slot_entry d p) = true)
    (hm : is_match u name len (slot_entry d p) = true) :
    ∀ (K fuel h : Nat) (state : Int) (slot : DirEntrySlot), K < fuel → Walk m d h (K + 1) →
    p ∈ chain_slots m d h (K + 1) → PrefixIn d (chain_slots m d h (K + 1)) →
    ∃ s c, find_entry_chain m d u name len fuel h state slot = .ok (false, FIND_EXIST, s, c) := by
  intro K
  induction K with
  | zero =>
    intro fuel h state slot hf hw hp hpre
    obtain ⟨f, rfl⟩ : ∃ f, fuel = f + 1 := ⟨fuel - 1, by omega⟩
    have hin : is_cluster_inuse h = true := hw 0 (by omega)
    rw [find_entry_chain_succ, if_pos hin,
      find_entry_in_sectors_loop_first m d u name len _ hv]
    have hcs : chain_slots m d h 1 = clus_slots m h ++ [] := by
      simp [chain_slots, chain_nth]
    rw [hcs] at hp hpre
    rcases first_stop_match d u name len _ _ p hp hval hm hpre with ⟨q, hq, hqm⟩ | ⟨_, hq⟩
    · unfold clus_slots at hq
      rw [hq]
      exact ⟨_, _, by simp only [Option.map_some']; rw [stop_result_match d u name len q hqm]⟩
    · cases hq
  | succ K ih =>
    intro fuel h state slot hf hw hp hpre
    obtain ⟨f, rfl⟩ : ∃ f, fuel = f + 1 := ⟨fuel - 1, by omega⟩
    have hin : is_cluster_inuse h = true := hw 0 (by omega)
    rw [find_entry_chain_succ, if_pos hin,
      find_entry_in_sectors_loop_first m d u name len _ hv]
    rw [chain_slots_shift] at hp hpre
    rcases first_stop_match d u name len _ _ p hp hval hm hpre with ⟨q, hq, hqm⟩ | ⟨hq, hpB⟩
    · unfold clus_slots at hq
      rw [hq]
      exact ⟨_, _, by simp only [Option.map_some']; rw [stop_result_match d u name len q hqm]⟩
    · unfold clus_slots at hq
      rw [hq]
      simp only [Option.map_none']
      have hw' : Walk m d (read_fat_entry m d h) (K + 1) := by
        intro j hj
        rw [← chain_nth_shift]
        exact hw (j + 1) (by omega)
      have hpre' : PrefixIn d (chain_slots m d (read_fat_entry m d h) (K + 1)) := by
        unfold PrefixIn at hpre ⊢
        exact (List.pairwise_append.mp hpre).2.1
      exact ih f _ FIND_FULL slot (by omega) hw' hpB hpre'

theorem find_entry_of_loop (fuel : Nat) (m : FAT16) (d : Disk) (u : Uninit) (path : List Nat)
    (slot0 s : DirEntrySlot) (rem : List Nat)
    (h : find_entry_loop m d u fuel (skip_slashes path) 0 CLUSTER_END FIND_EXIST slot0
      = .ok (FIND_EXIST, s, rem)) :
    find_entry fuel m d u path slot0 = .ok (0, s) := by
  unfold find_entry find_entry_internal
  rw [h]
  simp [bind, Except.bind, pure, Except.pure, FIND_EXIST]

theorem find_entry_loop_of_find (fuel : Nat) (m : FAT16) (d : Disk) (u : Uninit)
    (path : List Nat) (slot0 s : DirEntrySlot) (h : find_entry fuel m d u path slot0 = .ok (0, s)) :
    ∃ rem, find_entry_loop m d u fuel (skip_slashes path) 0 CLUSTER_END FIND_EXIST slot0
      = .ok (FIND_EXIST, s, rem) := by
  unfold find_entry find_entry_internal at h
  cases hl : find_entry_loop m d u fuel (skip_slashes path) 0 CLUSTER_END FIND_EXIST slot0 with
  | error e => rw [hl] at h; cases h
  | ok x =>
    obtain ⟨ret, s1, rem⟩ := x
    rw [hl] at h
    simp only [bind, Except.bind, pure, Except.pure] at h
    split at h
    · simp only [Except.ok.injEq, Prod.mk.injEq] at h; omega
    · split at h
      · rename_i h2
        simp only [Except.ok.injEq, Prod.mk.injEq] at h
        exact ⟨rem, by rw [h2, h.2]⟩
      · simp only [Except.ok.injEq, Prod.mk.injEq] at h
        exact absurd h.1 (by decide)

/-- One level of the resolver finds, as the last component of a path, a name that an in-use
entry of the directory carries. -/
theorem find_entry_loop_resolves (m : FAT16) (d : Disk) (u : Uninit) (n : List Nat)
    (hns : 47 ∉ n) (hv : (to_shortname n n.length u.fatname).1 = 0) (p : Nat × Nat)
    (hval : is_valid (slot_entry d p) = true)
    (hm : is_match u n n.length (slot_entry d p) = true)
    (fuel level clus : Nat) (slot : DirEntrySlot) (K : Nat) (hfuel : K + 2 ≤ fuel)
    (hdir : (level = 0 ∧ p ∈ root_slots m ∧ PrefixIn d (root_slots m))
      ∨ (level ≠ 0 ∧ Walk m d clus (K + 1) ∧ p ∈ chain_slots m d clus (K + 1)
          ∧ PrefixIn d (chain_slots m d clus (K + 1)))) :
    ∃ s, find_entry_loop m d u fuel n level clus FIND_EXIST slot = .ok (FIND_EXIST, s, []) := by
  obtain ⟨f, rfl⟩ : ∃ f, fuel = f + 2 := ⟨fuel - 2, by omega⟩
  by_cases hn : n = []
  · subst hn
    exact ⟨slot, find_entry_loop_stop m d u (f + 1) [] level clus FIND_EXIST slot (Or.inl rfl)⟩
  · have hlen : strcspn_slash n = n.length := strcspn_slash_no_slash n hns
    have hnext : skip_slashes (n.drop (strcspn_slash n)) = [] := by
      rw [hlen, List.drop_length]
      rfl
    have hfin : ∀ (s : DirEntrySlot) (c : Nat),
        find_entry_finish m d u (f + 1) n level c FIND_EXIST s = .ok (FIND_EXIST, s, []) := by
      intro s c
      unfold find_entry_finish
      simp only [if_true, hnext]
      rw [if_neg (by simp)]
      exact find_entry_loop_stop m d u f [] _ _ FIND_EXIST s (Or.inl rfl)
    rw [find_entry_loop_succ, if_pos ⟨hn, rfl⟩, hlen]
    rcases hdir with ⟨hl, hp, hpre⟩ | ⟨hl, hw, hp, hpre⟩
    · rw [if_pos hl]
      have hfs := find_entry_in_sectors_first m d u n n.length m.root_sec m.root_sectors slot hv
      have hpre' : PrefixIn d (root_slots m ++ []) := by simpa using hpre
      rcases first_stop_match d u n n.length (root_slots m) [] p (by simpa using hp) hval hm
        hpre' with ⟨q, hq, hqm⟩ | ⟨_, hq⟩
      · unfold root_slots at hq
        unfold first_stop at hfs
        rw [hq] at hfs
        simp only [Option.map_some', Option.getD_some] at hfs
        rw [hfs, if_neg (by rw [stop_result_match d u n _ q hqm]; simp)]
        rw [stop_result_match d u n _ q hqm, ← hlen]
        exact ⟨_, hfin _ _⟩
      · cases hq
    · rw [if_neg hl]
      obtain ⟨s, c, hc⟩ := find_entry_chain_resolves m d u n n.length hv p hval hm K (f + 1) clus
        FIND_EXIST slot (by omega) hw hp hpre
      rw [hc]
      simp only [Bool.false_eq_true, if_false]
      exact ⟨s, hfin s c⟩

theorem readdir_buffer_cons (b : Sector) (off : Nat) (offs : List Nat) (name : Nat → Nat) :
    readdir_buffer b (off :: offs) name
      = if (!is_valid (entry_at b off)) = true then readdir_buffer b offs name
        else (listed_name (entry_at b off) name
            :: (readdir_buffer b offs
                (to_longname (DIR_Name (entry_at b off)) name MAX_NAME_LEN).2).1,
          (readdir_buffer b offs (to_longname (DIR_Name (entry_at b off)) name MAX_NAME_LEN).2).2)
    := by
  rw [readdir_buffer]
  by_cases hv : (!is_valid (entry_at b off)) = true
  · rw [if_pos hv, if_pos hv]
  · rw [if_neg hv, if_neg hv]
    unfold listed_name
    generalize to_longname (DIR_Name (entry_at b off)) name MAX_NAME_LEN = t
    obtain ⟨i, nm⟩ := t
    simp only []

theorem readdir_buffer_mem (b : Sector) : ∀ (offs : List Nat) (name : Nat → Nat) (n : List Nat),
    n ∈ (readdir_buffer b offs name).1 →
    ∃ o buf, o ∈ offs ∧ is_valid (entry_at b o) = true ∧ n = listed_name (entry_at b o) buf := by
  intro offs
  induction offs with
  | nil => intro name n h; simp [readdir_buffer] at h
  | cons off offs ih =>
    intro name n h
    rw [readdir_buffer_cons] at h
    by_cases hv : (!is_valid (entry_at b off)) = true
    · rw [if_pos hv] at h
      obtain ⟨o, buf, h1, h2⟩ := ih name n h
      exact ⟨o, buf, List.mem_cons_of_mem _ h1, h2⟩
    · rw [if_neg hv] at h
      rcases List.mem_cons.mp h with h | h
      · exact ⟨off, name, List.mem_cons_self _ _, by simpa using hv, h⟩
      · obtain ⟨o, buf, h1, h2⟩ := ih _ n h
        exact ⟨o, buf, List.mem_cons_of_mem _ h1, h2⟩

theorem readdir_sectors_succ (m : FAT16) (d : Disk) (first_sec k i : Nat) (name : Nat → Nat) :
    readdir_sectors m d first_sec (k + 1) i name
      = ((readdir_buffer (d (first_sec + i)) (dir_offsets m) name).1
          ++ (readdir_sectors m d first_sec k (i + 1)
              (readdir_buffer (d (first_sec + i)) (dir_offsets m) name).2).1,
        (readdir_sectors m d first_sec k (i + 1)
          (readdir_buffer (d (first_sec + i)) (dir_offsets m) name).2).2) := by
  rw [readdir_sectors]
  rfl

theorem readdir_sectors_mem (m : FAT16) (d : Disk) (first_sec : Nat) :
    ∀ (k i : Nat) (name : Nat → Nat) (n : List Nat),
    n ∈ (readdir_sectors m d first_sec k i name).1 →
    ∃ p buf, p ∈ scan_slots m first_sec k i ∧ is_valid (slot_entry d p) = true
      ∧ n = listed_name (slot_entry d p) buf := by
  intro k
  induction k with
  | zero => intro i name n h; simp [readdir_sectors] at h
  | succ k ih =>
    intro i name n h
    rw [readdir_sectors_succ] at h
    simp only [scan_slots]
    rcases List.mem_append.mp h with h | h
    · obtain ⟨o, buf, h1, h2, h3⟩ := readdir_buffer_mem _ _ _ n h
      exact ⟨(first_sec + i, o), buf,
        List.mem_append_left _ (List.mem_map.mpr ⟨o, h1, rfl⟩), h2, h3⟩
    · obtain ⟨p, buf, h1, h2⟩ := ih (i + 1) _ n h
      exact ⟨p, buf, List.mem_append_right _ h1, h2⟩

theorem readdir_chain_mem (m : FAT16) (d : Disk) :
    ∀ (fuel clus : Nat) (name : Nat → Nat) (names : List (List Nat)) (n : List Nat),
    readdir_chain m d fuel clus name = .ok names → n ∈ names →
    ∃ K p buf, Walk m d clus K ∧ p ∈ chain_slots m d clus K ∧ is_valid (slot_entry d p) = true
      ∧ n = listed_name (slot_entry d p) buf := by
  intro fuel
  induction fuel with
  | zero => intro clus name names n h; simp [readdir_chain] at h
  | succ fuel ih =>
    intro clus name names n h hn
    unfold readdir_chain at h
    by_cases hin : is_cluster_inuse clus = true
    · rw [if_pos hin] at h
      simp only [cluster_first_sector_ok m clus hin, bind, Except.bind, pure, Except.pure] at h
      cases hr : readdir_chain m d fuel (read_fat_entry m d clus)
          (readdir_sectors m d (first_sector m clus) m.sec_per_clus 0 name).2 with
      | error e =>
        rw [hr] at h
        cases h
      | ok l2 =>
        rw [hr] at h
        simp only [Except.ok.injEq] at h
        subst h
        rcases List.mem_append.mp hn with hn | hn
        · obtain ⟨p, buf, h1, h2⟩ := readdir_sectors_mem m d _ _ 0 _ n hn
          refine ⟨1, p, buf, ?_, ?_, h2⟩
          · intro j hj
            have : j = 0 := by omega
            subst this
            exact hin
          · simpa [chain_slots, chain_nth, clus_slots] using h1
        · obtain ⟨K, p, buf, h1, h2, h3⟩ := ih _ _ _ n hr hn
          refine ⟨K + 1, p, buf, Walk_shift m d clus K hin h1, ?_, h3⟩
          rw [chain_slots_shift]
          exact List.mem_append_right _ h2
    · rw [if_neg hin] at h
      simp only [pure, Except.pure, Except.ok.injEq] at h
      subst h
      cases hn

/-- Every name that `fat16_readdir` lists is the name written by `to_longname` for an in-use
entry of the root region or of a reached cluster of the directory's chain. -/
theorem fat16_readdir_listed (fuel : Nat) (m : FAT16) (d : Disk) (u : Uninit)
    (dpath : List Nat) (names : List (List Nat)) (n : List Nat)
    (h : fat16_readdir fuel m d u dpath = .ok (0, names)) (hn : n ∈ names) :
    (path_is_root dpath = true ∧ ∃ p buf, p ∈ root_slots m ∧ is_valid (slot_entry d p) = true
        ∧ n = listed_name (slot_entry d p) buf)
    ∨ (path_is_root dpath = false ∧ ∃ ps K p buf,
        find_entry fuel m d u dpath u.slot = .ok (0, ps)
        ∧ is_directory (DIR_Attr ps.dir) = true
        ∧ Walk m d (DIR_FstClusLO ps.dir) K ∧ p ∈ chain_slots m d (DIR_FstClusLO ps.dir) K
        ∧ is_valid (slot_entry d p) = true ∧ n = listed_name (slot_entry d p) buf) := by
  unfold fat16_readdir at h
  by_cases hroot : path_is_root dpath = true
  · rw [if_pos hroot] at h
    simp only [pure, Except.pure, Except.ok.injEq, Prod.mk.injEq, true_and] at h
    subst h
    obtain ⟨p, buf, h1, h2⟩ := readdir_sectors_mem m d _ _ 0 _ n hn
    exact Or.inl ⟨hroot, p, buf, h1, h2⟩
  · rw [if_neg hroot] at h
    cases hs : find_entry fuel m d u dpath u.slot with
    | error e => rw [hs] at h; cases h
    | ok x =>
      obtain ⟨ret, ps⟩ := x
      rw [hs] at h
      simp only [bind, Except.bind, pure, Except.pure] at h
      by_cases hret : ret < 0
      · rw [if_pos hret] at h
        simp only [Except.ok.injEq, Prod.mk.injEq] at h
        omega
      · rw [if_neg hret] at h
        by_cases hd : (!is_directory (DIR_Attr ps.dir)) = true
        · rw [if_pos hd] at h
          simp only [Except.ok.injEq, Prod.mk.injEq] at h
          exact absurd h.1 (by decide)
        · rw [if_neg hd] at h
          cases hr : readdir_chain m d fuel (DIR_FstClusLO ps.dir) u.name with
          | error e => rw [hr] at h; cases h
          | ok l =>
            rw [hr] at h
            simp only [Except.ok.injEq, Prod.mk.injEq, true_and] at h
            subst h
            have hret0 := find_entry_ret fuel m d u dpath u.slot ps ret hs hret
            subst hret0
            obtain ⟨K, p, buf, h1, h2, h3⟩ := readdir_chain_mem m d fuel _ _ _ n hr hn
            exact Or.inr ⟨by simpa using hroot, ps, K, p, buf, rfl, by simpa using hd, h1, h2, h3⟩

/-- Resolution of a name that an in-use entry of a directory carries: in the root region for
a path that denotes the root, in the chain of the directory that `dpath` resolves to
otherwise. -/
theorem find_entry_resolves (fuel : Nat) (m : FAT16) (d : Disk) (u : Uninit)
    (dpath n : List Nat) (p : Nat × Nat) (hinv : DirInv m d) (hns : 47 ∉ n)
    (hv : (to_shortname n n.length u.fatname).1 = 0)
    (hval : is_valid (slot_entry d p) = true)
    (hm : is_match u n n.length (slot_entry d p) = true) :
    (path_is_root dpath = true → p ∈ root_slots m →
      ∀ F, 2 ≤ F → ∃ s, find_entry F m d u (dpath ++ 47 :: n) u.slot = .ok (0, s))
    ∧ (∀ ps K, path_is_root dpath = false →
      find_entry fuel m d u dpath u.slot = .ok (0, ps) →
      is_directory (DIR_Attr ps.dir) = true →
      Reach m d dir_valid (DIR_FstClusLO ps.dir) →
      Walk m d (DIR_FstClusLO ps.dir) K → p ∈ chain_slots m d (DIR_FstClusLO ps.dir) K →
      ∀ F, K + 1 ≤ F → ∃ s, find_entry (fuel + F) m d u (dpath ++ 47 :: n) u.slot = .ok (0, s))
    := by
  constructor
  · intro hroot hp F hF
    have hsk : skip_slashes (dpath ++ 47 :: n) = n := by
      rw [skip_slashes_append dpath n hns, if_pos]
      simpa [path_is_root] using hroot
    obtain ⟨s, hs⟩ := find_entry_loop_resolves m d u n hns hv p hval hm F 0 CLUSTER_END u.slot 0
      (by omega) (Or.inl ⟨rfl, hp, hinv.1⟩)
    exact ⟨s, find_entry_of_loop F m d u _ u.slot s [] (by rw [hsk]; exact hs)⟩
  · intro ps K hroot hfind hdir hreach hw hp F hF
    have hP : skip_slashes dpath ≠ [] := by
      intro h
      simp [path_is_root, h] at hroot
    have hsk : skip_slashes (dpath ++ 47 :: n) = skip_slashes dpath ++ 47 :: n := by
      rw [skip_slashes_append dpath n hns, if_neg hP]
    obtain ⟨rem, hl⟩ := find_entry_loop_of_find fuel m d u dpath u.slot ps hfind
    obtain ⟨f', lvl', hf', hlvl, hthrough⟩ := find_entry_loop_through_parent m d u n hns fuel
      (skip_slashes dpath) 0 CLUSTER_END u.slot ps rem hP hl hdir
    cases K with
    | zero => simp [chain_slots] at hp
    | succ K =>
      obtain ⟨s, hs⟩ := find_entry_loop_resolves m d u n hns hv p hval hm (f' + F) lvl'
        (DIR_FstClusLO ps.dir) ps K (by omega)
        (Or.inr ⟨hlvl, hw, hp, hinv.2 _ _ hreach hw⟩)
      exact ⟨s, find_entry_of_loop (fuel + F) m d u _ u.slot s []
        (by rw [hsk, hthrough F]; exact hs)⟩

theorem scan_slots_sorted (m : FAT16) (from_sector : Nat) : ∀ (k i : Nat),
    (scan_slots m from_sector k i).Pairwise
      (fun a b => a.1 < b.1 ∨ (a.1 = b.1 ∧ a.2 < b.2)) := by
  intro k
  induction k with
  | zero => intro i; exact List.Pairwise.nil
  | succ k ih =>
    intro i
    simp only [scan_slots]
    rw [List.pairwise_append]
    refine ⟨?_, ih (i + 1), ?_⟩
    · rw [List.pairwise_map]
      exact (dir_offsets_pairwise m).imp (fun h => Or.inr ⟨rfl, h⟩)
    · intro a ha b hb
      rw [List.mem_map] at ha
      obtain ⟨o, _, rfl⟩ := ha
      rw [scan_slots_mem] at hb
      left
      simp only
      omega

theorem zero_entry_pred (b : Sector) (o : Nat) (hb : b = ZERO_SECTOR) :
    is_valid (entry_at b o) = false ∧ dir_valid (entry_at b o) = false := by
  subst hb
  have : entry_at ZERO_SECTOR o 0 = 0 := by simp [entry_at, ZERO_SECTOR]
  simp [is_valid, dir_valid, DIR_Name, this, NAME_FREE]

theorem not_inuse_end : is_cluster_inuse CLUSTER_END = false := by decide

/-- The invariant after the steps of a `fat16_mkdir` whose internal calls succeed: a cluster
`c` that was free has been cleared and marked as a one-cluster chain, the entry `E` of the
new directory has been written over the first never-used slot `q` of a directory, and the
entries `E1` and `E2` have been written into the first two slots of cluster `c`. -/
theorem DirInv_mkdir_core (m : FAT16) (hg : Geom m) (d d1 : Disk) (q : Nat × Nat) (c : Nat)
    (E E1 E2 : DIR_ENTRY) (hwf : DirWF m d) (hinv : DirInv m d) (hff : FirstFree m d q)
    (hcin : is_cluster_inuse c = true) (hcfree : read_fat_entry m d c = CLUSTER_FREE)
    (hcfat : FatIn m c)
    (h1a : read_fat_entry m d1 c = CLUSTER_END)
    (h1b : ∀ x, FatIn m x → x ≠ c → read_fat_entry m d1 x = read_fat_entry m d x)
    (h1c : ∀ s, first_sector m c ≤ s → s < first_sector m c + m.sec_per_clus →
      d1 s = ZERO_SECTOR)
    (h1d : ∀ s, m.root_sec ≤ s →
      ¬ (first_sector m c ≤ s ∧ s < first_sector m c + m.sec_per_clus) → d1 s = d s)
    (hE0 : E 0 ≠ 0) (hEc : DIR_FstClusLO E = c) (hname : E1 0 = E2 0)
    (hg1 : dir_valid E1 = true →
      DIR_FstClusLO E1 = c ∨ Reach m d dir_valid (DIR_FstClusLO E1))
    (hg2 : dir_valid E2 = true →
      DIR_FstClusLO E2 = c ∨ Reach m d dir_valid (DIR_FstClusLO E2)) :
    DirInv m (dir_entry_write (dir_entry_write (dir_entry_write d1
      (DirEntrySlot.mk E q.1 q.2)) (DirEntrySlot.mk E1 (first_sector m c) 0))
      (DirEntrySlot.mk E2 (first_sector m c) DIR_ENTRY_SIZE)) := by
  have hspc := hg.spc_pos
  have hFroot := first_sector_ge_root m hg c
  have hqmem := FirstFree_mem m d q hff
  have hqs := dir_slot_sector m hg d q hqmem
  -- the slots of the directories of `d` lie outside cluster `c`
  have hold : ∀ p, (p ∈ root_slots m ∨ ∃ h n, Reach m d dir_link h ∧ Walk m d h n
      ∧ p ∈ chain_slots m d h n) →
      ¬ (first_sector m c ≤ p.1 ∧ p.1 < first_sector m c + m.sec_per_clus) := by
    rintro p (hp | ⟨h, n, hr, hw, hp⟩) hin
    · have h1 := root_slot_sector m p hp
      have h2 := first_sector_ge m c
      have h3 := hg.data_eq
      omega
    · rw [chain_slots_mem] at hp
      obtain ⟨j, hj, hp⟩ := hp
      rw [clus_slots_mem] at hp
      have := cluster_of_sector m _ _ p.1 (hw j hj) hcin hp.1 hp.2.1 hin.1 hin.2
      exact hwf.not_free h n j hr hw hj (by rw [this]; exact hcfree)
  have hqout := hold q hqmem
  generalize hd2 : dir_entry_write d1 (DirEntrySlot.mk E q.1 q.2) = d2
  generalize hd3 : dir_entry_write d2 (DirEntrySlot.mk E1 (first_sector m c) 0) = d3
  generalize hW : dir_entry_write d3 (DirEntrySlot.mk E2 (first_sector m c) DIR_ENTRY_SIZE) = W
  obtain ⟨ha1, ha2⟩ := slot_entry_write d1 (DirEntrySlot.mk E q.1 q.2) hqs.2
  obtain ⟨hb1, hb2⟩ := slot_entry_write d2 (DirEntrySlot.mk E1 (first_sector m c) 0)
    (Nat.zero_mod _)
  obtain ⟨hc1, hc2⟩ := slot_entry_write d3
    (DirEntrySlot.mk E2 (first_sector m c) DIR_ENTRY_SIZE) (Nat.mod_self _)
  rw [hd2] at ha1 ha2
  rw [hd3] at hb1 hb2
  rw [hW] at hc1 hc2
  simp only at ha1 ha2 hb1 hb2 hc1 hc2
  have hF0 : (first_sector m c, 0) ≠ (first_sector m c, DIR_ENTRY_SIZE) := by
    simp [DIR_ENTRY_SIZE]
  have hqF0 : q ≠ (first_sector m c, 0) := by
    intro h
    rw [h] at hqout
    simp only at hqout
    omega
  have hqF1 : q ≠ (first_sector m c, DIR_ENTRY_SIZE) := by
    intro h
    rw [h] at hqout
    simp only at hqout
    omega
  -- the entries of the final disk
  have hW1 : ∀ i, i < 32 → slot_entry W (first_sector m c, DIR_ENTRY_SIZE) i = E2 i := hc1
  have hW0 : ∀ i, i < 32 → slot_entry W (first_sector m c, 0) i = E1 i := by
    intro i hi
    rw [hc2 _ (Nat.zero_mod _) hF0]
    exact hb1 i hi
  have hWq : ∀ i, i < 32 → slot_entry W q i = E i := by
    intro i hi
    rw [hc2 q hqs.2 hqF1, hb2 q hqs.2 hqF0]
    exact ha1 i hi
  have hWo : ∀ p : Nat × Nat, p.2 % DIR_ENTRY_SIZE = 0 → p ≠ q → p ≠ (first_sector m c, 0) →
      p ≠ (first_sector m c, DIR_ENTRY_SIZE) → slot_entry W p = slot_entry d1 p := by
    intro p hp h1 h2 h3
    rw [hc2 p hp h3, hb2 p hp h2, ha2 p hp h1]
  have hpq := entry_pred_congr (slot_entry W q) E hWq
  have hp0 := entry_pred_congr (slot_entry W (first_sector m c, 0)) E1 hW0
  have hp1 := entry_pred_congr (slot_entry W (first_sector m c, DIR_ENTRY_SIZE)) E2 hW1
  have hent : ∀ p, p ≠ q → (p ∈ root_slots m ∨ ∃ h n, Reach m d dir_link h ∧ Walk m d h n
      ∧ p ∈ chain_slots m d h n) → slot_entry W p = slot_entry d p := by
    intro p hne hp
    have hout := hold p hp
    have hps := dir_slot_sector m hg d p hp
    rw [hWo p hps.2 hne (fun h => hout (by rw [h]; simp only; omega))
      (fun h => hout (by rw [h]; simp only; omega))]
    unfold slot_entry
    rw [h1d p.1 hps.1 hout]
  have hnewq : never_used (slot_entry W q) = false := by
    rw [hpq.1]
    simp [never_used, is_free, DIR_Name, NAME_FREE, hE0]
  -- the FAT of the final disk
  have hWfat : ∀ x, FatIn m x → read_fat_entry m W x = read_fat_entry m d1 x := by
    intro x hx
    have e1 : read_fat_entry m W x = read_fat_entry m d3 x := by
      rw [← hW]
      exact read_fat_entry_congr_root m hg d3 _ x hx (fun s hs =>
        dir_entry_write_other d3 _ s (by simp only; omega))
    have e2 : read_fat_entry m d3 x = read_fat_entry m d2 x := by
      rw [← hd3]
      exact read_fat_entry_congr_root m hg d2 _ x hx (fun s hs =>
        dir_entry_write_other d2 _ s (by simp only; omega))
    have e3 : read_fat_entry m d2 x = read_fat_entry m d1 x := by
      rw [← hd2]
      exact read_fat_entry_congr_root m hg d1 _ x hx (fun s hs =>
        dir_entry_write_other d1 _ s (by simp only; omega))
    rw [e1, e2, e3]
  have hchain : ∀ h n, Reach m d dir_link h → Walk m W h n →
      ∀ j, j < n → chain_nth m W h j = chain_nth m d h j := by
    intro h n hr
    refine chain_agree m d W h (fun n' j hw hj => Or.inl ?_) n
    have hfi := hwf.fat_in h n' j hr hw hj
    rw [hWfat _ hfi]
    exact h1b _ hfi (fun hx => hwf.not_free h n' j hr hw hj (by rw [hx]; exact hcfree))
  -- the chain of the new directory is the cluster `c` alone
  have hcchain : ∀ n p, Walk m W c n → p ∈ chain_slots m W c n → p ∈ clus_slots m c := by
    intro n p hw hp
    rw [chain_slots_mem] at hp
    obtain ⟨j, hj, hp⟩ := hp
    cases j with
    | zero => exact hp
    | succ j =>
      have h1 := hw 1 (by omega)
      have h2 : chain_nth m W c 1 = CLUSTER_END := by
        show read_fat_entry m W c = CLUSTER_END
        rw [hWfat c hcfat]
        exact h1a
      rw [h2, not_inuse_end] at h1
      cases h1
  have hcslot : ∀ p, p ∈ clus_slots m c → p ≠ (first_sector m c, 0) →
      p ≠ (first_sector m c, DIR_ENTRY_SIZE) →
      is_valid (slot_entry W p) = false ∧ dir_valid (slot_entry W p) = false := by
    intro p hp h2 h3
    rw [clus_slots_mem] at hp
    have hne : p ≠ q := fun h => hqout (by rw [← h]; exact ⟨hp.1, hp.2.1⟩)
    rw [hWo p (dir_offsets_mod m _ hp.2.2) hne h2 h3]
    exact zero_entry_pred _ _ (h1c p.1 hp.1 hp.2.1)
  obtain ⟨hA1, hA2⟩ := PrefixIn_first_free m hg d W q hwf hinv hff hent hnewq
  have hreach := Reach_transfer m d W dir_valid (fun h => h = c) dir_valid_link hchain (by
      intro p hp hl
      by_cases hpq' : p = q
      · right
        rw [hpq', hpq.2.2.2.2]
        exact hEc
      · rw [hent p hpq' hp] at hl ⊢
        exact Or.inl ⟨hl, rfl⟩)
    (by
      intro h n p hh hw hp hl
      rw [hh] at hw hp
      have hpc := hcchain n p hw hp
      by_cases h2 : p = (first_sector m c, 0)
      · rw [h2, hp0.2.2.1] at hl
        rw [h2, hp0.2.2.2.2]
        exact hg1 hl
      · by_cases h3 : p = (first_sector m c, DIR_ENTRY_SIZE)
        · rw [h3, hp1.2.2.1] at hl
          rw [h3, hp1.2.2.2.2]
          exact hg2 hl
        · rw [(hcslot p hpc h2 h3).2] at hl
          cases hl)
  refine ⟨hA1, ?_⟩
  intro h n hr hw
  rcases hreach h hr with hr' | hc'
  · have hrl := Reach_mono m d dir_valid dir_link dir_valid_link h hr'
    have heq := hchain h n hrl hw
    rw [chain_slots_congr m d W h n heq]
    exact hA2 h n hr' (Walk_agree m d W h n hw heq)
  · subst hc'
    -- the slots of cluster `c`
    have hsub : ∃ R, clus_slots m h = chain_slots m W h n ++ R := by
      cases n with
      | zero => exact ⟨clus_slots m h, by simp [chain_slots]⟩
      | succ n =>
        cases n with
        | zero => exact ⟨[], by simp [chain_slots, chain_nth]⟩
        | succ n =>
          have h1 := hw 1 (by omega)
          have h2 : chain_nth m W h 1 = CLUSTER_END := by
            show read_fat_entry m W h = CLUSTER_END
            rw [hWfat h hcfat]
            exact h1a
          rw [h2, not_inuse_end] at h1
          cases h1
    obtain ⟨R, hR⟩ := hsub
    refine PrefixIn_init W _ R ?_
    rw [← hR]
    unfold PrefixIn clus_slots
    refine (scan_slots_sorted m (first_sector m h) m.sec_per_clus 0).imp_of_mem ?_
    intro a b ha hb hlt hna
    have ha' := (clus_slots_mem m h a).mp ha
    have hb' := (clus_slots_mem m h b).mp hb
    by_cases h2 : b = (first_sector m h, 0)
    · rw [h2] at hlt
      simp only at hlt
      omega
    · by_cases h3 : b = (first_sector m h, DIR_ENTRY_SIZE)
      · have hao := dir_offsets_mod m _ ha'.2.2
        have hae : a = (first_sector m h, 0) := by
          rw [h3] at hlt
          simp only [DIR_ENTRY_SIZE] at hlt hao
          exact Prod.ext (by simp only; omega) (by simp only; omega)
        rw [hae, hp0.1] at hna
        rw [h3, hp1.2.1]
        simp only [never_used, is_free, DIR_Name, Bool.and_eq_true, Bool.not_eq_true',
          beq_iff_eq] at hna
        simp [is_valid, DIR_Name, ← hname, hna.2]
      · exact (hcslot b hb h2 h3).1

theorem load16_lt (b : Nat → Nat) (o : Nat) : load16 b o < 65536 := by
  unfold load16
  have h1 := Nat.mod_lt (b o) (by decide : 0 < 256)
  have h2 := Nat.mod_lt (b (o + 1)) (by decide : 0 < 256)
  omega

theorem to_shortname_dot (res : Nat → Nat) :
    to_shortname DOT_NAME 11 res = (-EINVAL, res)
    ∧ to_shortname DOTDOT_NAME 11 res = (-EINVAL, res) := ⟨rfl, rfl⟩

/-- Preservation of the invariant by a `fat16_mkdir` whose internal calls succeed. -/
theorem DirInv_mkdir (fuel : Nat) (m : FAT16) (hg : Geom m) (now : Tm) (d d' : Disk)
    (u : Uninit) (path : List Nat) (hwf : DirWF m d) (hinv : DirInv m d)
    (slot : DirEntrySlot) (filename : List Nat) (c : Nat) (d1 : Disk) (r1 r2 : Int)
    (s1 s2 : DirEntrySlot)
    (hslot : find_empty_slot fuel m d u path u.slot = .ok (0, slot, filename))
    (hname : (to_shortname filename MAX_NAME_LEN u.shortname).1 = 0)
    (halloc : alloc_clusters m d 1 u.first_clus = .ok (0, c, d1))
    (hfat : FatIn m c)
    (hdot : find_entry fuel m (mkdir_entry_disk now d1 u slot filename c) u path u.slot_of_subdir
      = .ok (r1, s1))
    (hdot1 : DIR_FstClusLO s1.dir = c)
    (hdotdot : find_entry fuel m
      (mkdir_dot_disk m now (mkdir_entry_disk now d1 u slot filename c) u c s1) u
      (mkdir_pre_path path) (mkdir_dot_slot m c s1 0) = .ok (r2, s2))
    (hdotdot1 : DIR_FstClusLO s2.dir = c ∨ Reach m d dir_valid (DIR_FstClusLO s2.dir))
    (h : fat16_mkdir fuel m now d u path = .ok (0, d')) : DirInv m d' := by
  obtain ⟨_, hff, _⟩ := find_empty_slot_first_free fuel m d u path u.slot slot 0 filename hslot
    (by decide)
  -- the allocation
  have hal := halloc
  unfold alloc_clusters at hal
  rw [if_neg (by decide)] at hal
  simp only [] at hal
  generalize hL : alloc_scan m d 1 (CLUSTER_MAX + 1 - CLUSTER_MIN) CLUSTER_MIN [] = L at hal
  by_cases hlen : L.length = 1
  · rw [if_neg (by simp [hlen])] at hal
    cases hz : clear_all m d L with
    | error e => rw [hz] at hal; simp [bind, Except.bind] at hal
    | ok dz =>
      rw [hz] at hal
      simp only [bind, Except.bind, pure, Except.pure, Except.ok.injEq, Prod.mk.injEq,
        true_and] at hal
      obtain ⟨x, hx⟩ : ∃ x, L = [x] := List.length_eq_one.mp hlen
      subst hx
      simp only [List.headD_cons] at hal
      obtain ⟨rfl, _⟩ := hal
      obtain ⟨_, hfree⟩ := alloc_scan_free m d 1 [x] hL
      have hcin := (hfree x (List.mem_singleton_self x)).1
      have hcfree := (hfree x (List.mem_singleton_self x)).2
      obtain ⟨d1', hd1, hp1, hp2, hp3, hp4⟩ := alloc_clusters_spec m hg d 1 u.first_clus
        (by decide) [x] hL rfl (fun y hy => by rw [List.mem_singleton.mp hy]; exact hfat)
      rw [halloc] at hd1
      simp only [List.headD_cons, Except.ok.injEq, Prod.mk.injEq, true_and] at hd1
      subst hd1
      have hcb := inuse_ge x hcin
      -- the three entries
      have hbE := new_dir_entry_bytes now (to_shortname filename MAX_NAME_LEN u.shortname).2
        ATTR_DIRECTORY x (2 * DIR_ENTRY_SIZE)
      have hbE1 := new_dir_entry_bytes now (to_shortname DOT_NAME 11 u.name).2 ATTR_DIRECTORY
        (DIR_FstClusLO s1.dir) 0
      have hbE2 := new_dir_entry_bytes now
        (to_shortname DOTDOT_NAME 11 (to_shortname DOT_NAME 11 u.name).2).2 ATTR_DIRECTORY
        (DIR_FstClusLO s2.dir) 0
      have hcore := DirInv_mkdir_core m hg d d1 (slot.sector, slot.offset) x
        (new_dir_entry now (to_shortname filename MAX_NAME_LEN u.shortname).2 ATTR_DIRECTORY x
          (2 * DIR_ENTRY_SIZE))
        (new_dir_entry now (to_shortname DOT_NAME 11 u.name).2 ATTR_DIRECTORY
          (DIR_FstClusLO s1.dir) 0)
        (new_dir_entry now (to_shortname DOTDOT_NAME 11 (to_shortname DOT_NAME 11 u.name).2).2
          ATTR_DIRECTORY (DIR_FstClusLO s2.dir) 0) hwf hinv hff
        hcin hcfree hfat
        (by
          have := hp1 1 (by omega)
          simpa [chain_nth] using this)
        (fun y hy hne => hp2 y hy (by simp [hne]))
        (fun s hs1 hs2 => hp3 s ⟨x, List.mem_singleton_self x, hs1, hs2⟩)
        (fun s hs hn => hp4 s hs (by
          rintro ⟨y, hy, h1, h2⟩
          rw [List.mem_singleton.mp hy] at h1 h2
          exact hn ⟨h1, h2⟩))
        (by
          rw [hbE.1]
          exact to_shortname_ne_zero filename MAX_NAME_LEN u.shortname hname 0 (by decide))
        (by rw [hbE.2.2]; exact Nat.mod_eq_of_lt (by omega))
        (by rw [hbE1.1, hbE2.1, (to_shortname_dot _).2])
        (fun _ => Or.inl (by
          rw [hbE1.2.2, Nat.mod_eq_of_lt (show DIR_FstClusLO s1.dir < 65536 from load16_lt _ _)]
          exact hdot1))
        (fun _ => by
          rw [hbE2.2.2, Nat.mod_eq_of_lt (show DIR_FstClusLO s2.dir < 65536 from load16_lt _ _)]
          exact hdotdot1)
      -- the disk that `fat16_mkdir` returns
      unfold fat16_mkdir at h
      simp only [hslot, halloc, bind, Except.bind, pure, Except.pure,
        cluster_first_sector_ok m x hcin] at h
      unfold mkdir_entry_disk at hdot
      rw [hdot] at h
      simp only [] at h
      unfold mkdir_dot_disk mkdir_entry_disk mkdir_dot_slot at hdotdot
      rw [hdotdot] at h
      simp only [Except.ok.injEq, Prod.mk.injEq, true_and] at h
      rw [← h]
      exact hcore
  · rw [if_pos (by simpa using hlen)] at hal
    simp only [pure, Except.pure, Except.ok.injEq, Prod.mk.injEq] at hal
    exact absurd hal.1 (by decide)

theorem ok_of_toOption_map {α β : Type} (x : Except Fault α) (f : α → β) (b : β)
    (h : x.toOption.map f = some b) : ∃ a, x = .ok a ∧ f a = b := by
  cases x with
  | error e => simp [Except.toOption] at h
  | ok a =>
    refine ⟨a, rfl, ?_⟩
    simpa [Except.toOption] using h

theorem Walk_le (m : FAT16) (d : Disk) (h n N : Nat)
    (hend : is_cluster_inuse (chain_nth m d h N) = false) (hw : Walk m d h n) : n ≤ N := by
  by_contra hlt
  have := hw N (by omega)
  rw [hend] at this
  exact absurd this (by decide)

theorem chain_slots_sub (m : FAT16) (d : Disk) (h n N : Nat) (hn : n ≤ N) (p : Nat × Nat)
    (hp : p ∈ chain_slots m d h n) : p ∈ chain_slots m d h N := by
  obtain ⟨R, hR⟩ := chain_slots_init m d h n (N - n)
  rw [show n + (N - n) = N from by omega] at hR
  rw [hR]
  exact List.mem_append_left _ hp

/-- Directories of a volume from a finite list `C` of (first cluster, chain length): every
first cluster that the resolver can reach is listed. -/
theorem Reach_cert (m : FAT16) (d : Disk) (C : List (Nat × Nat))
    (hroot : ∀ p ∈ root_slots m, dir_link (slot_entry d p) = true →
      ∃ c ∈ C, c.1 = DIR_FstClusLO (slot_entry d p))
    (hend : ∀ c ∈ C, is_cluster_inuse (chain_nth m d c.1 c.2) = false)
    (hsub : ∀ c ∈ C, ∀ p ∈ chain_slots m d c.1 c.2, dir_link (slot_entry d p) = true →
      ∃ c1 ∈ C, c1.1 = DIR_FstClusLO (slot_entry d p)) :
    ∀ h, Reach m d dir_link h → ∃ c ∈ C, c.1 = h := by
  intro h hr
  induction hr with
  | root p hp hl => exact hroot p hp hl
  | sub h n p _ hw hp hl ih =>
    obtain ⟨c, hc, hch⟩ := ih
    have hle : n ≤ c.2 := Walk_le m d h n c.2 (by rw [← hch]; exact hend c hc) hw
    exact hsub c hc p (by rw [hch]; exact chain_slots_sub m d h n c.2 hle p hp) hl

theorem DirWF_cert (m : FAT16) (d : Disk) (C : List (Nat × Nat))
    (hroot : ∀ p ∈ root_slots m, dir_link (slot_entry d p) = true →
      ∃ c ∈ C, c.1 = DIR_FstClusLO (slot_entry d p))
    (hend : ∀ c ∈ C, is_cluster_inuse (chain_nth m d c.1 c.2) = false)
    (hsub : ∀ c ∈ C, ∀ p ∈ chain_slots m d c.1 c.2, dir_link (slot_entry d p) = true →
      ∃ c1 ∈ C, c1.1 = DIR_FstClusLO (slot_entry d p))
    (hfat : ∀ c ∈ C, ∀ j, j < c.2 → FatIn m (chain_nth m d c.1 j)
      ∧ read_fat_entry m d (chain_nth m d c.1 j) ≠ CLUSTER_FREE)
    (hinj : ∀ c1 ∈ C, ∀ c2 ∈ C, ∀ j1, j1 < c1.2 → ∀ j2, j2 < c2.2 →
      chain_nth m d c1.1 j1 = chain_nth m d c2.1 j2 → c1.1 = c2.1 ∧ j1 = j2) : DirWF m d := by
  have hR := Reach_cert m d C hroot hend hsub
  refine ⟨?_, ?_, ?_⟩
  · intro h n j hr hw hj
    obtain ⟨c, hc, hch⟩ := hR h hr
    have hle := Walk_le m d h n c.2 (by rw [← hch]; exact hend c hc) hw
    rw [← hch]
    exact (hfat c hc j (by omega)).1
  · intro h n j hr hw hj
    obtain ⟨c, hc, hch⟩ := hR h hr
    have hle := Walk_le m d h n c.2 (by rw [← hch]; exact hend c hc) hw
    rw [← hch]
    exact (hfat c hc j (by omega)).2
  · intro h1 h2 j1 j2 hr1 hr2 hw1 hw2 he
    obtain ⟨c1, hc1, hch1⟩ := hR h1 hr1
    obtain ⟨c2, hc2, hch2⟩ := hR h2 hr2
    have hle1 := Walk_le m d h1 (j1 + 1) c1.2 (by rw [← hch1]; exact hend c1 hc1) hw1
    have hle2 := Walk_le m d h2 (j2 + 1) c2.2 (by rw [← hch2]; exact hend c2 hc2) hw2
    rw [← hch1, ← hch2] at he ⊢
    exact hinj c1 hc1 c2 hc2 j1 (by omega) j2 (by omega) he

theorem DirInv_cert (m : FAT16) (d : Disk) (C : List (Nat × Nat))
    (hroot : ∀ p ∈ root_slots m, dir_link (slot_entry d p) = true →
      ∃ c ∈ C, c.1 = DIR_FstClusLO (slot_entry d p))
    (hend : ∀ c ∈ C, is_cluster_inuse (chain_nth m d c.1 c.2) = false)
    (hsub : ∀ c ∈ C, ∀ p ∈ chain_slots m d c.1 c.2, dir_link (slot_entry d p) = true →
      ∃ c1 ∈ C, c1.1 = DIR_FstClusLO (slot_entry d p))
    (hpre : PrefixIn d (root_slots m))
    (hpreC : ∀ c ∈ C, PrefixIn d (chain_slots m d c.1 c.2)) : DirInv m d := by
  have hR := Reach_cert m d C hroot hend hsub
  refine ⟨hpre, ?_⟩
  intro h n hr hw
  obtain ⟨c, hc, hch⟩ := hR h (Reach_mono m d dir_valid dir_link dir_valid_link h hr)
  have hle := Walk_le m d h n c.2 (by rw [← hch]; exact hend c hc) hw
  obtain ⟨R, hRR⟩ := chain_slots_init m d h n (c.2 - n)
  rw [show n + (c.2 - n) = c.2 from by omega] at hRR
  have := hpreC c hc
  rw [hch, hRR] at this
  exact PrefixIn_init d _ R this

theorem ChainOK_one (m : FAT16) (d : Disk) (h : Nat) (h1 : is_cluster_inuse h = true)
    (h2 : FatIn m h) : ChainOK m d h 1 :=
  ⟨fun k hk => by rw [show k = 0 from by omega]; exact h1,
   fun i hi j hj _ => by omega,
   fun k hk => by rw [show k = 0 from by omega]; exact h2⟩

theorem treeDisk_wf : DirWF demoMeta treeDisk :=
  DirWF_cert demoMeta treeDisk treeDirs (by decide) (by decide) (by decide) (by decide)
    (by decide)

theorem treeDisk_inv : DirInv demoMeta treeDisk :=
  DirInv_cert demoMeta treeDisk treeDirs (by decide) (by decide) (by decide) (by decide)
    (by decide)
/-! ## Claims -/

theorem demoMeta_geom : Geom demoMeta :=
  ⟨by decide, by decide, by decide, by decide, by decide, by decide, by decide, by decide⟩

theorem demoDisk_fileOK : FileOK 400 demoMeta (demoDisk 256) demoUninit pathA
    { dir := entry_at (demoDisk 256 3) 0, sector := 3, offset := 0 } 2 :=
  ⟨by decide, by rfl, by decide, ⟨by decide, by decide, by decide⟩, by decide, by decide,
    by decide⟩

theorem demoDisk_dirTail : DirTail demoMeta (demoDisk 256)
    { dir := entry_at (demoDisk 256 3) 0, sector := 3, offset := 0 } 2 0 := by
  refine ⟨by decide, fun s h1 h2 => ?_, fun c0 _ h1 _ => ?_⟩
  · have hs : s = 4 := by
      have : demoMeta.root_sec + demoMeta.root_sectors = 5 := rfl
      have h3 : (3 : Nat) < s := h1
      omega
    subst hs
    decide
  · exfalso
    have h3 := first_sector_ge demoMeta c0
    have h4 : demoMeta.data_sec = 5 := rfl
    have h5 : first_sector demoMeta c0 ≤ 3 := h1
    omega

theorem demoDisk_fileWF : FileWF 400 demoMeta (demoDisk 256) demoUninit pathA
    { dir := entry_at (demoDisk 256 3) 0, sector := 3, offset := 0 } 2 :=
  ⟨demoDisk_fileOK, by decide, by decide⟩

theorem demoDisk_hasFree : HasFree demoMeta (demoDisk 256) (2 * (300 / demoMeta.cluster_size + 1)) :=
  ⟨[4, 5, 6, 7, 8, 9], by decide, by decide, by decide⟩

/-- C1 (code as written): on the volume `demoDisk 256` (file `/A` of 256 bytes on the two
128-byte clusters 2 and 3) `fat16_write` of 100 bytes at offset 100 returns 100, and the
following `fat16_read` of 100 bytes at offset 100 into a buffer of 100 bytes copies past
the end of the buffer: after the 28 bytes up to the cluster boundary `read_pointer` is
advanced by the bytes read and not to the cluster boundary, so the whole second cluster is
copied to `buffer[28 .. 156)`.  With 156 bytes of memory behind `buffer` the call returns
156, not 100; bytes 0 .. 99 are the data written and bytes 100 .. 155 are overwritten with
the file's bytes 200 .. 255. -/
theorem fat16_read_after_write_overruns_buffer :
    (fat16_write 10 demoMeta (demoDisk 256) demoUninit pathA (fun i => i + 1) 100 100).toOption.map
      (fun w => (w.1,
        is_overrun (fat16_read 10 demoMeta w.2 demoUninit pathA (fun _ => 7) 100 100 100),
        (fat16_read 10 demoMeta w.2 demoUninit pathA (fun _ => 7) 156 100 100).toOption.map
          (fun r => (r.1, [r.2 0, r.2 99, r.2 100, r.2 155, r.2 156]))))
      = some (100, true, some (156, [1, 100, 0, 0, 7])) := by
  decide

/-- C2 (code as written): on the volume `demoDisk 256` (file `/A` of 256 bytes on the
two 128-byte clusters 2 and 3) a read of 240 bytes at offset 10 with 246 bytes of memory
behind `buffer` returns 246, although `min(size, file_size - offset)` is 240: after the
first partial cluster, `read_pointer` is advanced by the bytes read and not to the cluster
boundary, so the last cluster is read whole.  With a buffer of the 240 requested bytes the
copy of the last cluster runs past the end of the buffer. -/
theorem fat16_read_unaligned_returns_more :
    retOf (fat16_read 10 demoMeta (demoDisk 256) demoUninit pathA (fun _ => 0) 246 240 10)
      = some 246 ∧ min 240 (256 - 10) = 240
    ∧ is_overrun (fat16_read 10 demoMeta (demoDisk 256) demoUninit pathA (fun _ => 0) 240 240 10)
      = true := by
  decide

/-- C3 (code as written): on the volume `demoDisk 100` (file `/A` of size 100) a write
of 50 bytes at offset 80 returns 50 and leaves the size field at 150 = 100 + 50,
not at max(100, 80 + 50) = 130. -/
theorem fat16_write_overlap_size_field :
    (fat16_write 10 demoMeta (demoDisk 100) demoUninit pathA (fun i => i + 1) 50 80).toOption.map
      (fun r => (r.1, DIR_FileSize (entry_at (r.2 3) 0))) = some (50, 150)
    ∧ max 100 (80 + 50) = 130 := by
  decide

/-- C4: shrinking a regular file of size `S` with a well-formed, terminated chain to a size
`s < S` returns 0; afterwards the size field is `s`, the bytes `[0, s)` are unchanged,
every byte from position `s` to the end of the cluster holding position `s` is zero,
that cluster's FAT entry is a terminator, and every later cluster of the old chain is
free. -/
theorem fat16_truncate_shrink (fuel : Nat) (m : FAT16) (d : Disk) (u : Uninit)
    (path : List Nat) (slot : DirEntrySlot) (n s : Nat) (hg : Geom m)
    (hf : FileOK fuel m d u path slot n)
    (hend : is_cluster_end (chain_nth m d (DIR_FstClusLO slot.dir) n) = true)
    (hs : s < DIR_FileSize slot.dir) (hfuel : n + m.sec_per_clus < fuel) :
    ∃ d', fat16_truncate fuel m d u path s = .ok (0, d')
      ∧ DIR_FileSize (entry_at (d' slot.sector) slot.offset) = s
      ∧ (∀ p, p < s → file_byte m d' (DIR_FstClusLO slot.dir) p
          = file_byte m d (DIR_FstClusLO slot.dir) p)
      ∧ (∀ p, s ≤ p → p < (s / m.cluster_size + 1) * m.cluster_size →
          file_byte m d' (DIR_FstClusLO slot.dir) p = 0)
      ∧ is_cluster_end (read_fat_entry m d'
          (chain_nth m d (DIR_FstClusLO slot.dir) (s / m.cluster_size))) = true
      ∧ (∀ j, s / m.cluster_size < j → j < n →
          read_fat_entry m d' (chain_nth m d (DIR_FstClusLO slot.dir) j) = CLUSTER_FREE) := by
  obtain ⟨d', h1, h2, h3, h4, h5, h6, _⟩ :=
    fat16_truncate_shrink_raw fuel m d u path slot n s hg hf hend hs hfuel
  exact ⟨d', h1, h2, h3, h4, h5, h6⟩

theorem fat16_truncate_shrink_witness :
    ∃ d', fat16_truncate 400 demoMeta (demoDisk 256) demoUninit pathA 100 = .ok (0, d')
      ∧ DIR_FileSize (entry_at (d' 3) 0) = 100
      ∧ (∀ p, p < 100 → file_byte demoMeta d' 2 p = file_byte demoMeta (demoDisk 256) 2 p)
      ∧ (∀ p, 100 ≤ p → p < 128 → file_byte demoMeta d' 2 p = 0)
      ∧ is_cluster_end (read_fat_entry demoMeta d' 2) = true
      ∧ (∀ j, 0 < j → j < 2 →
          read_fat_entry demoMeta d' (chain_nth demoMeta (demoDisk 256) 2 j) = CLUSTER_FREE) :=
  fat16_truncate_shrink 400 demoMeta (demoDisk 256) demoUninit pathA
    { dir := entry_at (demoDisk 256 3) 0, sector := 3, offset := 0 } 2 100
    demoMeta_geom demoDisk_fileOK (by decide) (by decide) (by decide)

/-- C5: for a well-formed regular file of any size and contents and sizes `a < b`, on a
volume with at least `2 * (b / cluster_size + 1)` free clusters, the calls
`fat16_truncate(path, b)`, `fat16_truncate(path, a)`, `fat16_truncate(path, b)` all return
0; afterwards the path resolves to an entry of size `b`, the file bytes below `a` and
below the original size are the original bytes, and every byte of the file in `[a, b)` is
zero. -/
theorem fat16_truncate_up_down_up (fuel : Nat) (m : FAT16) (d : Disk) (u : Uninit)
    (path : List Nat) (slot : DirEntrySlot) (n a b : Nat) (hg : Geom m)
    (hw : FileWF fuel m d u path slot n) (hab : a < b) (hb32 : b < 4294967296)
    (h16 : b / m.cluster_size + 1 < 65536)
    (hfree : HasFree m d (2 * (b / m.cluster_size + 1)))
    (hfuel : n + (b / m.cluster_size + 1) + m.sec_per_clus < fuel) :
    ∃ d1 d2 d3 slot3, fat16_truncate fuel m d u path b = .ok (0, d1)
      ∧ fat16_truncate fuel m d1 u path a = .ok (0, d2)
      ∧ fat16_truncate fuel m d2 u path b = .ok (0, d3)
      ∧ find_entry fuel m d3 u path u.slot = .ok (0, slot3)
      ∧ DIR_FileSize slot3.dir = b
      ∧ (∀ p, p < a → p < DIR_FileSize slot.dir →
          file_byte m d3 (DIR_FstClusLO slot3.dir) p = file_byte m d (DIR_FstClusLO slot.dir) p)
      ∧ (∀ p, a ≤ p → p < b → file_byte m d3 (DIR_FstClusLO slot3.dir) p = 0) := by
  have hcs := cs_pos m hg
  have hadiv : a / m.cluster_size ≤ b / m.cluster_size := Nat.div_le_div_right (Nat.le_of_lt hab)
  have hgl := grow_clusters_le m a b
  have hf1 : n + m.sec_per_clus < fuel := by
    generalize b / m.cluster_size = Q at hfuel
    omega
  have hf3 : a / m.cluster_size + 1 ≤ fuel := by
    generalize a / m.cluster_size = P at hadiv
    generalize b / m.cluster_size = Q at hfuel hadiv
    omega
  have hg3 : grow_clusters m a b < 65536 := by
    generalize b / m.cluster_size = Q at h16 hgl
    omega
  -- first call: to size `b`
  obtain ⟨d1, n1, htr1, hw1, hsize1, hn1, hkeep1, hfree1⟩ :=
    fat16_truncate_to fuel m hg d u path slot n b _ hw hb32 h16 hfree
      (by generalize b / m.cluster_size = Q; omega) hf1
  have hfree1' : HasFree m d1 (b / m.cluster_size + 1) :=
    HasFree_mono m d1 _ _ hfree1 (by generalize b / m.cluster_size = Q; omega)
  have hf2 : n1 + m.sec_per_clus < fuel := by
    generalize b / m.cluster_size = Q at hfuel hn1
    omega
  -- second call: down to size `a`
  obtain ⟨d2, htr2, hS⟩ := fat16_truncate_shrink_wf fuel m hg d1 u path _ n1 a hw1
    (by show a < DIR_FileSize (entry_at (d1 slot.sector) slot.offset); omega) hf2
  have hw2 := hS.wf
  have hsize2 := hS.size
  have hhead2 := hS.head
  have hkeep2 := hS.keep
  have hzero2 := hS.zero
  have hfree2 : HasFree m d2 (b / m.cluster_size + 1) := by
    have := HasFree_after m d1 d2 _ [] hfree1' (fun c hc hf _ => hS.free c hc hf)
    exact HasFree_mono m d2 _ _ this (by simp)
  dsimp only at hw2 hsize2 hhead2 hkeep2 hzero2
  -- third call: up to size `b` again
  obtain ⟨d3, n3, htr3, hG⟩ := fat16_truncate_grow fuel m hg d2 u path _ _ b hw2
    (by show DIR_FileSize (entry_at (d2 slot.sector) slot.offset) < b; omega) hb32
    (by show grow_clusters m (DIR_FileSize (entry_at (d2 slot.sector) slot.offset)) b < 65536
        rw [hsize2]; exact hg3)
    (by show EnoughFree m d2
          (grow_clusters m (DIR_FileSize (entry_at (d2 slot.sector) slot.offset)) b)
        rw [hsize2]
        exact HasFree_EnoughFree m d2 _ _ hfree2 hgl)
    hf3
  have hw3 := hG.wf
  have hsize3 := hG.size
  have hkeep3 := hG.keep
  have hzero3 := hG.zero
  dsimp only at hw3 hsize3 hkeep3 hzero3
  rw [hsize2] at hkeep3 hzero3
  have hcap3 := hw3.ok.capacity
  dsimp only at hcap3
  rw [hsize3] at hcap3
  have hdm := Nat.div_add_mod a m.cluster_size
  have hml := Nat.mod_lt a hcs
  have ha2 : a < (a / m.cluster_size + 1) * m.cluster_size := by
    rw [Nat.succ_mul, Nat.mul_comm]
    omega
  refine ⟨d1, d2, d3, _, htr1, htr2, htr3, hw3.ok.found, hsize3, fun p hpa hpS => ?_,
    fun p hpa hpb => ?_⟩
  · have h0 : a ≠ 0 := by omega
    obtain ⟨h1, h2⟩ := hkeep3 h0
    show file_byte m d3 (DIR_FstClusLO (entry_at (d3 slot.sector) slot.offset)) p = _
    rw [h1, h2 p (by omega), hhead2, hkeep2 p hpa]
    exact hkeep1 p hpS (by omega)
  · show file_byte m d3 (DIR_FstClusLO (entry_at (d3 slot.sector) slot.offset)) p = 0
    by_cases h0 : a = 0
    · exact hzero3 p (Or.inl h0) (by omega)
    · by_cases hp : p < (a / m.cluster_size + 1) * m.cluster_size
      · obtain ⟨h1, h2⟩ := hkeep3 h0
        rw [h1, h2 p hp, hhead2]
        exact hzero2 p hpa hp
      · exact hzero3 p (Or.inr (by omega)) (by omega)

theorem fat16_truncate_up_down_up_witness :
    ∃ d1 d2 d3 slot3,
      fat16_truncate 400 demoMeta (demoDisk 256) demoUninit pathA 300 = .ok (0, d1)
      ∧ fat16_truncate 400 demoMeta d1 demoUninit pathA 100 = .ok (0, d2)
      ∧ fat16_truncate 400 demoMeta d2 demoUninit pathA 300 = .ok (0, d3)
      ∧ find_entry 400 demoMeta d3 demoUninit pathA demoUninit.slot = .ok (0, slot3)
      ∧ DIR_FileSize slot3.dir = 300
      ∧ (∀ p, p < 100 → p < 256 →
          file_byte demoMeta d3 (DIR_FstClusLO slot3.dir) p
            = file_byte demoMeta (demoDisk 256) 2 p)
      ∧ (∀ p, 100 ≤ p → p < 300 → file_byte demoMeta d3 (DIR_FstClusLO slot3.dir) p = 0) :=
  fat16_truncate_up_down_up 400 demoMeta (demoDisk 256) demoUninit pathA
    { dir := entry_at (demoDisk 256 3) 0, sector := 3, offset := 0 } 2 100 300
    demoMeta_geom demoDisk_fileWF (by decide) (by decide) (by decide) demoDisk_hasFree
    (by decide)

/-- C6 (code as written): creating the name whose only byte is 0xE5 in the empty root
returns 0, stores an entry whose first name byte is `NAME_DELETED`, and a following
`find_entry` of the same path returns `-ENOENT`: the remap of a leading 0xE5 to 0x05
compares a signed `char` with 0xe5 and never fires. -/
theorem fat16_mknod_leading_e5_not_found :
    (fat16_mknod 10 demoMeta demoNow emptyDisk demoUninit pathE5).toOption.map
      (fun r => (r.1, DIR_Name (entry_at (r.2 3) 0) 0,
        retOf (find_entry 10 demoMeta r.2 demoUninit pathE5 zeroSlot)))
      = some (0, NAME_DELETED, some (-ENOENT)) := by
  decide

/-- C7: for a path that resolves to a regular file with a well-formed, terminated chain,
in a directory that holds after the file's entry no second entry with the same name,
`fat16_unlink` returns 0; afterwards every cluster of the former chain has FAT entry
`CLUSTER_FREE`, every FAT entry outside that chain is unchanged, the directory entry
differs from its previous contents only in the first name byte, which is `NAME_DELETED`,
and `find_entry` returns `-ENOENT`. -/
theorem fat16_unlink_tombstones (fuel : Nat) (m : FAT16) (d : Disk) (u : Uninit)
    (path : List Nat) (slot : DirEntrySlot) (n K : Nat) (hg : Geom m)
    (hf : FileOK fuel m d u path slot n)
    (hend : is_cluster_inuse (chain_nth m d (DIR_FstClusLO slot.dir) n) = false)
    (hfuel : n < fuel) (htail : DirTail m d slot n K) :
    ∃ d', fat16_unlink fuel m d u path = .ok (0, d')
      ∧ (∀ j, j < n →
          read_fat_entry m d' (chain_nth m d (DIR_FstClusLO slot.dir) j) = CLUSTER_FREE)
      ∧ (∀ c, FatIn m c → (∀ j, j < n → c ≠ chain_nth m d (DIR_FstClusLO slot.dir) j) →
          read_fat_entry m d' c = read_fat_entry m d c)
      ∧ entry_at (d' slot.sector) slot.offset 0 = NAME_DELETED
      ∧ (∀ i, 0 < i →
          entry_at (d' slot.sector) slot.offset i = entry_at (d slot.sector) slot.offset i)
      ∧ retOf (find_entry (fuel + K) m d' u path u.slot) = some (-ENOENT) := by
  obtain ⟨d3, hfree, hfreed, hother, hout⟩ :=
    free_clusters_spec m hg n fuel d (DIR_FstClusLO slot.dir) hf.chain hend hfuel
  have hat := find_entry_slot fuel m d u path u.slot slot hf.not_root hf.found
  have hroot := slot_sector_ge_root m hg d _ slot hat
  have hO := dir_offsets_mod m slot.offset hat.2.1
  have hdir := hat.1
  -- the disk after the call
  have hun : fat16_unlink fuel m d u path = .ok (0, dir_entry_write d3
      (DirEntrySlot.mk (set_DIR_Name0 slot.dir NAME_DELETED) slot.sector slot.offset)) := by
    unfold fat16_unlink
    rw [hf.found]
    simp only [bind, Except.bind, hf.regular, hfree, pure, Except.pure]
    simp
  generalize hd' : dir_entry_write d3
      (DirEntrySlot.mk (set_DIR_Name0 slot.dir NAME_DELETED) slot.sector slot.offset) = d' at hun
  have hS : ∀ o, d' slot.sector o = if o = slot.offset then NAME_DELETED else d slot.sector o := by
    intro o
    rw [← hd', dir_entry_write_tomb d3 slot slot.dir (fun i hi => by
      rw [hout _ (Or.inr hroot), hdir]
      unfold entry_at
      rw [if_pos (by unfold DIR_ENTRY_SIZE; omega)]), hout _ (Or.inr hroot)]
  have hTomb : TombAt m d d' slot.sector slot.offset := by
    refine ⟨fun s hs hne => ?_, hS⟩
    rw [← hd', dir_entry_write_other d3 (DirEntrySlot.mk (set_DIR_Name0 slot.dir NAME_DELETED)
      slot.sector slot.offset) s hne, hout _ (Or.inr hs)]
  have hfat : ∀ c, FatIn m c →
      read_fat_entry m d' c = read_fat_entry m d3 c := fun c hc =>
    read_fat_entry_congr_root m hg d3 _ c hc (fun t ht => by
      rw [← hd']
      exact dir_entry_write_other d3 _ t (by show t ≠ slot.sector; omega))
  have hfat2 : ∀ c, FatIn m c → (∀ j, j < n → c ≠ chain_nth m d (DIR_FstClusLO slot.dir) j) →
      read_fat_entry m d' c = read_fat_entry m d c := fun c hc hne => by
    rw [hfat c hc, hother c hc hne]
  refine ⟨d', hun, ?_, hfat2, ?_, ?_, ?_⟩
  · intro j hj
    rw [hfat _ (hf.chain.fat_in j hj)]
    exact hfreed j hj
  · unfold entry_at
    rw [if_pos (by decide), hS, if_pos (Nat.add_zero _)]
  · intro i hi
    unfold entry_at
    by_cases h32 : i < DIR_ENTRY_SIZE
    · rw [if_pos h32, if_pos h32, hS, if_neg (by omega)]
    · rw [if_neg h32, if_neg h32]
  · -- the resolution on the first disk
    have hfound := hf.found
    unfold find_entry find_entry_internal at hfound
    cases hl : find_entry_loop m d u fuel (skip_slashes path) 0 CLUSTER_END FIND_EXIST u.slot with
    | error e => rw [hl] at hfound; simp [bind, Except.bind] at hfound
    | ok r =>
      obtain ⟨ret, s, rem⟩ := r
      rw [hl] at hfound
      simp only [bind, Except.bind] at hfound
      have hret : ret = FIND_EXIST ∧ s = slot := by
        by_cases h1 : ret < 0
        · rw [if_pos h1] at hfound
          simp only [pure, Except.pure, Except.ok.injEq, Prod.mk.injEq] at hfound
          omega
        · rw [if_neg h1] at hfound
          by_cases h2 : ret = FIND_EXIST
          · rw [if_pos h2] at hfound
            simp only [pure, Except.pure, Except.ok.injEq, Prod.mk.injEq] at hfound
            exact ⟨h2, hfound.2⟩
          · rw [if_neg h2] at hfound
            simp [pure, Except.pure, ENOENT] at hfound
      obtain ⟨rfl, rfl⟩ := hret
      have hne : skip_slashes path ≠ [] := by
        intro he
        have := hf.not_root
        simp [path_is_root, he] at this
      have hE : is_directory (DIR_Attr (entry_at (d s.sector) s.offset)) = false := by
        rw [← hdir]; exact hf.regular
      have hT : ∀ name len, check_name u name len (entry_at (d s.sector) s.offset) = true →
          TailClear m d d' u s.sector s.offset K name len := by
        intro name len hchk
        rw [← hdir] at hchk
        refine ⟨fun off ho hlt => other_name_NoStop u name len _ _ hchk (htail.sector off ho hlt),
          fun x h1 h2 off ho => other_name_NoStop u name len _ _ hchk (htail.root x h1 h2 off ho),
          fun c0 hin h1 h2 => ?_⟩
        obtain ⟨ha, hb, hc, hd⟩ := htail.cluster c0 hin h1 h2
        have hK : 1 ≤ K := by
          rcases Nat.eq_zero_or_pos K with h0 | h0
          · subst h0
            rw [show chain_nth m d c0 0 = c0 from rfl, hin] at hc
            cases hc
          · exact h0
        have hnth : ∀ i, i < K →
            chain_nth m d' (read_fat_entry m d c0) i = chain_nth m d c0 (i + 1) := by
          intro i
          induction i with
          | zero => intro _; rfl
          | succ i ih =>
            intro hi
            show read_fat_entry m d' (chain_nth m d' (read_fat_entry m d c0) i) = _
            rw [ih (by omega), hfat2 _ (hd (i + 1) hi).1 (hd (i + 1) hi).2]
            rfl
        refine ⟨fun x h1 h2 off ho => other_name_NoStop u name len _ _ hchk (ha x h1 h2 off ho),
          K - 1, by omega, fun i hi => ?_, ?_⟩
        · rw [hnth i (by omega)]
          obtain ⟨hi1, hi2⟩ := hb (i + 1) (by omega) (by omega)
          refine ⟨hi1, fun t ht off ho => ?_⟩
          exact NoStop_tomb m d d' u name len s.sector s.offset hO hTomb _ off
            (Nat.le_trans (first_sector_ge_root m hg _) (Nat.le_add_right _ _)) ho
            (other_name_NoStop u name len _ _ hchk (hi2 t ht off ho))
        · rw [hnth (K - 1) (by omega), show K - 1 + 1 = K by omega]
          exact hc
      obtain ⟨r, s', rem', hres, hr⟩ := find_entry_loop_tomb m hg d d' u s.sector s.offset K hO
        hTomb hE hT fuel (skip_slashes path) 0 CLUSTER_END u.slot s rem hl hne rfl rfl
        (fun h => absurd rfl h) (fun x hx => hfat2 x (hf.dirs_fat x hx) (hf.dirs_apart x hx))
      unfold retOf find_entry find_entry_internal
      rw [hres]
      rcases hr with hr | hr <;> subst hr <;>
        simp [bind, Except.bind, FIND_EMPTY, FIND_FULL, FIND_EXIST, pure, Except.pure,
          Except.toOption]

theorem fat16_unlink_tombstones_witness :
    ∃ d', fat16_unlink 400 demoMeta (demoDisk 256) demoUninit pathA = .ok (0, d')
      ∧ (∀ j, j < 2 →
          read_fat_entry demoMeta d' (chain_nth demoMeta (demoDisk 256) 2 j) = CLUSTER_FREE)
      ∧ (∀ c, FatIn demoMeta c → (∀ j, j < 2 → c ≠ chain_nth demoMeta (demoDisk 256) 2 j) →
          read_fat_entry demoMeta d' c = read_fat_entry demoMeta (demoDisk 256) c)
      ∧ entry_at (d' 3) 0 0 = NAME_DELETED
      ∧ (∀ i, 0 < i → entry_at (d' 3) 0 i = entry_at (demoDisk 256 3) 0 i)
      ∧ retOf (find_entry (400 + 0) demoMeta d' demoUninit pathA demoUninit.slot)
          = some (-ENOENT) :=
  fat16_unlink_tombstones 400 demoMeta (demoDisk 256) demoUninit pathA
    { dir := entry_at (demoDisk 256 3) 0, sector := 3, offset := 0 } 2 0
    demoMeta_geom demoDisk_fileOK (by decide) (by decide) demoDisk_dirTail

/-- C8 (code as written): `mkdir /D` on the freshly formatted volume returns 0 and gives
the new directory cluster 2; the entry at offset 32 of its first sector ('..') has
first-cluster field 2, the new directory's own cluster, not the root value 0. -/
theorem fat16_mkdir_dotdot_under_root :
    (fat16_mkdir 10 demoMeta demoNow emptyDisk demoUninit pathD).toOption.map
      (fun r => (r.1, DIR_FstClusLO (entry_at (r.2 3) 0), DIR_FstClusLO (entry_at (r.2 5) 0),
        DIR_FstClusLO (entry_at (r.2 5) 32))) = some (0, 2, 2, 2) := by
  decide

/-- C9 (code as written): `to_shortname` rejects both dot names because they contain
blanks, so `fat16_mkdir` writes the uninitialised `name` buffer into the '.' and '..'
entries; with `name` holding `AAAAAAAAAAA` the scenario
`mkdir /D; mknod /D/B; rmdir /D; unlink /D/B; rmdir /D` ends with `-ENOTEMPTY`. -/
theorem fat16_rmdir_after_unlink_not_empty :
    (∀ res : Nat → Nat, to_shortname DOT_NAME 11 res = (-EINVAL, res)
      ∧ to_shortname DOTDOT_NAME 11 res = (-EINVAL, res))
    ∧ dirScenario junkUninit = some (0, 0, -ENOTEMPTY, 0, -ENOTEMPTY) := by
  refine ⟨fun res => ⟨rfl, rfl⟩, ?_⟩
  decide

/-- C10: for every path that denotes the root directory `fat16_rmdir` returns `-EBUSY` and
the disk is unchanged, whatever the disk holds; when the path is not the root and resolves
to a directory whose chain holds, in its cluster number `n` (all clusters up to it being
in use), sector `i`, offset `off`, an entry that is neither a dot entry, nor never-used,
nor tombstoned, `fat16_rmdir` returns `-ENOTEMPTY` and the disk is unchanged. -/
theorem fat16_rmdir_busy_or_notempty (fuel : Nat) (m : FAT16) (d : Disk) (u : Uninit)
    (path : List Nat) :
    (path_is_root path = true → fat16_rmdir fuel m d u path = .ok (-EBUSY, d))
    ∧ (path_is_root path = false →
        ∀ (slot : DirEntrySlot) (n i off : Nat),
          find_entry fuel m d u path u.slot = .ok (0, slot) →
          is_directory (DIR_Attr slot.dir) = true →
          n < fuel →
          (∀ k ≤ n, is_cluster_inuse (chain_nth m d (DIR_FstClusLO slot.dir) k) = true) →
          i < m.sec_per_clus → off ∈ dir_offsets m →
          is_dot (entry_at
            (d (first_sector m (chain_nth m d (DIR_FstClusLO slot.dir) n) + i)) off) = false →
          is_free (entry_at
            (d (first_sector m (chain_nth m d (DIR_FstClusLO slot.dir) n) + i)) off) = false →
          is_deleted (entry_at
            (d (first_sector m (chain_nth m d (DIR_FstClusLO slot.dir) n) + i)) off) = false →
          fat16_rmdir fuel m d u path = .ok (-ENOTEMPTY, d)) := by
  constructor
  · intro hr
    unfold fat16_rmdir
    simp [hr, pure, Except.pure]
  · intro hroot slot n i off hfind hdir hfuel hchain hi hoff hdot hfree hdel
    unfold fat16_rmdir
    simp only [hroot, hfind, bind, Except.bind, pure, Except.pure]
    have := rmdir_scan_chain_true m d n fuel _ i off hfuel hchain hi hoff hdot hfree hdel
    simp [hdir, this]

theorem fat16_rmdir_busy_or_notempty_witness :
    fat16_rmdir 10 demoMeta demoDirDisk demoUninit [47] = .ok (-EBUSY, demoDirDisk)
    ∧ fat16_rmdir 10 demoMeta blankDisk demoUninit [47, 47] = .ok (-EBUSY, blankDisk)
    ∧ fat16_rmdir 10 demoMeta demoDirDisk demoUninit pathD = .ok (-ENOTEMPTY, demoDirDisk) :=
  ⟨(fat16_rmdir_busy_or_notempty 10 demoMeta demoDirDisk demoUninit [47]).1 (by decide),
   (fat16_rmdir_busy_or_notempty 10 demoMeta blankDisk demoUninit [47, 47]).1 (by decide),
   (fat16_rmdir_busy_or_notempty 10 demoMeta demoDirDisk demoUninit pathD).2 (by decide)
    { dir := entry_at (demoDirDisk 3) 0, sector := 3, offset := 0 } 0 1 0
    (by rfl) (by decide) (by decide) (by decide) (by decide) (by decide)
    (by decide) (by decide) (by decide)⟩
/-- C11 (code as written): on the volume `demoDisk 256` the path `/A` resolves to the
regular file `A` (first cluster 2), yet `fat16_mkdir` of `/A` returns 0: the return value
of `find_empty_slot` is dropped, cluster 4 is allocated (its FAT entry becomes
`CLUSTER_END`) and the entry of `A` is overwritten by a directory entry with a blank name
and first cluster 4. -/
theorem fat16_mkdir_existing_overwrites :
    retOf (find_entry 10 demoMeta (demoDisk 256) demoUninit pathA demoUninit.slot) = some 0
    ∧ retOf (find_empty_slot 10 demoMeta (demoDisk 256) demoUninit pathA demoUninit.slot)
        = some (-EEXIST)
    ∧ (DIR_Name (entry_at (demoDisk 256 3) 0) 0, DIR_Attr (entry_at (demoDisk 256 3) 0),
        DIR_FstClusLO (entry_at (demoDisk 256 3) 0), read_fat_entry demoMeta (demoDisk 256) 4)
        = (65, ATTR_REGULAR, 2, CLUSTER_FREE)
    ∧ (fat16_mkdir 10 demoMeta demoNow (demoDisk 256) demoUninit pathA).toOption.map
        (fun r => (r.1, DIR_Name (entry_at (r.2 3) 0) 0, DIR_Attr (entry_at (r.2 3) 0),
          DIR_FstClusLO (entry_at (r.2 3) 0), read_fat_entry demoMeta r.2 4))
        = some (0, 32, ATTR_DIRECTORY, 4, CLUSTER_END) := by
  decide

/-- C12 (code as written): on the freshly formatted volume the first component of `/M/F`
does not exist, yet `find_entry_internal` returns `FIND_EMPTY` with the first root slot
and the whole `M/F` as remainder (the first level returns its state before the
"more components remain" check); `find_entry` returns `-ENOENT`, but `find_empty_slot`
returns 0 and `fat16_mknod` returns 0 and stores an entry whose name starts `M/F`.  One
level down (`/D/M/F` on the volume `demoDirDisk`, where `D` exists and `M` does not) the
same functions return `-ENOENT`. -/
theorem find_empty_slot_missing_parent_in_root :
    (find_entry_internal 10 demoMeta emptyDisk demoUninit pathMF demoUninit.slot).toOption.map
        (fun r => (r.1, r.2.1.sector, r.2.1.offset, r.2.2)) = some (FIND_EMPTY, 3, 0, [77, 47, 70])
    ∧ retOf (find_entry 10 demoMeta emptyDisk demoUninit pathMF demoUninit.slot)
        = some (-ENOENT)
    ∧ (find_empty_slot 10 demoMeta emptyDisk demoUninit pathMF demoUninit.slot).toOption.map
        (fun r => (r.1, r.2.1.sector, r.2.1.offset, r.2.2)) = some (0, 3, 0, [77, 47, 70])
    ∧ (fat16_mknod 10 demoMeta demoNow emptyDisk demoUninit pathMF).toOption.map
        (fun r => (r.1, DIR_Name (entry_at (r.2 3) 0) 0, DIR_Name (entry_at (r.2 3) 0) 1,
          DIR_Name (entry_at (r.2 3) 0) 2)) = some (0, 77, 47, 70)
    ∧ retOf (find_entry_internal 10 demoMeta demoDirDisk demoUninit pathDMF demoUninit.slot)
        = some (-ENOENT)
    ∧ retOf (find_empty_slot 10 demoMeta demoDirDisk demoUninit pathDMF demoUninit.slot)
        = some (-ENOENT) := by
  decide

theorem fullSubDisk_parent : find_entry 10 demoMeta fullSubDisk demoUninit pathD demoUninit.slot
    = .ok (0, { dir := entry_at (fullSubDisk 3) 0, sector := 3, offset := 0 }) := by
  rfl

/-- C13 (as stated, refuted): on the volume `fullSubDisk` the directory `/D` has the single
cluster 2 (FAT entry `CLUSTER_END`), its four slots hold valid entries, none of them named
`E`, and cluster 3 is free.  `mknod /D/E` returns `-ENOSPC`; the FAT entry of cluster 2 is
still `CLUSTER_END` and cluster 3 is still free: no cluster is appended to the chain. -/
theorem fat16_mknod_full_subdir_no_space :
    (scan_slots demoMeta 5 2 0).map (fun p => is_valid (entry_at (fullSubDisk p.1) p.2))
        = [true, true, true, true]
    ∧ (read_fat_entry demoMeta fullSubDisk 2, read_fat_entry demoMeta fullSubDisk 3)
        = (CLUSTER_END, CLUSTER_FREE)
    ∧ (fat16_mknod 10 demoMeta demoNow fullSubDisk demoUninit pathDE).toOption.map
        (fun r => (r.1, read_fat_entry demoMeta r.2 2, read_fat_entry demoMeta r.2 3))
        = some (-ENOSPC, CLUSTER_END, CLUSTER_FREE) := by
  decide

/-- C13 (amended): creating a new, valid name with `fat16_mknod` in a directory that has no
never-used slot (and no entry of that name: `first_stop` finds nothing) returns `-ENOSPC`
and leaves the disk unchanged, for the root region and for a sub-directory alike.  Root:
the scan of the root region for the first component finds nothing.  Sub-directory: the
parent path resolves to a directory entry whose chain has `K ≥ 1` in-use clusters followed
by a value that is not a cluster number, and the scan of each of these clusters for the
name finds nothing; the path is the parent path, a '/' and the name. -/
theorem fat16_mknod_full_directory (fuel : Nat) (m : FAT16) (now : Tm) (d : Disk) (u : Uninit) :
    (∀ path, skip_slashes path ≠ [] →
      (to_shortname (skip_slashes path) (strcspn_slash (skip_slashes path)) u.fatname).1 = 0 →
      first_stop m d u (skip_slashes path) (strcspn_slash (skip_slashes path)) m.root_sec
        m.root_sectors = none →
      0 < fuel → fat16_mknod fuel m now d u path = .ok (-ENOSPC, d))
    ∧ ∀ parent name pslot K, find_entry fuel m d u parent u.slot = .ok (0, pslot) →
        path_is_root parent = false → is_directory (DIR_Attr pslot.dir) = true →
        name ≠ [] → 47 ∉ name → (to_shortname name name.length u.fatname).1 = 0 → 1 ≤ K →
        (∀ k, k < K → is_cluster_inuse (chain_nth m d (DIR_FstClusLO pslot.dir) k) = true
          ∧ first_stop m d u name name.length
              (first_sector m (chain_nth m d (DIR_FstClusLO pslot.dir) k)) m.sec_per_clus
              = none) →
        is_cluster_inuse (chain_nth m d (DIR_FstClusLO pslot.dir) K) = false →
        fat16_mknod (fuel + (K + 1)) m now d u (parent ++ 47 :: name) = .ok (-ENOSPC, d) := by
  have hfull : ∀ (f : Nat) (path : List Nat) (s : DirEntrySlot) (rem : List Nat),
      find_entry_internal f m d u path u.slot = .ok (FIND_FULL, s, rem) →
      fat16_mknod f m now d u path = .ok (-ENOSPC, d) := by
    intro f path s rem h
    unfold fat16_mknod find_empty_slot
    rw [h]
    simp [bind, Except.bind, pure, Except.pure, FIND_FULL, FIND_EXIST, ENOSPC]
  refine ⟨fun path hp hv hnone hfuel => ?_, fun parent name pslot K hfound hroot hdir hne hns hv hK
    hall hend => ?_⟩
  · obtain ⟨f, rfl⟩ : ∃ f, fuel = f + 1 := ⟨fuel - 1, by omega⟩
    apply hfull (f + 1) path u.slot (skip_slashes path)
    unfold find_entry_internal
    rw [find_entry_loop_succ, if_pos ⟨hp, rfl⟩, if_pos rfl,
      ((find_entry_in_sectors_first m d u _ _ _ _ u.slot hv).trans (by rw [hnone]; rfl) :
        find_entry_in_sectors m d u (skip_slashes path) (strcspn_slash (skip_slashes path))
          m.root_sec m.root_sectors u.slot = (FIND_FULL, u.slot))]
    rw [if_pos (by simp [FIND_FULL, FIND_EXIST])]
  · have hP : skip_slashes parent ≠ [] := by
      intro h
      simp [path_is_root, h] at hroot
    have hrun : ∃ rem, find_entry_loop m d u fuel (skip_slashes parent) 0 CLUSTER_END FIND_EXIST
        u.slot = .ok (FIND_EXIST, pslot, rem) := by
      unfold find_entry find_entry_internal at hfound
      cases hr : find_entry_loop m d u fuel (skip_slashes parent) 0 CLUSTER_END FIND_EXIST
          u.slot with
      | error e => rw [hr] at hfound; simp [bind, Except.bind] at hfound
      | ok r =>
        obtain ⟨ret, s, rem⟩ := r
        rw [hr] at hfound
        simp only [bind, Except.bind, pure, Except.pure] at hfound
        split_ifs at hfound with h1 h2
        · simp only [Except.ok.injEq, Prod.mk.injEq] at hfound
          omega
        · simp only [Except.ok.injEq, Prod.mk.injEq] at hfound
          exact ⟨rem, by rw [h2, hfound.2]⟩
        · simp only [Except.ok.injEq, Prod.mk.injEq] at hfound
          simp [ENOENT] at hfound
    obtain ⟨rem, hrun⟩ := hrun
    obtain ⟨f', lvl', hf', hl', hcomp⟩ :=
      find_entry_loop_through_parent m d u name hns fuel _ 0 CLUSTER_END u.slot pslot rem hP
        hrun hdir
    apply hfull _ _ pslot name
    unfold find_entry_internal
    have hskip : skip_slashes (parent ++ 47 :: name) = skip_slashes parent ++ 47 :: name := by
      rw [skip_slashes_append _ _ hns, if_neg hP]
    rw [hskip, hcomp (K + 1)]
    exact find_entry_loop_full_chain m d u name hne hns hv K _ lvl' _ pslot hl' hK (by omega)
      hall hend

theorem fat16_mknod_full_directory_witness :
    fat16_mknod 10 demoMeta demoNow fullRootDisk demoUninit pathE = .ok (-ENOSPC, fullRootDisk)
    ∧ fat16_mknod (10 + (1 + 1)) demoMeta demoNow fullSubDisk demoUninit (pathD ++ 47 :: [69])
        = .ok (-ENOSPC, fullSubDisk) :=
  have h := fat16_mknod_full_directory 10 demoMeta demoNow
  ⟨(h fullRootDisk demoUninit).1 pathE (by decide) (by decide) (by decide) (by decide),
    (h fullSubDisk demoUninit).2 pathD [69]
      { dir := entry_at (fullSubDisk 3) 0, sector := 3, offset := 0 } 1 fullSubDisk_parent
      (by decide) (by decide) (by decide) (by decide) (by decide) (by decide) (by decide)
      (by decide)⟩

/-- C14: for a valid name (`to_shortname` returns 0) and a range of sectors, let
`first_stop` be the first slot, in sector order then offset order, that is not a long-name
entry and is never-used or a non-tombstoned entry whose 11 name bytes equal
`to_shortname(name)`.  When there is none, `find_entry_in_sectors` returns `FIND_FULL`
and leaves the slot as it was; when it is the slot at offset `o` of sector `s`, the
function returns `FIND_EXIST` if that entry is a name match and `FIND_EMPTY` otherwise
(the entry is then never-used), with `sector = s`, `offset = o` and `dir` the 32 bytes
stored there; and `FIND_FULL` is returned exactly when there is no such slot. -/
theorem find_entry_in_sectors_by_first_stop (m : FAT16) (d : Disk) (u : Uninit)
    (name : List Nat) (len from_sector count : Nat) (slot : DirEntrySlot)
    (hv : (to_shortname name len u.fatname).1 = 0) :
    (first_stop m d u name len from_sector count = none →
      find_entry_in_sectors m d u name len from_sector count slot = (FIND_FULL, slot))
    ∧ (∀ s o, first_stop m d u name len from_sector count = some (s, o) →
        find_entry_in_sectors m d u name len from_sector count slot
          = (if is_match u name len (entry_at (d s) o) then FIND_EXIST else FIND_EMPTY,
              { dir := entry_at (d s) o, sector := s, offset := o })
        ∧ is_lfn (DIR_Attr (entry_at (d s) o)) = false
        ∧ (is_match u name len (entry_at (d s) o) = false → is_free (entry_at (d s) o) = true))
    ∧ ((find_entry_in_sectors m d u name len from_sector count slot).1 = FIND_FULL
        ↔ first_stop m d u name len from_sector count = none) := by
  have h := find_entry_in_sectors_first m d u name len from_sector count slot hv
  refine ⟨fun hn => ?_, fun s o hs => ?_, ?_⟩
  · rw [h, hn]; rfl
  · have hstop : is_stop u name len (entry_at (d s) o) = true := by
      have := List.find?_some hs
      exact this
    refine ⟨by rw [h, hs]; rfl, ?_, fun hm => ?_⟩
    · simp only [is_stop, Bool.and_eq_true, Bool.not_eq_true'] at hstop
      exact hstop.1
    · simp only [is_stop, hm, Bool.or_false, Bool.and_eq_true] at hstop
      exact hstop.2
  · rw [h]
    cases hs : first_stop m d u name len from_sector count with
    | none => simp
    | some p =>
      simp only [Option.map_some', Option.getD_some, stop_result, reduceCtorEq, iff_false]
      split_ifs <;> simp [FIND_EXIST, FIND_EMPTY, FIND_FULL]

theorem find_entry_in_sectors_by_first_stop_witness :
    find_entry_in_sectors demoMeta (demoDisk 256) demoUninit [65] 1 3 2 zeroSlot
        = (FIND_EXIST, { dir := entry_at (demoDisk 256 3) 0, sector := 3, offset := 0 })
    ∧ find_entry_in_sectors demoMeta (demoDisk 256) demoUninit [66] 1 3 2 zeroSlot
        = (FIND_EMPTY, { dir := entry_at (demoDisk 256 3) 32, sector := 3, offset := 32 })
    ∧ find_entry_in_sectors demoMeta fullRootDisk demoUninit [69] 1 3 2 zeroSlot
        = (FIND_FULL, zeroSlot) :=
  ⟨((find_entry_in_sectors_by_first_stop demoMeta (demoDisk 256) demoUninit [65] 1 3 2 zeroSlot
      (by decide)).2.1 3 0 (by decide)).1,
    ((find_entry_in_sectors_by_first_stop demoMeta (demoDisk 256) demoUninit [66] 1 3 2 zeroSlot
      (by decide)).2.1 3 32 (by decide)).1,
    (find_entry_in_sectors_by_first_stop demoMeta fullRootDisk demoUninit [69] 1 3 2 zeroSlot
      (by decide)).1 (by decide)⟩

/-- C15 (as stated, refuted): the root directory of `tombRootDisk` holds, in scan order, a
tombstoned entry, the files `B` and `C` and a never-used slot, and no entry named `E`.
The scan for `E` over the first root sector (tombstone, `B`) returns `FIND_FULL`, and the
scan over both root sectors returns `FIND_EMPTY` with the never-used slot at offset 32
of sector 4, not with the tombstoned slot at offset 0 of sector 3.  On `fullRootDisk`
(root full) `unlink /A` followed by `mknod /E` returns `-ENOSPC`. -/
theorem find_entry_in_sectors_passes_tombstone :
    is_deleted (entry_at (tombRootDisk 3) 0) = true
    ∧ (fun r : Int × DirEntrySlot => (r.1, r.2.sector, r.2.offset))
        (find_entry_in_sectors demoMeta tombRootDisk demoUninit [69] 1 3 1 zeroSlot)
        = (FIND_FULL, 0, 0)
    ∧ (fun r : Int × DirEntrySlot => (r.1, r.2.sector, r.2.offset))
        (find_entry_in_sectors demoMeta tombRootDisk demoUninit [69] 1 3 2 zeroSlot)
        = (FIND_EMPTY, 4, 32)
    ∧ (fat16_unlink 10 demoMeta fullRootDisk demoUninit pathA).toOption.map
        (fun r => (r.1, is_deleted (entry_at (r.2 3) 0),
          retOf (fat16_mknod 10 demoMeta demoNow r.2 demoUninit pathE)))
        = some (0, true, some (-ENOSPC)) := by
  decide

/-- C15 (amended): for a valid name and a sector range that holds no matching in-use
entry, the scan passes over tombstoned slots: `find_entry_in_sectors` returns
`FIND_EMPTY` located at the first slot that is not a long-name entry and is never-used
(first name byte `NAME_FREE`), and `FIND_FULL` with the slot untouched when the range has
no such slot; a slot returned with `FIND_EMPTY` is never a tombstoned one. -/
theorem find_entry_in_sectors_skips_tombstones (m : FAT16) (d : Disk) (u : Uninit)
    (name : List Nat) (len from_sector count : Nat) (slot : DirEntrySlot)
    (hv : (to_shortname name len u.fatname).1 = 0)
    (hno : ∀ p, p ∈ scan_slots m from_sector count 0 →
      is_lfn (DIR_Attr (entry_at (d p.1) p.2)) = false →
      is_match u name len (entry_at (d p.1) p.2) = false) :
    (first_free m d from_sector count = none →
      find_entry_in_sectors m d u name len from_sector count slot = (FIND_FULL, slot))
    ∧ (∀ s o, first_free m d from_sector count = some (s, o) →
        find_entry_in_sectors m d u name len from_sector count slot
          = (FIND_EMPTY, { dir := entry_at (d s) o, sector := s, offset := o })
        ∧ is_free (entry_at (d s) o) = true ∧ is_deleted (entry_at (d s) o) = false) := by
  have h := find_entry_in_sectors_first m d u name len from_sector count slot hv
  have hff : first_stop m d u name len from_sector count = first_free m d from_sector count := by
    unfold first_stop first_free
    apply find?_congr_mem
    intro p hp
    simp only [is_stop]
    cases hl : is_lfn (DIR_Attr (entry_at (d p.1) p.2)) with
    | true => simp
    | false => simp [hno p hp hl]
  rw [hff] at h
  refine ⟨fun hn => by rw [h, hn]; rfl, fun s o hs => ?_⟩
  have hmem : (s, o) ∈ scan_slots m from_sector count 0 := List.mem_of_find?_eq_some hs
  have hp := List.find?_some hs
  simp only [Bool.and_eq_true, Bool.not_eq_true'] at hp
  have hm := hno (s, o) hmem hp.1
  refine ⟨?_, hp.2, ?_⟩
  · rw [h, hs]
    simp only [Option.map_some', Option.getD_some, stop_result, hm, Bool.false_eq_true, if_false]
  · have := hp.2
    simp only [is_free, is_deleted, NAME_FREE, NAME_DELETED, beq_iff_eq] at this ⊢
    rw [this]
    rfl

theorem find_entry_in_sectors_skips_tombstones_witness :
    find_entry_in_sectors demoMeta tombRootDisk demoUninit [69] 1 3 2 zeroSlot
        = (FIND_EMPTY, { dir := entry_at (tombRootDisk 4) 32, sector := 4, offset := 32 })
    ∧ is_free (entry_at (tombRootDisk 4) 32) = true
    ∧ is_deleted (entry_at (tombRootDisk 4) 32) = false :=
  (find_entry_in_sectors_skips_tombstones demoMeta tombRootDisk demoUninit [69] 1 3 2 zeroSlot
    (by decide) (by decide)).2 4 32 (by decide)

/-- C16 (as stated, refuted): on the volume `demoDirDisk` the path `/D/./.` resolves to the
'.' entry of `/D` (offset 0 of sector 5), which the resolution has already passed through
for the middle component; after `dir_entry_write` of an entry that keeps the name '.', is a
directory entry and has first cluster 3, `find_entry` of the same path returns `-ENOENT`.
For the root path `find_entry` returns 0 and leaves the slot it was given untouched, so
after a `dir_entry_write` at that slot's location it returns the untouched slot again, not
the written entry. -/
theorem find_entry_after_write_through_dot :
    (find_entry 10 demoMeta demoDirDisk demoUninit pathDdd zeroSlot).toOption.map
        (fun r => (r.1, r.2.sector, r.2.offset)) = some (0, 5, 0)
    ∧ (∀ i, i < 11 → dotEntry3 i = entry_at (demoDirDisk 5) 0 i)
    ∧ is_lfn (DIR_Attr dotEntry3) = false
    ∧ retOf (find_entry 10 demoMeta
        (dir_entry_write demoDirDisk { dir := dotEntry3, sector := 5, offset := 0 })
        demoUninit pathDdd zeroSlot) = some (-ENOENT)
    ∧ (find_entry 10 demoMeta demoDirDisk demoUninit [47] zeroSlot).toOption.map
        (fun r => (r.1, r.2.sector, r.2.offset, (List.range 12).map r.2.dir))
        = some (0, 0, 0, List.replicate 12 0)
    ∧ (∀ i, i < 11 → markEntry i = 0) ∧ is_lfn (DIR_Attr markEntry) = false
    ∧ (find_entry 10 demoMeta
        (dir_entry_write demoDirDisk { dir := markEntry, sector := 0, offset := 0 })
        demoUninit [47] zeroSlot).toOption.map (fun r => (r.1, r.2.dir 12, markEntry 12))
        = some (0, 0, 1) := by
  decide

/-- C16 (amended): on a volume with the geometry of `Geom` whose scanned directory clusters
have their FAT entries inside the FAT, for a path other than the root for which
`find_entry` returns 0 with slot `s`, where the location of `s` is not that of an entry
found for an earlier component of the path (`find_entry_trail`), and for an entry `e` that
keeps the 11 name bytes of `s` and is not a long-name entry: after `dir_entry_write` of
the slot (`s.sector`, `s.offset`, `e`) a new `find_entry` of the path, whatever slot it is
given, returns 0 with the same sector and offset and with the 32 bytes of `e` as `dir`. -/
theorem find_entry_after_dir_entry_write (fuel : Nat) (m : FAT16) (d : Disk) (u : Uninit)
    (path : List Nat) (slot0 slot1 s : DirEntrySlot) (e : DIR_ENTRY) (hg : Geom m)
    (hfound : find_entry fuel m d u path slot0 = .ok (0, s))
    (hroot : path_is_root path = false)
    (htrail : (s.sector, s.offset) ∉
      find_entry_trail m d u fuel (skip_slashes path) 0 CLUSTER_END FIND_EXIST slot0)
    (hfat : ∀ c, c ∈ find_entry_clusters fuel m d u path slot0 → FatIn m c)
    (hname : ∀ i, i < 11 → e i = s.dir i) (hlfn : is_lfn (DIR_Attr e) = false) :
    ∃ s', find_entry fuel m
        (dir_entry_write d { dir := e, sector := s.sector, offset := s.offset }) u path slot1
        = .ok (0, s')
      ∧ s'.sector = s.sector ∧ s'.offset = s.offset ∧ ∀ i, i < 32 → s'.dir i = e i := by
  have hat := find_entry_slot fuel m d u path slot0 s hroot hfound
  have hS := slot_sector_ge_root m hg d _ s hat
  have hP : skip_slashes path ≠ [] := by
    intro h
    simp [path_is_root, h] at hroot
  have hrun : ∃ rem, find_entry_loop m d u fuel (skip_slashes path) 0 CLUSTER_END FIND_EXIST
      slot0 = .ok (FIND_EXIST, s, rem) := by
    unfold find_entry find_entry_internal at hfound
    cases hr : find_entry_loop m d u fuel (skip_slashes path) 0 CLUSTER_END FIND_EXIST
        slot0 with
    | error e => rw [hr] at hfound; simp [bind, Except.bind] at hfound
    | ok r =>
      obtain ⟨ret, s2, rem⟩ := r
      rw [hr] at hfound
      simp only [bind, Except.bind, pure, Except.pure] at hfound
      split_ifs at hfound with h1 h2
      · simp only [Except.ok.injEq, Prod.mk.injEq] at hfound
        omega
      · simp only [Except.ok.injEq, Prod.mk.injEq] at hfound
        exact ⟨rem, by rw [h2, hfound.2]⟩
      · simp only [Except.ok.injEq, Prod.mk.injEq] at hfound
        simp [ENOENT] at hfound
  obtain ⟨rem, hrun⟩ := hrun
  have hold := find_entry_loop_nonlfn m d u fuel _ 0 _ slot0 s rem hrun hP (fun h => absurd rfl h)
  have hr := Rewritten_of_write m d s e hat.1 hat.2.1 hold hname hlfn
  obtain ⟨s', hrun', h1, h2, h3⟩ := find_entry_loop_rw m hg d _ u s.sector s.offset hr hS fuel _ 0
    _ slot0 s rem hrun hP (fun h => absurd rfl h) htrail hfat
  have hrun1 := find_entry_loop_init_slot m _ u fuel _ _ slot0 slot1 s' rem hrun' hP
  refine ⟨s', ?_, h1, h2, fun i hi => ?_⟩
  · unfold find_entry find_entry_internal
    rw [hrun1]
    simp [bind, Except.bind, pure, Except.pure, FIND_EXIST]
  · rw [h3 rfl rfl]
    have := dir_entry_write_entry d (DirEntrySlot.mk e s.sector s.offset) i hi
    simp only at this
    exact this

theorem find_entry_after_dir_entry_write_witness :
    ∃ s', find_entry 10 demoMeta
        (dir_entry_write demoDirDisk { dir := entryB7, sector := 6, offset := 0 }) demoUninit
        pathDB zeroSlot = .ok (0, s')
      ∧ s'.sector = 6 ∧ s'.offset = 0 ∧ ∀ i, i < 32 → s'.dir i = entryB7 i :=
  find_entry_after_dir_entry_write 10 demoMeta demoDirDisk demoUninit pathDB demoUninit.slot
    zeroSlot { dir := entry_at (demoDirDisk 6) 0, sector := 6, offset := 0 } entryB7
    demoMeta_geom (by rfl) (by decide) (by decide) (by decide) (by decide) (by decide)

theorem fullDisk_free_list (m : FAT16) : free_list m fullDisk = [] := by
  unfold free_list
  rw [List.filter_eq_nil_iff]
  intro c _
  simp [read_fat_entry, sector_read, fullDisk, load16, CLUSTER_FREE]

theorem demoDisk_free_456 : 3 ≤ (free_list demoMeta (demoDisk 256)).length :=
  free_list_length_ge demoMeta (demoDisk 256) [4, 5, 6] (by decide) (by decide)

/-- C17: for `n ≥ 1` on a disk where at least `n` cluster numbers from `CLUSTER_MIN` to
`CLUSTER_MAX` have a FAT entry that reads `CLUSTER_FREE` (`free_list` lists them: it is
strictly increasing and holds exactly the in-range clusters whose entry is free),
`alloc_clusters(n, &first)` returns 0, `first` is the lowest free cluster, and following
the FAT links from `first` on the new disk visits the `n` lowest free clusters in
increasing order, the entry of the `n`-th being an end-of-chain value. -/
theorem alloc_clusters_lowest_free (m : FAT16) (d : Disk) (n first : Nat) (hg : Geom m)
    (hn : 1 ≤ n) (hfree : n ≤ (free_list m d).length) :
    (free_list m d).Pairwise (· < ·)
    ∧ (∀ c, c ∈ free_list m d ↔
        is_cluster_inuse c = true ∧ read_fat_entry m d c = CLUSTER_FREE)
    ∧ ∃ d', alloc_clusters m d n first = .ok (0, (free_list m d).headD 0, d')
        ∧ (∀ k, k < n →
            chain_nth m d' ((free_list m d).headD 0) k = (free_list m d).getD k 0)
        ∧ is_cluster_end (chain_nth m d' ((free_list m d).headD 0) n) = true := by
  refine ⟨free_list_sorted m d, free_list_mem m d, ?_⟩
  obtain ⟨dz, _, hal, hch⟩ := alloc_clusters_free_list m hg d n first (by omega) hfree
  have hL : ((free_list m d).take n).length = n := by
    rw [List.length_take]; omega
  refine ⟨_, hal, fun k hk => ?_, ?_⟩
  · rw [hch k (by omega), List.getD_append _ _ _ _ (by omega)]
    simp only [List.getD_eq_getElem?_getD, List.getElem?_take, if_pos hk]
  · rw [hch n (le_refl _), List.getD_append_right _ _ _ _ (by omega), hL]
    simp [is_cluster_end, CLUSTER_END, CLUSTER_END_BOUND]

theorem alloc_clusters_lowest_free_witness :
    (free_list demoMeta (demoDisk 256)).Pairwise (· < ·)
    ∧ (∀ c, c ∈ free_list demoMeta (demoDisk 256) ↔
        is_cluster_inuse c = true ∧ read_fat_entry demoMeta (demoDisk 256) c = CLUSTER_FREE)
    ∧ ∃ d', alloc_clusters demoMeta (demoDisk 256) 3 0
          = .ok (0, (free_list demoMeta (demoDisk 256)).headD 0, d')
        ∧ (∀ k, k < 3 →
            chain_nth demoMeta d' ((free_list demoMeta (demoDisk 256)).headD 0) k
              = (free_list demoMeta (demoDisk 256)).getD k 0)
        ∧ is_cluster_end
            (chain_nth demoMeta d' ((free_list demoMeta (demoDisk 256)).headD 0) 3) = true :=
  alloc_clusters_lowest_free demoMeta (demoDisk 256) 3 0 demoMeta_geom (by decide)
    demoDisk_free_456

/-- C18: for `n ≥ 1` on a disk where fewer than `n` cluster numbers from `CLUSTER_MIN` to
`CLUSTER_MAX` have a FAT entry that reads `CLUSTER_FREE`, `alloc_clusters(n, &first)`
returns `-ENOSPC`, leaves `first` as it was and returns the disk unchanged. -/
theorem alloc_clusters_no_space (m : FAT16) (d : Disk) (n first : Nat) (hn : 1 ≤ n)
    (hfew : (free_list m d).length < n) :
    alloc_clusters m d n first = .ok (-ENOSPC, first, d) := by
  have hn0 : n ≠ 0 := by omega
  unfold alloc_clusters
  rw [if_neg hn0]
  have hlen : (alloc_scan m d n (CLUSTER_MAX + 1 - CLUSTER_MIN) CLUSTER_MIN []).length ≠ n := by
    rw [alloc_scan_free_list m d n hn0, List.length_take]
    omega
  simp only [hlen, ne_eq, not_false_eq_true, if_true]
  rfl

theorem alloc_clusters_no_space_witness :
    alloc_clusters demoMeta fullDisk 1 7 = .ok (-ENOSPC, 7, fullDisk) :=
  alloc_clusters_no_space demoMeta fullDisk 1 7 (by decide)
    (by rw [fullDisk_free_list]; decide)

theorem demoDisk_free_take : (free_list demoMeta (demoDisk 256)).take 3 = [4, 5, 6] := by
  decide

theorem demoDisk_chainOK : ChainOK demoMeta (demoDisk 256) 2 2 := by
  refine ⟨?_, ?_, ?_⟩ <;> decide

/-- C19 (code as written): on the volume `nearFullDisk` (FAT copies of 32 entries, only
cluster 31 free inside the FAT) `alloc_clusters(3)` does not return `-ENOSPC`: its scan runs
to `CLUSTER_MAX`, past the 32 entries of the FAT, and it returns 0 with the chain
31 → 63 → 70 → end, three distinct in-use cluster numbers of which 63 and 70 have no FAT
entry.  `free_clusters(31)` on the result leaves the entry of cluster 70 at `CLUSTER_END`:
the entry of 63 is the place of entry 31 in the second FAT copy, so releasing 31 clears
the link from 63 to 70. -/
theorem free_clusters_after_alloc_keeps_cluster :
    (alloc_clusters demoMeta nearFullDisk 3 0).toOption.map
        (fun r => (r.1, r.2.1, chain_nth demoMeta r.2.2 r.2.1 1, chain_nth demoMeta r.2.2 r.2.1 2,
          chain_nth demoMeta r.2.2 r.2.1 3)) = some (0, 31, 63, 70, CLUSTER_END)
    ∧ (is_cluster_inuse 31, is_cluster_inuse 63, is_cluster_inuse 70, is_cluster_end CLUSTER_END)
        = (true, true, true, true)
    ∧ (alloc_clusters demoMeta nearFullDisk 3 0).toOption.bind
        (fun r => (free_clusters demoMeta 10 r.2.2 r.2.1).toOption.map
          (fun d2 => (read_fat_entry demoMeta d2 31, read_fat_entry demoMeta d2 63,
            read_fat_entry demoMeta d2 70))) = some (CLUSTER_FREE, CLUSTER_FREE, CLUSTER_END) := by
  decide

/-- Release of chains that stay inside the FAT: for a head whose chain is a sequence of `k`
distinct in-use clusters with entries inside the FAT (`ChainOK`), ended by a terminator,
`free_clusters(head)` returns, sets the FAT entry of every cluster of the chain to
`CLUSTER_FREE` and leaves every other entry inside the FAT unchanged; and when the `n`
lowest free clusters have their entries inside the FAT and zero in every FAT copy,
`alloc_clusters(n)` followed by `free_clusters` of the returned head returns the `n`
clusters to `CLUSTER_FREE` and leaves every sector of the FAT region equal to its contents
before the allocation. -/
theorem free_clusters_frees_chain (m : FAT16) (fuel : Nat) (d : Disk) (hg : Geom m) :
    (∀ head k, ChainOK m d head k → is_cluster_end (chain_nth m d head k) = true → k < fuel →
      ∃ d', free_clusters m fuel d head = .ok d'
        ∧ (∀ i, i < k → read_fat_entry m d' (chain_nth m d head i) = CLUSTER_FREE)
        ∧ ∀ c, FatIn m c → (∀ i, i < k → c ≠ chain_nth m d head i) →
            read_fat_entry m d' c = read_fat_entry m d c)
    ∧ ∀ n first, 1 ≤ n → n ≤ (free_list m d).length →
        (∀ c, c ∈ (free_list m d).take n → FatIn m c ∧ FreeInCopies m d c) → n < fuel →
        ∃ d1 d2, alloc_clusters m d n first = .ok (0, (free_list m d).headD 0, d1)
          ∧ free_clusters m fuel d1 ((free_list m d).headD 0) = .ok d2
          ∧ (∀ c, c ∈ (free_list m d).take n → read_fat_entry m d2 c = CLUSTER_FREE)
          ∧ ∀ s, m.fat_sec ≤ s → s < m.root_sec → d2 s = d s := by
  refine ⟨fun head k hc hend hk => ?_, fun n first hn hlen hin hfuel =>
    alloc_free_round_trip m hg fuel d n first hn hlen hin hfuel⟩
  obtain ⟨d', h1, h2, h3, _⟩ :=
    free_clusters_spec m hg k fuel d head hc (end_not_inuse _ hend) hk
  exact ⟨d', h1, h2, h3⟩

theorem free_clusters_frees_chain_demo :
    (∃ d', free_clusters demoMeta 10 (demoDisk 256) 2 = .ok d'
        ∧ (∀ i, i < 2 →
            read_fat_entry demoMeta d' (chain_nth demoMeta (demoDisk 256) 2 i) = CLUSTER_FREE)
        ∧ ∀ c, FatIn demoMeta c → (∀ i, i < 2 → c ≠ chain_nth demoMeta (demoDisk 256) 2 i) →
            read_fat_entry demoMeta d' c = read_fat_entry demoMeta (demoDisk 256) c)
    ∧ ∃ d1 d2, alloc_clusters demoMeta (demoDisk 256) 3 0
            = .ok (0, (free_list demoMeta (demoDisk 256)).headD 0, d1)
          ∧ free_clusters demoMeta 10 d1 ((free_list demoMeta (demoDisk 256)).headD 0) = .ok d2
          ∧ (∀ c, c ∈ (free_list demoMeta (demoDisk 256)).take 3 →
              read_fat_entry demoMeta d2 c = CLUSTER_FREE)
          ∧ ∀ s, demoMeta.fat_sec ≤ s → s < demoMeta.root_sec → d2 s = demoDisk 256 s :=
  have h := free_clusters_frees_chain demoMeta 10 (demoDisk 256) demoMeta_geom
  ⟨h.1 2 2 demoDisk_chainOK (by decide) (by decide),
    h.2 3 0 (by decide) demoDisk_free_456
      (by rw [demoDisk_free_take]; decide) (by decide)⟩

/-- C20 (as stated, refuted): on the volume `demoDisk 256` (two FAT copies of 32 entries,
64-byte sectors) cluster 4 has its entry inside one FAT copy, and the number 36 is
different from 4; yet `read_fat_entry(36)`, which is 0 before, is 7 after
`write_fat_entry(4, 7)`: entry 36 of the first copy is the place of entry 4 of the second
copy, which the write also stores. -/
theorem write_fat_entry_changes_alias :
    1 ≤ demoMeta.fats ∧ demoMeta.sector_size % 2 = 0
    ∧ 2 * 4 + 1 < demoMeta.sec_per_fat * demoMeta.sector_size ∧ 7 < 65536 ∧ 36 ≠ 4
    ∧ read_fat_entry demoMeta (demoDisk 256) 36 = 0
    ∧ read_fat_entry demoMeta (write_fat_entry demoMeta (demoDisk 256) 4 7) 36 = 7 := by
  decide

/-- C20 (amended): on a volume with `fats ≥ 1` and an even sector size, for a cluster `c`
whose entry lies inside one FAT copy and a 16-bit value `v`: after `write_fat_entry(c, v)`,
`read_fat_entry(c)` returns `v`, and `read_fat_entry(c')` returns its previous value for
every `c'` that is not `c` plus a multiple, by a copy index below `fats`, of the number of
entries of one FAT copy; in particular for every `c' ≠ c` whose own entry lies inside one
FAT copy. -/
theorem write_fat_entry_read_back (m : FAT16) (d : Disk) (c v : Nat)
    (hf : 1 ≤ m.fats) (he : m.sector_size % 2 = 0)
    (hc : 2 * c + 1 < m.sec_per_fat * m.sector_size) (hv : v < 65536) :
    read_fat_entry m (write_fat_entry m d c v) c = v
    ∧ (∀ c', (∀ t, t < m.fats → c' ≠ c + t * (m.sec_per_fat * (m.sector_size / 2))) →
        read_fat_entry m (write_fat_entry m d c v) c' = read_fat_entry m d c')
    ∧ ∀ c', c' ≠ c → 2 * c' + 1 < m.sec_per_fat * m.sector_size →
        read_fat_entry m (write_fat_entry m d c v) c' = read_fat_entry m d c' := by
  have h1 : 0 < m.sector_size := by
    rcases Nat.eq_zero_or_pos m.sector_size with h | h
    · rw [h] at hc; simp at hc
    · exact h
  refine ⟨?_, fun c' h => read_write_fat_apart m h1 he d c c' v h, fun c' hne hc' => ?_⟩
  · rw [read_write_fat_same_of m h1 he hf, Nat.mod_eq_of_lt hv]
  · apply read_write_fat_apart m h1 he
    intro t ht
    rcases t with _ | t
    · simpa using hne
    · have hlt : c' < m.sec_per_fat * (m.sector_size / 2) := by
        have e : m.sec_per_fat * m.sector_size = 2 * (m.sec_per_fat * (m.sector_size / 2)) := by
          have : m.sector_size = 2 * (m.sector_size / 2) := by omega
          conv_lhs => rw [this]
          ring
        omega
      have hge : m.sec_per_fat * (m.sector_size / 2)
          ≤ (t + 1) * (m.sec_per_fat * (m.sector_size / 2)) :=
        Nat.le_mul_of_pos_left _ (by omega)
      omega

theorem write_fat_entry_read_back_witness :
    read_fat_entry demoMeta (write_fat_entry demoMeta (demoDisk 256) 4 7) 4 = 7
    ∧ (∀ c', (∀ t, t < demoMeta.fats →
          c' ≠ 4 + t * (demoMeta.sec_per_fat * (demoMeta.sector_size / 2))) →
        read_fat_entry demoMeta (write_fat_entry demoMeta (demoDisk 256) 4 7) c'
          = read_fat_entry demoMeta (demoDisk 256) c')
    ∧ ∀ c', c' ≠ 4 → 2 * c' + 1 < demoMeta.sec_per_fat * demoMeta.sector_size →
        read_fat_entry demoMeta (write_fat_entry demoMeta (demoDisk 256) 4 7) c'
          = read_fat_entry demoMeta (demoDisk 256) c' :=
  write_fat_entry_read_back demoMeta (demoDisk 256) 4 7 (by decide) (by decide) (by decide)
    (by decide)

/-- C21 (code as written): on the volume `nearFullDisk` (two identical FAT copies of 32
entries, only cluster 31 free inside the FAT) `alloc_clusters(3)` does not return `-ENOSPC`:
it returns 0 and leaves the two FAT copies different.  Entry 31 holds 63 in the first copy
and 70 in the second, because the scan runs to `CLUSTER_MAX`, the clusters 63 and 70 it
hands out have no entry of their own, and `write_fat_entry(63, 70)` stores 70 over entry 31
of the second copy. -/
theorem alloc_clusters_breaks_fat_copies :
    FatSync demoMeta nearFullDisk
    ∧ (alloc_clusters demoMeta nearFullDisk 3 0).toOption.map
        (fun r => (r.1, decide (FatSync demoMeta r.2.2), load16 (r.2.2 1) 62, load16 (r.2.2 2) 62))
      = some (0, false, 63, 70) := by
  decide

/-- Replication inside the FAT: on a volume with the geometry of `Geom` whose FAT copies are byte-identical,
for every cluster `c` whose entry lies inside one FAT copy and every 16-bit value `v`, all FAT
copies are byte-identical after `write_fat_entry(c, v)`, each holding `v` at entry `c`; the
copies stay byte-identical after `alloc_clusters(n)`, which returns, when the `n` lowest free
cluster numbers have their entries inside one FAT copy, and after `free_clusters` of a chain
of distinct in-use clusters with entries inside one FAT copy that ends at a value which is not
an in-use cluster number. -/
theorem fat_copies_stay_identical (m : FAT16) (d : Disk) (hg : Geom m) (hsync : FatSync m d) :
    (∀ c v, FatIn m c → v < 65536 →
      FatSync m (write_fat_entry m d c v)
      ∧ ∀ t, t < m.fats →
          load16 (write_fat_entry m d c v (m.fat_sec + t * m.sec_per_fat + c / (m.sector_size / 2)))
            (2 * (c % (m.sector_size / 2))) = v)
    ∧ (∀ n first, (∀ c, c ∈ (free_list m d).take n → FatIn m c) →
        ∃ r, alloc_clusters m d n first = .ok r ∧ FatSync m r.2.2)
    ∧ (∀ fuel head k, ChainOK m d head k → is_cluster_inuse (chain_nth m d head k) = false →
        k < fuel → ∃ d', free_clusters m fuel d head = .ok d' ∧ FatSync m d') :=
  ⟨fun c v hc hv => ⟨write_fat_entry_sync m hg d c v hc hsync,
      fun t ht => write_fat_entry_holds m hg d c v t hc ht hv⟩,
    fun n first hin => alloc_clusters_sync m hg d n first hin hsync,
    fun fuel head k hc hend hfuel => free_clusters_sync m hg fuel d head k hc hend hfuel hsync⟩

theorem fat_copies_stay_identical_demo :
    (FatSync demoMeta (write_fat_entry demoMeta (demoDisk 256) 4 7)
      ∧ ∀ t, t < demoMeta.fats →
          load16 (write_fat_entry demoMeta (demoDisk 256) 4 7
            (demoMeta.fat_sec + t * demoMeta.sec_per_fat + 4 / (demoMeta.sector_size / 2)))
            (2 * (4 % (demoMeta.sector_size / 2))) = 7)
    ∧ (∃ r, alloc_clusters demoMeta (demoDisk 256) 3 0 = .ok r ∧ FatSync demoMeta r.2.2)
    ∧ (∃ d', free_clusters demoMeta 3 (demoDisk 256) 2 = .ok d' ∧ FatSync demoMeta d') :=
  ⟨(fat_copies_stay_identical demoMeta (demoDisk 256) demoMeta_geom (by decide)).1 4 7
      (by decide) (by decide),
    (fat_copies_stay_identical demoMeta (demoDisk 256) demoMeta_geom (by decide)).2.1 3 0
      (by rw [demoDisk_free_take]; decide),
    (fat_copies_stay_identical demoMeta (demoDisk 256) demoMeta_geom (by decide)).2.2 3 2 2
      demoDisk_chainOK (by decide) (by decide)⟩

/-- C22: for every name made of a base of 1 to 8 bytes, optionally followed by `'.'` and an
extension of 1 to 3 bytes, all base and extension bytes being ASCII characters other than
NUL, space, `'.'`, `'/'` and the invalid set, `to_shortname(name, len, res)` with
`len ≥ strlen(name)` returns 0, and `to_longname(res, out, cap)` with `cap ≥ 13` returns
the length of the name and writes the lower-cased name followed by a NUL into `out`. -/
theorem to_longname_of_to_shortname (base ext : List Nat) (len cap : Nat) (res out : Nat → Nat)
    (hb1 : 1 ≤ base.length) (hb8 : base.length ≤ 8) (he3 : ext.length ≤ 3)
    (hbc : ∀ c, c ∈ base → NameChar c) (hec : ∀ c, c ∈ ext → NameChar c)
    (hlen : (dotted base ext).length ≤ len) (hcap : 13 ≤ cap) :
    (to_shortname (dotted base ext) len res).1 = 0
    ∧ (to_longname (to_shortname (dotted base ext) len res).2 out cap).1
        = (dotted base ext).length
    ∧ (∀ i, i < (dotted base ext).length →
        (to_longname (to_shortname (dotted base ext) len res).2 out cap).2 i
          = tolower (cstr (dotted base ext) i))
    ∧ (to_longname (to_shortname (dotted base ext) len res).2 out cap).2
        (dotted base ext).length = 0 := by
  by_cases hext : ext = []
  · have hname : dotted base ext = base := by
      unfold dotted
      rw [if_pos hext]
    rw [hname] at hlen ⊢
    exact to_longname_to_shortname_core base base.length 0 false len cap res out hb1 hb8
      (by omega) (fun h => by cases h) (fun _ => ⟨rfl, rfl⟩)
      (fun j hj _ => hbc _ (cstr_mem base j hj)) hlen hcap
  · have hname : dotted base ext = base ++ 46 :: ext := by
      unfold dotted
      rw [if_neg hext]
    rw [hname] at hlen ⊢
    have hepos : 1 ≤ ext.length := by
      cases ext with
      | nil => exact absurd rfl hext
      | cons a t => simp
    have hl : (base ++ 46 :: ext).length = base.length + 1 + ext.length := by
      simp only [List.length_append, List.length_cons]
      omega
    refine to_longname_to_shortname_core (base ++ 46 :: ext) base.length ext.length true len cap
      res out hb1 hb8 he3 (fun _ => ⟨hl, hepos, ?_⟩) (fun h => by cases h) (fun j hj hne => ?_)
      hlen hcap
    · have := cstr_append_right base (46 :: ext) 0
      rw [Nat.add_zero] at this
      rw [this]
      rfl
    · have hjb := hne rfl
      rw [hl] at hj
      by_cases hlt : j < base.length
      · rw [cstr_append_left base _ j hlt]
        exact hbc _ (cstr_mem base j hlt)
      · have hj2 : j = base.length + ((j - base.length - 1) + 1) := by omega
        rw [hj2, cstr_append_right]
        exact hec _ (cstr_mem ext (j - base.length - 1) (by omega))

theorem to_longname_of_to_shortname_witness :
    (to_shortname (dotted [82, 101, 97, 100] [77, 101]) 7 (fun _ => 0)).1 = 0
    ∧ (to_longname (to_shortname (dotted [82, 101, 97, 100] [77, 101]) 7 (fun _ => 0)).2
        (fun _ => 7) 13).1 = (dotted [82, 101, 97, 100] [77, 101]).length
    ∧ (∀ i, i < (dotted [82, 101, 97, 100] [77, 101]).length →
        (to_longname (to_shortname (dotted [82, 101, 97, 100] [77, 101]) 7 (fun _ => 0)).2
          (fun _ => 7) 13).2 i = tolower (cstr (dotted [82, 101, 97, 100] [77, 101]) i))
    ∧ (to_longname (to_shortname (dotted [82, 101, 97, 100] [77, 101]) 7 (fun _ => 0)).2
        (fun _ => 7) 13).2 (dotted [82, 101, 97, 100] [77, 101]).length = 0 :=
  to_longname_of_to_shortname [82, 101, 97, 100] [77, 101] 7 13 (fun _ => 0) (fun _ => 7)
    (by decide) (by decide) (by decide) (by decide) (by decide) (by decide) (by decide)

/-- C23: for every byte string `name`, every length `len` and every buffer `res`,
`to_shortname(name, len, res)` returns `-EINVAL` if and only if one of the bytes of
`name` that precede its first NUL among the first `len` bytes belongs to the set
`INVALID_CHARS`; in that case `res` is left unmodified, and in every other case the
return value is 0. -/
theorem to_shortname_invalid_iff (name : List Nat) (len : Nat) (res : Nat → Nat) :
    ((to_shortname name len res).1 = -EINVAL ↔
      ∃ i, i < len ∧ (∀ j, j ≤ i → cstr name j ≠ 0) ∧ cstr name i ∈ INVALID_CHARS)
    ∧ ((to_shortname name len res).1 = -EINVAL → (to_shortname name len res).2 = res)
    ∧ ((to_shortname name len res).1 ≠ -EINVAL → (to_shortname name len res).1 = 0) := by
  obtain ⟨hnone, hsome⟩ := to_shortname_scan_init name len
  cases hs : to_shortname_scan name len 0 len len false with
  | none =>
    rw [to_shortname_of_none name len res hs]
    refine ⟨⟨fun _ => ?_, fun _ => rfl⟩, fun _ => rfl, fun h => absurd rfl h⟩
    obtain ⟨t, h1, h2, h3⟩ := hnone hs
    exact ⟨t, h1, h2, (is_invalid_char_iff _).mp h3⟩
  | some r =>
    obtain ⟨len1, bl, he⟩ := r
    rw [to_shortname_of_scan name len res len1 bl he hs]
    obtain ⟨h1, h2, h3, _, _⟩ := hsome len1 bl he hs
    refine ⟨⟨fun h => by simp [EINVAL] at h, fun h => ?_⟩, fun h => by simp [EINVAL] at h,
      fun _ => rfl⟩
    exfalso
    obtain ⟨t, ht, hnz, hin⟩ := h
    have hin' := (is_invalid_char_iff _).mpr hin
    by_cases htl : t < len1
    · rw [(h2 t htl).2] at hin'
      cases hin'
    · exact hnz len1 (by omega) (h3 (by omega))

theorem to_shortname_invalid_iff_witness :
    (to_shortname [97, 63, 98] 3 (fun _ => 7)).1 = -EINVAL
    ∧ (to_shortname [97, 63, 98] 3 (fun _ => 7)).2 = (fun _ => 7)
    ∧ (to_shortname [97, 0, 63] 3 (fun _ => 7)).1 = 0 :=
  ⟨(to_shortname_invalid_iff [97, 63, 98] 3 (fun _ => 7)).1.mpr
      ⟨1, by decide, by decide, by decide⟩,
    (to_shortname_invalid_iff [97, 63, 98] 3 (fun _ => 7)).2.1 (by decide),
    (to_shortname_invalid_iff [97, 0, 63] 3 (fun _ => 7)).2.2 (by decide)⟩

/-- C24 (as stated, refuted): `to_shortname` accepts the name `.bashrc` and encodes it as
`.BASHRC` followed by four spaces, the whole name being the base, whereas the reference
encoding split at the last `'.'` has an empty base and the extension `BAS`: the first loop of
`to_shortname` takes a `'.'` as the separator only when `i != 0`. -/
theorem to_shortname_leading_dot_is_base :
    (to_shortname nameBashrc 7 (fun _ => 0)).1 = 0
    ∧ (List.range 11).map (to_shortname nameBashrc 7 (fun _ => 0)).2
        = [46, 66, 65, 83, 72, 82, 67, 32, 32, 32, 32]
    ∧ (List.range 11).map (shortname_last_dot (name_bytes nameBashrc 7))
        = [32, 32, 32, 32, 32, 32, 32, 32, 66, 65, 83]
    ∧ ¬ (∀ i, i < FAT_NAME_LEN → (to_shortname nameBashrc 7 (fun _ => 0)).2 i
          = shortname_last_dot (name_bytes nameBashrc 7) i) := by
  decide

/-- C24 (amended): for every name accepted by `to_shortname`, the 11-byte result equals the
reference encoding of the bytes before the first NUL among the first `len`, split at the
last `'.'` that is not the first byte (a name without such a `'.'` has an empty
extension): bytes 0..7 are the upper-cased first `min(8, base length)` bytes of the part
before that `'.'`, padded on the right with spaces; bytes 8..10 are the upper-cased first
`min(3, extension length)` bytes of the part after it, padded with spaces. -/
theorem to_shortname_reference (name : List Nat) (len : Nat) (res : Nat → Nat)
    (hv : (to_shortname name len res).1 = 0) :
    ∀ i, i < FAT_NAME_LEN →
      (to_shortname name len res).2 i = shortname_inner_dot (name_bytes name len) i := by
  obtain ⟨_, hsome⟩ := to_shortname_scan_init name len
  cases hs : to_shortname_scan name len 0 len len false with
  | none =>
    rw [to_shortname_of_none name len res hs] at hv
    simp [EINVAL] at hv
  | some r =>
    obtain ⟨len1, bl, he⟩ := r
    rw [to_shortname_of_scan name len res len1 bl he hs]
    obtain ⟨h1, h2, h3, h4, h5⟩ := hsome len1 bl he hs
    exact shortname_out_inner_dot name len res len1 bl he h1 h2 h3 h4 h5

theorem to_shortname_reference_witness :
    (∀ i, i < FAT_NAME_LEN → (to_shortname nameTooLong 20 (fun _ => 0)).2 i
        = shortname_inner_dot (name_bytes nameTooLong 20) i)
    ∧ (List.range 11).map (shortname_inner_dot (name_bytes nameTooLong 20))
        = [84, 79, 79, 76, 79, 78, 71, 78, 69, 88, 84] :=
  ⟨to_shortname_reference nameTooLong 20 (fun _ => 0) (by decide), by decide⟩

/-- C25 (code as written): for every name accepted by `to_shortname` whose first byte is
0xE5 (with `len ≥ 1`), the first byte of the 11-byte result is `NAME_DELETED` = 0xE5 and
not the escape byte 0x05: the comparison `res[0] == 0xe5` on a (signed) `char` is never
true. -/
theorem to_shortname_leading_e5_kept (name : List Nat) (len : Nat) (res : Nat → Nat)
    (hlen : 1 ≤ len) (h0 : cstr name 0 = 0xE5) (hv : (to_shortname name len res).1 = 0) :
    (to_shortname name len res).2 0 = NAME_DELETED ∧ (to_shortname name len res).2 0 ≠ 0x05 := by
  obtain ⟨_, hsome⟩ := to_shortname_scan_init name len
  cases hs : to_shortname_scan name len 0 len len false with
  | none =>
    rw [to_shortname_of_none name len res hs] at hv
    simp [EINVAL] at hv
  | some r =>
    obtain ⟨len1, bl, he⟩ := r
    rw [to_shortname_of_scan name len res len1 bl he hs]
    obtain ⟨h1, h2, h3, h4, h5⟩ := hsome len1 bl he hs
    have hl1 : 0 < len1 := by
      by_contra hc
      have hz : len1 = 0 := by omega
      have := h3 (by omega)
      rw [hz, h0] at this
      omega
    have hbl : 0 < bl := by
      cases he with
      | true => exact (h4 rfl).1
      | false => rw [(h5 rfl).1]; exact hl1
    have hmin : 0 < min bl FAT_NAME_BASE_LEN := by
      simp only [FAT_NAME_BASE_LEN]
      omega
    have hval : shortname_out name res len1 bl he 0 = 0xE5 := by
      unfold shortname_out
      rw [if_pos hmin, h0]
      decide
    dsimp only
    rw [hval]
    decide

theorem to_shortname_leading_e5_kept_witness :
    (to_shortname [0xE5, 65] 2 (fun _ => 0)).2 0 = NAME_DELETED
    ∧ (to_shortname [0xE5, 65] 2 (fun _ => 0)).2 0 ≠ 0x05 :=
  to_shortname_leading_e5_kept [0xE5, 65] 2 (fun _ => 0) (by decide) (by decide) (by decide)

/-- C27: for an in-use cluster `c`, `cluster_first_sector(c)` is
`data_sec + (c - 2) * sec_per_clus`; `sector_cluster` of that sector plus `k` is `c` for
every `k < sec_per_clus` (which is possible only with `sec_per_clus ≥ 1`); and
`sector_cluster(s)` is 0 for every sector `s < data_sec`. -/
theorem sector_cluster_of_first_sector (m : FAT16) (c : Nat)
    (hc : is_cluster_inuse c = true) :
    cluster_first_sector m c = .ok (m.data_sec + (c - 2) * m.sec_per_clus)
    ∧ (∀ k, k < m.sec_per_clus →
        sector_cluster m (m.data_sec + (c - 2) * m.sec_per_clus + k) = .ok c)
    ∧ ∀ s, s < m.data_sec → sector_cluster m s = .ok 0 := by
  obtain ⟨h2, hmax⟩ := inuse_ge c hc
  refine ⟨?_, ?_, ?_⟩
  · unfold cluster_first_sector
    rw [if_pos hc, Nat.add_comm]
  · intro k hk
    unfold sector_cluster
    have hnot : ¬ (m.data_sec + (c - 2) * m.sec_per_clus + k < m.data_sec) := by omega
    rw [if_neg hnot]
    have hsub : m.data_sec + (c - 2) * m.sec_per_clus + k - m.data_sec
        = (c - 2) * m.sec_per_clus + k := by omega
    have hdiv : ((c - 2) * m.sec_per_clus + k) / m.sec_per_clus = c - 2 :=
      split_div m.sec_per_clus (c - 2) k hk
    have hval : (2 + (c - 2)) % 65536 = c := by omega
    simp only [hsub, hdiv, hval, hc, if_true]
  · intro s hs
    unfold sector_cluster
    rw [if_pos hs]

theorem sector_cluster_of_first_sector_witness :
    cluster_first_sector demoMeta 7 = .ok (demoMeta.data_sec + (7 - 2) * demoMeta.sec_per_clus)
    ∧ (∀ k, k < demoMeta.sec_per_clus →
        sector_cluster demoMeta (demoMeta.data_sec + (7 - 2) * demoMeta.sec_per_clus + k) = .ok 7)
    ∧ ∀ s, s < demoMeta.data_sec → sector_cluster demoMeta s = .ok 0 :=
  sector_cluster_of_first_sector demoMeta 7 (by decide)

/-- C28 (code as written): on the freshly formatted volume with 128-byte clusters, after
`mknod /A` (size 0, first cluster 0) a `fat16_write` of 128 bytes at offset 0 returns 128
and leaves the file with size 128 on the chain 2 → 3 → end, two clusters where
`ceil(128 / 128)` is 1: the empty-file branch of `file_reserve_clusters` allocates
`size / cluster_size + 1` clusters. Likewise on `demoDisk 256` (256 bytes on the clusters
2 and 3, no slack) a write of 128 bytes at offset 256 leaves the chain
2 → 3 → 4 → 5 → end: two clusters are added where one holds the 128 needed bytes. -/
theorem fat16_write_exact_cluster_allocates_two :
    newFileDisk.toOption.map
      (fun r => (r.1, DIR_FileSize (entry_at (r.2 3) 0), DIR_FstClusLO (entry_at (r.2 3) 0)))
      = some (0, 0, 0)
    ∧ newFileDisk.toOption.bind (fun r =>
      (fat16_write 10 demoMeta r.2 demoUninit pathA (fun _ => 9) 128 0).toOption.map
        (fun w => (w.1, DIR_FileSize (entry_at (w.2 3) 0),
          (List.range 3).map (chain_nth demoMeta w.2 (DIR_FstClusLO (entry_at (w.2 3) 0))))))
      = some (128, 128, [2, 3, 0xFFFF])
    ∧ (128 + demoMeta.cluster_size - 1) / demoMeta.cluster_size = 1
    ∧ (fat16_write 10 demoMeta (demoDisk 256) demoUninit pathA (fun _ => 9) 128 256).toOption.map
        (fun w => (w.1, DIR_FileSize (entry_at (w.2 3) 0),
          (List.range 5).map (chain_nth demoMeta w.2 (DIR_FstClusLO (entry_at (w.2 3) 0)))))
      = some (128, 384, [2, 3, 4, 5, 0xFFFF]) := by
  decide

/-- C29: for a regular file with a well-formed chain and a range `[offset, offset + size)`,
`size > 0`, inside the file, `fat16_write` returns `size`, and the disk after it differs
from the disk before only in bytes that hold file positions of `[offset, offset + size)`:
every sector before the data region (the FAT copies among them), the file's directory
entry, every byte of the file's clusters at a position outside the range, and every sector
outside the file's clusters are unchanged. -/
theorem fat16_write_inbounds_frame (fuel : Nat) (m : FAT16) (d : Disk) (u : Uninit)
    (path : List Nat) (slot : DirEntrySlot) (n : Nat) (data : Nat → Nat) (size offset : Nat)
    (hg : Geom m) (hf : FileOK fuel m d u path slot n) (hsize : 0 < size)
    (hin : offset + size ≤ DIR_FileSize slot.dir)
    (hfuel : offset + size + m.cluster_size + 2 ≤ fuel) :
    ∃ d', fat16_write fuel m d u path data size offset = .ok ((size : Int), d')
      ∧ (∀ s o, d' s o ≠ d s o → ∃ q, offset ≤ q ∧ q < offset + size
          ∧ s = file_sector m d (DIR_FstClusLO slot.dir) q ∧ o = file_offset m q)
      ∧ (∀ s, s < m.data_sec → d' s = d s)
      ∧ entry_at (d' slot.sector) slot.offset = slot.dir
      ∧ (∀ q, q < n * m.cluster_size → ¬ (offset ≤ q ∧ q < offset + size) →
          d' (file_sector m d (DIR_FstClusLO slot.dir) q) (file_offset m q)
            = d (file_sector m d (DIR_FstClusLO slot.dir) q) (file_offset m q))
      ∧ ∀ s, ¬ InChain m d (DIR_FstClusLO slot.dir) n s → d' s = d s := by
  obtain ⟨d', hw, hfw⟩ := fat16_write_inbounds fuel m hg d u path slot n hf data size offset
    hsize hin hfuel
  have hcap := hf.capacity
  have hfr : ∀ s, ¬ InChain m d (DIR_FstClusLO slot.dir) n s → d' s = d s := fun s hs =>
    FileWritten_frame m hg d _ n data offset d d' offset (offset + size) (by omega) hfw s hs
  refine ⟨d', hw, fun s o hne => ?_, fun s hs => hfr s (not_inchain_low m d _ n s hs), ?_,
    fun q hq hout => ?_, hfr⟩
  · by_contra hno
    apply hne
    apply hfw.2
    intro q h1 h2 h3
    exact hno ⟨q, h1, h2, h3.1, h3.2⟩
  · rw [hfr _ (FileOK_slot_apart fuel m hg d u path slot n hf),
      ← (find_entry_slot fuel m d u path u.slot slot hf.not_root hf.found).1]
  · apply hfw.2
    intro q' h1 h2 h3
    have := file_loc_inj m hg d _ n hf.chain q q' hq (by omega) h3.1 h3.2
    omega

theorem fat16_write_inbounds_frame_witness :
    ∃ d', fat16_write 400 demoMeta (demoDisk 256) demoUninit pathA (fun i => i + 1) 100 100
        = .ok ((100 : Nat), d')
      ∧ (∀ s o, d' s o ≠ demoDisk 256 s o → ∃ q, 100 ≤ q ∧ q < 100 + 100
          ∧ s = file_sector demoMeta (demoDisk 256) 2 q ∧ o = file_offset demoMeta q)
      ∧ (∀ s, s < demoMeta.data_sec → d' s = demoDisk 256 s)
      ∧ entry_at (d' 3) 0 = entry_at (demoDisk 256 3) 0
      ∧ (∀ q, q < 2 * demoMeta.cluster_size → ¬ (100 ≤ q ∧ q < 100 + 100) →
          d' (file_sector demoMeta (demoDisk 256) 2 q) (file_offset demoMeta q)
            = demoDisk 256 (file_sector demoMeta (demoDisk 256) 2 q) (file_offset demoMeta q))
      ∧ ∀ s, ¬ InChain demoMeta (demoDisk 256) 2 2 s → d' s = demoDisk 256 s :=
  fat16_write_inbounds_frame 400 demoMeta (demoDisk 256) demoUninit pathA
    { dir := entry_at (demoDisk 256 3) 0, sector := 3, offset := 0 } 2 (fun i => i + 1) 100 100
    demoMeta_geom demoDisk_fileOK (by decide) (by decide) (by decide)

/-- C30 (code as written): after `mknod /A` on the freshly formatted volume (size 0, first
cluster 0) a `fat16_read` of `/A` at offset 0 ends in the assertion of
`cluster_first_sector`, called with cluster 0; on `demoDisk 256` (file of 256 bytes on
exactly two 128-byte clusters) a read at offset 256 ends in the same assertion, called
with the end-of-chain value. -/
theorem fat16_read_empty_file_asserts :
    newFileDisk.toOption.map (fun r =>
      (r.1, DIR_FileSize (entry_at (r.2 3) 0), DIR_FstClusLO (entry_at (r.2 3) 0),
        is_assertion (fat16_read 10 demoMeta r.2 demoUninit pathA (fun _ => 0) 10 10 0)))
      = some (0, 0, 0, true)
    ∧ is_assertion (fat16_read 10 demoMeta (demoDisk 256) demoUninit pathA (fun _ => 0) 10 10 256)
      = true := by
  decide

/-- C31 (as stated, refuted): on the volume `blankDisk` every entry of the FAT copy reads as
free, so the number of non-free entries is 0; `meta.fats` is 2 and cluster 2 has its entry
inside the FAT copy; yet `free_clusters(2)` executes its loop body once, for cluster 2,
before the loop is left: the iteration that reads a free entry is not one that turns a
non-free entry into a free one. -/
theorem free_clusters_round_on_free_entry :
    nonfree_count demoMeta blankDisk = 0 ∧ 1 ≤ demoMeta.fats
    ∧ is_cluster_inuse (free_iter demoMeta 0 blankDisk 2).2 = true
    ∧ FatIn demoMeta (free_iter demoMeta 0 blankDisk 2).2
    ∧ is_cluster_inuse (free_iter demoMeta 1 blankDisk 2).2 = false
    ∧ (free_clusters demoMeta 1 blankDisk 2).toOption.isSome = false
    ∧ (free_clusters demoMeta 2 blankDisk 2).toOption.isSome = true := by
  decide

/-- C31 (amended): on a volume with the geometry of `Geom` (in particular `fats ≥ 1`), for
every head and every FAT content, when every cluster that `free_clusters(head)` visits has
its entry inside one FAT copy, the loop is left after `k` executions of its body for some
`k` that is at most the number of non-free entries of the FAT copy plus one, and
`free_clusters` returns (for every fuel above `k`) the disk reached then. -/
theorem free_clusters_terminates (m : FAT16) (d : Disk) (head : Nat) (hg : Geom m)
    (hvis : ∀ k, k ≤ nonfree_count m d → is_cluster_inuse (free_iter m k d head).2 = true →
      FatIn m (free_iter m k d head).2) :
    ∃ k, k ≤ nonfree_count m d + 1 ∧ is_cluster_inuse (free_iter m k d head).2 = false
      ∧ (∀ j, j < k → is_cluster_inuse (free_iter m j d head).2 = true)
      ∧ ∀ fuel, k < fuel → free_clusters m fuel d head = .ok (free_iter m k d head).1 :=
  free_clusters_rounds m hg (nonfree_count m d) d head (le_refl _) hvis

theorem free_clusters_terminates_witness :
    ∃ k, k ≤ nonfree_count demoMeta cycleDisk + 1
      ∧ is_cluster_inuse (free_iter demoMeta k cycleDisk 2).2 = false
      ∧ (∀ j, j < k → is_cluster_inuse (free_iter demoMeta j cycleDisk 2).2 = true)
      ∧ ∀ fuel, k < fuel →
          free_clusters demoMeta fuel cycleDisk 2 = .ok (free_iter demoMeta k cycleDisk 2).1 :=
  free_clusters_terminates demoMeta cycleDisk 2 demoMeta_geom (by decide)

/-- C32 (code as written): `demoMeta` is a geometry as `fat16_init` computes it, with 14
clusters (numbers 2 to 15) and 33 sectors. On the volume `usedDisk`, where all of them are
in use, `alloc_clusters(1)` does not return `-ENOSPC`: it returns 0 and selects cluster 16, which is not below
`meta.clusters + 2` and whose first sector is sector 33, past the last sector of the volume.
On `nearFullDisk` the scan for 3 clusters selects 31, 63 and 70, and the FAT entry read for
63 is in sector `fat_sec + 1`, past the first FAT copy. -/
theorem alloc_clusters_selects_outside_volume :
    demoMeta.clusters = (demoMeta.sectors - demoMeta.data_sec) / demoMeta.sec_per_clus
    ∧ (alloc_clusters demoMeta usedDisk 1 0).toOption.map (fun r => (r.1, r.2.1)) = some (0, 16)
    ∧ alloc_scan demoMeta usedDisk 1 (CLUSTER_MAX + 1 - CLUSTER_MIN) CLUSTER_MIN [] = [16]
    ∧ ¬ (16 < demoMeta.clusters + 2)
    ∧ demoMeta.sectors ≤ first_sector demoMeta 16
    ∧ alloc_scan demoMeta nearFullDisk 3 (CLUSTER_MAX + 1 - CLUSTER_MIN) CLUSTER_MIN []
        = [31, 63, 70]
    ∧ ¬ (demoMeta.fat_sec + 63 / (demoMeta.sector_size / 2)
          < demoMeta.fat_sec + demoMeta.sec_per_fat) := by
  decide

theorem demoDisk_free_inside :
    3 ≤ ((free_list demoMeta (demoDisk 256)).filter
      (fun c => decide (c < demoMeta.clusters + 2))).length :=
  free_list_below_length_ge demoMeta (demoDisk 256) (demoMeta.clusters + 2) [4, 5, 6]
    (by decide) (by decide)

/-- The scan while free clusters remain inside the volume: for a geometry as `fat16_init` computes it
(`clusters = (sectors - data_sec) / sec_per_clus` with `data_sec ≤ sectors`) in which one
FAT copy has an entry for every cluster of the volume, and `n ≥ 1`: when at least `n`
cluster numbers below `meta.clusters + 2` read as free, every cluster number that the scan
of `alloc_clusters(n)` selects is at least `CLUSTER_MIN` and below `meta.clusters + 2`, all
sectors of the cluster are below `meta.sectors`, and the FAT entry read for it lies inside
the first FAT copy. -/
theorem alloc_clusters_inside_volume (m : FAT16) (d : Disk) (n : Nat) (hg : Geom m)
    (hn : 1 ≤ n) (hcl : m.clusters = (m.sectors - m.data_sec) / m.sec_per_clus)
    (hds : m.data_sec ≤ m.sectors) (hfat : m.clusters + 2 ≤ fat_entries m)
    (hfree : n ≤ ((free_list m d).filter (fun c => decide (c < m.clusters + 2))).length) :
    ∀ c, c ∈ alloc_scan m d n (CLUSTER_MAX + 1 - CLUSTER_MIN) CLUSTER_MIN [] →
      CLUSTER_MIN ≤ c ∧ c < m.clusters + 2
      ∧ first_sector m c + m.sec_per_clus ≤ m.sectors
      ∧ m.fat_sec + c / (m.sector_size / 2) < m.fat_sec + m.sec_per_fat :=
  alloc_scan_inside m hg d n (by omega) hcl hds hfat hfree

theorem alloc_clusters_inside_volume_demo :
    6 ∈ alloc_scan demoMeta (demoDisk 256) 3 (CLUSTER_MAX + 1 - CLUSTER_MIN) CLUSTER_MIN []
    ∧ CLUSTER_MIN ≤ 6 ∧ 6 < demoMeta.clusters + 2
    ∧ first_sector demoMeta 6 + demoMeta.sec_per_clus ≤ demoMeta.sectors
    ∧ demoMeta.fat_sec + 6 / (demoMeta.sector_size / 2)
        < demoMeta.fat_sec + demoMeta.sec_per_fat :=
  ⟨by decide,
    alloc_clusters_inside_volume demoMeta (demoDisk 256) 3 demoMeta_geom (by decide) (by decide)
      (by decide) (by decide) demoDisk_free_inside 6 (by decide)⟩

/-- C34 (code as written): on the freshly formatted volume, `mknod /A`, a write of 10 bytes
(the file receives cluster 2), `truncate` to size 0 (cluster 2 stays allocated and stays the
first cluster) and a second write of 10 bytes all return normally; the second write sets
the first-cluster field to the new cluster 3 and leaves cluster 2 marked as the end of a
chain, reachable from no directory entry, and after `unlink /A` the FAT still holds that
mark for cluster 2 and differs from the FAT before the file received a cluster. A growing
`truncate` to size 10 in place of the second write has the same effect. -/
theorem fat16_write_after_truncate_leaks_cluster :
    (do
      let (r0, d0) ← fat16_mknod 10 demoMeta demoNow emptyDisk demoUninit pathA
      let (r1, d1) ← fat16_write 10 demoMeta d0 demoUninit pathA (fun _ => 9) 10 0
      let (r2, d2) ← fat16_truncate 10 demoMeta d1 demoUninit pathA 0
      let (r3, d3) ← fat16_write 10 demoMeta d2 demoUninit pathA (fun _ => 9) 10 0
      let (r4, d4) ← fat16_unlink 10 demoMeta d3 demoUninit pathA
      pure ([r0, r1, r2, r3, r4],
        [DIR_FstClusLO (entry_at (d2 3) 0), DIR_FileSize (entry_at (d2 3) 0),
          DIR_FstClusLO (entry_at (d3 3) 0)],
        [fat_view demoMeta d0 5, fat_view demoMeta d2 5, fat_view demoMeta d3 5,
          fat_view demoMeta d4 5]) : Except Fault (List Int × List Nat × List (List Nat))).toOption
      = some ([0, 10, 0, 10, 0], [2, 0, 3],
          [[0xFFF8, 0xFFFF, 0, 0, 0], [0xFFF8, 0xFFFF, 0xFFFF, 0, 0],
            [0xFFF8, 0xFFFF, 0xFFFF, 0xFFFF, 0], [0xFFF8, 0xFFFF, 0xFFFF, 0, 0]])
    ∧ (do
      let (r0, d0) ← fat16_mknod 10 demoMeta demoNow emptyDisk demoUninit pathA
      let (r1, d1) ← fat16_write 10 demoMeta d0 demoUninit pathA (fun _ => 9) 10 0
      let (r2, d2) ← fat16_truncate 10 demoMeta d1 demoUninit pathA 0
      let (r3, d3) ← fat16_truncate 10 demoMeta d2 demoUninit pathA 10
      let (r4, d4) ← fat16_unlink 10 demoMeta d3 demoUninit pathA
      pure ([r0, r1, r2, r3, r4],
        [DIR_FstClusLO (entry_at (d2 3) 0), DIR_FileSize (entry_at (d2 3) 0),
          DIR_FstClusLO (entry_at (d3 3) 0)],
        [fat_view demoMeta d0 5, fat_view demoMeta d2 5, fat_view demoMeta d3 5,
          fat_view demoMeta d4 5]) : Except Fault (List Int × List Nat × List (List Nat))).toOption
      = some ([0, 10, 0, 0, 0], [2, 0, 3],
          [[0xFFF8, 0xFFFF, 0, 0, 0], [0xFFF8, 0xFFFF, 0xFFFF, 0, 0],
            [0xFFF8, 0xFFFF, 0xFFFF, 0xFFFF, 0], [0xFFF8, 0xFFFF, 0xFFFF, 0, 0]]) := by
  decide!

end Fat16
